import Mathlib

/-!
# Layout-aware reduction lowering (rupprecht/triton)

Verification development for `lib/Analysis/Utility.cpp` (the layout analysis
helpers `ReduceOpHelper` and `ScanLoweringHelper`) and
`lib/Conversion/TritonGPUToLLVM/ReduceOpToLLVM.cpp` (the Basic and Fast
reduction lowerings).

Conventions of the embedding.
* `unsigned` values are natural numbers reduced modulo `2^32` (`u32`) at every
  place where the C++ computes in `unsigned`.
* `v[i]` on a vector is `idx v i`; an index outside the vector is a precondition
  violation of the C++ (undefined behaviour) and reads as `0` here.
* The layout algebra of the TritonGPU dialect (`getOrder`, `getSizePerThread`,
  ...) is not part of these two files; it enters as the record `LayoutAlgebra`.
-/

namespace Triton

set_option linter.constructorNameAsVariable false

/-! ## Machine integers and vectors -/

/-- Reduction of a natural number to the range of a 32-bit `unsigned`. -/
def u32 (n : Nat) : Nat := n % 2 ^ 32

/-- Vector subscript `v[i]`. -/
def idx (v : List Nat) (i : Nat) : Nat := v.getD i 0

/-- Modelled from the spec: the helper template `product<unsigned>` of
`triton/Analysis/Utility.h` (not among the two source files), the element count
of a shape, i.e. the product of its dimensions, computed in `unsigned`. -/
def product (shape : List Nat) : Nat := u32 (shape.foldl (fun acc d => acc * d) 1)

/-- Modelled from the spec: the helper template `convertType<unsigned>` (not
among the two source files), the element-wise cast of an `int64_t` shape to
`unsigned`. -/
def convertType (shape : List Nat) : List Nat := shape.map u32

/-! ## Layouts -/

/-- The layout encodings a reduction source can carry. -/
inductive Layout where
  | blocked (sizePerThread threadsPerWarp warpsPerCTA order : List Nat)
  | mma (versionMajor : Nat) (warpsPerCTA : List Nat)
  | dotOperand (opIdx : Nat) (parent : Layout)
  | slice (dim : Nat) (parent : Layout)
  deriving DecidableEq, Repr

/-- The functions of the TritonGPU layout algebra used by the helper and by the
lowering. They live outside the two source files and are parameters here. -/
structure LayoutAlgebra where
  /-- `triton::gpu::getOrder`. -/
  getOrder : Layout → List Nat
  /-- `triton::gpu::getSizePerThread`. -/
  getSizePerThread : Layout → List Nat
  /-- `triton::gpu::getThreadsPerWarp`. -/
  getThreadsPerWarp : Layout → List Nat
  /-- `triton::gpu::getWarpsPerCTA`. -/
  getWarpsPerCTA : Layout → List Nat
  /-- `triton::gpu::getThreadsPerWarpWithUniqueData`. -/
  getThreadsPerWarpWithUniqueData : Layout → List Nat → List Nat
  /-- `triton::gpu::getWarpsPerCTAWithUniqueData`. -/
  getWarpsPerCTAWithUniqueData : Layout → List Nat → List Nat
  /-- `triton::gpu::getUniqueContigPerThread`. -/
  getUniqueContigPerThread : Layout → List Nat → List Nat
  /-- `MmaEncodingAttr::isAmpere`, as a predicate on the version tag. -/
  isAmpere : Nat → Bool

/-! ## `ReduceOpHelper` (lib/Analysis/Utility.cpp) -/

/-- The reduction descriptor together with what the helper reads from its
surroundings (environment flag, module attributes, layout algebra). -/
structure ReduceOpHelper where
  /-- The layout algebra. -/
  alg : LayoutAlgebra
  /-- Value of `getBoolEnv("DISABLE_FAST_REDUCTION")`. -/
  disableFastReduction : Bool
  /-- Module attribute `TritonGPUDialect::getNumWarps(mod)`. -/
  numWarps : Nat
  /-- Module attribute `TritonGPUDialect::getThreadsPerWarp(mod)`. -/
  threadsPerWarp : Nat
  /-- Source layout `getSrcLayout()`. -/
  srcLayout : Layout
  /-- Source shape `getSrcShape()`. -/
  srcShape : List Nat
  /-- Bit width `getIntOrFloatBitWidth()` of each operand's element type. -/
  srcElementBitWidths : List Nat
  /-- Reduction axis. -/
  axis : Nat

/-- `getParentAxis` (Utility.cpp:15). -/
def getParentAxis : Layout → Nat → Nat
  | .slice dim parent, axis => getParentAxis parent (if axis < dim then axis else axis + 1)
  | _, axis => axis

/-- `getParentOrder` (Utility.cpp:23). -/
def getParentOrder (alg : LayoutAlgebra) : Layout → List Nat
  | .slice _ parent => getParentOrder alg parent
  | l => alg.getOrder l

namespace ReduceOpHelper

/-- `ReduceOpHelper::isFastReduction` (Utility.cpp:32). The comparison reads
element `0` of the parent order; an empty order has no element `0`. -/
def isFastReduction (h : ReduceOpHelper) : Bool :=
  if h.disableFastReduction then false
  else decide ((getParentOrder h.alg h.srcLayout)[0]? = some (getParentAxis h.srcLayout h.axis))

/-- `ReduceOpHelper::getIntraWarpSize` (Utility.cpp:47). -/
def getIntraWarpSize (h : ReduceOpHelper) : Nat :=
  let srcReduceDimSize := u32 (idx h.srcShape h.axis)
  min srcReduceDimSize (idx (h.alg.getThreadsPerWarp h.srcLayout) h.axis)

/-- `ReduceOpHelper::getInterWarpSize` (Utility.cpp:40). -/
def getInterWarpSize (h : ReduceOpHelper) : Nat :=
  let srcReduceDimSize := u32 (idx h.srcShape h.axis)
  let sizeIntraWarps := h.getIntraWarpSize
  min (srcReduceDimSize / sizeIntraWarps) (idx (h.alg.getWarpsPerCTA h.srcLayout) h.axis)

/-- `ReduceOpHelper::getIntraWarpSizeWithUniqueData` (Utility.cpp:61). -/
def getIntraWarpSizeWithUniqueData (h : ReduceOpHelper) : Nat :=
  let srcReduceDimSize := u32 (idx h.srcShape h.axis)
  let elementPerThreads := idx (h.alg.getUniqueContigPerThread h.srcLayout h.srcShape) h.axis
  min (srcReduceDimSize / elementPerThreads)
    (idx (h.alg.getThreadsPerWarpWithUniqueData h.srcLayout h.srcShape) h.axis)

/-- `ReduceOpHelper::getInterWarpSizeWithUniqueData` (Utility.cpp:53). -/
def getInterWarpSizeWithUniqueData (h : ReduceOpHelper) : Nat :=
  let srcReduceDimSize := u32 (idx h.srcShape h.axis)
  let sizeIntraWarps := h.getIntraWarpSizeWithUniqueData
  min (srcReduceDimSize / sizeIntraWarps)
    (idx (h.alg.getWarpsPerCTAWithUniqueData h.srcLayout h.srcShape) h.axis)

/-- `ReduceOpHelper::getThreadsReductionAxis` (Utility.cpp:70). -/
def getThreadsReductionAxis (h : ReduceOpHelper) : Nat :=
  u32 (idx (h.alg.getThreadsPerWarpWithUniqueData h.srcLayout h.srcShape) h.axis *
    idx (h.alg.getWarpsPerCTAWithUniqueData h.srcLayout h.srcShape) h.axis)

/-- `ReduceOpHelper::getScratchConfigBasic` (Utility.cpp:78). -/
def getScratchConfigBasic (h : ReduceOpHelper) : List Nat :=
  let smemShape := convertType h.srcShape
  smemShape.set h.axis (min (idx smemShape h.axis) h.getThreadsReductionAxis)

/-- `ReduceOpHelper::getScratchConfigsFast` (Utility.cpp:84). The vector is
created with three (empty) shapes; entries `0` and `1` are then filled. -/
def getScratchConfigsFast (h : ReduceOpHelper) : List (List Nat) :=
  let smemShapes : List (List Nat) := List.replicate 3 []
  let smemShapes := smemShapes.set 0 (convertType h.srcShape)
  let smemShapes := smemShapes.set 0 ((smemShapes.getD 0 []).set h.axis h.getInterWarpSize)
  let smemShapes :=
    smemShapes.set 1 ((smemShapes.getD 1 []) ++ [u32 (h.numWarps * h.threadsPerWarp)])
  smemShapes

/-- `ReduceOpHelper::getScratchSizeInBytes` (Utility.cpp:108). -/
def getScratchSizeInBytes (h : ReduceOpHelper) : Nat :=
  let elems :=
    if h.isFastReduction then
      h.getScratchConfigsFast.foldl (fun elems smemShape => max elems (product smemShape)) 0
    else
      product h.getScratchConfigBasic
  let bytesPerElem := h.srcElementBitWidths.foldl (fun b w => u32 (b + w / 8)) 0
  u32 (bytesPerElem * elems)

/-- `ReduceOpHelper::isSupportedLayout` (Utility.cpp:126). -/
def isSupportedLayout (h : ReduceOpHelper) : Bool :=
  match h.srcLayout with
  | .blocked _ _ _ _ => true
  | .mma versionMajor _ => if h.alg.isAmpere versionMajor then true else false
  | .slice _ _ => true
  | _ => false

end ReduceOpHelper

/-! ## Emitted code (lib/Conversion/TritonGPUToLLVM/ReduceOpToLLVM.cpp)

The lowering emits straight-line code. SSA values are symbolic terms: `IVal`
for the 32-bit index arithmetic and `DVal` for tensor element data. Pure
arithmetic lives in the terms; the instruction list `Instr` records the scratch
base request, the inlined copies of the combine region, shuffles, loads, stores
and barriers in emission order. -/

/-- The places where the lowering emits loads; a load result is named by its
place and operand. -/
inductive LoadSite where
  /-- Basic, tree reduction: the load of the round with distance `N` for `key`. -/
  | round (key : List Nat) (N : Nat)
  /-- Fast, inter-warp phase: the load of round `round`. -/
  | interWarp (round : Nat)
  /-- Result read-back of result element `j`. -/
  | result (j : Nat)
  /-- Result read-back of a 0-d (scalar) result. -/
  | scalar
  deriving DecidableEq, Repr

/-- Index-typed (i32 / i1) SSA values. -/
inductive IVal where
  /-- A default-constructed `Value` (an `ints[k]` lookup of an absent key). -/
  | null
  /-- `i32_val(n)`. -/
  | const (n : Nat)
  /-- `getThreadId`. -/
  | threadId
  /-- `emitIndices(srcLayout, srcTy)[elem][dim]`. -/
  | srcIndex (elem dim : Nat)
  /-- `emitIndices(resultLayout, resultTy)[elem][dim]`. -/
  | resultIndex (elem dim : Nat)
  | udiv (a b : IVal)
  | urem (a b : IVal)
  | add (a b : IVal)
  | mul (a b : IVal)
  | icmp_slt (a b : IVal)
  | icmp_eq (a b : IVal)
  | and_ (a b : IVal)
  | select (c a b : IVal)
  deriving DecidableEq, Repr

/-- Element-typed SSA values. -/
inductive DVal where
  /-- A default-constructed `Value`. -/
  | null
  /-- `unpackInputs(...)[elem][operand]`. -/
  | src (elem operand : Nat)
  /-- Operand `i` of the `ReduceReturnOp` of a copy of the combine region
  inlined with block arguments `combineArgs`. -/
  | regionResult (combineArgs : List DVal) (i : Nat)
  /-- `shflSync(val, i)`. -/
  | shfl (val : DVal) (i : Nat)
  /-- Result of the load emitted at `site` for operand `operand`. -/
  | loaded (site : LoadSite) (operand : Nat)

/-- Emitted operations with an effect outside pure arithmetic. A pointer is
`gep(smemBases[operand], off_1, ..)`, kept as the operand number and the list of
element offsets applied to the operand's scratch base. -/
inductive Instr where
  /-- `getSharedMemoryBase(loc, rewriter, op)`. -/
  | getSharedMemoryBase
  /-- One inlined copy of the combine region, bound to `combineArgs`. -/
  | inlineRegion (combineArgs : List DVal)
  /-- `shflSync(loc, rewriter, val, i)`. -/
  | shflSync (val : DVal) (i : Nat)
  /-- `load(ptr)`. -/
  | load (site : LoadSite) (operand : Nat) (ptr : List IVal)
  /-- `store(val, ptr)`. -/
  | store (operand : Nat) (ptr : List IVal) (val : DVal)
  /-- `storeShared(rewriter, loc, ptr, val, pred)`. -/
  | storeShared (operand : Nat) (ptr : List IVal) (val : DVal) (pred : IVal)
  /-- `barrier()`. -/
  | barrier

/-- Vector subscript on index values. -/
def iidx (v : List IVal) (i : Nat) : IVal := v.getD i .null

/-- Vector subscript on element values. -/
def didx (v : List DVal) (i : Nat) : DVal := v.getD i .null

/-- `ReduceOpConversion::accumulate` (ReduceOpToLLVM.cpp:29): the instructions
it emits and the new accumulator. -/
def accumulate (acc : List DVal) (cur : List DVal) (isFirst : Bool) : List Instr × List DVal :=
  if isFirst then
    ([], (List.range cur.length).map fun i => didx cur i)
  else
    let combineArgs :=
      ((List.range acc.length).map fun i => didx acc i) ++
        ((List.range acc.length).map fun i => didx cur i)
    ([Instr.inlineRegion combineArgs],
      (List.range acc.length).map fun i => DVal.regionResult combineArgs i)

/-- Modelled from the spec: `reorder(v, order)` of the lowering utilities (not
among the two source files): entry `i` of the result is `v[order[i]]`. -/
def reorderI (v : List IVal) (order : List Nat) : List IVal := order.map fun d => iidx v d

/-- Modelled from the spec: `reorder` on shapes. -/
def reorderN (v : List Nat) (order : List Nat) : List Nat := order.map fun d => idx v d

/-- Modelled from the spec: `linearize(multiDim, shape)` of the lowering
utilities, on a coordinate already in access order (fastest dimension first):
the last coordinate, then `linear * dimSize + dim` over the remaining
dimensions from slowest to fastest. -/
def linearizeOrdered (multiDim : List IVal) (shape : List Nat) : IVal :=
  match multiDim.getLast? with
  | none => .const 0
  | some last =>
    (List.zip multiDim.dropLast shape.dropLast).foldr
      (fun p linear => IVal.add (IVal.mul linear (.const p.2)) p.1) last

/-- Modelled from the spec: `linearize(multiDim, shape, order)` of the lowering
utilities, the flat scratch offset of a coordinate under the declared scratch
shape and the layout access order. -/
def linearize (multiDim : List IVal) (shape order : List Nat) : IVal :=
  linearizeOrdered (reorderI multiDim order) (reorderN shape order)

/-- Modelled from the spec: `delinearize(linear, shape)` of the lowering
utilities on a shape in access order: `urem`/`udiv` by every dimension but the
last, which receives the remaining quotient (a rank-1 shape returns `linear`). -/
def delinearizeOrdered (linear : IVal) : List Nat → List IVal
  | [] => []
  | [_] => [linear]
  | dimSize :: rest =>
    IVal.urem linear (.const dimSize) :: delinearizeOrdered (IVal.udiv linear (.const dimSize)) rest

/-- Modelled from the spec: `delinearize(linear, shape, order)` of the lowering
utilities: `multiDim[order[i]] = reorderedMultiDim[i]`. -/
def delinearize (linear : IVal) (shape order : List Nat) : List IVal :=
  let reorderedMultiDim := delinearizeOrdered linear (reorderN shape order)
  (List.zip order reorderedMultiDim).foldl (fun multiDim p => multiDim.set p.1 p.2)
    (List.replicate shape.length IVal.null)

/-- The cache `std::map<int, Value> ints`; `ints[k]` of an absent key is a
default-constructed `Value`. -/
def intsGet : List (Nat × IVal) → Nat → IVal
  | [], _ => .null
  | (k', v) :: rest, k => if k = k' then v else intsGet rest k

/-- `ReduceOpConversion::getWriteIndexBasic` (ReduceOpToLLVM.cpp:89); the result
is `writeIdx`, or the message of `llvm::report_fatal_error`. -/
def getWriteIndexBasic (alg : LayoutAlgebra) :
    Layout → List IVal → List (Nat × IVal) → Nat → Nat → Except String (List IVal)
  | .slice dim parent, index, ints, originalAxis, axis =>
    getWriteIndexBasic alg parent index ints originalAxis (if axis < dim then axis else axis + 1)
  | .blocked spt tpw wpc ord, index, ints, originalAxis, axis =>
    let sizePerThread := alg.getSizePerThread (.blocked spt tpw wpc ord)
    let axisSizePerThread := intsGet ints (idx sizePerThread axis)
    .ok (index.set originalAxis (IVal.udiv (iidx index originalAxis) axisSizePerThread))
  | .mma versionMajor wpc, index, ints, originalAxis, axis =>
    let sizePerThread := alg.getSizePerThread (.mma versionMajor wpc)
    let axisSizePerThread := intsGet ints (idx sizePerThread axis)
    let _8 := intsGet ints 8
    let _16 := intsGet ints 16
    if !alg.isAmpere versionMajor then .error "Unsupported layout"
    else if originalAxis = 0 then
      .ok (index.set originalAxis
        (IVal.add (IVal.mul (IVal.udiv (iidx index originalAxis) _16) _8)
          (IVal.urem (iidx index originalAxis) _8)))
    else
      .ok (index.set originalAxis (IVal.udiv (iidx index originalAxis) axisSizePerThread))
  | .dotOperand _ _, _, _, _, _ => .error "Unsupported layout"

/-- The reduce operation being lowered: the helper's descriptor and what the
lowering obtains from the type converter and the index emitter. -/
structure ReduceOp where
  /-- `ReduceOpHelper helper(op)`. -/
  helper : ReduceOpHelper
  /-- `getTotalElemsPerThread(srcTys[0])`. -/
  srcElems : Nat
  /-- `emitOffsetForLayout(srcLayout, srcTys[0])`. -/
  offset : List (List Nat)
  /-- `getTotalElemsPerThread(resultTy)` when the results are ranked tensors,
  `none` when they are 0-d (scalars). -/
  resultElems : Option Nat
  /-- Whether `assert` is compiled in (no `NDEBUG`). -/
  assertsEnabled : Bool

/-- Strict lexicographic order on keys, the order of
`std::map<SmallVector<unsigned>, _>`. -/
def keyLt : List Nat → List Nat → Bool
  | [], [] => false
  | [], _ :: _ => true
  | _ :: _, [] => false
  | a :: as, b :: bs => if a < b then true else if b < a then false else keyLt as bs

/-- `std::map::find`. -/
def mapFind {V : Type} : List (List Nat × V) → List Nat → Option V
  | [], _ => none
  | (k, v) :: rest, key => if key = k then some v else mapFind rest key

/-- Assignment `m[key] = v` on a `std::map`, kept in key order. -/
def mapSet {V : Type} (key : List Nat) (v : V) : List (List Nat × V) → List (List Nat × V)
  | [] => [(key, v)]
  | (k, w) :: rest =>
    if key = k then (key, v) :: rest
    else if keyLt key k then (key, v) :: (k, w) :: rest
    else (k, w) :: mapSet key v rest

/-- Number of operands `op.getNumOperands()`. -/
def ReduceOp.numOperands (op : ReduceOp) : Nat := op.helper.srcElementBitWidths.length

/-- `srcValues[i]` of `unpackInputs`: one value per operand. -/
def ReduceOp.srcValues (op : ReduceOp) (i : Nat) : List DVal :=
  (List.range op.numOperands).map fun o => DVal.src i o

/-- `srcIndices[i]` of `emitIndices`: one index value per dimension. -/
def ReduceOp.srcIndices (op : ReduceOp) (i : Nat) : List IVal :=
  (List.range op.helper.srcShape.length).map fun d => IVal.srcIndex i d

/-- State of the loop "reduce within threads": emitted code, `accs`, `indices`. -/
structure FoldState where
  /-- Instructions emitted so far. -/
  code : List Instr
  /-- The map `accs`. -/
  accs : List (List Nat × List DVal)
  /-- The map `indices`. -/
  indices : List (List Nat × List IVal)

/-- One iteration of the loop "reduce within threads"
(ReduceOpToLLVM.cpp:193 and :360). -/
def reduceWithinThreadsStep (op : ReduceOp) (st : FoldState) (i : Nat) : FoldState :=
  let key := (op.offset.getD i []).set op.helper.axis 0
  let isFirst := (mapFind st.accs key).isNone
  let r := accumulate ((mapFind st.accs key).getD []) (op.srcValues i) isFirst
  { code := st.code ++ r.1
    accs := mapSet key r.2 st.accs
    indices := if isFirst then mapSet key (op.srcIndices i) st.indices else st.indices }

/-- The loop "reduce within threads". -/
def reduceWithinThreads (op : ReduceOp) : FoldState :=
  (List.range op.srcElems).foldl (reduceWithinThreadsStep op) ⟨[], [], []⟩

/-- The values `N` of a loop `for (N = n; N > 0; N >>= 1)`; `fuel = n` steps
are enough since `N` decreases in every round. -/
def halvingsFrom : Nat → Nat → List Nat
  | 0, _ => []
  | fuel + 1, N => if 0 < N then N :: halvingsFrom fuel (N / 2) else []

/-- The values `N` of a loop `for (N = n; N > 0; N >>= 1)`. -/
def halvings (n : Nat) : List Nat := halvingsFrom n n

/-- The cached constants `ints` of `matchAndRewriteBasic` (ReduceOpToLLVM.cpp:203). -/
def basicInts (smemShape sizePerThread : List Nat) (axis : Nat) : List (Nat × IVal) :=
  [(0, IVal.const 0)] ++ (halvings (idx smemShape axis / 2)).map (fun N => (N, IVal.const N)) ++
    [(idx sizePerThread axis, IVal.const (idx sizePerThread axis)), (8, IVal.const 8),
      (16, IVal.const 16)]

/-- The value `readOffset` of round `N` of the tree reduction
(ReduceOpToLLVM.cpp:237-245): `N` positions along the axis when the write
position is below `N`, and `0` otherwise. -/
def basicReadOffset (axis : Nat) (smemShape srcOrd : List Nat) (ints : List (Nat × IVal))
    (writeIdx : List IVal) (N : Nat) : IVal :=
  let readIdx := (List.replicate writeIdx.length (intsGet ints 0)).set axis (intsGet ints N)
  let readMask := IVal.icmp_slt (iidx writeIdx axis) (intsGet ints N)
  IVal.select readMask (linearize readIdx smemShape srcOrd) (intsGet ints 0)

/-- The loop over `N` of `matchAndRewriteBasic` (ReduceOpToLLVM.cpp:236) for one
key: the emitted code and the final accumulator. -/
def basicRounds (numOperands axis : Nat) (key : List Nat) (smemShape srcOrd : List Nat)
    (ints : List (Nat × IVal)) (writeIdx : List IVal) (writeOffset : IVal) :
    List Nat → List DVal → List Instr × List DVal
  | [], acc => ([], acc)
  | N :: Ns, acc =>
    let readOffset := basicReadOffset axis smemShape srcOrd ints writeIdx N
    let loads := (List.range numOperands).map fun i =>
      Instr.load (.round key N) i [writeOffset, readOffset]
    let cur := (List.range numOperands).map fun i => DVal.loaded (.round key N) i
    let r := accumulate acc cur false
    let stores := (List.range numOperands).map fun i => Instr.store i [writeOffset] (didx r.2 i)
    let rest := basicRounds numOperands axis key smemShape srcOrd ints writeIdx writeOffset Ns r.2
    ([Instr.barrier] ++ loads ++ r.1 ++ [Instr.barrier] ++ stores ++ rest.1, rest.2)

/-- The loop "reduce across threads" of `matchAndRewriteBasic`
(ReduceOpToLLVM.cpp:212) over the entries of `accs` in key order. -/
def basicAcrossThreads (op : ReduceOp) (smemShape srcOrd : List Nat) (ints : List (Nat × IVal))
    (indices : List (List Nat × List IVal)) :
    List (List Nat × List DVal) → Except String (List Instr)
  | [] => .ok []
  | (key, acc) :: rest =>
    match getWriteIndexBasic op.helper.alg op.helper.srcLayout ((mapFind indices key).getD [])
        ints op.helper.axis op.helper.axis with
    | .error e => .error e
    | .ok writeIdx =>
      let writeOffset := linearize writeIdx smemShape srcOrd
      let stores := (List.range op.numOperands).map fun i =>
        Instr.store i [writeOffset] (didx acc i)
      let rounds := basicRounds op.numOperands op.helper.axis key smemShape srcOrd ints writeIdx
        writeOffset (halvings (idx smemShape op.helper.axis / 2)) acc
      match basicAcrossThreads op smemShape srcOrd ints indices rest with
      | .error e => .error e
      | .ok code => .ok (stores ++ rounds.1 ++ code)

/-- `resultIndices[j]` of `emitIndices(resultLayout, resultTy)`. -/
def ReduceOp.resultIndices (op : ReduceOp) (j : Nat) : List IVal :=
  (List.range (op.helper.srcShape.length - 1)).map fun d => IVal.resultIndex j d

/-- The section "set output values" of both lowerings (ReduceOpToLLVM.cpp:270
and :471) for operand `i`: emitted loads and the values packed into result `i`. -/
def setOutputValues (op : ReduceOp) (smemShape order : List Nat) (zero : IVal) (i : Nat) :
    List Instr × List DVal :=
  match op.resultElems with
  | some resultElems =>
    ((List.range resultElems).map fun j =>
        Instr.load (.result j) i
          [linearize ((op.resultIndices j).insertIdx op.helper.axis zero) smemShape order],
      (List.range resultElems).map fun j => DVal.loaded (.result j) i)
  | none => ([Instr.load .scalar i []], [DVal.loaded .scalar i])

/-- Outcome of a lowering: the emitted code and `results` (one list of element
values per operand), or the message of the failed assertion / fatal error. -/
abbrev Lowered := Except String (List Instr × List (List DVal))

/-- `ReduceOpConversion::matchAndRewriteBasic` (ReduceOpToLLVM.cpp:137). -/
def matchAndRewriteBasic (op : ReduceOp) : Lowered :=
  let helper := op.helper
  let axis := helper.axis
  if !helper.isSupportedLayout && op.assertsEnabled then
    .error "Unexpected srcLayout in ReduceOpConversion"
  else
    let srcOrd := helper.alg.getOrder helper.srcLayout
    let sizePerThread := helper.alg.getSizePerThread helper.srcLayout
    let smemShape := helper.getScratchConfigBasic
    let fold := reduceWithinThreads op
    let ints := basicInts smemShape sizePerThread axis
    match basicAcrossThreads op smemShape srcOrd ints fold.indices fold.accs with
    | .error e => .error e
    | .ok across =>
      let outs := (List.range op.numOperands).map fun i =>
        setOutputValues op smemShape srcOrd (intsGet ints 0) i
      .ok ([Instr.getSharedMemoryBase] ++ fold.code ++ across ++ [Instr.barrier] ++
          (outs.map fun o => o.1).flatten,
        outs.map fun o => o.2)

/-- A loop "halve a shuffle distance" of `matchAndRewriteFast`
(ReduceOpToLLVM.cpp:395 and :437): for every `N`, one `shflSync` per operand and
one combine. -/
def shuffleRounds (numOperands : Nat) : List Nat → List DVal → List Instr × List DVal
  | [], acc => ([], acc)
  | N :: Ns, acc =>
    let shfl := (List.range numOperands).map fun i => DVal.shfl (didx acc i) N
    let shflCode := (List.range numOperands).map fun i => Instr.shflSync (didx acc i) N
    let r := accumulate acc shfl false
    let rest := shuffleRounds numOperands Ns r.2
    (shflCode ++ r.1 ++ rest.1, rest.2)

/-- The loop over `accs` of `matchAndRewriteFast` (ReduceOpToLLVM.cpp:390):
intra-warp shuffle reduction and the predicated store of every accumulator. -/
def fastWithinWarps (op : ReduceOp) (smemShape0 order : List Nat) (sizeIntraWarps : Nat)
    (sizeInterWarps : Nat) (zero warpIdAxis laneZero : IVal)
    (indices : List (List Nat × List IVal)) : List (List Nat × List DVal) → List Instr
  | [] => []
  | (key, acc0) :: rest =>
    let r := shuffleRounds op.numOperands (halvings (sizeIntraWarps / 2)) acc0
    let writeIdx := ((mapFind indices key).getD []).set op.helper.axis
      (if sizeInterWarps = 1 then zero else warpIdAxis)
    let writeOffset := linearize writeIdx smemShape0 order
    let stores := (List.range op.numOperands).map fun i =>
      Instr.storeShared i [writeOffset] (didx r.2 i) laneZero
    r.1 ++ stores ++
      fastWithinWarps op smemShape0 order sizeIntraWarps sizeInterWarps zero warpIdAxis laneZero
        indices rest

/-- The loop over `round` of `matchAndRewriteFast` (ReduceOpToLLVM.cpp:428),
started at round `round` with `fuel` rounds left. -/
def fastAcrossWarps (op : ReduceOp) (elems numThreads elemsPerThread sizeInterWarps : Nat)
    (threadId laneId zero : IVal) : Nat → Nat → IVal → List Instr
  | 0, _, _ => []
  | fuel + 1, round, readOffset =>
    let loads := (List.range op.numOperands).map fun i =>
      Instr.load (.interWarp round) i [readOffset]
    let acc := (List.range op.numOperands).map fun i => DVal.loaded (.interWarp round) i
    let r := shuffleRounds op.numOperands (halvings (sizeInterWarps / 2)) acc
    let writeOffset := readOffset
    let threadIsNeeded := IVal.icmp_slt threadId (.const elems)
    let laneIdModSizeInterWarps := IVal.urem laneId (.const sizeInterWarps)
    let laneIdModSizeInterWarpsIsZero := IVal.icmp_eq laneIdModSizeInterWarps zero
    let pred := IVal.and_ threadIsNeeded laneIdModSizeInterWarpsIsZero
    let stores := (List.range op.numOperands).map fun i =>
      Instr.storeShared i [writeOffset] (didx r.2 i) pred
    let readOffset' :=
      if round ≠ elemsPerThread - 1 then IVal.add readOffset (.const numThreads) else readOffset
    loads ++ r.1 ++ stores ++
      fastAcrossWarps op elems numThreads elemsPerThread sizeInterWarps threadId laneId zero
        fuel (round + 1) readOffset'

/-- `ReduceOpConversion::matchAndRewriteFast` (ReduceOpToLLVM.cpp:307). -/
def matchAndRewriteFast (op : ReduceOp) : Lowered :=
  let helper := op.helper
  let axis := helper.axis
  if !helper.isSupportedLayout && op.assertsEnabled then
    .error "Unexpected srcLayout in ReduceOpConversion"
  else
    let smemShapes := helper.getScratchConfigsFast
    let smemShape0 := smemShapes.getD 0 []
    let elems := product smemShape0
    let sizeIntraWarps := helper.getIntraWarpSizeWithUniqueData
    let sizeInterWarps := helper.getInterWarpSizeWithUniqueData
    let fold := reduceWithinThreads op
    let threadId := IVal.threadId
    let warpSize := IVal.const 32
    let warpId := IVal.udiv threadId warpSize
    let laneId := IVal.urem threadId warpSize
    let threadsPerWarp :=
      helper.alg.getThreadsPerWarpWithUniqueData helper.srcLayout helper.srcShape
    let warpsPerCTA := helper.alg.getWarpsPerCTAWithUniqueData helper.srcLayout helper.srcShape
    let order := helper.alg.getOrder helper.srcLayout
    let multiDimLaneId := delinearize laneId threadsPerWarp order
    let multiDimWarpId := delinearize warpId warpsPerCTA order
    let laneIdAxis := iidx multiDimLaneId axis
    let warpIdAxis := iidx multiDimWarpId axis
    let zero := IVal.const 0
    let laneZero := IVal.icmp_eq laneIdAxis zero
    let within := fastWithinWarps op smemShape0 order sizeIntraWarps sizeInterWarps zero
      warpIdAxis laneZero fold.indices fold.accs
    let numThreads :=
      u32 (product (helper.alg.getWarpsPerCTA helper.srcLayout) * helper.threadsPerWarp)
    let elemsPerThread := max (elems / numThreads) 1
    let across := fastAcrossWarps op elems numThreads elemsPerThread sizeInterWarps threadId
      laneId zero elemsPerThread 0 threadId
    let outs := (List.range op.numOperands).map fun i =>
      setOutputValues op smemShape0 order (IVal.const 0) i
    .ok ([Instr.getSharedMemoryBase] ++ fold.code ++ within ++ [Instr.barrier] ++ across ++
        [Instr.barrier] ++ (outs.map fun o => o.1).flatten,
      outs.map fun o => o.2)

/-- `ReduceOpConversion::matchAndRewrite` (ReduceOpToLLVM.cpp:21). -/
def matchAndRewrite (op : ReduceOp) : Lowered :=
  if op.helper.isFastReduction then matchAndRewriteFast op else matchAndRewriteBasic op

/-! ## Execution of the emitted code by a thread block

All threads of the block run the same straight-line code in lock step, one
instruction at a time; `barrier` is the block-wide synchronisation. A store
instruction applies the stores of the threads in thread-id order. A load or
store outside the operand's scratch region is a fault. -/

/-- What a thread block brings to the execution: the number of threads, the
combine region (arguments to returned values), and every thread's registers
(source elements, source indices, result indices). -/
structure Block (α : Type) where
  /-- Number of threads of the block. -/
  numThreads : Nat
  /-- Semantics of the combine region: block arguments to returned values. -/
  region : List α → List α
  /-- The content of a value that was never defined. -/
  undef : α
  /-- Source element `elem` of operand `operand` held by `thread`. -/
  srcValue : (thread elem operand : Nat) → α
  /-- Coordinate `dim` of the source index of element `elem` of `thread`. -/
  srcIndex : (thread elem dim : Nat) → Nat
  /-- Coordinate `dim` of the result index of element `elem` of `thread`. -/
  resultIndex : (thread elem dim : Nat) → Nat

/-- A 32-bit pattern read as a signed integer. -/
def toSigned (x : Nat) : Int := if x < 2 ^ 31 then (x : Int) else (x : Int) - 2 ^ 32

/-- Value of an index term in thread `t` (i32 arithmetic). -/
def IVal.eval {α : Type} (b : Block α) (t : Nat) : IVal → Nat
  | .null => 0
  | .const n => u32 n
  | .threadId => t
  | .srcIndex elem dim => b.srcIndex t elem dim
  | .resultIndex elem dim => b.resultIndex t elem dim
  | .udiv x y => x.eval b t / y.eval b t
  | .urem x y => x.eval b t % y.eval b t
  | .add x y => u32 (x.eval b t + y.eval b t)
  | .mul x y => u32 (x.eval b t * y.eval b t)
  | .icmp_slt x y => if toSigned (x.eval b t) < toSigned (y.eval b t) then 1 else 0
  | .icmp_eq x y => if x.eval b t = y.eval b t then 1 else 0
  | .and_ x y => x.eval b t &&& y.eval b t
  | .select c x y => if c.eval b t ≠ 0 then x.eval b t else y.eval b t

/-- The thread whose value a butterfly shuffle with distance `N` delivers to
thread `t`: lane id xor `N` inside the warp of 32 lanes (the own lane when that
lane does not exist). -/
def shflSource (t N : Nat) : Nat :=
  if (t % 32) ^^^ N < 32 then t / 32 * 32 + ((t % 32) ^^^ N) else t

/-- Loaded values: thread, load site, operand. -/
abbrev LoadEnv (α : Type) := Nat → LoadSite → Nat → α

mutual
/-- Value of an element term in thread `t`. -/
def DVal.eval {α : Type} (b : Block α) (env : LoadEnv α) : DVal → Nat → α
  | .null, _ => b.undef
  | .src elem operand, t => b.srcValue t elem operand
  | .regionResult combineArgs i, t => (b.region (DVal.evalList b env combineArgs t)).getD i b.undef
  | .shfl val N, t => DVal.eval b env val (shflSource t N)
  | .loaded site operand, t => env t site operand
/-- Values of a list of element terms in thread `t`. -/
def DVal.evalList {α : Type} (b : Block α) (env : LoadEnv α) : List DVal → Nat → List α
  | [], _ => []
  | v :: vs, t => DVal.eval b env v t :: DVal.evalList b env vs t
end

/-- Machine state: scratch memory (operand region, element offset) and the
values loaded so far. -/
structure State (α : Type) where
  /-- Scratch memory: operand region and element offset to content. -/
  mem : Nat → Nat → α
  /-- Load results. -/
  env : LoadEnv α

/-- Element offset a pointer designates in thread `t`. -/
def ptrOffset {α : Type} (b : Block α) (t : Nat) (ptr : List IVal) : Nat :=
  (ptr.map fun v => v.eval b t).sum

/-- Memory after the stores of one store instruction, thread by thread. -/
def storeAll {α : Type} (b : Block α) (env : LoadEnv α) (operand : Nat) (ptr : List IVal)
    (val : DVal) (active : Nat → Bool) (mem : Nat → Nat → α) : Nat → Nat → α :=
  (List.range b.numThreads).foldl
    (fun m t =>
      if active t then
        fun o a => if o = operand ∧ a = ptrOffset b t ptr then val.eval b env t else m o a
      else m)
    mem

/-- One instruction executed by all threads; `regionElems` is the number of
elements of every operand's scratch region. -/
def Instr.exec {α : Type} (b : Block α) (regionElems : Nat) (st : State α) :
    Instr → Option (State α)
  | .getSharedMemoryBase => some st
  | .inlineRegion _ => some st
  | .shflSync _ _ => some st
  | .barrier => some st
  | .load site operand ptr =>
    if (List.range b.numThreads).all fun t => decide (ptrOffset b t ptr < regionElems) then
      some { st with
        env := fun t s o =>
          if t < b.numThreads ∧ s = site ∧ o = operand then st.mem operand (ptrOffset b t ptr)
          else st.env t s o }
    else none
  | .store operand ptr val =>
    if (List.range b.numThreads).all fun t => decide (ptrOffset b t ptr < regionElems) then
      some { st with mem := storeAll b st.env operand ptr val (fun _ => true) st.mem }
    else none
  | .storeShared operand ptr val pred =>
    if (List.range b.numThreads).all fun t =>
        decide (pred.eval b t ≠ 0 → ptrOffset b t ptr < regionElems) then
      some { st with
        mem := storeAll b st.env operand ptr val (fun t => decide (pred.eval b t ≠ 0)) st.mem }
    else none

/-- The emitted code executed from state `st`. -/
def run {α : Type} (b : Block α) (regionElems : Nat) : List Instr → State α → Option (State α)
  | [], st => some st
  | ins :: rest, st =>
    match ins.exec b regionElems st with
    | none => none
    | some st' => run b regionElems rest st'

/-! ## Specification-side definitions -/

/-- Spec wording: the element count of a shape is the product of its dimensions. -/
def specElementCount (shape : List Nat) : Nat := shape.prod

/-- Spec wording: the relevant scratch shapes are the single Basic shape when the
fast path is not taken and the shapes of `getScratchConfigsFast` when it is. -/
def specRelevantShapes (h : ReduceOpHelper) : List (List Nat) :=
  if h.isFastReduction then h.getScratchConfigsFast else [h.getScratchConfigBasic]

/-- Spec wording: the maximum element count over the relevant shapes. -/
def specMaxElementCount (h : ReduceOpHelper) : Nat :=
  ((specRelevantShapes h).map specElementCount).foldr max 0

/-- Spec wording: the sum of the operands' element byte widths. -/
def specByteWidthSum (h : ReduceOpHelper) : Nat := (h.srcElementBitWidths.map fun w => w / 8).sum

/-- Spec wording: the Sliced wrappers of a layout, outermost first, by removed
dimension. -/
def specSliceDims : Layout → List Nat
  | .slice dim parent => dim :: specSliceDims parent
  | _ => []

/-- Spec wording: the innermost non-Sliced parent of a layout. -/
def specInnermostParent : Layout → Layout
  | .slice _ parent => specInnermostParent parent
  | l => l

/-- Spec wording: the axis translated through every Sliced wrapper, outermost
first: a wrapper with removed dimension `d` maps `a` to `a` if `a < d` and to
`a + 1` otherwise. -/
def specTranslateAxis (l : Layout) (axis : Nat) : Nat :=
  (specSliceDims l).foldl (fun a d => if a < d then a else a + 1) axis


/-- Modelled from the spec: the number of bytes one element of the given bit
width occupies in scratch, i.e. the stride of a pointer to the converted
element type (the type converter is not among the two source files). -/
def elemStoreBytes (bitWidth : Nat) : Nat := (bitWidth + 7) / 8

/-- Byte offsets of `smemBases[0..]` from the scratch base
(ReduceOpToLLVM.cpp:165 and :334): the first operand starts at the base, operand
`i` starts `elems` elements of operand `i - 1` after operand `i - 1`; the last
entry is the end of the last region. -/
def smemBaseBytes (elems : Nat) : List Nat → Nat → List Nat
  | [], base => [base]
  | w :: ws, base => base :: smemBaseBytes elems ws (base + elems * elemStoreBytes w)

/-- Number of elements between the scratch bases of consecutive operands in the
lowering that `matchAndRewrite` selects: `elems` of `matchAndRewriteBasic`,
`maxElems` of `matchAndRewriteFast`. -/
def ReduceOpHelper.regionElems (h : ReduceOpHelper) : Nat :=
  if h.isFastReduction then
    max (product (h.getScratchConfigsFast.getD 0 [])) (product (h.getScratchConfigsFast.getD 1 []))
  else product h.getScratchConfigBasic

/-- End of the last operand's scratch region, in bytes from the scratch base. -/
def ReduceOpHelper.scratchEndBytes (h : ReduceOpHelper) : Nat :=
  (smemBaseBytes h.regionElems h.srcElementBitWidths 0).getLastD 0

/-! ## Concrete instances -/

/-- A layout algebra instance: the dialect's definitions on Blocked layouts and
the fixed per-warp tile of MMA layouts. -/
def dialectAlgebra : LayoutAlgebra where
  getOrder
    | .blocked _ _ _ o => o
    | .mma _ _ => [1, 0]
    | _ => []
  getSizePerThread
    | .blocked s _ _ _ => s
    | .mma _ _ => [2, 2]
    | _ => []
  getThreadsPerWarp
    | .blocked _ t _ _ => t
    | .mma _ _ => [8, 4]
    | _ => []
  getWarpsPerCTA
    | .blocked _ _ w _ => w
    | .mma _ w => w
    | _ => []
  getThreadsPerWarpWithUniqueData
    | .blocked s t _ _, shape =>
      (List.range t.length).map fun i => min (idx t i) (idx shape i / idx s i)
    | .mma _ _, _ => [8, 4]
    | _, _ => []
  getWarpsPerCTAWithUniqueData
    | .blocked s t w _, shape =>
      (List.range w.length).map fun i =>
        min (idx w i) ((idx shape i + idx s i * idx t i - 1) / (idx s i * idx t i))
    | .mma _ w, _ => w
    | _, _ => []
  getUniqueContigPerThread
    | .blocked s _ _ _, shape => (List.range s.length).map fun i => min (idx shape i) (idx s i)
    | .mma _ _, _ => [1, 2]
    | _, _ => []
  isAmpere v := v == 2


/-- The `[4,4]` reduction along axis 1 with 2 warps x 2 threads-per-warp on that
axis (Blocked layout, 32-bit elements); `fast` selects the strategy through the
debug override. -/
def helper44 (fast : Bool) : ReduceOpHelper where
  alg := dialectAlgebra
  disableFastReduction := !fast
  numWarps := 2
  threadsPerWarp := 32
  srcLayout := .blocked [1, 1] [16, 2] [1, 2] [1, 0]
  srcShape := [4, 4]
  srcElementBitWidths := [32]
  axis := 1

/-- A `[64,4]` reduction along axis 1 (the fastest dimension) of 32-bit
elements, 2 warps x 2 threads-per-warp on the axis. -/
def helper64x4 : ReduceOpHelper where
  alg := dialectAlgebra
  disableFastReduction := false
  numWarps := 2
  threadsPerWarp := 32
  srcLayout := .blocked [1, 1] [16, 2] [1, 2] [1, 0]
  srcShape := [64, 4]
  srcElementBitWidths := [32]
  axis := 1

/-- A reduction of a `[32]` tensor of 1-bit booleans held by one warp. -/
def helperBool32 : ReduceOpHelper where
  alg := dialectAlgebra
  disableFastReduction := false
  numWarps := 1
  threadsPerWarp := 32
  srcLayout := .blocked [1] [32] [1] [0]
  srcShape := [32]
  srcElementBitWidths := [1]
  axis := 0


/-- A reduction along axis 1 of a `[16,16]` tensor in a pre-Ampere (version 1)
MMA layout, lowered in a build without assertions (`NDEBUG`). -/
def opVoltaRelease : ReduceOp where
  helper :=
    { alg := dialectAlgebra
      disableFastReduction := false
      numWarps := 1
      threadsPerWarp := 32
      srcLayout := .mma 1 [1, 1]
      srcShape := [16, 16]
      srcElementBitWidths := [32]
      axis := 1 }
  srcElems := 2
  offset := [[0, 0], [0, 1]]
  resultElems := some 1
  assertsEnabled := false


/-! ## Reference semantics of a reduction -/

/-- Spec wording: the combine operation on operand tuples, i.e. the combine
region applied to `(acc..., cur...)`. -/
def Block.combine {α : Type} (b : Block α) (acc cur : List α) : List α := b.region (acc ++ cur)

/-- Spec wording: the combine of a non-empty sequence of tuples, left to right. -/
def combineAll {α : Type} (f : List α → List α → List α) : List (List α) → List α
  | [] => []
  | x :: xs => xs.foldl f x

/-- Spec wording: the combine of all source elements along the reduction axis
(of size `n`) at the non-axis coordinate `c`, in index order. -/
def reduceAlongAxis {α : Type} (f : List α → List α → List α) (tensor : List Nat → List α)
    (axis n : Nat) (c : List Nat) : List α :=
  combineAll f ((List.range n).map fun a => tensor (c.insertIdx axis a))

/-- The combine operation is closed, associative and commutative on tuples of
`k` values. -/
structure CombineLaws {α : Type} (f : List α → List α → List α) (k : Nat) : Prop where
  /-- Combining two `k`-tuples gives a `k`-tuple. -/
  closed : ∀ x y, x.length = k → y.length = k → (f x y).length = k
  /-- Associativity on `k`-tuples. -/
  assoc : ∀ x y z, x.length = k → y.length = k → z.length = k → f (f x y) z = f x (f y z)
  /-- Commutativity on `k`-tuples. -/
  comm : ∀ x y, x.length = k → y.length = k → f x y = f y x

/-- Tuples of `k` values with an adjoined neutral element. -/
def Tup (α : Type) (k : Nat) : Type := Option { x : List α // x.length = k }

/-- A tuple of the right length as an element of `Tup`. -/
def Tup.of {α : Type} (k : Nat) (x : List α) : Tup α k :=
  if h : x.length = k then some ⟨x, h⟩ else none

/-- The combine operation extended to `Tup`. -/
def Tup.add {α : Type} {f : List α → List α → List α} {k : Nat} (h : CombineLaws f k) :
    Tup α k → Tup α k → Tup α k
  | none, y => y
  | some x, none => some x
  | some x, some y => some ⟨f x.1 y.1, h.closed _ _ x.2 y.2⟩

/-- The commutative monoid of tuples under an associative and commutative
combine operation. -/
def CombineLaws.addCommMonoid {α : Type} {f : List α → List α → List α} {k : Nat}
    (h : CombineLaws f k) : AddCommMonoid (Tup α k) where
  add := Tup.add h
  zero := none
  nsmul := fun n x => Nat.rec none (fun _ acc => Tup.add h acc x) n
  nsmul_zero := fun _ => rfl
  nsmul_succ := fun _ _ => rfl
  add_assoc := by
    intro a b c
    cases a with
    | none => rfl
    | some a =>
      cases b with
      | none => rfl
      | some b =>
        cases c with
        | none => rfl
        | some c =>
          show Tup.add h (Tup.add h (some a) (some b)) (some c) =
            Tup.add h (some a) (Tup.add h (some b) (some c))
          simp only [Tup.add]
          congr 1
          exact Subtype.ext (h.assoc _ _ _ a.2 b.2 c.2)
  zero_add := by intro a; rfl
  add_zero := by intro a; cases a <;> rfl
  add_comm := by
    intro a b
    cases a with
    | none => cases b <;> rfl
    | some a =>
      cases b with
      | none => rfl
      | some b =>
        show Tup.add h (some a) (some b) = Tup.add h (some b) (some a)
        simp only [Tup.add]
        congr 1
        exact Subtype.ext (h.comm _ _ a.2 b.2)

/-- A model of the combine operation in a commutative monoid: `φ` turns
combining into addition and is injective on `k`-tuples. -/
structure CombineModel {α M : Type} [AddCommMonoid M] (f : List α → List α → List α) (k : Nat)
    (φ : List α → M) : Prop where
  /-- Combining two `k`-tuples gives a `k`-tuple. -/
  closed : ∀ x y, x.length = k → y.length = k → (f x y).length = k
  /-- `φ` maps combining to addition. -/
  map_add : ∀ x y, x.length = k → y.length = k → φ (f x y) = φ x + φ y
  /-- `φ` is injective on `k`-tuples. -/
  inj : ∀ x y, x.length = k → y.length = k → φ x = φ y → x = y


mutual
/-- Every load result an element term mentions comes from a site in `P`. -/
def DVal.sitesIn (P : LoadSite → Prop) : DVal → Prop
  | .null => True
  | .src _ _ => True
  | .regionResult combineArgs _ => DVal.sitesInList P combineArgs
  | .shfl val _ => DVal.sitesIn P val
  | .loaded site _ => P site
/-- Every load result a list of element terms mentions comes from a site in `P`. -/
def DVal.sitesInList (P : LoadSite → Prop) : List DVal → Prop
  | [] => True
  | v :: vs => DVal.sitesIn P v ∧ DVal.sitesInList P vs
end


/-- The flat offset of a coordinate `g` (a value per dimension) under the extents
`shape`, the dimensions taken in the access order `order`, fastest first. -/
def flatAlong (g : Nat → Nat) (shape : Nat → Nat) : List Nat → Nat
  | [] => 0
  | d :: ds => g d + shape d * flatAlong g shape ds


/-- The key of source element `e`: its offset with the axis component zeroed. -/
def ReduceOp.key (op : ReduceOp) (e : Nat) : List Nat :=
  (op.offset.getD e []).set op.helper.axis 0

/-- The source elements below `m` whose key is `κ`, in enumeration order. -/
def ReduceOp.group (op : ReduceOp) (κ : List Nat) (m : Nat) : List Nat :=
  (List.range m).filter fun e => decide (op.key e = κ)

/-- The tuple of operand values of source element `e` in thread `t`. -/
def Block.srcTuple {α : Type} (b : Block α) (k t e : Nat) : List α :=
  (List.range k).map fun o => b.srcValue t e o


/-- Invariant of the loop "reduce within threads" after `m` iterations: the map
`accs` is in key order, has an entry exactly for the keys seen so far, every
entry is the left-to-right combine of the elements with that key, and `indices`
holds the index of the first element of every key. -/
structure FoldInv {α : Type} (op : ReduceOp) (b : Block α) (m : Nat) (st : FoldState) : Prop where
  /-- `accs` is in strictly increasing key order. -/
  sorted : st.accs.Pairwise fun p q => keyLt p.1 q.1 = true
  /-- A key has no entry exactly when no element so far has it. -/
  none_iff : ∀ κ, mapFind st.accs κ = none ↔ op.group κ m = []
  /-- The accumulator of a key. -/
  acc : ∀ κ a, mapFind st.accs κ = some a →
    a.length = op.numOperands ∧ DVal.sitesInList (fun _ => False) a ∧
      ∀ env t, DVal.evalList b env a t =
        combineAll b.combine ((op.group κ m).map (b.srcTuple op.numOperands t))
  /-- The index recorded for a key is the one of its first element. -/
  indices : ∀ κ, mapFind st.indices κ = (op.group κ m).head?.map op.srcIndices
  /-- Only inlined copies of the combine region are emitted. -/
  code : ∀ ins ∈ st.code, ∃ args, ins = Instr.inlineRegion args


/-- The tuple of operand values stored at element offset `a` of the scratch
regions. -/
def State.tuple {α : Type} (st : State α) (k a : Nat) : List α :=
  (List.range k).map fun o => st.mem o a

/-- Geometry of the scratch slots used by the tree reduction of one key: thread
`t` publishes at offset `base t + slot t * stride`; slots are below `S`, distinct
(row, slot) pairs have distinct offsets inside the region of `E` elements, and
every slot of every row has a publishing thread. -/
structure TreeGeometry (numThreads S stride E : Nat) (base slot : Nat → Nat) : Prop where
  /-- Every thread publishes to a slot below `S`. -/
  slot_lt : ∀ t, t < numThreads → slot t < S
  /-- Offsets determine row and slot. -/
  addr_inj : ∀ t t', t < numThreads → t' < numThreads → ∀ s s', s < S → s' < S →
    base t + s * stride = base t' + s' * stride → base t = base t' ∧ s = s'
  /-- All slots lie inside the region. -/
  addr_lt : ∀ t, t < numThreads → ∀ s, s < S → base t + s * stride < E
  /-- Every slot of a row has a publishing thread. -/
  cover : ∀ t, t < numThreads → ∀ s, s < S →
    ∃ t', t' < numThreads ∧ base t' = base t ∧ slot t' = s

/-- Invariant of the tree reduction of key `κ` when `width` slots per row are
still live: a thread publishing to a live slot `s` holds, and has published, the
combine of the initial partial values `Q` of all slots congruent to `s` modulo
`width`. -/
structure TreeInv {α M : Type} [AddCommMonoid M] (b : Block α) (k : Nat) (φ : List α → M)
    (S stride : Nat) (base slot : Nat → Nat) (Q : Nat → Nat → M) (κ : List Nat)
    (width : Nat) (acc : List DVal) (st : State α) : Prop where
  /-- The accumulator has one value per operand. -/
  acc_len : acc.length = k
  /-- The accumulator only mentions loads of rounds at distance `width` or more. -/
  acc_sites : DVal.sitesInList (fun s => ∃ N, s = LoadSite.round κ N ∧ width ≤ N) acc
  /-- The accumulator of a live slot is the combine of its residue class. -/
  sum : ∀ t, t < b.numThreads → slot t < width →
    φ (DVal.evalList b st.env acc t) =
      ∑ s in (Finset.range S).filter (fun s => s % width = slot t), Q t s
  /-- The accumulator of a live slot is published in scratch. -/
  pub : ∀ t, t < b.numThreads → slot t < width →
    st.tuple k (base t + slot t * stride) = DVal.evalList b st.env acc t


/-- The source coordinate of element `e` of thread `t`, one entry per dimension
of a rank-`r` tensor. -/
def Block.srcCoord {α : Type} (b : Block α) (r t e : Nat) : List Nat :=
  (List.range r).map fun d => b.srcIndex t e d

/-- The result coordinate of result element `j` of thread `t`; the result has
one dimension less than the rank-`r` source. -/
def Block.resultCoord {α : Type} (b : Block α) (r t j : Nat) : List Nat :=
  (List.range (r - 1)).map fun d => b.resultIndex t j d

/-- The first source element with key `κ`. -/
def ReduceOp.first (op : ReduceOp) (κ : List Nat) : Nat :=
  ((op.group κ op.srcElems).head?).getD 0

/-- The scratch slot along the axis that `matchAndRewriteBasic` publishes the
accumulator containing element `e` to, for a Blocked layout: the axis index of
the first element of the key divided by the elements per thread on the axis. -/
def basicSlot {α : Type} (op : ReduceOp) (b : Block α) (t e : Nat) : Nat :=
  b.srcIndex t (op.first (op.key e)) op.helper.axis /
    idx (op.helper.alg.getSizePerThread op.helper.srcLayout) op.helper.axis

/-- The elements `e` of thread `t` and `e'` of thread `t'` lie in the same row,
i.e. their coordinates agree outside the reduction axis. -/
def sameRow {α : Type} (op : ReduceOp) (b : Block α) (t e t' e' : Nat) : Prop :=
  ∀ d, d < op.helper.srcShape.length → d ≠ op.helper.axis →
    b.srcIndex t e d = b.srcIndex t' e' d

/-- What the Basic lowering relies on from the index emitter of a Blocked source
layout (`emitIndices`, `emitOffsetForLayout`) and from the shapes: how the
elements of the tensor are distributed over the threads of the block. -/
structure BasicContract {α : Type} (op : ReduceOp) (b : Block α)
    (tensor : List Nat → List α) : Prop where
  /-- The source layout is Blocked. -/
  blocked : ∃ spt tpw wpc ord, op.helper.srcLayout = Layout.blocked spt tpw wpc ord
  /-- The axis is a dimension of the source. -/
  axis_lt : op.helper.axis < op.helper.srcShape.length
  /-- The layout order is a permutation of the dimensions. -/
  order_perm : (op.helper.alg.getOrder op.helper.srcLayout).Perm
    (List.range op.helper.srcShape.length)
  /-- The source extents fit in `unsigned`. -/
  shape_fit : ∀ d, d < op.helper.srcShape.length → idx op.helper.srcShape d < 2 ^ 32
  /-- The scratch element count fits in a signed 32-bit index. -/
  smem_fit : op.helper.getScratchConfigBasic.prod < 2 ^ 31
  /-- The elements per thread on the axis are positive and fit in `unsigned`. -/
  spt_pos : 0 < idx (op.helper.alg.getSizePerThread op.helper.srcLayout) op.helper.axis ∧
    idx (op.helper.alg.getSizePerThread op.helper.srcLayout) op.helper.axis < 2 ^ 32
  /-- The scratch axis extent is a power of two. -/
  pow2 : ∃ j, idx op.helper.getScratchConfigBasic op.helper.axis = 2 ^ j
  /-- Every tensor element is a tuple of one value per operand. -/
  tensor_len : ∀ c, (tensor c).length = op.numOperands
  /-- Source indices are inside the source shape. -/
  index_lt : ∀ t, t < b.numThreads → ∀ e, e < op.srcElems → ∀ d,
    d < op.helper.srcShape.length → b.srcIndex t e d < idx op.helper.srcShape d
  /-- A thread's registers hold the tensor elements at its source indices. -/
  value : ∀ t, t < b.numThreads → ∀ e, e < op.srcElems →
    b.srcTuple op.numOperands t e = tensor (b.srcCoord op.helper.srcShape.length t e)
  /-- Elements of one thread with the same key lie in the same row. -/
  key_row : ∀ t, t < b.numThreads → ∀ e, e < op.srcElems → ∀ e', e' < op.srcElems →
    op.key e = op.key e' → sameRow op b t e t e'
  /-- Elements in the same row have the same key, in whatever threads. -/
  row_key : ∀ t, t < b.numThreads → ∀ t', t' < b.numThreads → ∀ e, e < op.srcElems →
    ∀ e', e' < op.srcElems → sameRow op b t e t' e' → op.key e = op.key e'
  /-- A thread holds an element of a row at most once. -/
  once : ∀ t, t < b.numThreads → ∀ e, e < op.srcElems → ∀ e', e' < op.srcElems →
    op.key e = op.key e' → b.srcIndex t e op.helper.axis = b.srcIndex t e' op.helper.axis →
    e = e'
  /-- Publishing slots are inside the scratch axis extent. -/
  slot_lt : ∀ t, t < b.numThreads → ∀ e, e < op.srcElems →
    basicSlot op b t e < idx op.helper.getScratchConfigBasic op.helper.axis
  /-- The publishing slot is a function of the coordinate. -/
  slot_coord : ∀ t, t < b.numThreads → ∀ t', t' < b.numThreads → ∀ e, e < op.srcElems →
    ∀ e', e' < op.srcElems → sameRow op b t e t' e' →
    b.srcIndex t e op.helper.axis = b.srcIndex t' e' op.helper.axis →
    basicSlot op b t e = basicSlot op b t' e'
  /-- Threads publishing to the same slot of a row hold the same elements. -/
  replica : ∀ t, t < b.numThreads → ∀ t', t' < b.numThreads → ∀ e, e < op.srcElems →
    sameRow op b t e t' e → basicSlot op b t e = basicSlot op b t' e →
    b.srcIndex t e op.helper.axis = b.srcIndex t' e op.helper.axis
  /-- Every element of a row some thread touches is held by some thread. -/
  cover_axis : ∀ t, t < b.numThreads → ∀ e, e < op.srcElems → ∀ a,
    a < idx op.helper.srcShape op.helper.axis →
    ∃ t', t' < b.numThreads ∧ ∃ e', e' < op.srcElems ∧ sameRow op b t' e' t e ∧
      b.srcIndex t' e' op.helper.axis = a
  /-- Every slot of a row some thread touches is published to by some thread. -/
  cover_slot : ∀ t, t < b.numThreads → ∀ e, e < op.srcElems → ∀ s,
    s < idx op.helper.getScratchConfigBasic op.helper.axis →
    ∃ t', t' < b.numThreads ∧ ∃ e', e' < op.srcElems ∧ sameRow op b t' e' t e ∧
      basicSlot op b t' e' = s
  /-- Every result element lies in a row of the source some thread touches; a
  0-d result has the single row of a rank-1 source. -/
  result_row : ∀ t, t < b.numThreads → ∀ j, j < op.resultElems.getD 1 →
    ∃ t', t' < b.numThreads ∧ ∃ e', e' < op.srcElems ∧
      ∀ d, d < op.helper.srcShape.length → d ≠ op.helper.axis →
        b.srcIndex t' e' d = b.resultIndex t j (if d < op.helper.axis then d else d - 1)
  /-- A 0-d result comes from a rank-1 source. -/
  scalar_rank : op.resultElems = none → op.helper.srcShape.length = 1

instance sameRow_decidable {α : Type} (op : ReduceOp) (b : Block α) (t e t' e' : Nat) :
    Decidable (sameRow op b t e t' e') := by
  unfold sameRow; exact inferInstance

/-- The cached constants `ints` of `matchAndRewriteBasic` for `op`. -/
def ReduceOp.ints (op : ReduceOp) : List (Nat × IVal) :=
  basicInts op.helper.getScratchConfigBasic
    (op.helper.alg.getSizePerThread op.helper.srcLayout) op.helper.axis

/-- The write index `getWriteIndexBasic` returns in `matchAndRewriteBasic` for
the source index `index` (the index itself where the call ends in the fatal
branch). -/
def basicWriteIdx (op : ReduceOp) (index : List IVal) : List IVal :=
  match getWriteIndexBasic op.helper.alg op.helper.srcLayout index op.ints op.helper.axis
      op.helper.axis with
  | .ok writeIdx => writeIdx
  | .error _ => index

/-- The scratch slot along the axis that `matchAndRewriteBasic` publishes the
accumulator containing element `e` to, whatever the source layout: the value in
thread `t` of the axis component of the write index of the first element of the
key. -/
def writeSlot {α : Type} (op : ReduceOp) (b : Block α) (t e : Nat) : Nat :=
  (iidx (basicWriteIdx op (op.srcIndices (op.first (op.key e)))) op.helper.axis).eval b t

/-- What the Basic lowering relies on from the layout algebra and the index
emitter (`emitIndices`, `emitOffsetForLayout`) of a source layout of any kind:
how the elements of the tensor are distributed over the threads of the block,
and that the slots of the write-index rule of the layout tile every row. -/
structure BasicLayoutContract {α : Type} (op : ReduceOp) (b : Block α)
    (tensor : List Nat → List α) : Prop where
  /-- The write-index step has a rule for the layout: its innermost non-Sliced
  parent is Blocked or Ampere MMA. -/
  parent_supported : ({ op.helper with srcLayout := specInnermostParent op.helper.srcLayout } :
    ReduceOpHelper).isSupportedLayout = true
  /-- The axis is a dimension of the source. -/
  axis_lt : op.helper.axis < op.helper.srcShape.length
  /-- The layout order is a permutation of the dimensions. -/
  order_perm : (op.helper.alg.getOrder op.helper.srcLayout).Perm
    (List.range op.helper.srcShape.length)
  /-- The source extents fit in `unsigned`. -/
  shape_fit : ∀ d, d < op.helper.srcShape.length → idx op.helper.srcShape d < 2 ^ 32
  /-- The scratch element count fits in a signed 32-bit index. -/
  smem_fit : op.helper.getScratchConfigBasic.prod < 2 ^ 31
  /-- The scratch axis extent is a power of two. -/
  pow2 : ∃ j, idx op.helper.getScratchConfigBasic op.helper.axis = 2 ^ j
  /-- Every tensor element is a tuple of one value per operand. -/
  tensor_len : ∀ c, (tensor c).length = op.numOperands
  /-- Source indices are inside the source shape. -/
  index_lt : ∀ t, t < b.numThreads → ∀ e, e < op.srcElems → ∀ d,
    d < op.helper.srcShape.length → b.srcIndex t e d < idx op.helper.srcShape d
  /-- A thread's registers hold the tensor elements at its source indices. -/
  value : ∀ t, t < b.numThreads → ∀ e, e < op.srcElems →
    b.srcTuple op.numOperands t e = tensor (b.srcCoord op.helper.srcShape.length t e)
  /-- Elements of one thread with the same key lie in the same row. -/
  key_row : ∀ t, t < b.numThreads → ∀ e, e < op.srcElems → ∀ e', e' < op.srcElems →
    op.key e = op.key e' → sameRow op b t e t e'
  /-- Elements in the same row have the same key, in whatever threads. -/
  row_key : ∀ t, t < b.numThreads → ∀ t', t' < b.numThreads → ∀ e, e < op.srcElems →
    ∀ e', e' < op.srcElems → sameRow op b t e t' e' → op.key e = op.key e'
  /-- A thread holds an element of a row at most once. -/
  once : ∀ t, t < b.numThreads → ∀ e, e < op.srcElems → ∀ e', e' < op.srcElems →
    op.key e = op.key e' → b.srcIndex t e op.helper.axis = b.srcIndex t e' op.helper.axis →
    e = e'
  /-- Publishing slots are inside the scratch axis extent. -/
  slot_lt : ∀ t, t < b.numThreads → ∀ e, e < op.srcElems →
    writeSlot op b t e < idx op.helper.getScratchConfigBasic op.helper.axis
  /-- The publishing slot is a function of the coordinate. -/
  slot_coord : ∀ t, t < b.numThreads → ∀ t', t' < b.numThreads → ∀ e, e < op.srcElems →
    ∀ e', e' < op.srcElems → sameRow op b t e t' e' →
    b.srcIndex t e op.helper.axis = b.srcIndex t' e' op.helper.axis →
    writeSlot op b t e = writeSlot op b t' e'
  /-- Threads publishing to the same slot of a row hold the same elements. -/
  replica : ∀ t, t < b.numThreads → ∀ t', t' < b.numThreads → ∀ e, e < op.srcElems →
    sameRow op b t e t' e → writeSlot op b t e = writeSlot op b t' e →
    b.srcIndex t e op.helper.axis = b.srcIndex t' e op.helper.axis
  /-- Every element of a row some thread touches is held by some thread. -/
  cover_axis : ∀ t, t < b.numThreads → ∀ e, e < op.srcElems → ∀ a,
    a < idx op.helper.srcShape op.helper.axis →
    ∃ t', t' < b.numThreads ∧ ∃ e', e' < op.srcElems ∧ sameRow op b t' e' t e ∧
      b.srcIndex t' e' op.helper.axis = a
  /-- Every slot of a row some thread touches is published to by some thread. -/
  cover_slot : ∀ t, t < b.numThreads → ∀ e, e < op.srcElems → ∀ s,
    s < idx op.helper.getScratchConfigBasic op.helper.axis →
    ∃ t', t' < b.numThreads ∧ ∃ e', e' < op.srcElems ∧ sameRow op b t' e' t e ∧
      writeSlot op b t' e' = s
  /-- Every result element lies in a row of the source some thread touches; a
  0-d result has the single row of a rank-1 source. -/
  result_row : ∀ t, t < b.numThreads → ∀ j, j < op.resultElems.getD 1 →
    ∃ t', t' < b.numThreads ∧ ∃ e', e' < op.srcElems ∧
      ∀ d, d < op.helper.srcShape.length → d ≠ op.helper.axis →
        b.srcIndex t' e' d = b.resultIndex t j (if d < op.helper.axis then d else d - 1)
  /-- A 0-d result comes from a rank-1 source. -/
  scalar_rank : op.resultElems = none → op.helper.srcShape.length = 1


/-- The `[4,4]` reduction along axis 1 as seen by the lowering: one element per
thread, results in the sliced layout. -/
def op44 (fast : Bool) : ReduceOp where
  helper := helper44 fast
  srcElems := 1
  offset := [[0, 0]]
  resultElems := some 1
  assertsEnabled := true

/-- A `[4,4]` integer tensor: entry `(r, c)` is `10 * r + c + 1`. -/
def tensor44 (c : List Nat) : List Int := [10 * (c.getD 0 0 : Int) + (c.getD 1 0 : Int) + 1]

/-- Row of the `[4,4]` tensor held by thread `t`: 16 lanes along dimension 0
wrap around the 4 rows. -/
def row44 (t : Nat) : Nat := t % 32 / 2 % 4

/-- Column of the `[4,4]` tensor held by thread `t`: 2 lanes x 2 warps along
dimension 1. -/
def col44 (t : Nat) : Nat := t / 32 % 2 * 2 + t % 2

/-- The thread block of 2 warps of 32 lanes running the `[4,4]` sum reduction. -/
def block44 : Block Int where
  numThreads := 64
  region := fun args => [args.getD 0 0 + args.getD 1 0]
  undef := 0
  srcValue := fun t _ _ => (tensor44 [row44 t, col44 t]).getD 0 0
  srcIndex := fun t _ d => if d = 0 then row44 t else col44 t
  resultIndex := fun t _ _ => row44 t


/-- Extent of dimension `d` of the scratch shape of the Basic lowering. -/
def basicExtent (op : ReduceOp) (d : Nat) : Nat := idx op.helper.getScratchConfigBasic d

/-- Distance in scratch between consecutive positions along the reduction axis
in the Basic lowering. -/
def basicStride (op : ReduceOp) : Nat :=
  flatAlong (fun d => if d = op.helper.axis then 1 else 0) (basicExtent op)
    (op.helper.alg.getOrder op.helper.srcLayout)

/-- Scratch offset of the first slot of the row of element `e` of thread `t` in
the Basic lowering. -/
def basicRowBase {α : Type} (op : ReduceOp) (b : Block α) (t e : Nat) : Nat :=
  flatAlong (fun d => if d = op.helper.axis then 0 else b.srcIndex t e d) (basicExtent op)
    (op.helper.alg.getOrder op.helper.srcLayout)


/-- Some thread holds the element at axis position `a` of the row of element `e`
of thread `t` and publishes the accumulator containing it to slot `s`. -/
def basicHolds {α : Type} (op : ReduceOp) (b : Block α) (t e a s : Nat) : Prop :=
  ∃ t', t' < b.numThreads ∧ ∃ e', e' < op.srcElems ∧ sameRow op b t' e' t e ∧
    b.srcIndex t' e' op.helper.axis = a ∧ writeSlot op b t' e' = s

instance basicHolds_decidable {α : Type} (op : ReduceOp) (b : Block α) (t e a s : Nat) :
    Decidable (basicHolds op b t e a s) := by
  unfold basicHolds; exact inferInstance

/-- The image under `φ` of the tensor element at axis position `a` of the row of
element `e` of thread `t`. -/
def rowElem {α M : Type} (φ : List α → M) (op : ReduceOp) (b : Block α)
    (tensor : List Nat → List α) (t e a : Nat) : M :=
  φ (tensor ((b.srcCoord op.helper.srcShape.length t e).set op.helper.axis a))

/-- The partial value of slot `s` of the row of element `e` of thread `t`: the
sum of the row elements whose holders publish to slot `s`. -/
def basicPartial {α M : Type} [AddCommMonoid M] (φ : List α → M) (op : ReduceOp) (b : Block α)
    (tensor : List Nat → List α) (t e s : Nat) : M :=
  ∑ a in (Finset.range (idx op.helper.srcShape op.helper.axis)).filter
      (fun a => basicHolds op b t e a s), rowElem φ op b tensor t e a


/-- The code `matchAndRewriteBasic` emits for one entry of `accs` when the
write-index step has a rule for the source layout: the stores of the accumulator
and the tree reduction rounds. -/
def basicKeyCode (op : ReduceOp) (smemShape srcOrd : List Nat) (ints : List (Nat × IVal))
    (index : List IVal) (key : List Nat) (acc : List DVal) : List Instr :=
  let writeIdx := basicWriteIdx op index
  let writeOffset := linearize writeIdx smemShape srcOrd
  ((List.range op.numOperands).map fun i => Instr.store i [writeOffset] (didx acc i)) ++
    (basicRounds op.numOperands op.helper.axis key smemShape srcOrd ints writeIdx writeOffset
      (halvings (idx smemShape op.helper.axis / 2)) acc).1


/-- The partner of thread `u` in a butterfly exchange at distance `W`, in
arithmetic form: the thread `W` above when `u` lies in an even block of `W`
threads, the thread `W` below otherwise. -/
def butterflyPartner (u W : Nat) : Nat := if u / W % 2 = 0 then u + W else u - W


/-- Extent of dimension `d` of the first scratch shape of the Fast lowering. -/
def fastExtent (op : ReduceOp) (d : Nat) : Nat := idx (op.helper.getScratchConfigsFast.getD 0 []) d

/-- The value `maxElems` of `matchAndRewriteFast`: the number of elements between
the scratch bases of consecutive operands. -/
def fastRegionElems (op : ReduceOp) : Nat :=
  max (product (op.helper.getScratchConfigsFast.getD 0 []))
    (product (op.helper.getScratchConfigsFast.getD 1 []))

/-- The value `numThreads` of `matchAndRewriteFast`. -/
def fastNumThreads (op : ReduceOp) : Nat :=
  u32 (product (op.helper.alg.getWarpsPerCTA op.helper.srcLayout) * op.helper.threadsPerWarp)

/-- Scratch offset of the first slot of the row of element `e` of thread `t` in
the Fast lowering. -/
def fastRowBase {α : Type} (op : ReduceOp) (b : Block α) (t e : Nat) : Nat :=
  flatAlong (fun d => if d = op.helper.axis then 0 else b.srcIndex t e d) (fastExtent op)
    (op.helper.alg.getOrder op.helper.srcLayout)

/-- The value of `laneIdAxis` in thread `t`: the lane id for a rank-1 source,
the lane id modulo the unique threads per warp on the axis otherwise (the axis is
the fastest dimension). -/
def fastLaneAxis (op : ReduceOp) (t : Nat) : Nat :=
  if op.helper.srcShape.length = 1 then t % 32
  else t % 32 % idx (op.helper.alg.getThreadsPerWarpWithUniqueData op.helper.srcLayout
    op.helper.srcShape) op.helper.axis

/-- The value of `warpIdAxis` in thread `t`. -/
def fastWarpAxis (op : ReduceOp) (t : Nat) : Nat :=
  if op.helper.srcShape.length = 1 then t / 32
  else t / 32 % idx (op.helper.alg.getWarpsPerCTAWithUniqueData op.helper.srcLayout
    op.helper.srcShape) op.helper.axis

/-- The scratch slot along the axis that the lanes of thread `t`'s warp store
their intra-warp result to. -/
def fastSlot (op : ReduceOp) (t : Nat) : Nat :=
  if op.helper.getInterWarpSizeWithUniqueData = 1 then 0 else fastWarpAxis op t

/-- Some thread with slot `s` holds the element at axis position `a` of the row
of element `e` of thread `t`. -/
def fastHolds {α : Type} (op : ReduceOp) (b : Block α) (t e a s : Nat) : Prop :=
  ∃ t', t' < b.numThreads ∧ ∃ e', e' < op.srcElems ∧ sameRow op b t' e' t e ∧
    b.srcIndex t' e' op.helper.axis = a ∧ fastSlot op t' = s

instance fastHolds_decidable {α : Type} (op : ReduceOp) (b : Block α) (t e a s : Nat) :
    Decidable (fastHolds op b t e a s) := by
  unfold fastHolds; exact inferInstance

/-- The partial value of slot `s` of the row of element `e` of thread `t` in the
Fast lowering: the sum of the row elements held by threads with slot `s`. -/
def fastPartial {α M : Type} [AddCommMonoid M] (φ : List α → M) (op : ReduceOp) (b : Block α)
    (tensor : List Nat → List α) (t e s : Nat) : M :=
  ∑ a in (Finset.range (idx op.helper.srcShape op.helper.axis)).filter
      (fun a => fastHolds op b t e a s), rowElem φ op b tensor t e a

/-- What the Fast lowering relies on from the layout algebra and the index
emitter of a source layout of any supported kind: how the elements of the tensor
are distributed over the lanes and warps of the block. -/
structure FastContract {α : Type} (op : ReduceOp) (b : Block α)
    (tensor : List Nat → List α) : Prop where
  /-- The source layout passes the support check of the lowering. -/
  supported : op.helper.isSupportedLayout = true
  /-- The order of a Sliced source is the order of its parent without the
  sliced dimensions: when the parent axis is the fastest dimension of the parent
  order, the axis is the fastest dimension of the source order. (For a layout
  that is not Sliced the two statements are the same.) -/
  order_head : (getParentOrder op.helper.alg op.helper.srcLayout)[0]? =
      some (getParentAxis op.helper.srcLayout op.helper.axis) →
    (op.helper.alg.getOrder op.helper.srcLayout)[0]? = some op.helper.axis
  /-- The axis is a dimension of the source. -/
  axis_lt : op.helper.axis < op.helper.srcShape.length
  /-- The layout order is a permutation of the dimensions. -/
  order_perm : (op.helper.alg.getOrder op.helper.srcLayout).Perm
    (List.range op.helper.srcShape.length)
  /-- The source extents fit in `unsigned`. -/
  shape_fit : ∀ d, d < op.helper.srcShape.length → idx op.helper.srcShape d < 2 ^ 32
  /-- The scratch element count fits in a signed 32-bit index. -/
  smem_fit : (op.helper.getScratchConfigsFast.getD 0 []).prod < 2 ^ 31
  /-- The block runs the number of threads the lowering computes, a signed
  32-bit value. -/
  threads : b.numThreads = fastNumThreads op ∧ b.numThreads < 2 ^ 31
  /-- The second scratch shape has room for one element per thread. -/
  threads_le : b.numThreads ≤ product (op.helper.getScratchConfigsFast.getD 1 [])
  /-- The rounds of the inter-warp phase reach every scratch element, unless
  the inter-warp size is 1 and the phase has nothing to combine. -/
  rounds_cover : product (op.helper.getScratchConfigsFast.getD 0 []) ≤
      max (product (op.helper.getScratchConfigsFast.getD 0 []) / b.numThreads) 1 * b.numThreads ∨
    op.helper.getInterWarpSizeWithUniqueData = 1
  /-- The unique-data lane and warp shapes have one entry per dimension. -/
  unique_len :
    (op.helper.alg.getThreadsPerWarpWithUniqueData op.helper.srcLayout
      op.helper.srcShape).length = op.helper.srcShape.length ∧
    (op.helper.alg.getWarpsPerCTAWithUniqueData op.helper.srcLayout
      op.helper.srcShape).length = op.helper.srcShape.length
  /-- The unique-data lane and warp counts on the axis are positive and fit in
  `unsigned`. -/
  unique_fit :
    (0 < idx (op.helper.alg.getThreadsPerWarpWithUniqueData op.helper.srcLayout
        op.helper.srcShape) op.helper.axis ∧
      idx (op.helper.alg.getThreadsPerWarpWithUniqueData op.helper.srcLayout
        op.helper.srcShape) op.helper.axis < 2 ^ 32) ∧
    (0 < idx (op.helper.alg.getWarpsPerCTAWithUniqueData op.helper.srcLayout
        op.helper.srcShape) op.helper.axis ∧
      idx (op.helper.alg.getWarpsPerCTAWithUniqueData op.helper.srcLayout
        op.helper.srcShape) op.helper.axis < 2 ^ 32)
  /-- The intra-warp size is a power of two, at most a warp, dividing the block. -/
  intra_pow2 : ∃ j, j ≤ 5 ∧ op.helper.getIntraWarpSizeWithUniqueData = 2 ^ j ∧
    2 ^ j ∣ b.numThreads
  /-- The inter-warp size is a power of two, at most a warp, dividing the block
  and the scratch axis extent. -/
  inter_pow2 : ∃ j, j ≤ 5 ∧ op.helper.getInterWarpSizeWithUniqueData = 2 ^ j ∧
    2 ^ j ∣ b.numThreads ∧ 2 ^ j ∣ fastExtent op op.helper.axis ∧
    0 < fastExtent op op.helper.axis
  /-- Every tensor element is a tuple of one value per operand. -/
  tensor_len : ∀ c, (tensor c).length = op.numOperands
  /-- Source indices are inside the source shape. -/
  index_lt : ∀ t, t < b.numThreads → ∀ e, e < op.srcElems → ∀ d,
    d < op.helper.srcShape.length → b.srcIndex t e d < idx op.helper.srcShape d
  /-- A thread's registers hold the tensor elements at its source indices. -/
  value : ∀ t, t < b.numThreads → ∀ e, e < op.srcElems →
    b.srcTuple op.numOperands t e = tensor (b.srcCoord op.helper.srcShape.length t e)
  /-- Elements of one thread with the same key lie in the same row. -/
  key_row : ∀ t, t < b.numThreads → ∀ e, e < op.srcElems → ∀ e', e' < op.srcElems →
    op.key e = op.key e' → sameRow op b t e t e'
  /-- Elements in the same row have the same key, in whatever threads. -/
  row_key : ∀ t, t < b.numThreads → ∀ t', t' < b.numThreads → ∀ e, e < op.srcElems →
    ∀ e', e' < op.srcElems → sameRow op b t e t' e' → op.key e = op.key e'
  /-- The lanes exchanging in the intra-warp phase hold elements of the same row. -/
  block_row : ∀ t, t < b.numThreads → ∀ t', t' < b.numThreads →
    t / op.helper.getIntraWarpSizeWithUniqueData = t' / op.helper.getIntraWarpSizeWithUniqueData →
    ∀ e, e < op.srcElems → sameRow op b t e t' e
  /-- The lanes exchanging in the intra-warp phase hold an element of a row at
  most once. -/
  block_once : ∀ t, t < b.numThreads → ∀ t', t' < b.numThreads →
    t / op.helper.getIntraWarpSizeWithUniqueData = t' / op.helper.getIntraWarpSizeWithUniqueData →
    ∀ e, e < op.srcElems → ∀ e', e' < op.srcElems → op.key e = op.key e' →
    b.srcIndex t e op.helper.axis = b.srcIndex t' e' op.helper.axis → t = t' ∧ e = e'
  /-- Slots are below the inter-warp size. -/
  slot_lt : ∀ t, t < b.numThreads → fastSlot op t < op.helper.getInterWarpSizeWithUniqueData
  /-- The slot is a function of the coordinate. -/
  slot_coord : ∀ t, t < b.numThreads → ∀ t', t' < b.numThreads → ∀ e, e < op.srcElems →
    ∀ e', e' < op.srcElems → sameRow op b t e t' e' →
    b.srcIndex t e op.helper.axis = b.srcIndex t' e' op.helper.axis →
    fastSlot op t = fastSlot op t'
  /-- An element held by a thread is held in every group of exchanging lanes
  with the same row and slot. -/
  replica : ∀ t, t < b.numThreads → ∀ t', t' < b.numThreads → ∀ e, e < op.srcElems →
    ∀ e', e' < op.srcElems → sameRow op b t e t' e' → fastSlot op t = fastSlot op t' →
    ∃ t'', t'' < b.numThreads ∧
      t'' / op.helper.getIntraWarpSizeWithUniqueData =
        t' / op.helper.getIntraWarpSizeWithUniqueData ∧
      ∃ e'', e'' < op.srcElems ∧ op.key e'' = op.key e' ∧
        b.srcIndex t'' e'' op.helper.axis = b.srcIndex t e op.helper.axis
  /-- Every element of a row some thread touches is held by some thread. -/
  cover_axis : ∀ t, t < b.numThreads → ∀ e, e < op.srcElems → ∀ a,
    a < idx op.helper.srcShape op.helper.axis →
    ∃ t', t' < b.numThreads ∧ ∃ e', e' < op.srcElems ∧ sameRow op b t' e' t e ∧
      b.srcIndex t' e' op.helper.axis = a
  /-- Every slot of a row some thread touches is stored to by a lane with axis
  lane id zero. -/
  cover_slot : ∀ t, t < b.numThreads → ∀ e, e < op.srcElems → ∀ s,
    s < op.helper.getInterWarpSizeWithUniqueData →
    ∃ t', t' < b.numThreads ∧ fastLaneAxis op t' = 0 ∧ ∃ e', e' < op.srcElems ∧
      sameRow op b t' e' t e ∧ fastSlot op t' = s
  /-- Every result element lies in a row of the source some thread touches; a
  0-d result has the single row of a rank-1 source. -/
  result_row : ∀ t, t < b.numThreads → ∀ j, j < op.resultElems.getD 1 →
    ∃ t', t' < b.numThreads ∧ ∃ e', e' < op.srcElems ∧
      ∀ d, d < op.helper.srcShape.length → d ≠ op.helper.axis →
        b.srcIndex t' e' d = b.resultIndex t j (if d < op.helper.axis then d else d - 1)
  /-- A 0-d result comes from a rank-1 source. -/
  scalar_rank : op.resultElems = none → op.helper.srcShape.length = 1


/-- The value of result element `j` of operand `i` in thread `t` after the block
has run a lowering's code from state `st`; `none` when the lowering fails or the
code leaves the scratch region. -/
def resultAt {α : Type} (b : Block α) (regionElems : Nat) (low : Lowered) (st : State α)
    (t j i : Nat) : Option α :=
  match low with
  | .ok (code, results) =>
    (run b regionElems code st).map fun st' => (didx (results.getD i []) j).eval b st'.env t
  | .error _ => none

/-- A `[48,4]` reduction along axis 1 in the layout of the `[4,4]` example: the
16 x 4 tile of the block is repeated three times along dimension 0. -/
def helper48 : ReduceOpHelper where
  alg := dialectAlgebra
  disableFastReduction := false
  numWarps := 2
  threadsPerWarp := 32
  srcLayout := .blocked [1, 1] [16, 2] [1, 2] [1, 0]
  srcShape := [48, 4]
  srcElementBitWidths := [32]
  axis := 1

/-- The `[48,4]` reduction as seen by the lowering: three elements per thread,
one per repetition of the tile. -/
def op48 : ReduceOp where
  helper := helper48
  srcElems := 3
  offset := [[0, 0], [16, 0], [32, 0]]
  resultElems := some 3
  assertsEnabled := true

/-- A `[48,4]` integer tensor: entry `(r, c)` is `c + 1`, so every row sums to 10. -/
def tensor48 (c : List Nat) : List Int := [(c.getD 1 0 : Int) + 1]

/-- The thread block of 2 warps of 32 lanes running the `[48,4]` sum reduction:
element `e` of thread `t` is at row `t % 32 / 2 + 16 * e`, column `col44 t`. -/
def block48 : Block Int where
  numThreads := 64
  region := fun args => [args.getD 0 0 + args.getD 1 0]
  undef := 0
  srcValue := fun t e _ => (tensor48 [t % 32 / 2 + 16 * e, col44 t]).getD 0 0
  srcIndex := fun t e d => if d = 0 then t % 32 / 2 + 16 * e else col44 t
  resultIndex := fun t j _ => t % 32 / 2 + 16 * j


/-- Modelled from the spec: the arg-max combine region on the tuple
`(acc_value, acc_index, cur_value, cur_index)`: the pair with the larger value,
and among equal values the pair with the smaller index (the region is supplied
by the reduce operation, it is not part of the lowering). -/
def argMaxRegion (args : List Int) : List Int :=
  if args.getD 0 0 > args.getD 2 0 ∨ (args.getD 0 0 = args.getD 2 0 ∧ args.getD 1 0 < args.getD 3 0)
  then [args.getD 0 0, args.getD 1 0] else [args.getD 2 0, args.getD 3 0]

/-- Spec wording: the reference sequential arg-max over the elements
`vals 0, ..., vals m`: the maximum value and the first index where it occurs. -/
def seqArgMax (vals : Nat → Int) : Nat → Int × Int
  | 0 => (vals 0, 0)
  | m + 1 =>
    if vals (m + 1) > (seqArgMax vals m).1 then (vals (m + 1), ((m + 1 : Nat) : Int))
    else seqArgMax vals m

/-- The reduction of two co-indexed operands of a 1-D Blocked tensor of length
`2 ^ j` held by one warp of `2 ^ i` lanes, one element per lane. -/
def helperArgMax (j i : Nat) : ReduceOpHelper where
  alg := dialectAlgebra
  disableFastReduction := false
  numWarps := 1
  threadsPerWarp := 2 ^ i
  srcLayout := .blocked [1] [2 ^ i] [1] [0]
  srcShape := [2 ^ j]
  srcElementBitWidths := [32, 32]
  axis := 0

/-- The arg-max reduction as seen by the lowering: one element per thread, 0-d
results. -/
def opArgMax (j i : Nat) : ReduceOp where
  helper := helperArgMax j i
  srcElems := 1
  offset := [[0]]
  resultElems := none
  assertsEnabled := true

/-- The tensor of (value, index) pairs of the arg-max reduction: the index
operand holds every element's position. -/
def tensorArgMax (vals : Nat → Int) (c : List Nat) : List Int :=
  [vals (c.getD 0 0), ((c.getD 0 0 : Nat) : Int)]

/-- The warp of `2 ^ i` lanes running the arg-max reduction of `2 ^ j` elements:
lane `t` holds element `t % 2 ^ j`. -/
def blockArgMax (j i : Nat) (vals : Nat → Int) : Block Int where
  numThreads := 2 ^ i
  region := argMaxRegion
  undef := 0
  srcValue := fun t _ o => (tensorArgMax vals [t % 2 ^ j]).getD o 0
  srcIndex := fun t _ _ => t % 2 ^ j
  resultIndex := fun _ _ _ => 0


/-- The values `3, 1, 4, 1, 5, 9, 2, 9` of an `[8]` tensor (the maximum `9`
occurs at positions 5 and 7). -/
def vals8 (a : Nat) : Int := [3, 1, 4, 1, 5, 9, 2, 9].getD a 0


/-- A reduction of a `[3]` tensor with 2 threads per warp and 2 warps on the
axis: the axis size is not a multiple of the threads per warp. -/
def helper3 : ReduceOpHelper where
  alg := dialectAlgebra
  disableFastReduction := false
  numWarps := 2
  threadsPerWarp := 2
  srcLayout := .blocked [1] [2] [2] [0]
  srcShape := [3]
  srcElementBitWidths := [32]
  axis := 0


/-- The cached constants the examples of `getWriteIndexBasic` are run with: every
key is mapped to the constant of its value. -/
def intsExample : List (Nat × IVal) :=
  [(0, IVal.const 0), (1, IVal.const 1), (2, IVal.const 2), (8, IVal.const 8),
    (16, IVal.const 16)]

/-- A 1-D reduction whose source is the slice along dimension 0 of a pre-Ampere
(version 1) MMA layout. -/
def helperSliceVolta : ReduceOpHelper where
  alg := dialectAlgebra
  disableFastReduction := true
  numWarps := 1
  threadsPerWarp := 32
  srcLayout := .slice 0 (.mma 1 [1, 1])
  srcShape := [16]
  srcElementBitWidths := [32]
  axis := 0

/-- A thread holding four elements of the `[4,4]` tensor, two in each of two
rows: offsets `(0,0), (0,1), (1,0), (1,1)`, reduced along axis 1. -/
def opFold4 : ReduceOp where
  helper := helper44 false
  srcElems := 4
  offset := [[0, 0], [0, 1], [1, 0], [1, 1]]
  resultElems := some 2
  assertsEnabled := true


/-- Whether an instruction is an inlined copy of the combine region. -/
def Instr.isCombine : Instr → Bool
  | .inlineRegion _ => true
  | _ => false

/-- Whether an instruction is a warp shuffle. -/
def Instr.isShuffle : Instr → Bool
  | .shflSync _ _ => true
  | _ => false

/-- Whether an instruction is a barrier. -/
def Instr.isBarrier : Instr → Bool
  | .barrier => true
  | _ => false

/-- Whether an instruction is the load of a round of the tree reduction of the
Basic lowering. -/
def Instr.isRoundLoad : Instr → Bool
  | .load (.round _ _) _ _ => true
  | _ => false

/-- The code a lowering emitted (none when it failed). -/
def loweredCode (low : Lowered) : List Instr :=
  match low with
  | .ok (code, _) => code
  | .error _ => []

/-- An element term that mentions no result of the combine region. -/
def DVal.regionFree : DVal → Prop
  | .regionResult _ _ => False
  | .shfl val _ => DVal.regionFree val
  | _ => True

/-- An instruction whose effect does not depend on the combine region: the value
it stores mentions no region result. -/
def Instr.regionFree : Instr → Prop
  | .store _ _ val => val.regionFree
  | .storeShared _ _ val _ => val.regionFree
  | _ => True

/-- The block `b` with the combine region replaced by `region`. -/
def Block.withRegion {α : Type} (b : Block α) (region : List α → List α) : Block α :=
  { b with region := region }

/-- A `[32,1]` reduction along axis 1, of size 1, held by one warp; `fast`
selects the strategy through the debug override. -/
def helperAxis1 (fast : Bool) : ReduceOpHelper where
  alg := dialectAlgebra
  disableFastReduction := !fast
  numWarps := 1
  threadsPerWarp := 32
  srcLayout := .blocked [1, 1] [32, 1] [1, 1] [1, 0]
  srcShape := [32, 1]
  srcElementBitWidths := [32]
  axis := 1

/-- The `[32,1]` reduction as seen by the lowering: one element per thread. -/
def opAxis1 (fast : Bool) : ReduceOp where
  helper := helperAxis1 fast
  srcElems := 1
  offset := [[0, 0]]
  resultElems := some 1
  assertsEnabled := true

/-- A `[32,1]` integer tensor: entry `(r, 0)` is `r`. -/
def tensorAxis1 (c : List Nat) : List Int := [((c.getD 0 0 : Nat) : Int)]

/-- The warp running the `[32,1]` reduction: thread `t` holds row `t`. -/
def blockAxis1 : Block Int where
  numThreads := 32
  region := fun args => [args.getD 0 0 + args.getD 1 0]
  undef := 0
  srcValue := fun t _ _ => ((t : Nat) : Int)
  srcIndex := fun t _ d => if d = 0 then t else 0
  resultIndex := fun t _ _ => t

/-- A `[16,8]` reduction along axis 1 of a source in an Ampere MMA layout held by
one warp (32-bit elements); `fast` selects the strategy through the debug
override. -/
def helperMma (fast : Bool) : ReduceOpHelper where
  alg := dialectAlgebra
  disableFastReduction := !fast
  numWarps := 1
  threadsPerWarp := 32
  srcLayout := .mma 2 [1, 1]
  srcShape := [16, 8]
  srcElementBitWidths := [32]
  axis := 1

/-- The `[16,8]` MMA reduction as seen by the lowering: four elements per thread,
two adjacent columns in each of two rows 8 apart. -/
def opMma (fast : Bool) : ReduceOp where
  helper := helperMma fast
  srcElems := 4
  offset := [[0, 0], [0, 1], [8, 0], [8, 1]]
  resultElems := some 2
  assertsEnabled := true

/-- A `[16,8]` integer tensor: entry `(r, c)` is `10 * r + c + 1`. -/
def tensorMma (c : List Nat) : List Int := [10 * (c.getD 0 0 : Int) + (c.getD 1 0 : Int) + 1]

/-- The warp running the `[16,8]` MMA reduction: element `e` of lane `t` is at
row `t / 4 + 8 * (e / 2)`, column `2 * (t % 4) + e % 2`. -/
def blockMma : Block Int where
  numThreads := 32
  region := fun args => [args.getD 0 0 + args.getD 1 0]
  undef := 0
  srcValue := fun t e _ =>
    (tensorMma [t / 4 + 8 * (e / 2), 2 * (t % 4) + e % 2]).getD 0 0
  srcIndex := fun t e d => if d = 0 then t / 4 + 8 * (e / 2) else 2 * (t % 4) + e % 2
  resultIndex := fun t j _ => t / 4 + 8 * j

/-! ## `ScanLoweringHelper` (lib/Analysis/Utility.cpp) -/

/-- Modelled from the spec: the helper template `ceil<unsigned>(m, n)` of
`triton/Analysis/Utility.h` (not among the two source files), the rounded-up
quotient `(m + n - 1) / n` computed in `unsigned`. A zero divisor is undefined
behaviour of the C++ and reads as `0` here. -/
def ceil (m n : Nat) : Nat := u32 (u32 m + u32 n + (2 ^ 32 - 1)) / u32 n

/-- The scan descriptor together with the layout algebra it queries. -/
structure ScanLoweringHelper where
  /-- The layout algebra. -/
  alg : LayoutAlgebra
  /-- Source layout `srcEncoding`. -/
  srcEncoding : Layout
  /-- Shape `scanOp.getOperand(0).getType().getShape()`. -/
  shape : List Nat
  /-- Scan axis `getAxis()`. -/
  axis : Nat

namespace ScanLoweringHelper

/-- The expression `sizePerThreads[d] * threadsPerWarp[d] * warpsPerCTA[d]`
shared by the three block queries, computed in `unsigned`. -/
def tileSize (h : ScanLoweringHelper) (d : Nat) : Nat :=
  u32 (u32 (idx (h.alg.getSizePerThread h.srcEncoding) d *
    idx (h.alg.getThreadsPerWarp h.srcEncoding) d) *
    idx (h.alg.getWarpsPerCTA h.srcEncoding) d)

/-- `ScanLoweringHelper::getAxisNumBlocks` (Utility.cpp:177). -/
def getAxisNumBlocks (h : ScanLoweringHelper) : Nat :=
  ceil (idx h.shape h.axis) (h.tileSize h.axis)

/-- `ScanLoweringHelper::getNonAxisNumBlocks` (Utility.cpp:188): the loop over
`i < sizePerThreads.size()` that skips the axis. -/
def getNonAxisNumBlocks (h : ScanLoweringHelper) : Nat :=
  (List.range (h.alg.getSizePerThread h.srcEncoding).length).foldl
    (fun numBlocks i =>
      if i = h.axis then numBlocks
      else u32 (numBlocks * ceil (idx h.shape i) (h.tileSize i))) 1

/-- The loop of `getAxisBlockStride` over the remaining dimensions of the order
with the stride accumulated so far; `none` is `llvm_unreachable`. The factor is
the plain quotient `shape[dim] / (...)` of the source (an `int64_t` divided by
an `unsigned`), and the product is stored back into the `unsigned` stride. A
zero divisor is undefined behaviour of the C++ and reads as `0` here. -/
def axisBlockStrideLoop (h : ScanLoweringHelper) : List Nat → Nat → Option Nat
  | [], _ => none
  | dim :: rest, stride =>
    if dim = h.axis then some stride
    else axisBlockStrideLoop h rest (u32 (stride * (idx h.shape dim / h.tileSize dim)))

/-- `ScanLoweringHelper::getAxisBlockStride` (Utility.cpp:254). -/
def getAxisBlockStride (h : ScanLoweringHelper) : Option Nat :=
  h.axisBlockStrideLoop (h.alg.getOrder h.srcEncoding) 1

/-- The per-dimension block count in the words of the specification:
`ceil(shape[d] / (sizePerThread[d] * threadsPerWarp[d] * warpsPerCTA[d]))`. -/
def specBlockCount (h : ScanLoweringHelper) (d : Nat) : Nat :=
  (idx h.shape d + (idx (h.alg.getSizePerThread h.srcEncoding) d *
      idx (h.alg.getThreadsPerWarp h.srcEncoding) d *
      idx (h.alg.getWarpsPerCTA h.srcEncoding) d) - 1) /
    (idx (h.alg.getSizePerThread h.srcEncoding) d *
      idx (h.alg.getThreadsPerWarp h.srcEncoding) d *
      idx (h.alg.getWarpsPerCTA h.srcEncoding) d)

/-- The dimensions that precede the axis in the layout order. -/
def specPrecedingDims (h : ScanLoweringHelper) : List Nat :=
  (h.alg.getOrder h.srcEncoding).takeWhile fun d => d != h.axis

/-- The block stride in the words of the specification: the product of the
per-dimension block counts over the dimensions that precede the axis. -/
def specAxisBlockStride (h : ScanLoweringHelper) : Nat :=
  (h.specPrecedingDims.map h.specBlockCount).prod

end ScanLoweringHelper

/-- A scan along axis 0 of a `[64,16]` tensor in a Blocked layout whose warp
spans 32 threads along dimension 1 (4 warps along dimension 0, order `[1,0]`):
the axis is last in the order and dimension 1 is narrower than one tile. -/
def scan64x16 : ScanLoweringHelper where
  alg := dialectAlgebra
  srcEncoding := .blocked [1, 1] [1, 32] [4, 1] [1, 0]
  shape := [64, 16]
  axis := 0

/-- The same scan on a `[64,64]` tensor: every dimension is a whole number of
tiles. -/
def scan64x64 : ScanLoweringHelper where
  alg := dialectAlgebra
  srcEncoding := .blocked [1, 1] [1, 32] [4, 1] [1, 0]
  shape := [64, 64]
  axis := 0

/-! # Theorems -/

/-! ## Helper lemmas: scratch sizes and layouts -/

theorem foldl_mul_eq (shape : List Nat) (a : Nat) :
    shape.foldl (fun acc d => acc * d) a = a * shape.prod := by
  induction shape generalizing a with
  | nil => simp
  | cons x xs ih => simp [List.foldl_cons, ih, Nat.mul_assoc]

theorem product_eq_prod (shape : List Nat) (h : shape.prod < 2 ^ 32) :
    product shape = shape.prod := by
  unfold product u32
  rw [foldl_mul_eq, Nat.one_mul, Nat.mod_eq_of_lt h]

theorem bytes_fold_eq (ws : List Nat) (a : Nat) :
    ws.foldl (fun b w => u32 (b + w / 8)) (u32 a) = u32 (a + (ws.map fun w => w / 8).sum) := by
  induction ws generalizing a with
  | nil => simp
  | cons x xs ih =>
    simp only [List.foldl_cons, List.map_cons, List.sum_cons]
    have : u32 (u32 a + x / 8) = u32 (a + x / 8) := by
      unfold u32; omega
    rw [this, ih, Nat.add_assoc]

theorem getScratchConfigsFast_eq (h : ReduceOpHelper) :
    h.getScratchConfigsFast =
      [(convertType h.srcShape).set h.axis h.getInterWarpSize,
        [u32 (h.numWarps * h.threadsPerWarp)], []] := by
  rfl

theorem getParentOrder_eq (alg : LayoutAlgebra) (l : Layout) :
    getParentOrder alg l = alg.getOrder (specInnermostParent l) := by
  induction l with
  | slice d p ih => simpa [getParentOrder, specInnermostParent] using ih
  | blocked => rfl
  | mma => rfl
  | dotOperand => rfl

theorem getParentAxis_eq (l : Layout) (axis : Nat) :
    getParentAxis l axis = specTranslateAxis l axis := by
  induction l generalizing axis with
  | slice d p ih => simp [getParentAxis, specTranslateAxis, specSliceDims, ih]
  | blocked => rfl
  | mma => rfl
  | dotOperand => rfl

theorem u32_mul_u32_left (a b : Nat) : u32 (u32 a * b) = u32 (a * b) := by
  unfold u32
  rw [Nat.mul_mod, Nat.mod_mod, ← Nat.mul_mod]

theorem u32_of_lt {n : Nat} (h : n < 2 ^ 32) : u32 n = n := Nat.mod_eq_of_lt h

theorem bytesPerElem_eq (h : ReduceOpHelper) :
    h.srcElementBitWidths.foldl (fun b w => u32 (b + w / 8)) 0 = u32 (specByteWidthSum h) := by
  have := bytes_fold_eq h.srcElementBitWidths 0
  simpa [u32, specByteWidthSum] using this

/-- The element count `elems` computed by `getScratchSizeInBytes`. -/
theorem scratch_elems_eq (h : ReduceOpHelper)
    (hshape : ∀ s ∈ specRelevantShapes h, specElementCount s < 2 ^ 32) :
    (if h.isFastReduction then
        h.getScratchConfigsFast.foldl (fun elems smemShape => max elems (product smemShape)) 0
      else product h.getScratchConfigBasic) = specMaxElementCount h := by
  unfold specMaxElementCount
  unfold specRelevantShapes at hshape ⊢
  by_cases hf : h.isFastReduction = true
  · simp only [hf, if_true] at hshape ⊢
    rw [getScratchConfigsFast_eq] at hshape ⊢
    have h0 := hshape _ (List.mem_cons_self _ _)
    have h1 := hshape _ (List.mem_cons_of_mem _ (List.mem_cons_self _ _))
    simp only [specElementCount] at h0 h1
    simp only [List.foldl_cons, List.foldl_nil, List.map_cons, List.map_nil, List.foldr_cons,
      List.foldr_nil, specElementCount]
    rw [product_eq_prod _ h0, product_eq_prod _ h1]
    have : product [] = 1 := by decide
    rw [this]
    simp [Nat.max_assoc]
  · simp only [hf] at hshape ⊢
    have h0 := hshape _ (List.mem_singleton_self _)
    simp only [specElementCount] at h0
    simp [specElementCount, product_eq_prod _ h0]

theorem getScratchSizeInBytes_exact (h : ReduceOpHelper)
    (hshape : ∀ s ∈ specRelevantShapes h, specElementCount s < 2 ^ 32)
    (hfit : specMaxElementCount h * specByteWidthSum h < 2 ^ 32) :
    h.getScratchSizeInBytes = specMaxElementCount h * specByteWidthSum h := by
  unfold ReduceOpHelper.getScratchSizeInBytes
  simp only []
  rw [scratch_elems_eq h hshape, bytesPerElem_eq, u32_mul_u32_left, Nat.mul_comm]
  exact u32_of_lt hfit

/-! ## Layout analysis helper: claims on scratch sizes and layout predicates -/

/-- C5 (as stated, refuted): on the `[64,4]` reduction the fast path is selected
and the reported scratch size, 512 bytes, is below `product(getScratchConfigBasic()) * B`,
which is 1024 bytes. -/
theorem scratchSize_not_bound_for_unselected_basic :
    helper64x4.isFastReduction = true ∧
      ¬ (helper64x4.getScratchSizeInBytes ≥
          product helper64x4.getScratchConfigBasic * specByteWidthSum helper64x4) := by
  decide

/-- C5 (amended): when the counts fit in 32 bits, the reported scratch size
bounds the element count of the strategy that `isFastReduction` selects, times
the sum `B` of the operands' byte widths: the Basic shape when it is false, the
two fast shapes when it is true. -/
theorem scratchSize_bounds_selected_strategy (h : ReduceOpHelper)
    (hshape : ∀ s ∈ specRelevantShapes h, specElementCount s < 2 ^ 32)
    (hfit : specMaxElementCount h * specByteWidthSum h < 2 ^ 32) :
    (h.isFastReduction = false →
        h.getScratchSizeInBytes ≥ product h.getScratchConfigBasic * specByteWidthSum h) ∧
      (h.isFastReduction = true →
        h.getScratchSizeInBytes ≥
          max (product (h.getScratchConfigsFast.getD 0 []))
            (product (h.getScratchConfigsFast.getD 1 [])) * specByteWidthSum h) := by
  rw [getScratchSizeInBytes_exact h hshape hfit]
  have helems := scratch_elems_eq h hshape
  constructor
  · intro hf
    simp only [hf] at helems
    rw [← helems]
    exact Nat.le_refl _
  · intro hf
    simp only [hf, if_true, getScratchConfigsFast_eq, List.foldl_cons, List.foldl_nil] at helems
    rw [← helems, getScratchConfigsFast_eq]
    apply Nat.mul_le_mul_right
    simp only [List.getD_cons_zero, List.getD_cons_succ]
    omega

/-- Witness for C5 (amended) on the `[4,4]` reduction, fast path. -/
theorem scratchSize_bounds_selected_strategy_witness :
    ((helper44 true).isFastReduction = false →
        (helper44 true).getScratchSizeInBytes ≥
          product (helper44 true).getScratchConfigBasic * specByteWidthSum (helper44 true)) ∧
      ((helper44 true).isFastReduction = true →
        (helper44 true).getScratchSizeInBytes ≥
          max (product ((helper44 true).getScratchConfigsFast.getD 0 []))
            (product ((helper44 true).getScratchConfigsFast.getD 1 [])) *
              specByteWidthSum (helper44 true)) :=
  scratchSize_bounds_selected_strategy (helper44 true) (by decide) (by decide)

/-- C6 (failing input): for a reduction of 1-bit booleans the lowering places
the end of the operand's scratch region 32 bytes after the base, while
`getScratchSizeInBytes` reports 0 bytes. -/
theorem scratchEnd_exceeds_size_for_bool :
    helperBool32.getScratchSizeInBytes = 0 ∧ helperBool32.scratchEndBytes = 32 := by
  decide

/-- C8: `isFastReduction` is true exactly when the debug override is not set and
the axis, translated through the Sliced wrappers (outermost first), is element 0
of the dimension order of the innermost non-Sliced parent. -/
theorem isFastReduction_iff (h : ReduceOpHelper) :
    h.isFastReduction = true ↔
      h.disableFastReduction = false ∧
        (h.alg.getOrder (specInnermostParent h.srcLayout))[0]? =
          some (specTranslateAxis h.srcLayout h.axis) := by
  unfold ReduceOpHelper.isFastReduction
  rw [getParentOrder_eq, getParentAxis_eq]
  cases h.disableFastReduction <;> simp

/-- C9: `isSupportedLayout` is true exactly for Blocked layouts, MMA layouts whose
version satisfies `isAmpere`, and Sliced layouts. -/
theorem isSupportedLayout_iff (h : ReduceOpHelper) :
    h.isSupportedLayout = true ↔
      (∃ spt tpw wpc ord, h.srcLayout = .blocked spt tpw wpc ord) ∨
        (∃ v wpc, h.srcLayout = .mma v wpc ∧ h.alg.isAmpere v = true) ∨
          (∃ dim parent, h.srcLayout = .slice dim parent) := by
  unfold ReduceOpHelper.isSupportedLayout
  cases hl : h.srcLayout with
  | blocked spt tpw wpc ord => simp
  | mma v wpc => cases hv : h.alg.isAmpere v <;> simp [hv]
  | dotOperand i p => simp
  | slice d p => simp

/-- C10 (what the code returns): `getScratchConfigsFast` returns three shapes, the
source shape with the axis entry replaced by the inter-warp extent, the flat
shape `[numWarps * threadsPerWarp]`, and an empty third shape. -/
theorem getScratchConfigsFast_returns_three_shapes (h : ReduceOpHelper) :
    h.getScratchConfigsFast =
        [(convertType h.srcShape).set h.axis h.getInterWarpSize,
          [u32 (h.numWarps * h.threadsPerWarp)], []] ∧
      h.getScratchConfigsFast.length = 3 :=
  ⟨getScratchConfigsFast_eq h, rfl⟩

/-! ## Rejection of unsupported layouts -/

/-- With assertions compiled in, both lowerings stop at the failed assertion on
an unsupported layout: no code is emitted and no results are returned. -/
theorem matchAndRewrite_unsupported_asserts (op : ReduceOp)
    (hl : op.helper.isSupportedLayout = false) (ha : op.assertsEnabled = true) :
    matchAndRewrite op = .error "Unexpected srcLayout in ReduceOpConversion" := by
  unfold matchAndRewrite matchAndRewriteFast matchAndRewriteBasic
  simp [hl, ha]

/-- C4 (failing input): in a build without assertions the version-1 MMA layout
is unsupported, yet `matchAndRewrite` takes the fast path, reports no error,
emits code that starts with the scratch base request and contains shuffles,
predicated stores and barriers, and returns result values. -/
theorem matchAndRewrite_unsupported_release_emits :
    opVoltaRelease.helper.isSupportedLayout = false ∧
      opVoltaRelease.helper.isFastReduction = true ∧
      ∃ code results, matchAndRewrite opVoltaRelease = .ok (code, results) ∧
        code.head? = some Instr.getSharedMemoryBase ∧ code.length = 12 ∧
        results = [[DVal.loaded (.result 0) 0]] := by
  refine ⟨by decide, by decide, ?_⟩
  refine ⟨_, _, rfl, rfl, rfl, rfl⟩

/-! ## Combine algebra -/

theorem CombineLaws.model {α : Type} {f : List α → List α → List α} {k : Nat}
    (h : CombineLaws f k) :
    @CombineModel α (Tup α k) h.addCommMonoid f k (Tup.of k) := by
  letI := h.addCommMonoid
  refine ⟨h.closed, ?_, ?_⟩
  · intro x y hx hy
    have hxy := h.closed x y hx hy
    show Tup.of k (f x y) = Tup.add h (Tup.of k x) (Tup.of k y)
    simp [Tup.of, hx, hy, hxy, Tup.add]
  · intro x y hx hy hxy
    simp only [Tup.of, hx, hy, dite_true] at hxy
    have := Option.some.inj hxy
    exact congrArg Subtype.val this

theorem combineAll_length {α : Type} {f : List α → List α → List α} {k : Nat}
    (hc : ∀ x y, x.length = k → y.length = k → (f x y).length = k)
    (x : List α) (xs : List (List α)) (hx : x.length = k) (hxs : ∀ y ∈ xs, y.length = k) :
    (xs.foldl f x).length = k := by
  induction xs generalizing x with
  | nil => simpa using hx
  | cons y ys ih =>
    simp only [List.foldl_cons]
    exact ih _ (hc _ _ hx (hxs y (List.mem_cons_self _ _)))
      (fun z hz => hxs z (List.mem_cons_of_mem _ hz))

theorem map_foldl_combine {α M : Type} [AddCommMonoid M] {f : List α → List α → List α}
    {k : Nat} {φ : List α → M} (hm : CombineModel f k φ)
    (x : List α) (xs : List (List α)) (hx : x.length = k) (hxs : ∀ y ∈ xs, y.length = k) :
    φ (xs.foldl f x) = φ x + (xs.map φ).sum := by
  induction xs generalizing x with
  | nil => simp
  | cons y ys ih =>
    have hy := hxs y (List.mem_cons_self _ _)
    simp only [List.foldl_cons, List.map_cons, List.sum_cons]
    rw [ih _ (hm.closed _ _ hx hy) (fun z hz => hxs z (List.mem_cons_of_mem _ hz)),
      hm.map_add _ _ hx hy, add_assoc]

theorem map_combineAll {α M : Type} [AddCommMonoid M] {f : List α → List α → List α}
    {k : Nat} {φ : List α → M} (hm : CombineModel f k φ)
    (xs : List (List α)) (hne : xs ≠ []) (hxs : ∀ y ∈ xs, y.length = k) :
    φ (combineAll f xs) = (xs.map φ).sum ∧ (combineAll f xs).length = k := by
  cases xs with
  | nil => exact absurd rfl hne
  | cons x xs =>
    have hx := hxs x (List.mem_cons_self _ _)
    have hr : ∀ y ∈ xs, y.length = k := fun z hz => hxs z (List.mem_cons_of_mem _ hz)
    exact ⟨by simpa [combineAll] using map_foldl_combine hm x xs hx hr,
      combineAll_length hm.closed x xs hx hr⟩

/-! ## Execution lemmas -/

theorem run_append {α : Type} (b : Block α) (E : Nat) (c₁ c₂ : List Instr) (st : State α) :
    run b E (c₁ ++ c₂) st = (run b E c₁ st).bind (run b E c₂) := by
  induction c₁ generalizing st with
  | nil => rfl
  | cons i c ih =>
    simp only [List.cons_append, run]
    cases hi : i.exec b E st with
    | none => rfl
    | some st' => exact ih st'

theorem run_of_steps {α : Type} (b : Block α) (E : Nat) {c₁ c₂ : List Instr}
    {st st₁ st₂ : State α} (h₁ : run b E c₁ st = some st₁) (h₂ : run b E c₂ st₁ = some st₂) :
    run b E (c₁ ++ c₂) st = some st₂ := by
  rw [run_append, h₁]; exact h₂

theorem storeAll_other {α : Type} (b : Block α) (env : LoadEnv α) (operand : Nat)
    (ptr : List IVal) (val : DVal) (active : Nat → Bool) (mem : Nat → Nat → α) (o a : Nat)
    (ho : o ≠ operand) : storeAll b env operand ptr val active mem o a = mem o a := by
  unfold storeAll
  induction b.numThreads with
  | zero => simp
  | succ n ih =>
    rw [List.range_succ, List.foldl_append]
    simp only [List.foldl_cons, List.foldl_nil]
    split
    · simp [ho, ih]
    · exact ih

theorem storeAll_miss {α : Type} (b : Block α) (env : LoadEnv α) (operand : Nat)
    (ptr : List IVal) (val : DVal) (active : Nat → Bool) (mem : Nat → Nat → α) (a : Nat)
    (hmiss : ∀ t, t < b.numThreads → active t = true → ptrOffset b t ptr ≠ a) :
    storeAll b env operand ptr val active mem operand a = mem operand a := by
  unfold storeAll
  revert hmiss
  induction b.numThreads with
  | zero => simp
  | succ n ih =>
    intro hmiss
    rw [List.range_succ, List.foldl_append]
    simp only [List.foldl_cons, List.foldl_nil]
    have ih' := ih (fun t ht => hmiss t (Nat.lt_succ_of_lt ht))
    split
    · rename_i hact
      have := hmiss n (Nat.lt_succ_self n) hact
      simp [Ne.symm this, ih']
    · exact ih'

theorem storeAll_hit {α : Type} (b : Block α) (env : LoadEnv α) (operand : Nat)
    (ptr : List IVal) (val : DVal) (active : Nat → Bool) (mem : Nat → Nat → α) (a : Nat) (v : α)
    (hex : ∃ t, t < b.numThreads ∧ active t = true ∧ ptrOffset b t ptr = a)
    (hall : ∀ t, t < b.numThreads → active t = true → ptrOffset b t ptr = a →
      val.eval b env t = v) :
    storeAll b env operand ptr val active mem operand a = v := by
  unfold storeAll
  revert hex hall
  induction b.numThreads with
  | zero => intro hex; obtain ⟨t, ht, _⟩ := hex; exact absurd ht (Nat.not_lt_zero _)
  | succ n ih =>
    intro hex hall
    rw [List.range_succ, List.foldl_append]
    simp only [List.foldl_cons, List.foldl_nil]
    by_cases hn : active n = true ∧ ptrOffset b n ptr = a
    · simp [hn.1, hn.2, hall n (Nat.lt_succ_self n) hn.1 hn.2]
    · have hex' : ∃ t, t < n ∧ active t = true ∧ ptrOffset b t ptr = a := by
        obtain ⟨t, ht, hat, hpt⟩ := hex
        rcases Nat.lt_succ_iff_lt_or_eq.mp ht with h | h
        · exact ⟨t, h, hat, hpt⟩
        · subst h; exact absurd ⟨hat, hpt⟩ hn
      have ih' := ih hex' (fun t ht => hall t (Nat.lt_succ_of_lt ht))
      split
      · rename_i hact
        have hne : ¬ a = ptrOffset b n ptr := fun h => hn ⟨hact, h.symm⟩
        simp [hne, ih']
      · exact ih'

theorem storeAll_congr {α : Type} (b : Block α) (env : LoadEnv α) (operand : Nat)
    (ptr : List IVal) (val : DVal) (active : Nat → Bool) (mem mem' : Nat → Nat → α)
    (h : ∀ a, mem operand a = mem' operand a) (a : Nat) :
    storeAll b env operand ptr val active mem operand a =
      storeAll b env operand ptr val active mem' operand a := by
  unfold storeAll
  induction b.numThreads with
  | zero => simpa using h a
  | succ n ih =>
    rw [List.range_succ, List.foldl_append, List.foldl_append]
    simp only [List.foldl_cons, List.foldl_nil]
    split
    · simp only [true_and]
      split
      · rfl
      · exact ih
    · exact ih

theorem exec_load {α : Type} (b : Block α) (E : Nat) (site : LoadSite) (operand : Nat)
    (ptr : List IVal) (st : State α) (hb : ∀ t, t < b.numThreads → ptrOffset b t ptr < E) :
    (Instr.load site operand ptr).exec b E st =
      some { st with
        env := fun t s o =>
          if t < b.numThreads ∧ s = site ∧ o = operand then st.mem operand (ptrOffset b t ptr)
          else st.env t s o } := by
  have : ((List.range b.numThreads).all fun t => decide (ptrOffset b t ptr < E)) = true := by
    simp only [List.all_eq_true, List.mem_range, decide_eq_true_eq]
    exact hb
  simp [Instr.exec, this]

theorem exec_store {α : Type} (b : Block α) (E : Nat) (operand : Nat)
    (ptr : List IVal) (val : DVal) (st : State α)
    (hb : ∀ t, t < b.numThreads → ptrOffset b t ptr < E) :
    (Instr.store operand ptr val).exec b E st =
      some { st with mem := storeAll b st.env operand ptr val (fun _ => true) st.mem } := by
  have : ((List.range b.numThreads).all fun t => decide (ptrOffset b t ptr < E)) = true := by
    simp only [List.all_eq_true, List.mem_range, decide_eq_true_eq]
    exact hb
  simp [Instr.exec, this]

theorem exec_storeShared {α : Type} (b : Block α) (E : Nat) (operand : Nat)
    (ptr : List IVal) (val : DVal) (pred : IVal) (st : State α)
    (hb : ∀ t, t < b.numThreads → pred.eval b t ≠ 0 → ptrOffset b t ptr < E) :
    (Instr.storeShared operand ptr val pred).exec b E st =
      some { st with
        mem := storeAll b st.env operand ptr val (fun t => decide (pred.eval b t ≠ 0)) st.mem } := by
  have : ((List.range b.numThreads).all fun t =>
      decide (pred.eval b t ≠ 0 → ptrOffset b t ptr < E)) = true := by
    simp only [List.all_eq_true, List.mem_range, decide_eq_true_eq]
    exact hb
  show (if _ then _ else _) = _
  rw [if_pos this]

/-- Running the loads of all `k` operands at one site. -/
theorem run_loads {α : Type} (b : Block α) (E : Nat) (site : LoadSite) (ptr : List IVal)
    (k : Nat) (st : State α) (hb : ∀ t, t < b.numThreads → ptrOffset b t ptr < E) :
    run b E ((List.range k).map fun i => Instr.load site i ptr) st =
      some { mem := st.mem
             env := fun t s o =>
               if t < b.numThreads ∧ s = site ∧ o < k then st.mem o (ptrOffset b t ptr)
               else st.env t s o } := by
  induction k with
  | zero => simp [run]
  | succ k ih =>
    rw [List.range_succ, List.map_append, run_append, ih]
    simp only [List.map_cons, List.map_nil, Option.some_bind, run]
    rw [exec_load b E site k ptr _ hb]
    simp only [Option.some.injEq]
    congr 1
    funext t s o
    by_cases h1 : t < b.numThreads ∧ s = site ∧ o = k
    · obtain ⟨ht, hs, ho⟩ := h1
      simp [ht, hs, ho]
    · simp only [h1, if_false]
      by_cases h2 : t < b.numThreads ∧ s = site ∧ o < k
      · have : t < b.numThreads ∧ s = site ∧ o < k + 1 := ⟨h2.1, h2.2.1, Nat.lt_succ_of_lt h2.2.2⟩
        simp [h2, this]
      · have : ¬ (t < b.numThreads ∧ s = site ∧ o < k + 1) := by
          rintro ⟨ht, hs, ho⟩
          rcases Nat.lt_succ_iff_lt_or_eq.mp ho with h | h
          · exact h2 ⟨ht, hs, h⟩
          · exact h1 ⟨ht, hs, h⟩
        simp [h2, this]

/-- Running the stores of all `k` components of an accumulator. -/
theorem run_stores {α : Type} (b : Block α) (E : Nat) (ptr : List IVal) (acc : List DVal)
    (k : Nat) (st : State α) (hb : ∀ t, t < b.numThreads → ptrOffset b t ptr < E) :
    run b E ((List.range k).map fun i => Instr.store i ptr (didx acc i)) st =
      some { env := st.env
             mem := fun o a =>
               if o < k then storeAll b st.env o ptr (didx acc o) (fun _ => true) st.mem o a
               else st.mem o a } := by
  induction k with
  | zero => simp [run]
  | succ k ih =>
    rw [List.range_succ, List.map_append, run_append, ih]
    simp only [List.map_cons, List.map_nil, Option.some_bind, run]
    rw [exec_store b E k ptr _ _ hb]
    simp only [Option.some.injEq]
    congr 1
    funext o a
    by_cases hk : o = k
    · subst hk
      simp only [Nat.lt_succ_self, if_true]
      apply storeAll_congr
      intro a'
      simp
    · rw [storeAll_other _ _ _ _ _ _ _ _ _ hk]
      by_cases h2 : o < k
      · simp [h2, Nat.lt_succ_of_lt h2]
      · have : ¬ o < k + 1 := by omega
        simp [h2, this]

/-- Running the predicated stores of all `k` components of an accumulator. -/
theorem run_storesShared {α : Type} (b : Block α) (E : Nat) (ptr : List IVal) (acc : List DVal)
    (pred : IVal) (k : Nat) (st : State α)
    (hb : ∀ t, t < b.numThreads → pred.eval b t ≠ 0 → ptrOffset b t ptr < E) :
    run b E ((List.range k).map fun i => Instr.storeShared i ptr (didx acc i) pred) st =
      some { env := st.env
             mem := fun o a =>
               if o < k then
                 storeAll b st.env o ptr (didx acc o) (fun t => decide (pred.eval b t ≠ 0)) st.mem o a
               else st.mem o a } := by
  induction k with
  | zero => simp [run]
  | succ k ih =>
    rw [List.range_succ, List.map_append, run_append, ih]
    simp only [List.map_cons, List.map_nil, Option.some_bind, run]
    rw [exec_storeShared b E k ptr _ _ _ hb]
    simp only [Option.some.injEq]
    congr 1
    funext o a
    by_cases hk : o = k
    · subst hk
      simp only [Nat.lt_succ_self, if_true]
      apply storeAll_congr
      intro a'
      simp
    · rw [storeAll_other _ _ _ _ _ _ _ _ _ hk]
      by_cases h2 : o < k
      · simp [h2, Nat.lt_succ_of_lt h2]
      · have : ¬ o < k + 1 := by omega
        simp [h2, this]

/-! ## Evaluation of element terms -/

mutual
theorem DVal.eval_congr {α : Type} (b : Block α) (env env' : LoadEnv α) (P : LoadSite → Prop)
    (henv : ∀ t s o, P s → env t s o = env' t s o) :
    ∀ (v : DVal), DVal.sitesIn P v → ∀ t, DVal.eval b env v t = DVal.eval b env' v t
  | .null, _, _ => rfl
  | .src _ _, _, _ => rfl
  | .regionResult args i, h, t => by
    simp only [DVal.eval]
    rw [DVal.evalList_congr b env env' P henv args (by simpa [DVal.sitesIn] using h) t]
  | .shfl v N, h, t => by
    simp only [DVal.eval]
    exact DVal.eval_congr b env env' P henv v (by simpa [DVal.sitesIn] using h) _
  | .loaded s o, h, t => by
    simp only [DVal.eval]
    exact henv t s o (by simpa [DVal.sitesIn] using h)
theorem DVal.evalList_congr {α : Type} (b : Block α) (env env' : LoadEnv α)
    (P : LoadSite → Prop) (henv : ∀ t s o, P s → env t s o = env' t s o) :
    ∀ (vs : List DVal), DVal.sitesInList P vs → ∀ t,
      DVal.evalList b env vs t = DVal.evalList b env' vs t
  | [], _, _ => rfl
  | v :: vs, h, t => by
    simp only [DVal.sitesInList] at h
    simp only [DVal.evalList]
    rw [DVal.eval_congr b env env' P henv v h.1 t, DVal.evalList_congr b env env' P henv vs h.2 t]
end

theorem DVal.evalList_eq_map {α : Type} (b : Block α) (env : LoadEnv α) (vs : List DVal)
    (t : Nat) : DVal.evalList b env vs t = vs.map fun v => DVal.eval b env v t := by
  induction vs with
  | nil => rfl
  | cons v vs ih => simp [DVal.evalList, ih]

theorem DVal.evalList_length {α : Type} (b : Block α) (env : LoadEnv α) (vs : List DVal)
    (t : Nat) : (DVal.evalList b env vs t).length = vs.length := by
  simp [DVal.evalList_eq_map]

theorem DVal.evalList_append {α : Type} (b : Block α) (env : LoadEnv α) (us vs : List DVal)
    (t : Nat) :
    DVal.evalList b env (us ++ vs) t = DVal.evalList b env us t ++ DVal.evalList b env vs t := by
  simp [DVal.evalList_eq_map]

theorem DVal.sitesInList_iff (P : LoadSite → Prop) (vs : List DVal) :
    DVal.sitesInList P vs ↔ ∀ v ∈ vs, DVal.sitesIn P v := by
  induction vs with
  | nil => simp [DVal.sitesInList]
  | cons v vs ih => simp [DVal.sitesInList, ih]

theorem DVal.sitesIn_mono {P Q : LoadSite → Prop} (hPQ : ∀ s, P s → Q s) :
    ∀ (v : DVal), DVal.sitesIn P v → DVal.sitesIn Q v
  | .null, _ => trivial
  | .src _ _, _ => trivial
  | .regionResult args i, h => by
    simp only [DVal.sitesIn] at h ⊢
    exact sitesInList_mono hPQ args h
  | .shfl v N, h => by
    simp only [DVal.sitesIn] at h ⊢
    exact DVal.sitesIn_mono hPQ v h
  | .loaded s o, h => by
    simp only [DVal.sitesIn] at h ⊢
    exact hPQ s h
where
  sitesInList_mono {P Q : LoadSite → Prop} (hPQ : ∀ s, P s → Q s) :
      ∀ (vs : List DVal), DVal.sitesInList P vs → DVal.sitesInList Q vs
    | [], _ => trivial
    | v :: vs, h => by
      simp only [DVal.sitesInList] at h ⊢
      exact ⟨DVal.sitesIn_mono hPQ v h.1, sitesInList_mono hPQ vs h.2⟩

theorem didx_range (l : List DVal) : ((List.range l.length).map fun i => didx l i) = l := by
  apply List.ext_getElem
  · simp
  · intro n h1 h2
    simp [didx, List.getD_eq_getElem?_getD, List.getElem?_eq_getElem h2]

theorem accumulate_first (acc cur : List DVal) : accumulate acc cur true = ([], cur) := by
  simp [accumulate, didx_range]

theorem accumulate_next_of_length (acc cur : List DVal) (h : cur.length = acc.length) :
    accumulate acc cur false =
      ([Instr.inlineRegion (acc ++ cur)],
        (List.range acc.length).map fun i => DVal.regionResult (acc ++ cur) i) := by
  have h1 := didx_range acc
  have h2 := didx_range cur
  rw [h] at h2
  simp only [accumulate, h1, h2]
  simp

/-- The value of the accumulator after one combine step. -/
theorem evalList_accumulate {α : Type} (b : Block α) (env : LoadEnv α) (acc cur : List DVal)
    (t : Nat) (h : cur.length = acc.length)
    (hlen : (b.combine (DVal.evalList b env acc t) (DVal.evalList b env cur t)).length =
      acc.length) :
    DVal.evalList b env (accumulate acc cur false).2 t =
      b.combine (DVal.evalList b env acc t) (DVal.evalList b env cur t) := by
  rw [accumulate_next_of_length acc cur h]
  simp only [DVal.evalList_eq_map, List.map_map]
  apply List.ext_getElem
  · simp only [List.length_map, List.length_range]
    simp only [DVal.evalList_eq_map] at hlen
    exact hlen.symm
  · intro n h1 h2
    simp only [List.getElem_map, List.getElem_range, Function.comp, DVal.eval,
      DVal.evalList_eq_map, List.map_append, Block.combine]
    rw [List.getD_eq_getElem?_getD, List.getElem?_eq_getElem]
    · rfl

/-! ## Index arithmetic -/

theorem flatAlong_add (g g' shape : Nat → Nat) (order : List Nat) :
    flatAlong (fun d => g d + g' d) shape order =
      flatAlong g shape order + flatAlong g' shape order := by
  induction order with
  | nil => rfl
  | cons d ds ih => simp only [flatAlong, ih]; ring

theorem flatAlong_congr (g g' shape : Nat → Nat) (order : List Nat)
    (h : ∀ d ∈ order, g d = g' d) : flatAlong g shape order = flatAlong g' shape order := by
  induction order with
  | nil => rfl
  | cons d ds ih =>
    simp only [flatAlong]
    rw [h d (List.mem_cons_self _ _), ih (fun x hx => h x (List.mem_cons_of_mem _ hx))]

theorem flatAlong_lt (g shape : Nat → Nat) (order : List Nat)
    (h : ∀ d ∈ order, g d < shape d) : flatAlong g shape order < (order.map shape).prod := by
  induction order with
  | nil => simp [flatAlong]
  | cons d ds ih =>
    have h1 := h d (List.mem_cons_self _ _)
    have h2 := ih (fun x hx => h x (List.mem_cons_of_mem _ hx))
    simp only [flatAlong, List.map_cons, List.prod_cons]
    calc g d + shape d * flatAlong g shape ds
        < shape d + shape d * flatAlong g shape ds := by omega
      _ = shape d * (flatAlong g shape ds + 1) := by ring
      _ ≤ shape d * (ds.map shape).prod := Nat.mul_le_mul_left _ h2

theorem flatAlong_inj (g g' shape : Nat → Nat) (order : List Nat)
    (h : ∀ d ∈ order, g d < shape d) (h' : ∀ d ∈ order, g' d < shape d)
    (heq : flatAlong g shape order = flatAlong g' shape order) : ∀ d ∈ order, g d = g' d := by
  induction order with
  | nil => intro d hd; exact absurd hd (List.not_mem_nil d)
  | cons d ds ih =>
    have h1 := h d (List.mem_cons_self _ _)
    have h1' := h' d (List.mem_cons_self _ _)
    simp only [flatAlong] at heq
    have hmod : g d = g' d := by
      have := congrArg (fun x => x % shape d) heq
      simp only [Nat.add_mul_mod_self_left] at this
      rwa [Nat.mod_eq_of_lt h1, Nat.mod_eq_of_lt h1'] at this
    have hdiv : flatAlong g shape ds = flatAlong g' shape ds := by
      rw [hmod] at heq
      have hpos : 0 < shape d := by omega
      exact Nat.eq_of_mul_eq_mul_left hpos (Nat.add_left_cancel heq)
    intro x hx
    rcases List.mem_cons.mp hx with hxd | hxd
    · subst hxd; exact hmod
    · exact ih (fun y hy => h y (List.mem_cons_of_mem _ hy))
        (fun y hy => h' y (List.mem_cons_of_mem _ hy)) hdiv x hxd

theorem prod_tail_le (shape : Nat → Nat) (d : Nat) (ds : List Nat) (hpos : 0 < shape d) :
    (ds.map shape).prod ≤ ((d :: ds).map shape).prod := by
  simp only [List.map_cons, List.prod_cons]
  exact Nat.le_mul_of_pos_left _ hpos

theorem eval_iidx {α : Type} (b : Block α) (t : Nat) (l : List IVal) (d : Nat) :
    (iidx l d).eval b t = idx (l.map fun v => v.eval b t) d := by
  unfold iidx idx
  rw [List.getD_eq_getElem?_getD, List.getD_eq_getElem?_getD, List.getElem?_map]
  cases l[d]? <;> rfl

/-- Value of `linearizeOrdered` on a coordinate in range. -/
theorem eval_linearizeOrdered {α : Type} (b : Block α) (t : Nat) (g : Nat → IVal)
    (shape : Nat → Nat) (order : List Nat)
    (hr : ∀ d ∈ order, (g d).eval b t < shape d)
    (hfit : (order.map shape).prod < 2 ^ 32) :
    (linearizeOrdered (order.map g) (order.map shape)).eval b t =
      flatAlong (fun d => (g d).eval b t) shape order := by
  induction order with
  | nil => simp [linearizeOrdered, flatAlong, IVal.eval, u32]
  | cons d ds ih =>
    have hd := hr d (List.mem_cons_self _ _)
    have hpos : 0 < shape d := by omega
    have hr' : ∀ x ∈ ds, (g x).eval b t < shape x := fun x hx => hr x (List.mem_cons_of_mem _ hx)
    have hfit' : (ds.map shape).prod < 2 ^ 32 := lt_of_le_of_lt (prod_tail_le shape d ds hpos) hfit
    have ih' := ih hr' hfit'
    cases ds with
    | nil => simp [linearizeOrdered, flatAlong]
    | cons d' ds' =>
      have hlast : ((d :: d' :: ds').map g).getLast? = ((d' :: ds').map g).getLast? := by
        simp [List.getLast?_cons_cons]
      have hlin : linearizeOrdered ((d :: d' :: ds').map g) ((d :: d' :: ds').map shape) =
          IVal.add (IVal.mul (linearizeOrdered ((d' :: ds').map g) ((d' :: ds').map shape))
            (.const (shape d))) (g d) := by
        unfold linearizeOrdered
        rw [hlast]
        cases hl : ((d' :: ds').map g).getLast? with
        | none => simp at hl
        | some last => simp [List.dropLast]
      rw [hlin]
      simp only [IVal.eval, ih']
      have hlt := flatAlong_lt (fun x => (g x).eval b t) shape (d :: d' :: ds') hr
      have hsd : shape d < 2 ^ 32 := by
        have h1 : 0 < ((d' :: ds').map shape).prod := by
          have := flatAlong_lt (fun x => (g x).eval b t) shape (d' :: ds') hr'
          omega
        have : shape d ≤ ((d :: d' :: ds').map shape).prod := by
          simp only [List.map_cons, List.prod_cons] at h1 ⊢
          exact Nat.le_mul_of_pos_right _ h1
        omega
      simp only [flatAlong] at hlt ⊢
      have e1 : u32 (shape d) = shape d := u32_of_lt hsd
      rw [e1]
      have hmul : flatAlong (fun x => (g x).eval b t) shape ds' * 0 = 0 := by simp
      have h2 : ((g d').eval b t + shape d' * flatAlong (fun x => (g x).eval b t) shape ds') *
          shape d < 2 ^ 32 := by
        have := Nat.mul_comm (shape d)
          ((g d').eval b t + shape d' * flatAlong (fun x => (g x).eval b t) shape ds')
        omega
      rw [u32_of_lt h2]
      have h3 : ((g d').eval b t + shape d' * flatAlong (fun x => (g x).eval b t) shape ds') *
          shape d + (g d).eval b t < 2 ^ 32 := by
        have := Nat.mul_comm (shape d)
          ((g d').eval b t + shape d' * flatAlong (fun x => (g x).eval b t) shape ds')
        omega
      rw [u32_of_lt h3]
      ring

/-! ## The maps `accs` and `indices` -/

theorem keyLt_irrefl (a : List Nat) : keyLt a a = false := by
  induction a with
  | nil => rfl
  | cons x xs ih => simp [keyLt, ih]

theorem keyLt_trans : ∀ (a b c : List Nat), keyLt a b = true → keyLt b c = true →
    keyLt a c = true
  | [], [], _, h, _ => by simp [keyLt] at h
  | [], _ :: _, [], _, h => by simp [keyLt] at h
  | [], _ :: _, _ :: _, _, _ => by simp [keyLt]
  | _ :: _, [], _, h, _ => by simp [keyLt] at h
  | _ :: _, _ :: _, [], _, h => by simp [keyLt] at h
  | x :: xs, y :: ys, z :: zs, h1, h2 => by
    simp only [keyLt] at h1 h2 ⊢
    by_cases hxy : x < y
    · by_cases hyz : y < z
      · have : x < z := by omega
        simp [this]
      · simp only [hyz, if_false] at h2
        by_cases hzy : z < y
        · simp [hzy] at h2
        · have : x < z := by omega
          simp [this]
    · simp only [hxy, if_false] at h1
      by_cases hyx : y < x
      · simp [hyx] at h1
      · simp only [hyx, if_false] at h1
        have hxy' : x = y := by omega
        subst hxy'
        by_cases hyz : x < z
        · simp [hyz]
        · simp only [hyz, if_false] at h2 ⊢
          by_cases hzy : z < x
          · simp [hzy] at h2
          · simp only [hzy, if_false] at h2 ⊢
            exact keyLt_trans xs ys zs h1 h2

theorem keyLt_total : ∀ (a b : List Nat), keyLt a b = false → a ≠ b → keyLt b a = true
  | [], [], _, h => absurd rfl h
  | [], _ :: _, h, _ => by simp [keyLt] at h
  | _ :: _, [], _, _ => by simp [keyLt]
  | x :: xs, y :: ys, h1, h2 => by
    simp only [keyLt] at h1 ⊢
    by_cases hxy : x < y
    · simp [hxy] at h1
    · simp only [hxy, if_false] at h1
      by_cases hyx : y < x
      · simp [hyx]
      · simp only [hyx, if_false] at h1 ⊢
        have hxy' : x = y := by omega
        subst hxy'
        simp only [Nat.lt_irrefl, if_false]
        exact keyLt_total xs ys h1 (fun h => h2 (by rw [h]))

theorem mapFind_mapSet {V : Type} (key : List Nat) (v : V) (m : List (List Nat × V))
    (key' : List Nat) :
    mapFind (mapSet key v m) key' = if key' = key then some v else mapFind m key' := by
  induction m with
  | nil => simp [mapSet, mapFind]
  | cons p rest ih =>
    obtain ⟨k, w⟩ := p
    simp only [mapSet]
    by_cases h1 : key = k
    · subst h1
      simp only [if_true, mapFind]
      by_cases h3 : key' = key <;> simp [h3]
    · simp only [h1, if_false]
      by_cases h2 : keyLt key k = true
      · simp only [h2, if_true, mapFind]
      · rw [if_neg h2]
        simp only [mapFind, ih]
        by_cases h3 : key' = k
        · have : ¬ k = key := fun h => h1 h.symm
          simp [h3, this]
        · simp [h3]

theorem mapSet_mem {V : Type} (key : List Nat) (v : V) (m : List (List Nat × V))
    (p : List Nat × V) (hp : p ∈ mapSet key v m) : p = (key, v) ∨ p ∈ m := by
  induction m with
  | nil => simp [mapSet] at hp; exact Or.inl hp
  | cons q rest ih =>
    obtain ⟨k, w⟩ := q
    simp only [mapSet] at hp
    by_cases h1 : key = k
    · simp only [h1, if_true, List.mem_cons] at hp
      rcases hp with hp | hp
      · left; rw [hp, h1]
      · right; exact List.mem_cons_of_mem _ hp
    · simp only [h1, if_false] at hp
      by_cases h2 : keyLt key k = true
      · simp only [h2, if_true, List.mem_cons] at hp
        rcases hp with hp | hp | hp
        · exact Or.inl hp
        · right; rw [hp]; exact List.mem_cons_self _ _
        · right; exact List.mem_cons_of_mem _ hp
      · rw [if_neg h2] at hp
        cases List.mem_cons.mp hp with
        | inl hq => right; rw [hq]; exact List.mem_cons_self _ _
        | inr hq =>
          cases ih hq with
          | inl h => exact Or.inl h
          | inr h => right; exact List.mem_cons_of_mem _ h

theorem mapSet_sorted {V : Type} (key : List Nat) (v : V) (m : List (List Nat × V))
    (hm : m.Pairwise fun p q => keyLt p.1 q.1 = true) :
    (mapSet key v m).Pairwise fun p q => keyLt p.1 q.1 = true := by
  induction m with
  | nil => simp [mapSet]
  | cons q rest ih =>
    obtain ⟨k, w⟩ := q
    rw [List.pairwise_cons] at hm
    simp only [mapSet]
    by_cases h1 : key = k
    · simp only [h1, if_true]
      exact List.pairwise_cons.mpr ⟨hm.1, hm.2⟩
    · simp only [h1, if_false]
      by_cases h2 : keyLt key k = true
      · simp only [h2, if_true]
        refine List.pairwise_cons.mpr ⟨?_, List.pairwise_cons.mpr hm⟩
        intro p hp
        rcases List.mem_cons.mp hp with hp | hp
        · rw [hp]; exact h2
        · exact keyLt_trans _ _ _ h2 (hm.1 p hp)
      · rw [if_neg h2]
        refine List.pairwise_cons.mpr ⟨?_, ih hm.2⟩
        intro p hp
        rcases mapSet_mem key v rest p hp with hp | hp
        · rw [hp]
          exact keyLt_total key k (by simpa using h2) h1
        · exact hm.1 p hp

theorem mapFind_of_mem {V : Type} (m : List (List Nat × V))
    (hm : m.Pairwise fun p q => keyLt p.1 q.1 = true) (key : List Nat) (v : V)
    (h : (key, v) ∈ m) : mapFind m key = some v := by
  induction m with
  | nil => exact absurd h (List.not_mem_nil _)
  | cons q rest ih =>
    obtain ⟨k, w⟩ := q
    rw [List.pairwise_cons] at hm
    rcases List.mem_cons.mp h with h | h
    · cases h
      simp [mapFind]
    · have hlt := hm.1 _ h
      have hne : key ≠ k := by
        intro he
        rw [he, keyLt_irrefl] at hlt
        exact absurd hlt (by simp)
      simp only [mapFind, hne, if_false]
      exact ih hm.2 h

theorem mem_of_mapFind {V : Type} (m : List (List Nat × V)) (key : List Nat) (v : V)
    (h : mapFind m key = some v) : (key, v) ∈ m := by
  induction m with
  | nil => simp [mapFind] at h
  | cons q rest ih =>
    obtain ⟨k, w⟩ := q
    simp only [mapFind] at h
    by_cases hk : key = k
    · simp only [hk, if_true, Option.some.injEq] at h
      rw [hk, h]; exact List.mem_cons_self _ _
    · simp only [hk, if_false] at h
      exact List.mem_cons_of_mem _ (ih h)

/-! ## The loop "reduce within threads" -/

theorem evalList_srcValues {α : Type} (op : ReduceOp) (b : Block α) (env : LoadEnv α)
    (e t : Nat) :
    DVal.evalList b env (op.srcValues e) t = b.srcTuple op.numOperands t e := by
  simp [DVal.evalList_eq_map, ReduceOp.srcValues, Block.srcTuple, DVal.eval]

theorem sitesInList_srcValues (op : ReduceOp) (P : LoadSite → Prop) (e : Nat) :
    DVal.sitesInList P (op.srcValues e) := by
  rw [DVal.sitesInList_iff]
  intro v hv
  simp only [ReduceOp.srcValues, List.mem_map, List.mem_range] at hv
  obtain ⟨o, _, rfl⟩ := hv
  trivial

theorem group_succ (op : ReduceOp) (κ : List Nat) (m : Nat) :
    op.group κ (m + 1) = op.group κ m ++ (if op.key m = κ then [m] else []) := by
  unfold ReduceOp.group
  rw [List.range_succ, List.filter_append]
  by_cases h : op.key m = κ <;> simp [h]

theorem combineAll_append_singleton {α : Type} (f : List α → List α → List α)
    (l : List (List α)) (x : List α) (hl : l ≠ []) :
    combineAll f (l ++ [x]) = f (combineAll f l) x := by
  cases l with
  | nil => exact absurd rfl hl
  | cons y ys => simp [combineAll, List.foldl_append]

theorem combineAll_length_of {α : Type} {f : List α → List α → List α} {k : Nat}
    (hc : ∀ x y, x.length = k → y.length = k → (f x y).length = k)
    (l : List (List α)) (hl : l ≠ []) (hx : ∀ y ∈ l, y.length = k) :
    (combineAll f l).length = k := by
  cases l with
  | nil => exact absurd rfl hl
  | cons y ys =>
    exact combineAll_length hc y ys (hx y (List.mem_cons_self _ _))
      (fun z hz => hx z (List.mem_cons_of_mem _ hz))

theorem srcTuple_length {α : Type} (b : Block α) (k t e : Nat) : (b.srcTuple k t e).length = k := by
  simp [Block.srcTuple]

theorem foldInv_init {α : Type} (op : ReduceOp) (b : Block α) :
    FoldInv op b 0 ⟨[], [], []⟩ := by
  refine ⟨List.Pairwise.nil, ?_, ?_, ?_, ?_⟩
  · intro κ; simp [mapFind, ReduceOp.group]
  · intro κ a h; simp [mapFind] at h
  · intro κ; simp [mapFind, ReduceOp.group]
  · intro ins h; exact absurd h (List.not_mem_nil _)

theorem foldInv_step {α : Type} (op : ReduceOp) (b : Block α)
    (hc : ∀ x y, x.length = op.numOperands → y.length = op.numOperands →
      (b.combine x y).length = op.numOperands)
    (m : Nat) (st : FoldState) (h : FoldInv op b m st) :
    FoldInv op b (m + 1) (reduceWithinThreadsStep op st m) := by
  have hkey : (op.offset.getD m []).set op.helper.axis 0 = op.key m := rfl
  cases hfind : mapFind st.accs (op.key m) with
  | none =>
    have hgrp := (h.none_iff (op.key m)).mp hfind
    have hstep : reduceWithinThreadsStep op st m =
        { code := st.code, accs := mapSet (op.key m) (op.srcValues m) st.accs,
          indices := mapSet (op.key m) (op.srcIndices m) st.indices } := by
      simp only [reduceWithinThreadsStep, hkey, hfind, accumulate_first, Option.isNone_none,
        Option.getD_none, if_true, List.append_nil]
    rw [hstep]
    refine ⟨mapSet_sorted _ _ _ h.sorted, ?_, ?_, ?_, h.code⟩
    · intro κ
      rw [mapFind_mapSet, group_succ]
      by_cases hk : κ = op.key m
      · simp [hk]
      · have hk' : ¬ op.key m = κ := fun e => hk e.symm
        simp [hk, hk', h.none_iff κ]
    · intro κ a ha
      rw [mapFind_mapSet] at ha
      by_cases hk : κ = op.key m
      · simp only [hk, if_true, Option.some.injEq] at ha
        subst ha
        refine ⟨by simp [ReduceOp.srcValues], sitesInList_srcValues op _ m, ?_⟩
        intro env t
        rw [hk, group_succ, hgrp, evalList_srcValues]
        simp [combineAll]
      · simp only [hk, if_false] at ha
        have hk' : ¬ op.key m = κ := fun e => hk e.symm
        have := h.acc κ a ha
        rw [group_succ]
        simpa [hk'] using this
    · intro κ
      rw [mapFind_mapSet, group_succ]
      by_cases hk : κ = op.key m
      · simp [hk, hgrp]
      · have hk' : ¬ op.key m = κ := fun e => hk e.symm
        simp [hk, hk', h.indices κ]
  | some a0 =>
    obtain ⟨hlen, hsites, hval⟩ := h.acc _ _ hfind
    have hgrp : op.group (op.key m) m ≠ [] := by
      intro he
      have := (h.none_iff (op.key m)).mpr he
      rw [hfind] at this
      exact absurd this (by simp)
    have hsl : (op.srcValues m).length = a0.length := by simp [ReduceOp.srcValues, hlen]
    have hstep : reduceWithinThreadsStep op st m =
        { code := st.code ++ [Instr.inlineRegion (a0 ++ op.srcValues m)],
          accs := mapSet (op.key m) (accumulate a0 (op.srcValues m) false).2 st.accs,
          indices := st.indices } := by
      simp only [reduceWithinThreadsStep, hkey, hfind, accumulate_next_of_length _ _ hsl,
        Option.isNone_some, Option.getD_some, if_false, Bool.false_eq_true]
    rw [hstep]
    refine ⟨mapSet_sorted _ _ _ h.sorted, ?_, ?_, ?_, ?_⟩
    · intro κ
      rw [mapFind_mapSet, group_succ]
      by_cases hk : κ = op.key m
      · simp [hk]
      · have hk' : ¬ op.key m = κ := fun e => hk e.symm
        simp [hk, hk', h.none_iff κ]
    · intro κ a ha
      rw [mapFind_mapSet] at ha
      by_cases hk : κ = op.key m
      · simp only [hk, if_true, Option.some.injEq] at ha
        subst ha
        have hvalid : ∀ y ∈ (op.group (op.key m) m).map (b.srcTuple op.numOperands 0),
            y.length = op.numOperands := by
          intro y hy
          obtain ⟨e, _, rfl⟩ := List.mem_map.mp hy
          exact srcTuple_length _ _ _ _
        refine ⟨?_, ?_, ?_⟩
        · rw [accumulate_next_of_length _ _ hsl]; simp [hlen]
        · rw [accumulate_next_of_length _ _ hsl, DVal.sitesInList_iff]
          intro v hv
          simp only [List.mem_map, List.mem_range] at hv
          obtain ⟨i, _, rfl⟩ := hv
          simp only [DVal.sitesIn]
          rw [DVal.sitesInList_iff]
          intro w hw
          rcases List.mem_append.mp hw with hw | hw
          · exact (DVal.sitesInList_iff _ _).mp hsites w hw
          · exact (DVal.sitesInList_iff _ _).mp (sitesInList_srcValues op _ m) w hw
        · intro env t
          have hl1 : (DVal.evalList b env a0 t).length = op.numOperands := by
            rw [DVal.evalList_length, hlen]
          have hl2 : (DVal.evalList b env (op.srcValues m) t).length = op.numOperands := by
            rw [DVal.evalList_length, hsl, hlen]
          rw [evalList_accumulate b env a0 _ t hsl (by rw [hlen]; exact hc _ _ hl1 hl2)]
          rw [hk, group_succ]
          simp only [if_true, List.map_append, List.map_cons, List.map_nil]
          rw [combineAll_append_singleton _ _ _ (by simpa using hgrp), hval env t,
            evalList_srcValues]
      · simp only [hk, if_false] at ha
        have hk' : ¬ op.key m = κ := fun e => hk e.symm
        have := h.acc κ a ha
        rw [group_succ]
        simpa [hk'] using this
    · intro κ
      rw [group_succ]
      by_cases hk : κ = op.key m
      · rw [h.indices κ, hk]
        cases hg : op.group (op.key m) m with
        | nil => exact absurd hg hgrp
        | cons x xs => simp
      · have hk' : ¬ op.key m = κ := fun e => hk e.symm
        simp [hk', h.indices κ]
    · intro ins hins
      rcases List.mem_append.mp hins with hi | hi
      · exact h.code ins hi
      · exact ⟨_, List.mem_singleton.mp hi⟩

theorem foldInv_range {α : Type} (op : ReduceOp) (b : Block α)
    (hc : ∀ x y, x.length = op.numOperands → y.length = op.numOperands →
      (b.combine x y).length = op.numOperands) (m : Nat) :
    FoldInv op b m ((List.range m).foldl (reduceWithinThreadsStep op) ⟨[], [], []⟩) := by
  induction m with
  | zero => exact foldInv_init op b
  | succ m ih =>
    rw [List.range_succ, List.foldl_append]
    exact foldInv_step op b hc m _ ih

theorem foldInv_reduceWithinThreads {α : Type} (op : ReduceOp) (b : Block α)
    (hc : ∀ x y, x.length = op.numOperands → y.length = op.numOperands →
      (b.combine x y).length = op.numOperands) :
    FoldInv op b op.srcElems (reduceWithinThreads op) :=
  foldInv_range op b hc op.srcElems

/-! ## Halving loops and cached constants -/

theorem halvingsFrom_fuel (fuel : Nat) : ∀ (fuel' N : Nat), N ≤ fuel → N ≤ fuel' →
    halvingsFrom fuel N = halvingsFrom fuel' N := by
  induction fuel with
  | zero =>
    intro fuel' N h _
    have : N = 0 := by omega
    subst this
    cases fuel' <;> simp [halvingsFrom]
  | succ f ih =>
    intro fuel' N h h'
    cases fuel' with
    | zero =>
      have : N = 0 := by omega
      subst this
      simp [halvingsFrom]
    | succ f' =>
      simp only [halvingsFrom]
      by_cases hN : 0 < N
      · simp only [hN, if_true]
        rw [ih f' (N / 2) (by omega) (by omega)]
      · simp [hN]

theorem halvings_zero : halvings 0 = [] := rfl

theorem halvings_pos (N : Nat) (h : 0 < N) : halvings N = N :: halvings (N / 2) := by
  unfold halvings
  cases N with
  | zero => exact absurd h (Nat.lt_irrefl 0)
  | succ n =>
    simp only [halvingsFrom, h, if_true]
    rw [halvingsFrom_fuel n ((n + 1) / 2) ((n + 1) / 2) (by omega) (Nat.le_refl _)]

theorem halvings_pow (j : Nat) : halvings (2 ^ (j + 1) / 2) = 2 ^ j :: halvings (2 ^ j / 2) := by
  have : 2 ^ (j + 1) / 2 = 2 ^ j := by
    rw [Nat.pow_succ]; exact Nat.mul_div_cancel _ (by decide)
  rw [this, halvings_pos _ (Nat.pow_pos (by decide))]

theorem mem_halvings_lt (n : Nat) : ∀ N ∈ halvings n, 0 < N ∧ N ≤ n := by
  induction n using Nat.strong_induction_on with
  | _ n ih =>
    intro N hN
    by_cases hn : 0 < n
    · rw [halvings_pos n hn] at hN
      rcases List.mem_cons.mp hN with h | h
      · subst h; exact ⟨hn, Nat.le_refl _⟩
      · have := ih (n / 2) (Nat.div_lt_self hn (by decide)) N h
        exact ⟨this.1, Nat.le_trans this.2 (Nat.div_le_self _ _)⟩
    · have : n = 0 := by omega
      subst this
      simp [halvings_zero] at hN

theorem intsGet_of_mem (ints : List (Nat × IVal)) (hall : ∀ p ∈ ints, p.2 = IVal.const p.1)
    (k : Nat) (hk : ∃ p ∈ ints, p.1 = k) : intsGet ints k = IVal.const k := by
  induction ints with
  | nil => obtain ⟨p, hp, _⟩ := hk; exact absurd hp (List.not_mem_nil _)
  | cons q rest ih =>
    obtain ⟨k', v⟩ := q
    simp only [intsGet]
    by_cases h : k = k'
    · simp only [h, if_true]
      have := hall (k', v) (List.mem_cons_self _ _)
      simpa using this
    · simp only [h, if_false]
      apply ih (fun p hp => hall p (List.mem_cons_of_mem _ hp))
      obtain ⟨p, hp, hpk⟩ := hk
      rcases List.mem_cons.mp hp with hp | hp
      · subst hp; exact absurd hpk.symm h
      · exact ⟨p, hp, hpk⟩

theorem basicInts_const (smemShape sizePerThread : List Nat) (axis : Nat) :
    ∀ p ∈ basicInts smemShape sizePerThread axis, p.2 = IVal.const p.1 := by
  intro p hp
  simp only [basicInts, List.mem_append, List.mem_cons, List.mem_map, List.mem_singleton,
    List.not_mem_nil, or_false] at hp
  rcases hp with (hp | ⟨N, _, hp⟩) | hp | hp | hp <;> subst hp <;> rfl

theorem basicInts_zero (smemShape sizePerThread : List Nat) (axis : Nat) :
    intsGet (basicInts smemShape sizePerThread axis) 0 = IVal.const 0 := rfl

theorem basicInts_halving (smemShape sizePerThread : List Nat) (axis N : Nat)
    (hN : N ∈ halvings (idx smemShape axis / 2)) :
    intsGet (basicInts smemShape sizePerThread axis) N = IVal.const N := by
  apply intsGet_of_mem _ (basicInts_const _ _ _)
  refine ⟨(N, IVal.const N), ?_, rfl⟩
  simp only [basicInts, List.mem_append, List.mem_map]
  exact Or.inl (Or.inr ⟨N, hN, rfl⟩)

theorem basicInts_sizePerThread (smemShape sizePerThread : List Nat) (axis : Nat) :
    intsGet (basicInts smemShape sizePerThread axis) (idx sizePerThread axis) =
      IVal.const (idx sizePerThread axis) := by
  apply intsGet_of_mem _ (basicInts_const _ _ _)
  refine ⟨(idx sizePerThread axis, IVal.const (idx sizePerThread axis)), ?_, rfl⟩
  simp [basicInts]

/-! ## Tree reduction of one key -/

theorem ptrOffset_one {α : Type} (b : Block α) (t : Nat) (x : IVal) :
    ptrOffset b t [x] = x.eval b t := by
  simp [ptrOffset]

theorem ptrOffset_two {α : Type} (b : Block α) (t : Nat) (x y : IVal) :
    ptrOffset b t [x, y] = x.eval b t + y.eval b t := by
  simp [ptrOffset]

theorem eval_didx {α : Type} (b : Block α) (env : LoadEnv α) (acc : List DVal) (o t : Nat)
    (ho : o < acc.length) :
    (didx acc o).eval b env t = (DVal.evalList b env acc t).getD o b.undef := by
  simp [didx, DVal.evalList_eq_map, List.getD_eq_getElem?_getD, List.getElem?_eq_getElem ho]

theorem evalList_eq_range {α : Type} (b : Block α) (env : LoadEnv α) (acc : List DVal) (t : Nat) :
    DVal.evalList b env acc t = (List.range acc.length).map fun o => (didx acc o).eval b env t := by
  conv_lhs => rw [← didx_range acc]
  simp [DVal.evalList_eq_map]

theorem mod_double_iff (N s s0 : Nat) (hN : 0 < N) (hs0 : s0 < N) :
    (s % N = s0 ↔ s % (2 * N) = s0 ∨ s % (2 * N) = s0 + N) ∧
      ¬ (s % (2 * N) = s0 ∧ s % (2 * N) = s0 + N) := by
  have h1 : s % (2 * N) % N = s % N := Nat.mod_mul_left_mod s 2 N
  have h2 : s % (2 * N) < 2 * N := Nat.mod_lt _ (by omega)
  constructor
  · by_cases hr : s % (2 * N) < N
    · rw [Nat.mod_eq_of_lt hr] at h1
      omega
    · have : s % (2 * N) % N = s % (2 * N) - N := by
        rw [Nat.mod_eq_sub_mod (by omega), Nat.mod_eq_of_lt (by omega)]
      omega
  · omega

theorem sum_residue_split {M : Type} [AddCommMonoid M] (S N s0 : Nat) (hN : 0 < N)
    (hs0 : s0 < N) (q : Nat → M) :
    ∑ s in (Finset.range S).filter (fun s => s % N = s0), q s =
      ∑ s in (Finset.range S).filter (fun s => s % (2 * N) = s0), q s +
        ∑ s in (Finset.range S).filter (fun s => s % (2 * N) = s0 + N), q s := by
  rw [Finset.sum_filter, Finset.sum_filter, Finset.sum_filter, ← Finset.sum_add_distrib]
  apply Finset.sum_congr rfl
  intro s _
  have h := mod_double_iff N s s0 hN hs0
  by_cases h1 : s % (2 * N) = s0
  · have h2 : ¬ s % (2 * N) = s0 + N := fun h2 => h.2 ⟨h1, h2⟩
    have h3 : s % N = s0 := h.1.mpr (Or.inl h1)
    rw [if_pos h3, if_pos h1, if_neg h2, add_zero]
  · by_cases h2 : s % (2 * N) = s0 + N
    · have h3 : s % N = s0 := h.1.mpr (Or.inr h2)
      rw [if_pos h3, if_neg h1, if_pos h2, zero_add]
    · have h3 : ¬ s % N = s0 := fun h3 => by
        rcases h.1.mp h3 with h4 | h4
        · exact h1 h4
        · exact h2 h4
      rw [if_neg h3, if_neg h1, if_neg h2, add_zero]

theorem sum_residue_self {M : Type} [AddCommMonoid M] (S s0 : Nat) (hs0 : s0 < S) (q : Nat → M) :
    ∑ s in (Finset.range S).filter (fun s => s % S = s0), q s = q s0 := by
  have : (Finset.range S).filter (fun s => s % S = s0) = {s0} := by
    ext s
    simp only [Finset.mem_filter, Finset.mem_range, Finset.mem_singleton]
    constructor
    · rintro ⟨h1, h2⟩
      rwa [Nat.mod_eq_of_lt h1] at h2
    · intro h
      subst h
      exact ⟨hs0, Nat.mod_eq_of_lt hs0⟩
  rw [this, Finset.sum_singleton]

theorem sum_residue_one {M : Type} [AddCommMonoid M] (S : Nat) (q : Nat → M) :
    ∑ s in (Finset.range S).filter (fun s => s % 1 = 0), q s = ∑ s in Finset.range S, q s := by
  apply Finset.sum_congr _ (fun _ _ => rfl)
  ext s
  simp [Nat.mod_one]

/-- After the stores of an accumulator, a slot all of whose writers hold the same
tuple contains that tuple. -/
theorem stores_publish {α : Type} (b : Block α) (env : LoadEnv α) (k : Nat) (w : IVal)
    (acc : List DVal) (hlen : acc.length = k) (mem : Nat → Nat → α) (t : Nat)
    (ht : t < b.numThreads)
    (hsame : ∀ t', t' < b.numThreads → w.eval b t' = w.eval b t →
      DVal.evalList b env acc t' = DVal.evalList b env acc t) :
    ((List.range k).map fun o =>
        (if o < k then storeAll b env o [w] (didx acc o) (fun _ => true) mem o (w.eval b t)
          else mem o (w.eval b t))) =
      DVal.evalList b env acc t := by
  rw [evalList_eq_range b env acc t, hlen]
  apply List.map_congr_left
  intro o ho
  have ho' : o < k := List.mem_range.mp ho
  rw [if_pos ho']
  apply storeAll_hit
  · exact ⟨t, ht, rfl, ptrOffset_one b t w⟩
  · intro t' ht' _ hp
    rw [ptrOffset_one] at hp
    rw [eval_didx b env acc o t' (by omega), eval_didx b env acc o t (by omega),
      hsame t' ht' hp]

/-- The stores of an accumulator leave every offset no thread writes to
unchanged. -/
theorem stores_frame {α : Type} (b : Block α) (env : LoadEnv α) (k : Nat) (w : IVal)
    (acc : List DVal) (mem : Nat → Nat → α) (o a : Nat)
    (hmiss : ∀ t, t < b.numThreads → a ≠ w.eval b t) :
    (if o < k then storeAll b env o [w] (didx acc o) (fun _ => true) mem o a else mem o a) =
      mem o a := by
  split
  · apply storeAll_miss
    intro t ht _ hp
    rw [ptrOffset_one] at hp
    exact hmiss t ht hp.symm
  · rfl

theorem evalList_loaded {α : Type} (b : Block α) (env : LoadEnv α) (site : LoadSite)
    (k t : Nat) :
    DVal.evalList b env ((List.range k).map fun i => DVal.loaded site i) t =
      (List.range k).map fun o => env t site o := by
  simp [DVal.evalList_eq_map, DVal.eval]

theorem sitesInList_loaded (P : LoadSite → Prop) (site : LoadSite) (k : Nat) (h : P site) :
    DVal.sitesInList P ((List.range k).map fun i => DVal.loaded site i) := by
  rw [DVal.sitesInList_iff]
  intro v hv
  obtain ⟨i, _, rfl⟩ := List.mem_map.mp hv
  exact h

theorem sitesInList_mono {P Q : LoadSite → Prop} (hPQ : ∀ s, P s → Q s) (vs : List DVal)
    (h : DVal.sitesInList P vs) : DVal.sitesInList Q vs := by
  rw [DVal.sitesInList_iff] at h ⊢
  exact fun v hv => DVal.sitesIn_mono hPQ v (h v hv)

theorem sitesInList_accumulate (P : LoadSite → Prop) (acc cur : List DVal)
    (h : cur.length = acc.length) (ha : DVal.sitesInList P acc) (hc : DVal.sitesInList P cur) :
    DVal.sitesInList P (accumulate acc cur false).2 := by
  rw [accumulate_next_of_length acc cur h, DVal.sitesInList_iff]
  intro v hv
  obtain ⟨i, _, rfl⟩ := List.mem_map.mp hv
  simp only [DVal.sitesIn]
  rw [DVal.sitesInList_iff] at ha hc ⊢
  intro w hw
  rcases List.mem_append.mp hw with hw | hw
  · exact ha w hw
  · exact hc w hw

theorem accumulate_length (acc cur : List DVal) (h : cur.length = acc.length) :
    (accumulate acc cur false).2.length = acc.length := by
  rw [accumulate_next_of_length acc cur h]; simp

theorem run_accumulate_code {α : Type} (b : Block α) (E : Nat) (acc cur : List DVal)
    (st : State α) : run b E (accumulate acc cur false).1 st = some st := by
  simp [accumulate, run, Instr.exec]

/-- One round of the tree reduction (barrier, load, combine, barrier, store) at
distance `N` takes the invariant from width `2 * N` to width `N`. -/
theorem basicRound_step {α M : Type} [AddCommMonoid M] (b : Block α) (k E S σ : Nat)
    (φ : List α → M) (hm : CombineModel b.combine k φ) (Bf sf : Nat → Nat)
    (geo : TreeGeometry b.numThreads S σ E Bf sf) (Q : Nat → Nat → M)
    (hQ : ∀ t t', t < b.numThreads → t' < b.numThreads → Bf t = Bf t' → ∀ s, Q t s = Q t' s)
    (κ : List Nat) (writeOffset readOffset : IVal) (N : Nat) (hN : 0 < N) (h2N : 2 * N ≤ S)
    (hW : ∀ t, t < b.numThreads → writeOffset.eval b t = Bf t + sf t * σ)
    (hR : ∀ t, t < b.numThreads → readOffset.eval b t = if sf t < N then N * σ else 0)
    (acc : List DVal) (st : State α) (inv : TreeInv b k φ S σ Bf sf Q κ (2 * N) acc st) :
    ∃ st', run b E
        ([Instr.barrier] ++
          ((List.range k).map fun i => Instr.load (.round κ N) i [writeOffset, readOffset]) ++
          (accumulate acc ((List.range k).map fun i => DVal.loaded (.round κ N) i) false).1 ++
          [Instr.barrier] ++
          ((List.range k).map fun i => Instr.store i [writeOffset]
            (didx (accumulate acc ((List.range k).map fun i => DVal.loaded (.round κ N) i)
              false).2 i))) st = some st' ∧
      TreeInv b k φ S σ Bf sf Q κ N
        (accumulate acc ((List.range k).map fun i => DVal.loaded (.round κ N) i) false).2 st' ∧
      (∀ o a, (∀ t, t < b.numThreads → a ≠ Bf t + sf t * σ) → st'.mem o a = st.mem o a) ∧
      (∀ t s o, s ≠ LoadSite.round κ N → st'.env t s o = st.env t s o) := by
  -- abbreviations
  generalize hcur : ((List.range k).map fun i => DVal.loaded (.round κ N) i) = cur
  have hcurlen : cur.length = acc.length := by rw [← hcur, inv.acc_len]; simp
  generalize hacc' : (accumulate acc cur false).2 = acc'
  have hacc'len : acc'.length = k := by
    rw [← hacc', accumulate_length acc cur hcurlen, inv.acc_len]
  -- the read pointer stays inside the region
  have hrd : ∀ t, t < b.numThreads → ptrOffset b t [writeOffset, readOffset] < E := by
    intro t ht
    rw [ptrOffset_two, hW t ht, hR t ht]
    have hs := geo.slot_lt t ht
    by_cases h : sf t < N
    · rw [if_pos h]
      have := geo.addr_lt t ht (sf t + N) (by omega)
      rw [Nat.add_mul] at this
      omega
    · rw [if_neg h]
      exact geo.addr_lt t ht (sf t) hs
  have hwr : ∀ t, t < b.numThreads → ptrOffset b t [writeOffset] < E := by
    intro t ht
    rw [ptrOffset_one, hW t ht]
    exact geo.addr_lt t ht (sf t) (geo.slot_lt t ht)
  -- run the code
  have hrun1 := run_loads b E (.round κ N) [writeOffset, readOffset] k st hrd
  generalize hst2 : ({ mem := st.mem
                       env := fun t s o =>
                         if t < b.numThreads ∧ s = LoadSite.round κ N ∧ o < k then
                           st.mem o (ptrOffset b t [writeOffset, readOffset])
                         else st.env t s o } : State α) = st2 at hrun1
  have hrun2 := run_stores b E [writeOffset] acc' k st2 hwr
  generalize hst3 : ({ env := st2.env
                       mem := fun o a =>
                         if o < k then
                           storeAll b st2.env o [writeOffset] (didx acc' o) (fun _ => true)
                             st2.mem o a
                         else st2.mem o a } : State α) = st3 at hrun2
  have hmem2 : st2.mem = st.mem := by rw [← hst2]
  have henv2 : ∀ t s o, st2.env t s o =
      if t < b.numThreads ∧ s = LoadSite.round κ N ∧ o < k then
        st.mem o (ptrOffset b t [writeOffset, readOffset])
      else st.env t s o := by intro t s o; rw [← hst2]
  have henv3 : st3.env = st2.env := by rw [← hst3]
  have hmem3 : ∀ o a, st3.mem o a =
      if o < k then
        storeAll b st2.env o [writeOffset] (didx acc' o) (fun _ => true) st.mem o a
      else st.mem o a := by intro o a; rw [← hst3, hmem2]
  refine ⟨st3, ?_, ?_, ?_, ?_⟩
  · -- execution
    have hb : ∀ s : State α, run b E [Instr.barrier] s = some s := fun s => rfl
    have h12 := run_of_steps b E (hb st) hrun1
    have h123 := run_of_steps b E h12 (run_accumulate_code b E acc cur st2)
    have h1234 := run_of_steps b E h123 (hb st2)
    exact run_of_steps b E h1234 hrun2
  · -- the invariant at width N
    have hA : ∀ t, DVal.evalList b st2.env acc t = DVal.evalList b st.env acc t := by
      intro t
      apply DVal.evalList_congr b st2.env st.env _ _ acc inv.acc_sites t
      intro t' s o hs
      obtain ⟨N', hs, hN'⟩ := hs
      rw [henv2]
      have : ¬ (t' < b.numThreads ∧ s = LoadSite.round κ N ∧ o < k) := by
        rintro ⟨_, h, _⟩
        rw [hs] at h
        injection h with _ h
        omega
      rw [if_neg this]
    have hB : ∀ t, t < b.numThreads → DVal.evalList b st2.env cur t =
        st.tuple k (ptrOffset b t [writeOffset, readOffset]) := by
      intro t ht
      rw [← hcur, evalList_loaded]
      apply List.map_congr_left
      intro o ho
      rw [henv2, if_pos ⟨ht, rfl, List.mem_range.mp ho⟩]
    have hlenA : ∀ t, (DVal.evalList b st.env acc t).length = k := by
      intro t; rw [DVal.evalList_length, inv.acc_len]
    have hlenB : ∀ t, (DVal.evalList b st2.env cur t).length = k := by
      intro t; rw [DVal.evalList_length, hcurlen, inv.acc_len]
    have hC : ∀ t, DVal.evalList b st2.env acc' t =
        b.combine (DVal.evalList b st.env acc t) (DVal.evalList b st2.env cur t) := by
      intro t
      rw [← hacc', evalList_accumulate b st2.env acc cur t hcurlen, hA t]
      rw [hA t, inv.acc_len]
      exact hm.closed _ _ (hlenA t) (hlenB t)
    have hD : ∀ t, t < b.numThreads → sf t < N →
        φ (DVal.evalList b st2.env acc' t) =
          ∑ s in (Finset.range S).filter (fun s => s % N = sf t), Q t s := by
      intro t ht hs
      obtain ⟨t', ht', hb', hs'⟩ := geo.cover t ht (sf t + N) (by omega)
      have hptr : ptrOffset b t [writeOffset, readOffset] = Bf t' + sf t' * σ := by
        rw [ptrOffset_two, hW t ht, hR t ht, if_pos hs, hb', hs', Nat.add_mul, Nat.add_assoc]
      rw [hC t, hm.map_add _ _ (hlenA t) (hlenB t), hB t ht, hptr,
        inv.pub t' ht' (by omega), inv.sum t ht (by omega), inv.sum t' ht' (by omega),
        sum_residue_split S N (sf t) hN hs, hs']
      congr 1
      apply Finset.sum_congr rfl
      intro s _
      exact hQ t' t ht' ht hb' s
    refine ⟨hacc'len, ?_, ?_, ?_⟩
    · rw [← hacc']
      apply sitesInList_accumulate _ _ _ hcurlen
      · exact sitesInList_mono (fun s ⟨N', h1, h2⟩ => ⟨N', h1, by omega⟩) _ inv.acc_sites
      · rw [← hcur]
        exact sitesInList_loaded _ _ _ ⟨N, rfl, Nat.le_refl _⟩
    · intro t ht hs
      rw [henv3]
      exact hD t ht hs
    · intro t ht hs
      rw [henv3]
      have hsame : ∀ t', t' < b.numThreads → writeOffset.eval b t' = writeOffset.eval b t →
          DVal.evalList b st2.env acc' t' = DVal.evalList b st2.env acc' t := by
        intro t' ht' hw
        rw [hW t' ht', hW t ht] at hw
        obtain ⟨hb', hs'⟩ := geo.addr_inj t' t ht' ht (sf t') (sf t) (geo.slot_lt t' ht')
          (geo.slot_lt t ht) hw
        apply hm.inj _ _ (by rw [DVal.evalList_length, hacc'len])
          (by rw [DVal.evalList_length, hacc'len])
        rw [hD t' ht' (by omega), hD t ht hs, hs']
        apply Finset.sum_congr rfl
        intro s _
        exact hQ t' t ht' ht hb' s
      have := stores_publish b st2.env k writeOffset acc' hacc'len st.mem t ht hsame
      rw [← this, ← hW t ht]
      unfold State.tuple
      apply List.map_congr_left
      intro o _
      rw [hmem3]
  · -- memory frame
    intro o a ha
    rw [hmem3]
    apply stores_frame
    intro t ht
    rw [hW t ht]
    exact ha t ht
  · -- load-result frame
    intro t s o hs
    rw [henv3, henv2]
    have : ¬ (t < b.numThreads ∧ s = LoadSite.round κ N ∧ o < k) := fun h => hs h.2.1
    rw [if_neg this]

/-- The whole loop over `N` for one key: from the invariant at width `2 ^ j` to
the invariant at width `1`. -/
theorem basicRounds_run {α M : Type} [AddCommMonoid M] (b : Block α) (k E S σ : Nat)
    (φ : List α → M) (hm : CombineModel b.combine k φ) (Bf sf : Nat → Nat)
    (geo : TreeGeometry b.numThreads S σ E Bf sf) (Q : Nat → Nat → M)
    (hQ : ∀ t t', t < b.numThreads → t' < b.numThreads → Bf t = Bf t' → ∀ s, Q t s = Q t' s)
    (κ : List Nat) (axis : Nat) (smemShape srcOrd : List Nat) (ints : List (Nat × IVal))
    (writeIdx : List IVal) (writeOffset : IVal)
    (hW : ∀ t, t < b.numThreads → writeOffset.eval b t = Bf t + sf t * σ)
    (hR : ∀ i, 2 * 2 ^ i ≤ S → ∀ t, t < b.numThreads →
      (basicReadOffset axis smemShape srcOrd ints writeIdx (2 ^ i)).eval b t =
        if sf t < 2 ^ i then 2 ^ i * σ else 0) :
    ∀ (j : Nat) (acc : List DVal) (st : State α), 2 ^ j ≤ S →
      TreeInv b k φ S σ Bf sf Q κ (2 ^ j) acc st →
      ∃ st', run b E
          (basicRounds k axis κ smemShape srcOrd ints writeIdx writeOffset
            (halvings (2 ^ j / 2)) acc).1 st = some st' ∧
        TreeInv b k φ S σ Bf sf Q κ 1
          (basicRounds k axis κ smemShape srcOrd ints writeIdx writeOffset
            (halvings (2 ^ j / 2)) acc).2 st' ∧
        (∀ o a, (∀ t, t < b.numThreads → a ≠ Bf t + sf t * σ) → st'.mem o a = st.mem o a) ∧
        (∀ t s o, (∀ N, s ≠ LoadSite.round κ N) → st'.env t s o = st.env t s o) := by
  intro j
  induction j with
  | zero =>
    intro acc st _ inv
    have : halvings (2 ^ 0 / 2) = [] := rfl
    rw [this]
    exact ⟨st, rfl, inv, fun _ _ _ => rfl, fun _ _ _ _ => rfl⟩
  | succ j ih =>
    intro acc st hS inv
    rw [halvings_pow j]
    have hN : 0 < 2 ^ j := Nat.pow_pos (by decide)
    have h2N : 2 * 2 ^ j ≤ S := by rw [Nat.pow_succ] at hS; omega
    have inv' : TreeInv b k φ S σ Bf sf Q κ (2 * 2 ^ j) acc st := by
      have : 2 * 2 ^ j = 2 ^ (j + 1) := by rw [Nat.pow_succ]; ring
      rw [this]; exact inv
    obtain ⟨st1, hrun1, inv1, hmem1, henv1⟩ :=
      basicRound_step b k E S σ φ hm Bf sf geo Q hQ κ writeOffset
        (basicReadOffset axis smemShape srcOrd ints writeIdx (2 ^ j)) (2 ^ j) hN h2N hW
        (hR j h2N) acc st inv'
    obtain ⟨st2, hrun2, inv2, hmem2, henv2⟩ := ih _ st1 (by omega) inv1
    refine ⟨st2, ?_, inv2, ?_, ?_⟩
    · simp only [basicRounds]
      exact run_of_steps b E hrun1 hrun2
    · intro o a ha
      rw [hmem2 o a ha, hmem1 o a ha]
    · intro t s o hs
      rw [henv2 t s o hs, henv1 t s o (hs _)]

/-- Publication of the within-thread accumulators and tree reduction for one key:
afterwards the first slot of every row holds the combine of the partial values of
all `S` slots of the row. -/
theorem basicKey_run {α M : Type} [AddCommMonoid M] (b : Block α) (k E S σ : Nat)
    (φ : List α → M) (hm : CombineModel b.combine k φ) (Bf sf : Nat → Nat)
    (geo : TreeGeometry b.numThreads S σ E Bf sf) (Q : Nat → Nat → M)
    (hQ : ∀ t t', t < b.numThreads → t' < b.numThreads → Bf t = Bf t' → ∀ s, Q t s = Q t' s)
    (κ : List Nat) (axis : Nat) (smemShape srcOrd : List Nat) (ints : List (Nat × IVal))
    (writeIdx : List IVal) (writeOffset : IVal)
    (hW : ∀ t, t < b.numThreads → writeOffset.eval b t = Bf t + sf t * σ)
    (hR : ∀ i, 2 * 2 ^ i ≤ S → ∀ t, t < b.numThreads →
      (basicReadOffset axis smemShape srcOrd ints writeIdx (2 ^ i)).eval b t =
        if sf t < 2 ^ i then 2 ^ i * σ else 0)
    (j : Nat) (hS : S = 2 ^ j) (acc : List DVal) (st : State α) (hlen : acc.length = k)
    (hsites : DVal.sitesInList (fun _ => False) acc)
    (hval : ∀ t, t < b.numThreads → φ (DVal.evalList b st.env acc t) = Q t (sf t)) :
    ∃ st', run b E
        (((List.range k).map fun i => Instr.store i [writeOffset] (didx acc i)) ++
          (basicRounds k axis κ smemShape srcOrd ints writeIdx writeOffset
            (halvings (S / 2)) acc).1) st = some st' ∧
      (∀ t, t < b.numThreads → φ (st'.tuple k (Bf t)) = ∑ s in Finset.range S, Q t s) ∧
      (∀ o a, (∀ t, t < b.numThreads → a ≠ Bf t + sf t * σ) → st'.mem o a = st.mem o a) ∧
      (∀ t s o, (∀ N, s ≠ LoadSite.round κ N) → st'.env t s o = st.env t s o) := by
  have hwr : ∀ t, t < b.numThreads → ptrOffset b t [writeOffset] < E := by
    intro t ht
    rw [ptrOffset_one, hW t ht]
    exact geo.addr_lt t ht (sf t) (geo.slot_lt t ht)
  have hrun0 := run_stores b E [writeOffset] acc k st hwr
  generalize hst1 : ({ env := st.env
                       mem := fun o a =>
                         if o < k then
                           storeAll b st.env o [writeOffset] (didx acc o) (fun _ => true)
                             st.mem o a
                         else st.mem o a } : State α) = st1 at hrun0
  have henv1 : st1.env = st.env := by rw [← hst1]
  have hmem1 : ∀ o a, st1.mem o a =
      if o < k then storeAll b st.env o [writeOffset] (didx acc o) (fun _ => true) st.mem o a
      else st.mem o a := by intro o a; rw [← hst1]
  have inv : TreeInv b k φ S σ Bf sf Q κ (2 ^ j) acc st1 := by
    rw [← hS]
    refine ⟨hlen, sitesInList_mono (fun s h => absurd h id) _ hsites, ?_, ?_⟩
    · intro t ht hs
      rw [henv1, hval t ht, sum_residue_self S (sf t) hs]
    · intro t ht hs
      rw [henv1]
      have hsame : ∀ t', t' < b.numThreads → writeOffset.eval b t' = writeOffset.eval b t →
          DVal.evalList b st.env acc t' = DVal.evalList b st.env acc t := by
        intro t' ht' hw
        rw [hW t' ht', hW t ht] at hw
        obtain ⟨hb', hs'⟩ := geo.addr_inj t' t ht' ht (sf t') (sf t) (geo.slot_lt t' ht')
          (geo.slot_lt t ht) hw
        apply hm.inj _ _ (by rw [DVal.evalList_length, hlen]) (by rw [DVal.evalList_length, hlen])
        rw [hval t' ht', hval t ht, hs']
        exact hQ t' t ht' ht hb' _
      have := stores_publish b st.env k writeOffset acc hlen st.mem t ht hsame
      rw [← this, ← hW t ht]
      unfold State.tuple
      apply List.map_congr_left
      intro o _
      rw [hmem1]
  obtain ⟨st2, hrun2, inv2, hmem2, henv2⟩ :=
    basicRounds_run b k E S σ φ hm Bf sf geo Q hQ κ axis smemShape srcOrd ints writeIdx
      writeOffset hW hR j acc st1 (by omega) inv
  rw [← hS] at hrun2 inv2
  refine ⟨st2, run_of_steps b E hrun0 hrun2, ?_, ?_, ?_⟩
  · intro t ht
    obtain ⟨t0, ht0, hb0, hs0⟩ := geo.cover t ht 0 (by rw [hS]; exact Nat.pow_pos (by decide))
    have h1 := inv2.pub t0 ht0 (by omega)
    have h2 := inv2.sum t0 ht0 (by omega)
    rw [hs0, Nat.zero_mul, Nat.add_zero, hb0] at h1
    rw [h1, h2, hs0, sum_residue_one]
    apply Finset.sum_congr rfl
    intro s _
    exact hQ t0 t ht0 ht hb0 s
  · intro o a ha
    rw [hmem2 o a ha, hmem1]
    apply stores_frame
    intro t ht
    rw [hW t ht]
    exact ha t ht
  · intro t s o hs
    rw [henv2 t s o hs, henv1]

/-! ## Vector subscripts -/

theorem getD_set {β : Type} (l : List β) (i d : Nat) (x dflt : β) :
    (l.set i x).getD d dflt = if d = i ∧ i < l.length then x else l.getD d dflt := by
  rw [List.getD_eq_getElem?_getD, List.getD_eq_getElem?_getD, List.getElem?_set]
  by_cases h : i = d
  · subst h
    by_cases h2 : i < l.length
    · simp [h2]
    · simp [h2, List.getElem?_eq_none (Nat.le_of_not_lt h2)]
  · have : ¬ d = i := fun e => h e.symm
    simp [h, this]

theorem getD_map_range {β : Type} (g : Nat → β) (r d : Nat) (dflt : β) :
    ((List.range r).map g).getD d dflt = if d < r then g d else dflt := by
  rw [List.getD_eq_getElem?_getD, List.getElem?_map]
  by_cases h : d < r
  · simp [h, List.getElem?_range h]
  · have : (List.range r)[d]? = none := List.getElem?_eq_none (by simp; omega)
    simp [h, this]

theorem getD_replicate {β : Type} (n d : Nat) (x dflt : β) :
    (List.replicate n x).getD d dflt = if d < n then x else dflt := by
  rw [List.getD_eq_getElem?_getD, List.getElem?_replicate]
  by_cases h : d < n <;> simp [h]

theorem getD_insertIdx {β : Type} (x dflt : β) : ∀ (ax : Nat) (l : List β) (d : Nat),
    ax ≤ l.length →
    (l.insertIdx ax x).getD d dflt =
      if d < ax then l.getD d dflt else if d = ax then x else l.getD (d - 1) dflt
  | 0, l, d, _ => by
    cases d with
    | zero => simp
    | succ d => simp
  | ax + 1, [], d, h => by simp at h
  | ax + 1, y :: ys, d, h => by
    rw [List.insertIdx_succ_cons]
    cases d with
    | zero => simp
    | succ d =>
      simp only [List.getD_cons_succ, Nat.add_lt_add_iff_right, Nat.add_right_cancel_iff,
        Nat.add_sub_cancel]
      rw [getD_insertIdx x dflt ax ys d (by simpa using h)]
      by_cases h1 : d < ax
      · simp [h1]
      · by_cases h2 : d = ax
        · simp [h2]
        · simp only [h1, h2, if_false]
          cases d with
          | zero => omega
          | succ d' => simp

theorem list_ext_getD {β : Type} (l₁ l₂ : List β) (dflt : β) (hlen : l₁.length = l₂.length)
    (h : ∀ d, d < l₁.length → l₁.getD d dflt = l₂.getD d dflt) : l₁ = l₂ := by
  apply List.ext_getElem hlen
  intro n h1 h2
  have := h n h1
  rw [List.getD_eq_getElem?_getD, List.getD_eq_getElem?_getD, List.getElem?_eq_getElem h1,
    List.getElem?_eq_getElem h2] at this
  simpa using this

/-! ## Scratch geometry of the Basic lowering -/

theorem flatAlong_smul (s : Nat) (g shape : Nat → Nat) (order : List Nat) :
    flatAlong (fun d => s * g d) shape order = s * flatAlong g shape order := by
  induction order with
  | nil => simp [flatAlong]
  | cons d ds ih => simp only [flatAlong, ih]; ring

theorem basicShape_length (op : ReduceOp) :
    op.helper.getScratchConfigBasic.length = op.helper.srcShape.length := by
  simp [ReduceOpHelper.getScratchConfigBasic, convertType]

theorem basicExtent_of_ne {α : Type} {op : ReduceOp} {b : Block α} {tensor : List Nat → List α}
    (hc : BasicLayoutContract op b tensor) (d : Nat) (hd : d < op.helper.srcShape.length)
    (hne : d ≠ op.helper.axis) : basicExtent op d = idx op.helper.srcShape d := by
  unfold basicExtent idx ReduceOpHelper.getScratchConfigBasic
  simp only []
  rw [getD_set]
  have : ¬ (d = op.helper.axis ∧ op.helper.axis < (convertType op.helper.srcShape).length) :=
    fun h => hne h.1
  rw [if_neg this]
  unfold convertType
  rw [List.getD_eq_getElem?_getD, List.getD_eq_getElem?_getD, List.getElem?_map,
    List.getElem?_eq_getElem hd]
  simp only [Option.map_some', Option.getD_some]
  have := hc.shape_fit d hd
  unfold idx at this
  rw [List.getD_eq_getElem?_getD, List.getElem?_eq_getElem hd] at this
  exact u32_of_lt (by simpa using this)

theorem order_mem_iff {α : Type} {op : ReduceOp} {b : Block α} {tensor : List Nat → List α}
    (hc : BasicLayoutContract op b tensor) (d : Nat) :
    d ∈ op.helper.alg.getOrder op.helper.srcLayout ↔ d < op.helper.srcShape.length := by
  rw [hc.order_perm.mem_iff, List.mem_range]

theorem prod_order_eq {α : Type} {op : ReduceOp} {b : Block α} {tensor : List Nat → List α}
    (hc : BasicLayoutContract op b tensor) :
    ((op.helper.alg.getOrder op.helper.srcLayout).map (basicExtent op)).prod =
      op.helper.getScratchConfigBasic.prod := by
  rw [(hc.order_perm.map (basicExtent op)).prod_eq]
  congr 1
  apply list_ext_getD _ _ 0
  · simp [basicShape_length]
  · intro d hd
    simp only [List.length_map, List.length_range] at hd
    rw [getD_map_range, if_pos hd]
    rfl

theorem basicProduct_eq {α : Type} {op : ReduceOp} {b : Block α} {tensor : List Nat → List α}
    (hc : BasicLayoutContract op b tensor) :
    product op.helper.getScratchConfigBasic = op.helper.getScratchConfigBasic.prod :=
  product_eq_prod _ (lt_trans hc.smem_fit (by decide))

/-- A coordinate inside the scratch shape has a flat offset inside the region. -/
theorem basicFlat_lt {α : Type} {op : ReduceOp} {b : Block α} {tensor : List Nat → List α}
    (hc : BasicLayoutContract op b tensor) (g : Nat → Nat)
    (hg : ∀ d, d < op.helper.srcShape.length → g d < basicExtent op d) :
    flatAlong g (basicExtent op) (op.helper.alg.getOrder op.helper.srcLayout) <
      product op.helper.getScratchConfigBasic := by
  rw [basicProduct_eq hc, ← prod_order_eq hc]
  exact flatAlong_lt g _ _ (fun d hd => hg d ((order_mem_iff hc d).mp hd))

/-- The coordinate of a source element of a row, with slot `s` on the axis, is
inside the scratch shape. -/
theorem basicCoord_lt {α : Type} {op : ReduceOp} {b : Block α} {tensor : List Nat → List α}
    (hc : BasicLayoutContract op b tensor) (t e s : Nat) (ht : t < b.numThreads)
    (he : e < op.srcElems) (hs : s < basicExtent op op.helper.axis) :
    ∀ d, d < op.helper.srcShape.length →
      (if d = op.helper.axis then s else b.srcIndex t e d) < basicExtent op d := by
  intro d hd
  by_cases h : d = op.helper.axis
  · rw [if_pos h, h]; exact hs
  · rw [if_neg h, basicExtent_of_ne hc d hd h]
    exact hc.index_lt t ht e he d hd

theorem basicRowBase_add {α : Type} (op : ReduceOp) (b : Block α) (t e s : Nat) :
    flatAlong (fun d => if d = op.helper.axis then s else b.srcIndex t e d) (basicExtent op)
        (op.helper.alg.getOrder op.helper.srcLayout) =
      basicRowBase op b t e + s * basicStride op := by
  unfold basicRowBase basicStride
  rw [← flatAlong_smul, ← flatAlong_add]
  apply flatAlong_congr
  intro d _
  by_cases h : d = op.helper.axis <;> simp [h]

theorem basicRowBase_congr {α : Type} (op : ReduceOp) (b : Block α) (t e t' e' : Nat)
    {tensor : List Nat → List α} (hc : BasicLayoutContract op b tensor)
    (h : sameRow op b t e t' e') : basicRowBase op b t e = basicRowBase op b t' e' := by
  unfold basicRowBase
  apply flatAlong_congr
  intro d hd
  by_cases hd' : d = op.helper.axis
  · simp [hd']
  · simp only [hd', if_false]
    exact h d ((order_mem_iff hc d).mp hd) hd'

/-- Scratch offsets determine the row and the slot. -/
theorem basicAddr_inj {α : Type} {op : ReduceOp} {b : Block α} {tensor : List Nat → List α}
    (hc : BasicLayoutContract op b tensor) (t e t' e' s s' : Nat) (ht : t < b.numThreads)
    (he : e < op.srcElems) (ht' : t' < b.numThreads) (he' : e' < op.srcElems)
    (hs : s < basicExtent op op.helper.axis) (hs' : s' < basicExtent op op.helper.axis)
    (h : basicRowBase op b t e + s * basicStride op =
      basicRowBase op b t' e' + s' * basicStride op) :
    sameRow op b t e t' e' ∧ s = s' := by
  rw [← basicRowBase_add, ← basicRowBase_add] at h
  have hin := flatAlong_inj _ _ _ _
    (fun d hd => basicCoord_lt hc t e s ht he hs d ((order_mem_iff hc d).mp hd))
    (fun d hd => basicCoord_lt hc t' e' s' ht' he' hs' d ((order_mem_iff hc d).mp hd)) h
  constructor
  · intro d hd hne
    have := hin d ((order_mem_iff hc d).mpr hd)
    simpa [hne] using this
  · have := hin op.helper.axis ((order_mem_iff hc _).mpr hc.axis_lt)
    simpa using this

/-! ## Index terms of the Basic lowering -/

theorem first_mem (op : ReduceOp) (κ : List Nat) (h : op.group κ op.srcElems ≠ []) :
    op.first κ ∈ op.group κ op.srcElems := by
  unfold ReduceOp.first
  cases hg : op.group κ op.srcElems with
  | nil => exact absurd hg h
  | cons x xs => simp

theorem first_spec (op : ReduceOp) (κ : List Nat) (h : op.group κ op.srcElems ≠ []) :
    op.first κ < op.srcElems ∧ op.key (op.first κ) = κ := by
  have := first_mem op κ h
  unfold ReduceOp.group at this
  simpa using this

theorem group_key_ne_nil (op : ReduceOp) (e : Nat) (he : e < op.srcElems) :
    op.group (op.key e) op.srcElems ≠ [] := by
  intro h
  have : e ∈ op.group (op.key e) op.srcElems := by
    unfold ReduceOp.group
    simp [he]
  rw [h] at this
  exact absurd this (List.not_mem_nil _)

theorem mem_group (op : ReduceOp) (κ : List Nat) (e : Nat) :
    e ∈ op.group κ op.srcElems ↔ e < op.srcElems ∧ op.key e = κ := by
  unfold ReduceOp.group
  simp

theorem getWriteIndexBasic_blocked (alg : LayoutAlgebra) (l : Layout)
    (hl : ∃ spt tpw wpc ord, l = Layout.blocked spt tpw wpc ord) (index : List IVal)
    (ints : List (Nat × IVal)) (axis : Nat) :
    getWriteIndexBasic alg l index ints axis axis =
      .ok (index.set axis
        (IVal.udiv (iidx index axis) (intsGet ints (idx (alg.getSizePerThread l) axis)))) := by
  obtain ⟨spt, tpw, wpc, ord, rfl⟩ := hl
  rfl

/-- The write-index step succeeds exactly on the layouts whose innermost
non-Sliced parent is Blocked or Ampere MMA, and ends in the fatal branch on all
others. -/
theorem getWriteIndexBasic_innermost (alg : LayoutAlgebra) (h0 : ReduceOpHelper) :
    ∀ (l : Layout) (index : List IVal) (ints : List (Nat × IVal)) (originalAxis axis : Nat),
      ((∃ w, getWriteIndexBasic alg l index ints originalAxis axis = .ok w) ↔
        ({ h0 with alg := alg, srcLayout := specInnermostParent l } :
          ReduceOpHelper).isSupportedLayout = true) ∧
      (getWriteIndexBasic alg l index ints originalAxis axis = .error "Unsupported layout" ↔
        ({ h0 with alg := alg, srcLayout := specInnermostParent l } :
          ReduceOpHelper).isSupportedLayout = false)
  | .slice dim parent, index, ints, originalAxis, axis => by
    have ih := getWriteIndexBasic_innermost alg h0 parent index ints originalAxis
      (if axis < dim then axis else axis + 1)
    simpa only [getWriteIndexBasic, specInnermostParent] using ih
  | .blocked spt tpw wpc ord, index, ints, originalAxis, axis => by
    simp [getWriteIndexBasic, specInnermostParent, ReduceOpHelper.isSupportedLayout]
  | .mma versionMajor wpc, index, ints, originalAxis, axis => by
    cases hA : alg.isAmpere versionMajor <;>
      simp [getWriteIndexBasic, specInnermostParent, ReduceOpHelper.isSupportedLayout, hA]
    split <;> simp
  | .dotOperand opIdx parent, index, ints, originalAxis, axis => by
    simp [getWriteIndexBasic, specInnermostParent, ReduceOpHelper.isSupportedLayout]

/-- The write-index step only replaces the component of the original axis. -/
theorem getWriteIndexBasic_set (alg : LayoutAlgebra) :
    ∀ (l : Layout) (index : List IVal) (ints : List (Nat × IVal)) (originalAxis axis : Nat)
      (w : List IVal), getWriteIndexBasic alg l index ints originalAxis axis = .ok w →
      ∃ x, w = index.set originalAxis x
  | .slice dim parent, index, ints, originalAxis, axis, w, h =>
    getWriteIndexBasic_set alg parent index ints originalAxis
      (if axis < dim then axis else axis + 1) w (by simpa only [getWriteIndexBasic] using h)
  | .blocked spt tpw wpc ord, index, ints, originalAxis, axis, w, h => by
    simp only [getWriteIndexBasic, Except.ok.injEq] at h
    exact ⟨_, h.symm⟩
  | .mma versionMajor wpc, index, ints, originalAxis, axis, w, h => by
    simp only [getWriteIndexBasic] at h
    split at h
    · cases h
    · split at h
      · simp only [Except.ok.injEq] at h; exact ⟨_, h.symm⟩
      · simp only [Except.ok.injEq] at h; exact ⟨_, h.symm⟩
  | .dotOperand opIdx parent, index, ints, originalAxis, axis, w, h => by
    simp only [getWriteIndexBasic] at h
    cases h

/-- Under the layout contract the write index is the one `getWriteIndexBasic`
returns. -/
theorem basicWriteIdx_ok {α : Type} {op : ReduceOp} {b : Block α} {tensor : List Nat → List α}
    (hc : BasicLayoutContract op b tensor) (index : List IVal) :
    getWriteIndexBasic op.helper.alg op.helper.srcLayout index op.ints op.helper.axis
      op.helper.axis = .ok (basicWriteIdx op index) := by
  obtain ⟨w, hw⟩ := ((getWriteIndexBasic_innermost op.helper.alg op.helper op.helper.srcLayout
    index op.ints op.helper.axis op.helper.axis).1).mpr hc.parent_supported
  unfold basicWriteIdx
  rw [hw]

theorem basicWriteIdx_set {α : Type} {op : ReduceOp} {b : Block α} {tensor : List Nat → List α}
    (hc : BasicLayoutContract op b tensor) (index : List IVal) :
    ∃ x, basicWriteIdx op index = index.set op.helper.axis x :=
  getWriteIndexBasic_set _ _ _ _ _ _ _ (basicWriteIdx_ok hc index)

theorem basicWriteIdx_length {α : Type} {op : ReduceOp} {b : Block α}
    {tensor : List Nat → List α} (hc : BasicLayoutContract op b tensor) (e : Nat) :
    (basicWriteIdx op (op.srcIndices e)).length = op.helper.srcShape.length := by
  obtain ⟨x, hx⟩ := basicWriteIdx_set hc (op.srcIndices e)
  rw [hx]
  simp [ReduceOp.srcIndices]

/-- The write index of the accumulator of the key of element `e` (the first of
its key): the source index outside the axis. -/
theorem eval_writeIdx {α : Type} {op : ReduceOp} {b : Block α} {tensor : List Nat → List α}
    (hc : BasicLayoutContract op b tensor) (e t d : Nat) (hd : d < op.helper.srcShape.length) :
    (iidx (basicWriteIdx op (op.srcIndices e)) d).eval b t =
      if d = op.helper.axis then
        (iidx (basicWriteIdx op (op.srcIndices e)) op.helper.axis).eval b t
      else b.srcIndex t e d := by
  by_cases h : d = op.helper.axis
  · rw [if_pos h, h]
  · rw [if_neg h]
    obtain ⟨x, hx⟩ := basicWriteIdx_set hc (op.srcIndices e)
    rw [hx]
    unfold iidx
    rw [getD_set, if_neg (fun h' => h h'.1)]
    simp only [ReduceOp.srcIndices]
    rw [getD_map_range, if_pos hd]
    rfl

theorem linearize_eq (multiDim : List IVal) (shape order : List Nat) :
    linearize multiDim shape order =
      linearizeOrdered (order.map fun d => iidx multiDim d) (order.map fun d => idx shape d) :=
  rfl

/-- Value of `linearize` on a coordinate inside the shape. -/
theorem eval_linearize {α : Type} (b : Block α) (t : Nat) (multiDim : List IVal)
    (shape order : List Nat)
    (hr : ∀ d ∈ order, (iidx multiDim d).eval b t < idx shape d)
    (hfit : (order.map fun d => idx shape d).prod < 2 ^ 32) :
    (linearize multiDim shape order).eval b t =
      flatAlong (fun d => (iidx multiDim d).eval b t) (fun d => idx shape d) order := by
  rw [linearize_eq]
  exact eval_linearizeOrdered b t (fun d => iidx multiDim d) (fun d => idx shape d) order hr hfit

/-- The write offset of a key is the base of the row plus the slot times the
axis stride. -/
theorem eval_writeOffset {α : Type} {op : ReduceOp} {b : Block α} {tensor : List Nat → List α}
    (hc : BasicLayoutContract op b tensor) (e t : Nat) (ht : t < b.numThreads) (he : e < op.srcElems)
    (hfirst : op.first (op.key e) = e) :
    (linearize (basicWriteIdx op (op.srcIndices e))
        op.helper.getScratchConfigBasic (op.helper.alg.getOrder op.helper.srcLayout)).eval b t =
      basicRowBase op b t e + writeSlot op b t e * basicStride op := by
  have hslot : writeSlot op b t e =
      (iidx (basicWriteIdx op (op.srcIndices e)) op.helper.axis).eval b t := by
    unfold writeSlot; rw [hfirst]
  have hs := hc.slot_lt t ht e he
  have hev := fun d hd => eval_writeIdx hc e t d hd
  rw [eval_linearize]
  · rw [← basicRowBase_add]
    apply flatAlong_congr
    intro d hd
    rw [hev d ((order_mem_iff hc d).mp hd), hslot]
  · intro d hd
    have hd' := (order_mem_iff hc d).mp hd
    rw [hev d hd', ← hslot]
    exact basicCoord_lt hc t e _ ht he hs d hd'
  · show ((op.helper.alg.getOrder op.helper.srcLayout).map (basicExtent op)).prod < 2 ^ 32
    rw [prod_order_eq hc]
    exact lt_trans hc.smem_fit (by decide)

theorem pow_mem_halvings : ∀ (J i : Nat), i < J → 2 ^ i ∈ halvings (2 ^ J / 2)
  | 0, i, h => absurd h (Nat.not_lt_zero i)
  | J + 1, i, h => by
    rw [halvings_pow J]
    rcases Nat.lt_succ_iff_lt_or_eq.mp h with h' | h'
    · exact List.mem_cons_of_mem _ (pow_mem_halvings J i h')
    · rw [h']; exact List.mem_cons_self _ _

theorem toSigned_of_lt (x : Nat) (h : x < 2 ^ 31) : toSigned x = (x : Int) := by
  unfold toSigned; rw [if_pos h]

theorem basicExtent_pos {α : Type} {op : ReduceOp} {b : Block α} {tensor : List Nat → List α}
    (hc : BasicLayoutContract op b tensor) (t e : Nat) (ht : t < b.numThreads) (he : e < op.srcElems)
    (d : Nat) (hd : d < op.helper.srcShape.length) : 0 < basicExtent op d := by
  by_cases h : d = op.helper.axis
  · rw [h]
    exact Nat.lt_of_le_of_lt (Nat.zero_le _) (hc.slot_lt t ht e he)
  · rw [basicExtent_of_ne hc d hd h]
    exact Nat.lt_of_le_of_lt (Nat.zero_le _) (hc.index_lt t ht e he d hd)

theorem basicExtent_axis_lt {α : Type} {op : ReduceOp} {b : Block α}
    {tensor : List Nat → List α} (hc : BasicLayoutContract op b tensor) (t e : Nat)
    (ht : t < b.numThreads) (he : e < op.srcElems) :
    basicExtent op op.helper.axis < 2 ^ 31 := by
  have hmem : basicExtent op op.helper.axis ∈
      (op.helper.alg.getOrder op.helper.srcLayout).map (basicExtent op) :=
    List.mem_map.mpr ⟨_, (order_mem_iff hc _).mpr hc.axis_lt, rfl⟩
  have hdvd := List.dvd_prod hmem
  have hpos : 0 < ((op.helper.alg.getOrder op.helper.srcLayout).map (basicExtent op)).prod := by
    have := flatAlong_lt (fun _ => 0) (basicExtent op)
      (op.helper.alg.getOrder op.helper.srcLayout)
      (fun d hd => basicExtent_pos hc t e ht he d ((order_mem_iff hc d).mp hd))
    omega
  have hle := Nat.le_of_dvd hpos hdvd
  rw [prod_order_eq hc] at hle
  exact lt_of_le_of_lt hle hc.smem_fit

/-- The read offset of round `2 ^ i` for the key of element `e`. -/
theorem eval_basicReadOffset {α : Type} {op : ReduceOp} {b : Block α}
    {tensor : List Nat → List α} (hc : BasicLayoutContract op b tensor) (e t i : Nat)
    (ht : t < b.numThreads) (he : e < op.srcElems) (hfirst : op.first (op.key e) = e)
    (hi : 2 * 2 ^ i ≤ basicExtent op op.helper.axis) :
    (basicReadOffset op.helper.axis op.helper.getScratchConfigBasic
        (op.helper.alg.getOrder op.helper.srcLayout)
        (basicInts op.helper.getScratchConfigBasic
          (op.helper.alg.getSizePerThread op.helper.srcLayout) op.helper.axis)
        (basicWriteIdx op (op.srcIndices e)) (2 ^ i)).eval b t =
      if writeSlot op b t e < 2 ^ i then 2 ^ i * basicStride op else 0 := by
  obtain ⟨J, hJ⟩ := hc.pow2
  have hJ' : basicExtent op op.helper.axis = 2 ^ J := hJ
  have hiJ : i < J := by
    rw [hJ'] at hi
    have h1 : 2 ^ (i + 1) ≤ 2 ^ J := by rw [Nat.pow_succ]; omega
    have := (Nat.pow_le_pow_iff_right (by decide : 1 < 2)).mp h1
    omega
  have hmem : 2 ^ i ∈ halvings (idx op.helper.getScratchConfigBasic op.helper.axis / 2) := by
    rw [hJ]; exact pow_mem_halvings J i hiJ
  have hS31 := basicExtent_axis_lt hc t e ht he
  have hN31 : 2 ^ i < 2 ^ 31 := by omega
  have hslot : writeSlot op b t e =
      (iidx (basicWriteIdx op (op.srcIndices e)) op.helper.axis).eval b t := by
    unfold writeSlot; rw [hfirst]
  have hs : writeSlot op b t e < basicExtent op op.helper.axis := hc.slot_lt t ht e he
  have hlen : (basicWriteIdx op (op.srcIndices e)).length = op.helper.srcShape.length :=
    basicWriteIdx_length hc e
  unfold basicReadOffset
  simp only [basicInts_halving _ _ _ _ hmem, basicInts_zero, hlen]
  have hrd : ∀ d, d < op.helper.srcShape.length →
      (iidx ((List.replicate op.helper.srcShape.length (IVal.const 0)).set op.helper.axis
        (IVal.const (2 ^ i))) d).eval b t = if d = op.helper.axis then 2 ^ i else 0 := by
    intro d hd
    unfold iidx
    rw [getD_set, List.length_replicate]
    by_cases h : d = op.helper.axis
    · rw [if_pos ⟨h, hc.axis_lt⟩, if_pos h]
      simp only [IVal.eval]
      exact u32_of_lt (by omega)
    · rw [if_neg (fun h' => h h'.1), if_neg h, getD_replicate, if_pos hd]
      rfl
  have hlin : (linearize ((List.replicate op.helper.srcShape.length (IVal.const 0)).set
      op.helper.axis (IVal.const (2 ^ i))) op.helper.getScratchConfigBasic
        (op.helper.alg.getOrder op.helper.srcLayout)).eval b t = 2 ^ i * basicStride op := by
    rw [eval_linearize]
    · unfold basicStride
      rw [← flatAlong_smul]
      apply flatAlong_congr
      intro d hd
      rw [hrd d ((order_mem_iff hc d).mp hd)]
      by_cases h : d = op.helper.axis <;> simp [h]
    · intro d hd
      have hd' := (order_mem_iff hc d).mp hd
      rw [hrd d hd']
      by_cases h : d = op.helper.axis
      · rw [if_pos h, h]
        show 2 ^ i < basicExtent op op.helper.axis
        omega
      · rw [if_neg h]
        exact basicExtent_pos hc t e ht he d hd'
    · show ((op.helper.alg.getOrder op.helper.srcLayout).map (basicExtent op)).prod < 2 ^ 32
      rw [prod_order_eq hc]
      exact lt_trans hc.smem_fit (by decide)
  simp only [IVal.eval, hlin]
  rw [← hslot]
  have e1 : u32 (2 ^ i) = 2 ^ i := u32_of_lt (by omega)
  have e2 : u32 0 = 0 := rfl
  have e3 : toSigned (writeSlot op b t e) = ((writeSlot op b t e : Nat) : Int) :=
    toSigned_of_lt _ (by omega)
  have e4 : toSigned (2 ^ i) = ((2 ^ i : Nat) : Int) := toSigned_of_lt _ hN31
  simp only [e1, e2, e3, e4]
  by_cases h : writeSlot op b t e < 2 ^ i
  · have : ((writeSlot op b t e : Nat) : Int) < ((2 ^ i : Nat) : Int) := by exact_mod_cast h
    rw [if_pos this, if_pos (by decide), if_pos h]
  · have : ¬ ((writeSlot op b t e : Nat) : Int) < ((2 ^ i : Nat) : Int) := by
      intro h'; exact h (by exact_mod_cast h')
    rw [if_neg this, if_neg (by decide), if_neg h]

/-! ## Rows, slots and partial values -/

theorem sameRow_refl {α : Type} (op : ReduceOp) (b : Block α) (t e : Nat) :
    sameRow op b t e t e := fun _ _ _ => rfl

theorem sameRow_symm {α : Type} {op : ReduceOp} {b : Block α} {t e t' e' : Nat}
    (h : sameRow op b t e t' e') : sameRow op b t' e' t e := fun d hd hne => (h d hd hne).symm

theorem sameRow_trans {α : Type} {op : ReduceOp} {b : Block α} {t e t' e' t'' e'' : Nat}
    (h : sameRow op b t e t' e') (h' : sameRow op b t' e' t'' e'') :
    sameRow op b t e t'' e'' := fun d hd hne => (h d hd hne).trans (h' d hd hne)

theorem srcCoord_set_congr {α : Type} (op : ReduceOp) (b : Block α) (t e t' e' a : Nat)
    (h : sameRow op b t e t' e') :
    (b.srcCoord op.helper.srcShape.length t e).set op.helper.axis a =
      (b.srcCoord op.helper.srcShape.length t' e').set op.helper.axis a := by
  apply list_ext_getD _ _ 0
  · simp [Block.srcCoord]
  · intro d hd
    simp only [List.length_set, Block.srcCoord, List.length_map, List.length_range] at hd
    rw [getD_set, getD_set]
    simp only [Block.srcCoord, List.length_map, List.length_range]
    by_cases hda : d = op.helper.axis
    · by_cases hax : op.helper.axis < op.helper.srcShape.length
      · simp [hda, hax]
      · rw [hda] at hd; exact absurd hd hax
    · rw [if_neg (fun h' => hda h'.1), if_neg (fun h' => hda h'.1), getD_map_range,
        getD_map_range, if_pos hd, if_pos hd]
      exact h d hd hda

theorem srcCoord_set_self {α : Type} (op : ReduceOp) (b : Block α) (t e : Nat) :
    (b.srcCoord op.helper.srcShape.length t e).set op.helper.axis
        (b.srcIndex t e op.helper.axis) = b.srcCoord op.helper.srcShape.length t e := by
  apply list_ext_getD _ _ 0
  · simp [Block.srcCoord]
  · intro d hd
    simp only [List.length_set, Block.srcCoord, List.length_map, List.length_range] at hd
    rw [getD_set]
    by_cases hda : d = op.helper.axis ∧
        op.helper.axis < (b.srcCoord op.helper.srcShape.length t e).length
    · rw [if_pos hda, hda.1]
      simp only [Block.srcCoord]
      rw [getD_map_range, if_pos (by rw [← hda.1]; exact hd)]
    · rw [if_neg hda]

theorem writeSlot_of_key {α : Type} (op : ReduceOp) (b : Block α) (t e e' : Nat)
    (h : op.key e = op.key e') : writeSlot op b t e = writeSlot op b t e' := by
  unfold writeSlot; rw [h]

theorem basicHolds_congr {α : Type} {op : ReduceOp} {b : Block α} {t e t' e' : Nat}
    (h : sameRow op b t e t' e') (a s : Nat) :
    basicHolds op b t e a s ↔ basicHolds op b t' e' a s := by
  constructor
  · rintro ⟨t₁, ht₁, e₁, he₁, hrow, ha, hs⟩
    exact ⟨t₁, ht₁, e₁, he₁, sameRow_trans hrow h, ha, hs⟩
  · rintro ⟨t₁, ht₁, e₁, he₁, hrow, ha, hs⟩
    exact ⟨t₁, ht₁, e₁, he₁, sameRow_trans hrow (sameRow_symm h), ha, hs⟩

theorem basicPartial_congr {α M : Type} [AddCommMonoid M] (φ : List α → M) {op : ReduceOp}
    {b : Block α} (tensor : List Nat → List α) {t e t' e' : Nat}
    (h : sameRow op b t e t' e') (s : Nat) :
    basicPartial φ op b tensor t e s = basicPartial φ op b tensor t' e' s := by
  unfold basicPartial
  apply Finset.sum_congr
  · ext a
    simp only [Finset.mem_filter, Finset.mem_range, basicHolds_congr h a s]
  · intro a _
    unfold rowElem
    rw [srcCoord_set_congr op b t e t' e' a h]

/-- The partial values of the slots of a row add up to the whole row. -/
theorem sum_basicPartial {α M : Type} [AddCommMonoid M] (φ : List α → M) {op : ReduceOp}
    {b : Block α} {tensor : List Nat → List α} (hc : BasicLayoutContract op b tensor) (t e : Nat)
    (ht : t < b.numThreads) (he : e < op.srcElems) :
    ∑ s in Finset.range (basicExtent op op.helper.axis), basicPartial φ op b tensor t e s =
      ∑ a in Finset.range (idx op.helper.srcShape op.helper.axis),
        rowElem φ op b tensor t e a := by
  unfold basicPartial
  simp only [Finset.sum_filter]
  rw [Finset.sum_comm]
  apply Finset.sum_congr rfl
  intro a ha
  rw [Finset.mem_range] at ha
  obtain ⟨t₁, ht₁, e₁, he₁, hrow₁, ha₁⟩ := hc.cover_axis t ht e he a ha
  have hs₁ : writeSlot op b t₁ e₁ < basicExtent op op.helper.axis := hc.slot_lt t₁ ht₁ e₁ he₁
  rw [Finset.sum_eq_single_of_mem (writeSlot op b t₁ e₁) (Finset.mem_range.mpr hs₁)]
  · rw [if_pos ⟨t₁, ht₁, e₁, he₁, hrow₁, ha₁, rfl⟩]
  · intro s _ hne
    rw [if_neg]
    rintro ⟨t₂, ht₂, e₂, he₂, hrow₂, ha₂, hs₂⟩
    apply hne
    rw [← hs₂]
    exact hc.slot_coord t₂ ht₂ t₁ ht₁ e₂ he₂ e₁ he₁
      (sameRow_trans hrow₂ (sameRow_symm hrow₁)) (ha₂.trans ha₁.symm)

theorem group_nodup (op : ReduceOp) (κ : List Nat) (m : Nat) : (op.group κ m).Nodup :=
  (List.nodup_range m).filter _

/-- The within-thread accumulator of a key is the partial value of the slot the
thread publishes it to. -/
theorem basicPartial_of_group {α M : Type} [AddCommMonoid M] {φ : List α → M} {op : ReduceOp}
    {b : Block α} {tensor : List Nat → List α} (hm : CombineModel b.combine op.numOperands φ)
    (hc : BasicLayoutContract op b tensor) (t e : Nat) (ht : t < b.numThreads) (he : e < op.srcElems) :
    φ (combineAll b.combine
        ((op.group (op.key e) op.srcElems).map (b.srcTuple op.numOperands t))) =
      basicPartial φ op b tensor t e (writeSlot op b t e) := by
  have hne : (op.group (op.key e) op.srcElems).map (b.srcTuple op.numOperands t) ≠ [] := by
    simpa using group_key_ne_nil op e he
  have hvalid : ∀ y ∈ (op.group (op.key e) op.srcElems).map (b.srcTuple op.numOperands t),
      y.length = op.numOperands := by
    intro y hy
    obtain ⟨e', _, rfl⟩ := List.mem_map.mp hy
    exact srcTuple_length _ _ _ _
  rw [(map_combineAll hm _ hne hvalid).1, List.map_map]
  have hterm : ∀ e' ∈ op.group (op.key e) op.srcElems,
      (φ ∘ b.srcTuple op.numOperands t) e' =
        rowElem φ op b tensor t e (b.srcIndex t e' op.helper.axis) := by
    intro e' he'
    obtain ⟨he'E, hk⟩ := (mem_group op _ e').mp he'
    simp only [Function.comp, rowElem]
    rw [hc.value t ht e' he'E,
      ← srcCoord_set_congr op b t e' t e _ (hc.key_row t ht e' he'E e he hk),
      srcCoord_set_self]
  rw [List.map_congr_left hterm,
    ← List.sum_toFinset (fun e' => rowElem φ op b tensor t e (b.srcIndex t e' op.helper.axis))
      (group_nodup op _ _)]
  unfold basicPartial
  have himg : (Finset.range (idx op.helper.srcShape op.helper.axis)).filter
      (fun a => basicHolds op b t e a (writeSlot op b t e)) =
      (op.group (op.key e) op.srcElems).toFinset.image
        (fun e' => b.srcIndex t e' op.helper.axis) := by
    ext a
    simp only [Finset.mem_filter, Finset.mem_range, Finset.mem_image, List.mem_toFinset]
    constructor
    · rintro ⟨_, t₁, ht₁, e₁, he₁, hrow, ha, hs⟩
      have hk : op.key e₁ = op.key e := hc.row_key t₁ ht₁ t ht e₁ he₁ e he hrow
      refine ⟨e₁, (mem_group op _ e₁).mpr ⟨he₁, hk⟩, ?_⟩
      rw [← ha]
      apply hc.replica t ht t₁ ht₁ e₁ he₁
      · exact sameRow_trans (hc.key_row t ht e₁ he₁ e he hk) (sameRow_symm hrow)
      · rw [writeSlot_of_key op b t e₁ e hk, hs]
    · rintro ⟨e', he', rfl⟩
      obtain ⟨he'E, hk⟩ := (mem_group op _ e').mp he'
      refine ⟨hc.index_lt t ht e' he'E _ hc.axis_lt, t, ht, e', he'E,
        hc.key_row t ht e' he'E e he hk, rfl, writeSlot_of_key op b t e' e hk⟩
  rw [himg, Finset.sum_image]
  intro x hx y hy hxy
  obtain ⟨hxE, hkx⟩ := (mem_group op _ x).mp (List.mem_toFinset.mp hx)
  obtain ⟨hyE, hky⟩ := (mem_group op _ y).mp (List.mem_toFinset.mp hy)
  exact hc.once t ht x hxE y hyE (hkx.trans hky.symm) hxy

/-! ## The Basic lowering on a layout with a write-index rule -/

/-- The loop over `accs` of `matchAndRewriteBasic` on a layout the write-index
step has a rule for. -/
theorem basicAcrossThreads_ok {α : Type} {op : ReduceOp} {b : Block α}
    {tensor : List Nat → List α} (hc : BasicLayoutContract op b tensor)
    (smemShape srcOrd : List Nat)
    (indices : List (List Nat × List IVal)) (entries : List (List Nat × List DVal)) :
    basicAcrossThreads op smemShape srcOrd op.ints indices entries =
      .ok (entries.flatMap fun p =>
        basicKeyCode op smemShape srcOrd op.ints ((mapFind indices p.1).getD []) p.1 p.2) := by
  induction entries with
  | nil => rfl
  | cons p rest ih =>
    obtain ⟨key, acc⟩ := p
    simp only [basicAcrossThreads, basicWriteIdx_ok hc, ih, List.flatMap_cons,
      basicKeyCode, List.append_assoc]

/-- Geometry of the scratch slots of the key whose first element is `e`. -/
theorem basicGeometry {α : Type} {op : ReduceOp} {b : Block α} {tensor : List Nat → List α}
    (hc : BasicLayoutContract op b tensor) (e : Nat) (he : e < op.srcElems) :
    TreeGeometry b.numThreads (basicExtent op op.helper.axis) (basicStride op)
      (product op.helper.getScratchConfigBasic) (fun t => basicRowBase op b t e)
      (fun t => writeSlot op b t e) := by
  refine ⟨fun t ht => hc.slot_lt t ht e he, ?_, ?_, ?_⟩
  · intro t t' ht ht' s s' hs hs' h
    obtain ⟨hrow, hss⟩ := basicAddr_inj hc t e t' e s s' ht he ht' he hs hs' h
    exact ⟨basicRowBase_congr op b t e t' e hc hrow, hss⟩
  · intro t ht s hs
    rw [← basicRowBase_add]
    exact basicFlat_lt hc _ (basicCoord_lt hc t e s ht he hs)
  · intro t ht s hs
    obtain ⟨t', ht', e', he', hrow, hslot⟩ := hc.cover_slot t ht e he s hs
    have hk : op.key e' = op.key e := hc.row_key t' ht' t ht e' he' e he hrow
    refine ⟨t', ht', ?_, ?_⟩
    · exact basicRowBase_congr op b t' e t e hc
        (sameRow_trans (hc.key_row t' ht' e he e' he' hk.symm) hrow)
    · show writeSlot op b t' e = s
      rw [writeSlot_of_key op b t' e e' hk.symm, hslot]

theorem basicExtent_axis_pos {α : Type} {op : ReduceOp} {b : Block α}
    {tensor : List Nat → List α} (hc : BasicLayoutContract op b tensor) :
    0 < basicExtent op op.helper.axis := by
  obtain ⟨j, hj⟩ := hc.pow2
  show 0 < idx op.helper.getScratchConfigBasic op.helper.axis
  rw [hj]; exact Nat.pow_pos (by decide)

/-- The code of one key, run on the block: afterwards the first slot of every
row of the key holds the combine of the whole row. -/
theorem basicKey_layout {α M : Type} [AddCommMonoid M] {φ : List α → M} {op : ReduceOp}
    {b : Block α} {tensor : List Nat → List α} (hm : CombineModel b.combine op.numOperands φ)
    (hc : BasicLayoutContract op b tensor) (κ : List Nat) (acc : List DVal)
    (hκ : mapFind (reduceWithinThreads op).accs κ = some acc) (st : State α) :
    ∃ st', run b (product op.helper.getScratchConfigBasic)
        (basicKeyCode op op.helper.getScratchConfigBasic
          (op.helper.alg.getOrder op.helper.srcLayout)
          (basicInts op.helper.getScratchConfigBasic
            (op.helper.alg.getSizePerThread op.helper.srcLayout) op.helper.axis)
          ((mapFind (reduceWithinThreads op).indices κ).getD []) κ acc) st = some st' ∧
      (∀ t, t < b.numThreads →
        φ (st'.tuple op.numOperands (basicRowBase op b t (op.first κ))) =
          ∑ a in Finset.range (idx op.helper.srcShape op.helper.axis),
            rowElem φ op b tensor t (op.first κ) a) ∧
      (∀ o a, (∀ t, t < b.numThreads →
          a ≠ basicRowBase op b t (op.first κ) +
            writeSlot op b t (op.first κ) * basicStride op) → st'.mem o a = st.mem o a) ∧
      (∀ t s o, (∀ N, s ≠ LoadSite.round κ N) → st'.env t s o = st.env t s o) := by
  have inv := foldInv_reduceWithinThreads op b hm.closed
  have hgrp : op.group κ op.srcElems ≠ [] := by
    intro h
    have := (inv.none_iff κ).mpr h
    rw [hκ] at this
    exact absurd this (by simp)
  obtain ⟨he, hkey⟩ := first_spec op κ hgrp
  have hfirst : op.first (op.key (op.first κ)) = op.first κ := by rw [hkey]
  obtain ⟨hlen, hsites, hval⟩ := inv.acc κ acc hκ
  have hidx : (mapFind (reduceWithinThreads op).indices κ).getD [] =
      op.srcIndices (op.first κ) := by
    rw [inv.indices κ]
    unfold ReduceOp.first
    cases hg : op.group κ op.srcElems with
    | nil => exact absurd hg hgrp
    | cons x xs => simp
  obtain ⟨j, hj⟩ := hc.pow2
  have hres := basicKey_run b op.numOperands (product op.helper.getScratchConfigBasic)
    (basicExtent op op.helper.axis) (basicStride op) φ hm
    (fun t => basicRowBase op b t (op.first κ)) (fun t => writeSlot op b t (op.first κ))
    (basicGeometry hc (op.first κ) he)
    (fun t s => basicPartial φ op b tensor t (op.first κ) s)
    (by
      intro t t' ht ht' hB s
      have h0 := basicExtent_axis_pos hc
      have : basicRowBase op b t (op.first κ) + 0 * basicStride op =
          basicRowBase op b t' (op.first κ) + 0 * basicStride op := by
        simpa using hB
      exact basicPartial_congr φ tensor
        (basicAddr_inj hc t _ t' _ 0 0 ht he ht' he h0 h0 this).1 s)
    κ op.helper.axis op.helper.getScratchConfigBasic
    (op.helper.alg.getOrder op.helper.srcLayout)
    (basicInts op.helper.getScratchConfigBasic
      (op.helper.alg.getSizePerThread op.helper.srcLayout) op.helper.axis)
    (basicWriteIdx op (op.srcIndices (op.first κ)))
    (linearize (basicWriteIdx op (op.srcIndices (op.first κ)))
      op.helper.getScratchConfigBasic (op.helper.alg.getOrder op.helper.srcLayout))
    (fun t ht => eval_writeOffset hc (op.first κ) t ht he hfirst)
    (fun i hi t ht => eval_basicReadOffset hc (op.first κ) t i ht he hfirst hi)
    j hj acc st hlen hsites
    (by
      intro t ht
      rw [hval st.env t, ← hkey]
      rw [hfirst]
      exact basicPartial_of_group hm hc t (op.first κ) ht he)
  obtain ⟨st', hrun, hsum, hmem, henv⟩ := hres
  refine ⟨st', ?_, ?_, hmem, henv⟩
  · unfold basicKeyCode
    simp only [hidx]
    exact hrun
  · intro t ht
    rw [hsum t ht]
    exact sum_basicPartial φ hc t (op.first κ) ht he

theorem tuple_congr {α : Type} (st st' : State α) (k a : Nat)
    (h : ∀ o, st'.mem o a = st.mem o a) : st'.tuple k a = st.tuple k a := by
  unfold State.tuple
  apply List.map_congr_left
  intro o _
  exact h o

/-- The loop over the entries of `accs`, run on the block: afterwards the first
slot of every row of every processed key holds the combine of the whole row. -/
theorem basicAcross_run {α M : Type} [AddCommMonoid M] {φ : List α → M} {op : ReduceOp}
    {b : Block α} {tensor : List Nat → List α} (hm : CombineModel b.combine op.numOperands φ)
    (hc : BasicLayoutContract op b tensor) :
    ∀ (es : List (List Nat × List DVal)),
      es.Pairwise (fun p q => keyLt p.1 q.1 = true) →
      (∀ p ∈ es, mapFind (reduceWithinThreads op).accs p.1 = some p.2) →
      ∀ (st : State α),
      ∃ st', run b (product op.helper.getScratchConfigBasic)
          (es.flatMap fun p =>
            basicKeyCode op op.helper.getScratchConfigBasic
              (op.helper.alg.getOrder op.helper.srcLayout)
              (basicInts op.helper.getScratchConfigBasic
                (op.helper.alg.getSizePerThread op.helper.srcLayout) op.helper.axis)
              ((mapFind (reduceWithinThreads op).indices p.1).getD []) p.1 p.2) st = some st' ∧
        (∀ p ∈ es, ∀ t, t < b.numThreads →
          φ (st'.tuple op.numOperands (basicRowBase op b t (op.first p.1))) =
            ∑ a in Finset.range (idx op.helper.srcShape op.helper.axis),
              rowElem φ op b tensor t (op.first p.1) a) ∧
        (∀ o a, (∀ p ∈ es, ∀ t, t < b.numThreads →
            a ≠ basicRowBase op b t (op.first p.1) +
              writeSlot op b t (op.first p.1) * basicStride op) → st'.mem o a = st.mem o a) := by
  intro es
  induction es with
  | nil =>
    intro _ _ st
    exact ⟨st, rfl, fun p hp => absurd hp (List.not_mem_nil _), fun _ _ _ => rfl⟩
  | cons p es ih =>
    intro hsorted hfind st
    rw [List.pairwise_cons] at hsorted
    obtain ⟨st1, hrun1, hsum1, hmem1, _⟩ :=
      basicKey_layout hm hc p.1 p.2 (hfind p (List.mem_cons_self _ _)) st
    obtain ⟨st2, hrun2, hsum2, hmem2⟩ :=
      ih hsorted.2 (fun q hq => hfind q (List.mem_cons_of_mem _ hq)) st1
    have inv := foldInv_reduceWithinThreads op b hm.closed
    have hfirst : ∀ q ∈ p :: es, op.first q.1 < op.srcElems ∧ op.key (op.first q.1) = q.1 := by
      intro q hq
      apply first_spec
      intro h
      have := (inv.none_iff q.1).mpr h
      rw [hfind q hq] at this
      exact absurd this (by simp)
    refine ⟨st2, ?_, ?_, ?_⟩
    · rw [List.flatMap_cons]
      exact run_of_steps b _ hrun1 hrun2
    · intro q hq t ht
      rcases List.mem_cons.mp hq with hq' | hq'
      · subst hq'
        rw [← hsum1 t ht]
        congr 1
        apply tuple_congr
        intro o
        apply hmem2
        intro q' hq' t' ht' heq
        obtain ⟨he, hk⟩ := hfirst q (List.mem_cons_self _ _)
        obtain ⟨he', hk'⟩ := hfirst q' (List.mem_cons_of_mem _ hq')
        have h0 := basicExtent_axis_pos hc
        have heq' : basicRowBase op b t (op.first q.1) + 0 * basicStride op =
            basicRowBase op b t' (op.first q'.1) +
              writeSlot op b t' (op.first q'.1) * basicStride op := by
          simpa using heq
        have hrow := (basicAddr_inj hc t _ t' _ 0 _ ht he ht' he' h0
          (hc.slot_lt t' ht' _ he') heq').1
        have hkk := hc.row_key t ht t' ht' _ he _ he' hrow
        rw [hk, hk'] at hkk
        have hlt := hsorted.1 q' hq'
        rw [hkk, keyLt_irrefl] at hlt
        exact absurd hlt (by simp)
      · exact hsum2 q hq' t ht
    · intro o a ha
      rw [hmem2 o a (fun q hq => ha q (List.mem_cons_of_mem _ hq)),
        hmem1 o a (ha p (List.mem_cons_self _ _))]

/-! ## Result read-back -/

/-- Running a list of loads whose pointer is determined by site and operand. -/
theorem run_loadList {α : Type} (b : Block α) (E : Nat) :
    ∀ (L : List (LoadSite × Nat × List IVal)),
      (∀ x ∈ L, ∀ t, t < b.numThreads → ptrOffset b t x.2.2 < E) →
      (∀ x ∈ L, ∀ y ∈ L, x.1 = y.1 → x.2.1 = y.2.1 → x.2.2 = y.2.2) →
      ∀ (st : State α),
      ∃ st', run b E (L.map fun x => Instr.load x.1 x.2.1 x.2.2) st = some st' ∧
        st'.mem = st.mem ∧
        (∀ t s o, (∀ x ∈ L, ¬ (x.1 = s ∧ x.2.1 = o)) → st'.env t s o = st.env t s o) ∧
        (∀ x ∈ L, ∀ t, t < b.numThreads →
          st'.env t x.1 x.2.1 = st.mem x.2.1 (ptrOffset b t x.2.2)) := by
  intro L
  induction L with
  | nil =>
    intro _ _ st
    exact ⟨st, rfl, rfl, fun _ _ _ _ => rfl, fun x hx => absurd hx (List.not_mem_nil _)⟩
  | cons x L ih =>
    intro hb hfun st
    have hx := exec_load b E x.1 x.2.1 x.2.2 st (hb x (List.mem_cons_self _ _))
    generalize hst1 : ({ st with
        env := fun t s o =>
          if t < b.numThreads ∧ s = x.1 ∧ o = x.2.1 then st.mem x.2.1 (ptrOffset b t x.2.2)
          else st.env t s o } : State α) = st1 at hx
    have hmem1 : st1.mem = st.mem := by rw [← hst1]
    have henv1 : ∀ t s o, st1.env t s o =
        if t < b.numThreads ∧ s = x.1 ∧ o = x.2.1 then st.mem x.2.1 (ptrOffset b t x.2.2)
        else st.env t s o := by intro t s o; rw [← hst1]
    obtain ⟨st2, hrun2, hmem2, hframe2, hval2⟩ :=
      ih (fun y hy => hb y (List.mem_cons_of_mem _ hy))
        (fun y hy z hz => hfun y (List.mem_cons_of_mem _ hy) z (List.mem_cons_of_mem _ hz)) st1
    refine ⟨st2, ?_, hmem2.trans hmem1, ?_, ?_⟩
    · simp only [List.map_cons, run, hx]
      exact hrun2
    · intro t s o hno
      rw [hframe2 t s o (fun y hy => hno y (List.mem_cons_of_mem _ hy)), henv1]
      have := hno x (List.mem_cons_self _ _)
      rw [if_neg]
      rintro ⟨_, hs, ho⟩
      exact this ⟨hs.symm, ho.symm⟩
    · intro y hy t ht
      by_cases hex : ∃ z ∈ L, z.1 = y.1 ∧ z.2.1 = y.2.1
      · obtain ⟨z, hz, hz1, hz2⟩ := hex
        have hp : z.2.2 = y.2.2 := hfun z (List.mem_cons_of_mem _ hz) y hy hz1 hz2
        have := hval2 z hz t ht
        rw [hz1, hz2, hp, hmem1] at this
        exact this
      · have hyx : y = x := by
          rcases List.mem_cons.mp hy with h | h
          · exact h
          · exact absurd ⟨y, h, rfl, rfl⟩ hex
        rw [hframe2 t y.1 y.2.1 (fun z hz hzy => hex ⟨z, hz, hzy⟩), henv1, hyx,
          if_pos ⟨ht, rfl, rfl⟩]

theorem list_sum_range {M : Type} [AddCommMonoid M] (g : Nat → M) (n : Nat) :
    ((List.range n).map g).sum = ∑ a in Finset.range n, g a := by
  induction n with
  | zero => simp
  | succ n ih => rw [List.range_succ, List.map_append, List.sum_append, ih, Finset.sum_range_succ]; simp

/-- The reference reduction of a row, seen through `φ`. -/
theorem map_reduceAlongAxis {α M : Type} [AddCommMonoid M] {φ : List α → M} {k : Nat}
    {f : List α → List α → List α} (hm : CombineModel f k φ) (tensor : List Nat → List α)
    (hlen : ∀ c, (tensor c).length = k) (axis n : Nat) (hn : 0 < n) (c : List Nat) :
    φ (reduceAlongAxis f tensor axis n c) =
        ∑ a in Finset.range n, φ (tensor (c.insertIdx axis a)) ∧
      (reduceAlongAxis f tensor axis n c).length = k := by
  unfold reduceAlongAxis
  have hne : (List.range n).map (fun a => tensor (c.insertIdx axis a)) ≠ [] := by
    intro h
    have := congrArg List.length h
    simp at this
    omega
  have hvalid : ∀ y ∈ (List.range n).map (fun a => tensor (c.insertIdx axis a)),
      y.length = k := by
    intro y hy
    obtain ⟨a, _, rfl⟩ := List.mem_map.mp hy
    exact hlen _
  have := map_combineAll hm _ hne hvalid
  refine ⟨?_, this.2⟩
  rw [this.1, List.map_map, list_sum_range]
  rfl

theorem run_inlineOnly {α : Type} (b : Block α) (E : Nat) (code : List Instr)
    (h : ∀ ins ∈ code, ∃ args, ins = Instr.inlineRegion args) (st : State α) :
    run b E code st = some st := by
  induction code with
  | nil => rfl
  | cons ins rest ih =>
    obtain ⟨args, rfl⟩ := h ins (List.mem_cons_self _ _)
    simp only [run, Instr.exec]
    exact ih (fun x hx => h x (List.mem_cons_of_mem _ hx))

/-- The result coordinate with the axis position inserted is the source
coordinate of the row with the axis position set. -/
theorem resultCoord_insert {α : Type} (op : ReduceOp) (b : Block α) (t j t' e' a : Nat)
    (hax : op.helper.axis < op.helper.srcShape.length)
    (hrel : ∀ d, d < op.helper.srcShape.length → d ≠ op.helper.axis →
      b.srcIndex t' e' d = b.resultIndex t j (if d < op.helper.axis then d else d - 1)) :
    (b.resultCoord op.helper.srcShape.length t j).insertIdx op.helper.axis a =
      (b.srcCoord op.helper.srcShape.length t' e').set op.helper.axis a := by
  have hlen : (b.resultCoord op.helper.srcShape.length t j).length =
      op.helper.srcShape.length - 1 := by simp [Block.resultCoord]
  have hle : op.helper.axis ≤ (b.resultCoord op.helper.srcShape.length t j).length := by
    rw [hlen]; omega
  apply list_ext_getD _ _ 0
  · rw [List.length_insertIdx _ _ hle, hlen]
    simp [Block.srcCoord]
    omega
  · intro d hd
    rw [List.length_insertIdx _ _ hle, hlen] at hd
    have hd' : d < op.helper.srcShape.length := by omega
    rw [getD_insertIdx _ _ _ _ _ hle, getD_set]
    simp only [Block.resultCoord, Block.srcCoord, List.length_map, List.length_range]
    by_cases h1 : d < op.helper.axis
    · have hne : d ≠ op.helper.axis := by omega
      rw [if_pos h1, if_neg (fun h => hne h.1), getD_map_range, getD_map_range,
        if_pos (by omega), if_pos hd', hrel d hd' hne, if_pos h1]
    · by_cases h2 : d = op.helper.axis
      · rw [if_neg h1, if_pos h2, if_pos ⟨h2, hax⟩]
      · rw [if_neg h1, if_neg h2, if_neg (fun h => h2 h.1), getD_map_range, getD_map_range,
          if_pos (by omega), if_pos hd', hrel d hd' h2, if_neg h1]

/-- The read-back offset of a result element is the first slot of its row. -/
theorem eval_resultOffset {α : Type} {op : ReduceOp} {b : Block α} {tensor : List Nat → List α}
    (hc : BasicLayoutContract op b tensor) (t j t' e' : Nat) (ht' : t' < b.numThreads)
    (he' : e' < op.srcElems)
    (hrel : ∀ d, d < op.helper.srcShape.length → d ≠ op.helper.axis →
      b.srcIndex t' e' d = b.resultIndex t j (if d < op.helper.axis then d else d - 1)) :
    (linearize ((op.resultIndices j).insertIdx op.helper.axis (IVal.const 0))
        op.helper.getScratchConfigBasic (op.helper.alg.getOrder op.helper.srcLayout)).eval b t =
      basicRowBase op b t' e' := by
  have hlen : (op.resultIndices j).length = op.helper.srcShape.length - 1 := by
    simp [ReduceOp.resultIndices]
  have hle : op.helper.axis ≤ (op.resultIndices j).length := by
    rw [hlen]; have := hc.axis_lt; omega
  have hev : ∀ d, d < op.helper.srcShape.length →
      (iidx ((op.resultIndices j).insertIdx op.helper.axis (IVal.const 0)) d).eval b t =
        if d = op.helper.axis then 0 else b.srcIndex t' e' d := by
    intro d hd
    unfold iidx
    rw [getD_insertIdx _ _ _ _ _ hle]
    simp only [ReduceOp.resultIndices]
    by_cases h1 : d < op.helper.axis
    · have hne : d ≠ op.helper.axis := by omega
      have := hc.axis_lt
      rw [if_pos h1, if_neg hne, getD_map_range, if_pos (by omega), hrel d hd hne, if_pos h1]
      rfl
    · by_cases h2 : d = op.helper.axis
      · rw [if_neg h1, if_pos h2, if_pos h2]; rfl
      · rw [if_neg h1, if_neg h2, if_neg h2, getD_map_range, if_pos (by omega), hrel d hd h2,
          if_neg h1]
        rfl
  rw [eval_linearize]
  · unfold basicRowBase
    apply flatAlong_congr
    intro d hd
    exact hev d ((order_mem_iff hc d).mp hd)
  · intro d hd
    have hd' := (order_mem_iff hc d).mp hd
    rw [hev d hd']
    exact basicCoord_lt hc t' e' 0 ht' he' (basicExtent_axis_pos hc) d hd'
  · show ((op.helper.alg.getOrder op.helper.srcLayout).map (basicExtent op)).prod < 2 ^ 32
    rw [prod_order_eq hc]
    exact lt_trans hc.smem_fit (by decide)

/-- For a rank-1 source the single row starts at offset 0. -/
theorem basicRowBase_rank_one {α : Type} {op : ReduceOp} {b : Block α}
    {tensor : List Nat → List α} (hc : BasicLayoutContract op b tensor)
    (hr : op.helper.srcShape.length = 1) (t e : Nat) : basicRowBase op b t e = 0 := by
  have hperm := hc.order_perm
  rw [hr] at hperm
  have hord : op.helper.alg.getOrder op.helper.srcLayout = [0] := by
    simpa using List.perm_singleton.mp hperm
  have hax : op.helper.axis = 0 := by have := hc.axis_lt; omega
  unfold basicRowBase
  rw [hord]
  simp [flatAlong, hax]

/-- After the loop over `accs`, the first slot of the row of any source element
holds the combine of the whole row. -/
theorem basic_row_total {α M : Type} [AddCommMonoid M] {φ : List α → M} {op : ReduceOp}
    {b : Block α} {tensor : List Nat → List α} (hm : CombineModel b.combine op.numOperands φ)
    (hc : BasicLayoutContract op b tensor) (st' : State α)
    (hsum : ∀ p ∈ (reduceWithinThreads op).accs, ∀ t, t < b.numThreads →
      φ (st'.tuple op.numOperands (basicRowBase op b t (op.first p.1))) =
        ∑ a in Finset.range (idx op.helper.srcShape op.helper.axis),
          rowElem φ op b tensor t (op.first p.1) a)
    (t e : Nat) (ht : t < b.numThreads) (he : e < op.srcElems) :
    φ (st'.tuple op.numOperands (basicRowBase op b t e)) =
      ∑ a in Finset.range (idx op.helper.srcShape op.helper.axis),
        rowElem φ op b tensor t e a := by
  have inv := foldInv_reduceWithinThreads op b hm.closed
  have hgrp := group_key_ne_nil op e he
  obtain ⟨hfe, hfk⟩ := first_spec op (op.key e) hgrp
  cases hfind : mapFind (reduceWithinThreads op).accs (op.key e) with
  | none => exact absurd ((inv.none_iff _).mp hfind) hgrp
  | some acc =>
    have hmem := mem_of_mapFind _ _ _ hfind
    have hrow : sameRow op b t (op.first (op.key e)) t e := hc.key_row t ht _ hfe e he hfk
    have := hsum _ hmem t ht
    simp only at this
    rw [basicRowBase_congr op b t _ t e hc hrow] at this
    rw [this]
    apply Finset.sum_congr rfl
    intro a _
    unfold rowElem
    rw [srcCoord_set_congr op b t _ t e a hrow]

theorem tuple_getD {α : Type} (st : State α) (k a i : Nat) (hi : i < k) (dflt : α) :
    (st.tuple k a).getD i dflt = st.mem i a := by
  unfold State.tuple
  rw [getD_map_range, if_pos hi]

/-- The value a thread reads back from the first slot of the row of its result
element is the reference reduction of that row. -/
theorem basic_read_value {α M : Type} [AddCommMonoid M] {φ : List α → M} {op : ReduceOp}
    {b : Block α} {tensor : List Nat → List α} (hm : CombineModel b.combine op.numOperands φ)
    (hc : BasicLayoutContract op b tensor) (st' : State α)
    (hsum : ∀ p ∈ (reduceWithinThreads op).accs, ∀ t, t < b.numThreads →
      φ (st'.tuple op.numOperands (basicRowBase op b t (op.first p.1))) =
        ∑ a in Finset.range (idx op.helper.srcShape op.helper.axis),
          rowElem φ op b tensor t (op.first p.1) a)
    (t j t' e' : Nat) (ht' : t' < b.numThreads) (he' : e' < op.srcElems)
    (hrel : ∀ d, d < op.helper.srcShape.length → d ≠ op.helper.axis →
      b.srcIndex t' e' d = b.resultIndex t j (if d < op.helper.axis then d else d - 1))
    (i : Nat) (hi : i < op.numOperands) :
    st'.mem i (basicRowBase op b t' e') =
      (reduceAlongAxis b.combine tensor op.helper.axis (idx op.helper.srcShape op.helper.axis)
        (b.resultCoord op.helper.srcShape.length t j)).getD i b.undef := by
  have hn : 0 < idx op.helper.srcShape op.helper.axis :=
    Nat.lt_of_le_of_lt (Nat.zero_le _) (hc.index_lt t' ht' e' he' _ hc.axis_lt)
  have href := map_reduceAlongAxis hm tensor hc.tensor_len op.helper.axis _ hn
    (b.resultCoord op.helper.srcShape.length t j)
  have htot := basic_row_total hm hc st' hsum t' e' ht' he'
  have heq : st'.tuple op.numOperands (basicRowBase op b t' e') =
      reduceAlongAxis b.combine tensor op.helper.axis (idx op.helper.srcShape op.helper.axis)
        (b.resultCoord op.helper.srcShape.length t j) := by
    apply hm.inj _ _ (by simp [State.tuple]) href.2
    rw [htot, href.1]
    apply Finset.sum_congr rfl
    intro a _
    unfold rowElem
    rw [resultCoord_insert op b t j t' e' a hc.axis_lt hrel]
  rw [← heq, tuple_getD _ _ _ _ hi]

theorem flatten_singletons {β γ : Type} (l : List β) (g : β → γ) :
    (l.map fun x => [g x]).flatten = l.map g := by
  induction l with
  | nil => rfl
  | cons x xs ih => simp [ih]

/-- The section "set output values", run on the block: every result value is the
content of scratch at the read-back offset of its result element. -/
theorem setOutputValues_run {α : Type} (op : ReduceOp) (b : Block α) (E : Nat)
    (smemShape order : List Nat) (st : State α) (addr : Nat → Nat → Nat)
    (haddr : ∀ t, t < b.numThreads → ∀ j, j < op.resultElems.getD 1 →
      (op.resultElems = none → addr t j = 0) ∧
      (op.resultElems ≠ none →
        (linearize ((op.resultIndices j).insertIdx op.helper.axis (IVal.const 0)) smemShape
          order).eval b t = addr t j))
    (hb : ∀ t, t < b.numThreads → ∀ j, j < op.resultElems.getD 1 → addr t j < E) :
    ∃ st', run b E
        ((((List.range op.numOperands).map fun i =>
          setOutputValues op smemShape order (IVal.const 0) i).map fun o => o.1).flatten) st =
          some st' ∧
      ∀ t, t < b.numThreads → ∀ j, j < op.resultElems.getD 1 → ∀ i, i < op.numOperands →
        (didx ((((List.range op.numOperands).map fun i =>
          setOutputValues op smemShape order (IVal.const 0) i).map fun o => o.2).getD i [])
            j).eval b st'.env t = st.mem i (addr t j) := by
  cases hre : op.resultElems with
  | none =>
    simp only [hre, Option.getD_none] at haddr hb
    have hcode : ((((List.range op.numOperands).map fun i =>
        setOutputValues op smemShape order (IVal.const 0) i).map fun o => o.1).flatten) =
        (List.range op.numOperands).map fun i => Instr.load .scalar i [] := by
      simp only [setOutputValues, hre, List.map_map, Function.comp]
      exact flatten_singletons _ _
    have hp : ∀ t, ptrOffset b t [] = 0 := fun t => by simp [ptrOffset]
    have hbound : ∀ t, t < b.numThreads → ptrOffset b t [] < E := by
      intro t ht
      rw [hp, ← (haddr t ht 0 (by decide)).1 trivial]
      exact hb t ht 0 (by decide)
    refine ⟨_, by rw [hcode]; exact run_loads b E .scalar [] op.numOperands st hbound, ?_⟩
    intro t ht j hj i hi
    simp only [Option.getD_none] at hj
    have hj0 : j = 0 := by omega
    subst hj0
    simp only [setOutputValues, hre, List.map_map, Function.comp]
    rw [getD_map_range, if_pos hi]
    simp only [didx, List.getD_cons_zero, DVal.eval]
    rw [if_pos ⟨ht, trivial, hi⟩, hp, (haddr t ht 0 (by decide)).1 trivial]
  | some re =>
    simp only [hre, Option.getD_some] at haddr hb
    have hlin : ∀ t, t < b.numThreads → ∀ j, j < re →
        (linearize ((op.resultIndices j).insertIdx op.helper.axis (IVal.const 0)) smemShape
          order).eval b t = addr t j :=
      fun t ht j hj => (haddr t ht j hj).2 (by simp)
    have hcode : ((((List.range op.numOperands).map fun i =>
        setOutputValues op smemShape order (IVal.const 0) i).map fun o => o.1).flatten) =
        (((List.range op.numOperands).flatMap fun i => (List.range re).map fun j =>
          (LoadSite.result j, i,
            [linearize ((op.resultIndices j).insertIdx op.helper.axis (IVal.const 0)) smemShape
              order])).map fun x => Instr.load x.1 x.2.1 x.2.2) := by
      simp only [setOutputValues, hre, List.map_map, Function.comp, List.flatMap,
        List.map_flatten]
      congr 1
      apply List.map_congr_left
      intro i _
      simp only [Function.comp, List.map_map]
      rfl
    obtain ⟨st', hrun, _, _, hval⟩ := run_loadList b E
      ((List.range op.numOperands).flatMap fun i => (List.range re).map fun j =>
          (LoadSite.result j, i,
            [linearize ((op.resultIndices j).insertIdx op.helper.axis (IVal.const 0)) smemShape
              order]))
      (by
        intro x hx t ht
        simp only [List.mem_flatMap, List.mem_map, List.mem_range] at hx
        obtain ⟨i, _, j, hj, rfl⟩ := hx
        simp only [ptrOffset_one]
        rw [hlin t ht j hj]
        exact hb t ht j hj)
      (by
        intro x hx y hy h1 _
        simp only [List.mem_flatMap, List.mem_map, List.mem_range] at hx hy
        obtain ⟨i, _, j, hj, rfl⟩ := hx
        obtain ⟨i', _, j', hj', rfl⟩ := hy
        simp only [LoadSite.result.injEq] at h1
        subst h1
        rfl)
      st
    refine ⟨st', by rw [hcode]; exact hrun, ?_⟩
    intro t ht j hj i hi
    simp only [Option.getD_some] at hj
    simp only [setOutputValues, hre, List.map_map, Function.comp]
    rw [getD_map_range, if_pos hi]
    simp only [didx, Function.comp]
    rw [getD_map_range, if_pos hj]
    simp only [DVal.eval]
    have := hval (LoadSite.result j, i,
        [linearize ((op.resultIndices j).insertIdx op.helper.axis (IVal.const 0)) smemShape
          order])
      (by
        simp only [List.mem_flatMap, List.mem_map, List.mem_range]
        exact ⟨i, hi, j, hj, rfl⟩) t ht
    simp only [ptrOffset_one] at this
    rw [this, hlin t ht j hj]

/-- A layout whose innermost non-Sliced parent passes the support check passes
it as well. -/
theorem isSupportedLayout_of_innermost (h : ReduceOpHelper)
    (hs : ({ h with srcLayout := specInnermostParent h.srcLayout } :
      ReduceOpHelper).isSupportedLayout = true) : h.isSupportedLayout = true := by
  cases hl : h.srcLayout with
  | slice dim parent => simp [ReduceOpHelper.isSupportedLayout, hl]
  | blocked s t w o => simp [ReduceOpHelper.isSupportedLayout, hl]
  | mma v w => simpa [ReduceOpHelper.isSupportedLayout, hl, specInnermostParent] using hs
  | dotOperand i q => simp [ReduceOpHelper.isSupportedLayout, hl, specInnermostParent] at hs

/-- The code `matchAndRewriteBasic` emits for a source layout the write-index
step has a rule for. -/
theorem matchAndRewriteBasic_ok {α : Type} {op : ReduceOp} {b : Block α}
    {tensor : List Nat → List α} (hc : BasicLayoutContract op b tensor) :
    matchAndRewriteBasic op =
      .ok ([Instr.getSharedMemoryBase] ++ (reduceWithinThreads op).code ++
          ((reduceWithinThreads op).accs.flatMap fun p =>
            basicKeyCode op op.helper.getScratchConfigBasic
              (op.helper.alg.getOrder op.helper.srcLayout)
              (basicInts op.helper.getScratchConfigBasic
                (op.helper.alg.getSizePerThread op.helper.srcLayout) op.helper.axis)
              ((mapFind (reduceWithinThreads op).indices p.1).getD []) p.1 p.2) ++
          [Instr.barrier] ++
          (((List.range op.numOperands).map fun i =>
            setOutputValues op op.helper.getScratchConfigBasic
              (op.helper.alg.getOrder op.helper.srcLayout) (IVal.const 0) i).map
                fun o => o.1).flatten,
        ((List.range op.numOperands).map fun i =>
            setOutputValues op op.helper.getScratchConfigBasic
              (op.helper.alg.getOrder op.helper.srcLayout) (IVal.const 0) i).map fun o => o.2) := by
  have h := basicAcrossThreads_ok hc op.helper.getScratchConfigBasic
    (op.helper.alg.getOrder op.helper.srcLayout) (reduceWithinThreads op).indices
    (reduceWithinThreads op).accs
  unfold ReduceOp.ints at h
  unfold matchAndRewriteBasic
  simp only [isSupportedLayout_of_innermost op.helper hc.parent_supported, Bool.not_true,
    Bool.false_and, Bool.false_eq_true, if_false, h, basicInts_zero]

/-- The Basic lowering of a source meeting the layout contract, run on the
block, leaves in every result value the reference reduction of the row of its
result element. -/
theorem basic_lowering_run {α M : Type} [AddCommMonoid M] {φ : List α → M} {op : ReduceOp}
    {b : Block α} {tensor : List Nat → List α} (hm : CombineModel b.combine op.numOperands φ)
    (hc : BasicLayoutContract op b tensor) (st : State α) :
    ∃ code results st', matchAndRewriteBasic op = .ok (code, results) ∧
      run b (product op.helper.getScratchConfigBasic) code st = some st' ∧
      ∀ t, t < b.numThreads → ∀ j, j < op.resultElems.getD 1 → ∀ i, i < op.numOperands →
        (didx (results.getD i []) j).eval b st'.env t =
          (reduceAlongAxis b.combine tensor op.helper.axis
            (idx op.helper.srcShape op.helper.axis)
            (b.resultCoord op.helper.srcShape.length t j)).getD i b.undef := by
  have inv := foldInv_reduceWithinThreads op b hm.closed
  -- the loop over `accs`
  obtain ⟨st1, hrun1, hsum1, _⟩ := basicAcross_run hm hc (reduceWithinThreads op).accs
    inv.sorted (fun p hp => mapFind_of_mem _ inv.sorted p.1 p.2 hp) st
  -- the read-back offsets
  have hrow := hc.result_row
  have haddr : ∀ t, t < b.numThreads → ∀ j, j < op.resultElems.getD 1 →
      ∃ t' e', t' < b.numThreads ∧ e' < op.srcElems ∧
        (∀ d, d < op.helper.srcShape.length → d ≠ op.helper.axis →
          b.srcIndex t' e' d = b.resultIndex t j (if d < op.helper.axis then d else d - 1)) := by
    intro t ht j hj
    obtain ⟨t', ht', e', he', h⟩ := hrow t ht j hj
    exact ⟨t', e', ht', he', h⟩
  classical
  let addr : Nat → Nat → Nat := fun t j =>
    if h : t < b.numThreads ∧ j < op.resultElems.getD 1 then
      basicRowBase op b (haddr t h.1 j h.2).choose (haddr t h.1 j h.2).choose_spec.choose
    else 0
  have haddr_spec : ∀ t, t < b.numThreads → ∀ j, j < op.resultElems.getD 1 →
      ∃ t' e', t' < b.numThreads ∧ e' < op.srcElems ∧
        (∀ d, d < op.helper.srcShape.length → d ≠ op.helper.axis →
          b.srcIndex t' e' d = b.resultIndex t j (if d < op.helper.axis then d else d - 1)) ∧
        addr t j = basicRowBase op b t' e' := by
    intro t ht j hj
    have hs := (haddr t ht j hj).choose_spec.choose_spec
    refine ⟨_, _, hs.1, hs.2.1, hs.2.2, ?_⟩
    simp only [addr, dif_pos (And.intro ht hj)]
  obtain ⟨st2, hrun2, hval2⟩ := setOutputValues_run op b
    (product op.helper.getScratchConfigBasic) op.helper.getScratchConfigBasic
    (op.helper.alg.getOrder op.helper.srcLayout) st1 addr
    (by
      intro t ht j hj
      obtain ⟨t', e', ht', he', hrel, ha⟩ := haddr_spec t ht j hj
      constructor
      · intro hnone
        rw [ha]
        exact basicRowBase_rank_one hc (hc.scalar_rank hnone) t' e'
      · intro _
        rw [ha]
        exact eval_resultOffset hc t j t' e' ht' he' hrel)
    (by
      intro t ht j hj
      obtain ⟨t', e', ht', he', hrel, ha⟩ := haddr_spec t ht j hj
      rw [ha]
      have := (basicGeometry hc e' he').addr_lt t' ht' 0 (basicExtent_axis_pos hc)
      simpa using this)
  refine ⟨_, _, st2, matchAndRewriteBasic_ok hc, ?_, ?_⟩
  · have hb : ∀ s : State α, run b (product op.helper.getScratchConfigBasic)
        [Instr.barrier] s = some s := fun s => rfl
    have hg : run b (product op.helper.getScratchConfigBasic) [Instr.getSharedMemoryBase] st =
        some st := rfl
    have h1 := run_of_steps b _ hg (run_inlineOnly b _ _ inv.code st)
    have h2 := run_of_steps b _ h1 hrun1
    have h3 := run_of_steps b _ h2 (hb st1)
    exact run_of_steps b _ h3 hrun2
  · intro t ht j hj i hi
    obtain ⟨t', e', ht', he', hrel, ha⟩ := haddr_spec t ht j hj
    rw [hval2 t ht j hj i hi, ha]
    exact basic_read_value hm hc st1 hsum1 t j t' e' ht' he' hrel i hi

/-! ## Blocked sources -/

/-- On a Blocked source the write index divides the axis component by the
elements per thread on the axis. -/
theorem basicWriteIdx_blocked (op : ReduceOp)
    (hl : ∃ spt tpw wpc ord, op.helper.srcLayout = Layout.blocked spt tpw wpc ord)
    (index : List IVal) :
    basicWriteIdx op index = index.set op.helper.axis
      (IVal.udiv (iidx index op.helper.axis)
        (IVal.const (idx (op.helper.alg.getSizePerThread op.helper.srcLayout)
          op.helper.axis))) := by
  unfold basicWriteIdx
  rw [getWriteIndexBasic_blocked _ _ hl]
  simp only [ReduceOp.ints, basicInts_sizePerThread]

/-- On a Blocked source the slot of the write index is the axis index of the
first element of the key divided by the elements per thread on the axis. -/
theorem writeSlot_blocked {α : Type} {op : ReduceOp} {b : Block α} {tensor : List Nat → List α}
    (hc : BasicContract op b tensor) (t e : Nat) : writeSlot op b t e = basicSlot op b t e := by
  unfold writeSlot basicSlot
  rw [basicWriteIdx_blocked op hc.blocked]
  have hlen : (op.srcIndices (op.first (op.key e))).length = op.helper.srcShape.length := by
    simp [ReduceOp.srcIndices]
  unfold iidx
  rw [getD_set, hlen, if_pos ⟨rfl, hc.axis_lt⟩]
  simp only [IVal.eval, ReduceOp.srcIndices]
  rw [getD_map_range, if_pos hc.axis_lt, u32_of_lt hc.spt_pos.2]
  rfl

/-- The contract of a Blocked source is an instance of the layout contract. -/
theorem BasicContract.toLayout {α : Type} {op : ReduceOp} {b : Block α}
    {tensor : List Nat → List α} (hc : BasicContract op b tensor) :
    BasicLayoutContract op b tensor where
  parent_supported := by
    obtain ⟨spt, tpw, wpc, ord, hl⟩ := hc.blocked
    simp [ReduceOpHelper.isSupportedLayout, hl, specInnermostParent]
  axis_lt := hc.axis_lt
  order_perm := hc.order_perm
  shape_fit := hc.shape_fit
  smem_fit := hc.smem_fit
  pow2 := hc.pow2
  tensor_len := hc.tensor_len
  index_lt := hc.index_lt
  value := hc.value
  key_row := hc.key_row
  row_key := hc.row_key
  once := hc.once
  slot_lt := fun t ht e he => by rw [writeSlot_blocked hc]; exact hc.slot_lt t ht e he
  slot_coord := fun t ht t' ht' e he e' he' hrow ha => by
    rw [writeSlot_blocked hc, writeSlot_blocked hc]
    exact hc.slot_coord t ht t' ht' e he e' he' hrow ha
  replica := fun t ht t' ht' e he hrow hs => by
    rw [writeSlot_blocked hc, writeSlot_blocked hc] at hs
    exact hc.replica t ht t' ht' e he hrow hs
  cover_axis := hc.cover_axis
  cover_slot := fun t ht e he s hs => by
    obtain ⟨t', ht', e', he', hrow, hslot⟩ := hc.cover_slot t ht e he s hs
    exact ⟨t', ht', e', he', hrow, by rw [writeSlot_blocked hc]; exact hslot⟩
  result_row := hc.result_row
  scalar_rank := hc.scalar_rank

/-! ## The `[4,4]` sum reduction -/

theorem laws44 : CombineLaws block44.combine 1 := by
  have hform : ∀ x y : List Int, x.length = 1 → y.length = 1 →
      block44.combine x y = [x.getD 0 0 + y.getD 0 0] := by
    intro x y hx hy
    match x, y, hx, hy with
    | [a], [c], _, _ => rfl
  refine ⟨?_, ?_, ?_⟩
  · intro x y hx hy
    rw [hform x y hx hy]; rfl
  · intro x y z hx hy hz
    have hxy : (block44.combine x y).length = 1 := by rw [hform x y hx hy]; rfl
    have hyz : (block44.combine y z).length = 1 := by rw [hform y z hy hz]; rfl
    rw [hform _ z hxy hz, hform x _ hx hyz, hform x y hx hy, hform y z hy hz]
    simp [add_assoc]
  · intro x y hx hy
    rw [hform x y hx hy, hform y x hy hx, add_comm]

set_option maxRecDepth 1000000 in
theorem contract44 : BasicContract (op44 false) block44 tensor44 where
  blocked := ⟨_, _, _, _, rfl⟩
  axis_lt := by decide
  order_perm := by decide
  shape_fit := by decide
  smem_fit := by decide
  spt_pos := by decide
  pow2 := ⟨2, by decide⟩
  tensor_len := fun _ => rfl
  index_lt := by decide
  value := by decide
  key_row := by decide
  row_key := by
    intro t _ t' _ e he e' he' _
    have h0 : e = 0 := Nat.lt_one_iff.mp he
    have h0' : e' = 0 := Nat.lt_one_iff.mp he'
    rw [h0, h0']
  once := by decide
  slot_lt := by decide
  slot_coord := by
    intro t _ t' _ e he e' he' _ hax
    have h0 : e = 0 := Nat.lt_one_iff.mp he
    have h0' : e' = 0 := Nat.lt_one_iff.mp he'
    subst h0 h0'
    have hfirst : (op44 false).first ((op44 false).key 0) = 0 := by decide
    unfold basicSlot
    rw [hfirst, hax]
  replica := by decide
  cover_axis := by decide
  cover_slot := by decide
  result_row := by decide
  scalar_rank := by decide

/-- C1: for a Blocked source whose index emitter meets `BasicContract` (in
particular the scratch axis extent is a power of two) and a combine operation
that is associative and commutative on operand tuples, `matchAndRewriteBasic`
emits code whose execution by all threads of the block, from any initial scratch
content, succeeds without leaving the scratch region and gives every result
element the combine of all source elements along the axis at its coordinate. -/
theorem basic_strategy_correct {α : Type} (op : ReduceOp) (b : Block α)
    (tensor : List Nat → List α) (hlaws : CombineLaws b.combine op.numOperands)
    (hc : BasicContract op b tensor) (st : State α) :
    ∃ code results st', matchAndRewriteBasic op = .ok (code, results) ∧
      run b (product op.helper.getScratchConfigBasic) code st = some st' ∧
      ∀ t, t < b.numThreads → ∀ j, j < op.resultElems.getD 1 → ∀ i, i < op.numOperands →
        (didx (results.getD i []) j).eval b st'.env t =
          (reduceAlongAxis b.combine tensor op.helper.axis
            (idx op.helper.srcShape op.helper.axis)
            (b.resultCoord op.helper.srcShape.length t j)).getD i b.undef := by
  letI := hlaws.addCommMonoid
  exact basic_lowering_run hlaws.model hc.toLayout st

/-- Witness for C1: the `[4,4]` integer tensor, 2 warps x 2 threads-per-warp along
axis 1, combine = sum: every thread's result is the sum of the 4 elements of its
row (`10`, `50`, `90`, `130` for rows `0..3`). -/
theorem basic_strategy_correct_witness :
    CombineLaws block44.combine (op44 false).numOperands ∧
      BasicContract (op44 false) block44 tensor44 ∧
      (∀ r, r < 4 → reduceAlongAxis block44.combine tensor44 1 4 [r] = [40 * (r : Int) + 10]) ∧
      ∃ code results st', matchAndRewriteBasic (op44 false) = .ok (code, results) ∧
        run block44 (product (op44 false).helper.getScratchConfigBasic) code
          ⟨fun _ _ => 0, fun _ _ _ => 0⟩ = some st' ∧
        ∀ t, t < block44.numThreads → ∀ j, j < (op44 false).resultElems.getD 1 →
          ∀ i, i < (op44 false).numOperands →
          (didx (results.getD i []) j).eval block44 st'.env t =
            (reduceAlongAxis block44.combine tensor44 (op44 false).helper.axis
              (idx (op44 false).helper.srcShape (op44 false).helper.axis)
              (block44.resultCoord (op44 false).helper.srcShape.length t j)).getD i
              block44.undef :=
  ⟨laws44, contract44, by decide,
    basic_strategy_correct (op44 false) block44 tensor44 laws44 contract44 _⟩

/-! ## Butterfly shuffles -/

theorem lane_xor_pow (j : Nat) (hj : j < 5) (l : Nat) (hl : l < 32) :
    l ^^^ 2 ^ j = if l / 2 ^ j % 2 = 0 then l + 2 ^ j else l - 2 ^ j := by
  revert l
  revert j
  decide

/-- Inside a warp of 32 lanes, the shuffle at distance `2 ^ j` exchanges with the
butterfly partner. -/
theorem shflSource_pow (j : Nat) (hj : j < 5) (t : Nat) :
    shflSource t (2 ^ j) = butterflyPartner t (2 ^ j) := by
  have hl : t % 32 < 32 := Nat.mod_lt _ (by decide)
  have hx := lane_xor_pow j hj (t % 32) hl
  unfold shflSource butterflyPartner
  rw [hx]
  have hcases : j = 0 ∨ j = 1 ∨ j = 2 ∨ j = 3 ∨ j = 4 := by omega
  rcases hcases with h | h | h | h | h <;> subst h <;> norm_num <;>
    split_ifs <;> omega

theorem sum_range_double {M : Type} [AddCommMonoid M] (W : Nat) (f : Nat → M) :
    ∑ i in Finset.range (2 * W), f i =
      ∑ i in Finset.range W, f i + ∑ i in Finset.range W, f (W + i) := by
  rw [two_mul, Finset.sum_range_add]

/-- Summing a block of `W` threads together with their butterfly partners gives
the sum over the enclosing block of `2 * W` threads. -/
theorem block_double {M : Type} [AddCommMonoid M] (W : Nat) (hW : 0 < W) (g : Nat → M)
    (t : Nat) :
    ∑ i in Finset.range W, (g (W * (t / W) + i) + g (butterflyPartner (W * (t / W) + i) W)) =
      ∑ i in Finset.range (2 * W), g (2 * W * (t / (2 * W)) + i) := by
  have hq : ∀ i, i < W → (W * (t / W) + i) / W = t / W := by
    intro i hi
    rw [Nat.mul_add_div hW, Nat.div_eq_of_lt hi, Nat.add_zero]
  have hp : t / (2 * W) = t / W / 2 := by
    rw [Nat.mul_comm, Nat.div_div_eq_div_mul]
  rw [Finset.sum_add_distrib, sum_range_double, hp]
  by_cases hpar : t / W % 2 = 0
  · have hq2 : t / W = 2 * (t / W / 2) := by omega
    congr 1
    · apply Finset.sum_congr rfl
      intro i _
      congr 1
      rw [hq2]
      simp only [Nat.mul_div_cancel_left _ (by decide : 0 < 2)]
      ring
    · apply Finset.sum_congr rfl
      intro i hi
      rw [Finset.mem_range] at hi
      unfold butterflyPartner
      rw [hq i hi, if_pos hpar]
      congr 1
      rw [hq2]
      simp only [Nat.mul_div_cancel_left _ (by decide : 0 < 2)]
      ring
  · have hq2 : t / W = 2 * (t / W / 2) + 1 := by omega
    rw [add_comm]
    congr 1
    · apply Finset.sum_congr rfl
      intro i hi
      rw [Finset.mem_range] at hi
      unfold butterflyPartner
      rw [hq i hi, if_neg hpar]
      congr 1
      have : W * (t / W) = 2 * W * (t / W / 2) + W := by
        conv_lhs => rw [hq2]
        ring
      omega
    · apply Finset.sum_congr rfl
      intro i _
      congr 1
      have : W * (t / W) = 2 * W * (t / W / 2) + W := by
        conv_lhs => rw [hq2]
        ring
      omega

theorem shuffleRounds_run {α : Type} (b : Block α) (E k : Nat) :
    ∀ (Ns : List Nat) (acc : List DVal) (st : State α),
      run b E (shuffleRounds k Ns acc).1 st = some st
  | [], _, _ => rfl
  | N :: Ns, acc, st => by
    simp only [shuffleRounds]
    apply run_of_steps b E _ (shuffleRounds_run b E k Ns _ st)
    apply run_of_steps b E _ (run_accumulate_code b E _ _ st)
    generalize List.range k = l
    induction l with
    | nil => rfl
    | cons i l ih => simpa [run, Instr.exec] using ih

theorem evalList_shfl {α : Type} (b : Block α) (env : LoadEnv α) (acc : List DVal) (N t : Nat) :
    DVal.evalList b env ((List.range acc.length).map fun i => DVal.shfl (didx acc i) N) t =
      DVal.evalList b env acc (shflSource t N) := by
  conv_rhs => rw [← didx_range acc]
  simp [DVal.evalList_eq_map, DVal.eval]

theorem sitesInList_shfl (P : LoadSite → Prop) (acc : List DVal) (N : Nat)
    (h : DVal.sitesInList P acc) :
    DVal.sitesInList P ((List.range acc.length).map fun i => DVal.shfl (didx acc i) N) := by
  have h' := h
  rw [← didx_range acc] at h'
  rw [DVal.sitesInList_iff] at h' ⊢
  intro v hv
  obtain ⟨i, hi, rfl⟩ := List.mem_map.mp hv
  simp only [DVal.sitesIn]
  exact h' _ (List.mem_map.mpr ⟨i, hi, rfl⟩)

/-- The butterfly of `j` shuffle rounds leaves in every thread the combination of
the accumulators of its aligned block of `2 ^ j` threads. -/
theorem shuffleRounds_spec {α M : Type} [AddCommMonoid M] {φ : List α → M} (b : Block α)
    (k : Nat) (hm : CombineModel b.combine k φ) (env : LoadEnv α) (P : LoadSite → Prop) :
    ∀ (j : Nat), j ≤ 5 → ∀ (acc : List DVal), acc.length = k → DVal.sitesInList P acc →
      (shuffleRounds k (halvings (2 ^ j / 2)) acc).2.length = k ∧
      DVal.sitesInList P (shuffleRounds k (halvings (2 ^ j / 2)) acc).2 ∧
      ∀ t, φ (DVal.evalList b env (shuffleRounds k (halvings (2 ^ j / 2)) acc).2 t) =
        ∑ i in Finset.range (2 ^ j), φ (DVal.evalList b env acc (2 ^ j * (t / 2 ^ j) + i)) := by
  intro j
  induction j with
  | zero =>
    intro _ acc hlen hP
    refine ⟨hlen, hP, fun t => ?_⟩
    simp [halvings_zero, shuffleRounds]
  | succ j ih =>
    intro hj acc hlen hP
    rw [halvings_pow]
    simp only [shuffleRounds]
    have hsl : ((List.range k).map fun i => DVal.shfl (didx acc i) (2 ^ j)).length = acc.length := by
      simp [hlen]
    have hl1 := accumulate_length acc _ hsl
    have hP1 : DVal.sitesInList P
        (accumulate acc ((List.range k).map fun i => DVal.shfl (didx acc i) (2 ^ j)) false).2 := by
      apply sitesInList_accumulate P acc _ hsl hP
      rw [← hlen]
      exact sitesInList_shfl P acc _ hP
    obtain ⟨h1, h2, h3⟩ := ih (by omega) _ (hl1.trans hlen) hP1
    refine ⟨h1, h2, fun t => ?_⟩
    rw [h3 t]
    have hstep : ∀ u, φ (DVal.evalList b env
        (accumulate acc ((List.range k).map fun i => DVal.shfl (didx acc i) (2 ^ j)) false).2 u) =
        φ (DVal.evalList b env acc u) +
          φ (DVal.evalList b env acc (butterflyPartner u (2 ^ j))) := by
      intro u
      have hs : DVal.evalList b env ((List.range k).map fun i => DVal.shfl (didx acc i) (2 ^ j)) u =
          DVal.evalList b env acc (butterflyPartner u (2 ^ j)) := by
        rw [← shflSource_pow j (by omega), ← evalList_shfl, hlen]
      have hla : ∀ u', (DVal.evalList b env acc u').length = k := fun u' => by
        rw [DVal.evalList_length, hlen]
      rw [evalList_accumulate b env acc _ u hsl, hs]
      · exact hm.map_add _ _ (hla _) (hla _)
      · rw [hs, hlen]
        exact hm.closed _ _ (hla _) (hla _)
    simp only [hstep]
    rw [block_double (2 ^ j) (Nat.pow_pos (by decide))
      (fun u => φ (DVal.evalList b env acc u)) t]
    rw [Nat.pow_succ, Nat.mul_comm (2 ^ j) 2]

/-- One round of the inter-warp phase: every needed thread whose lane is a
multiple of `2 ^ j` replaces the scratch entry at its offset by the combination
of the `2 ^ j` entries starting there; entries outside the round's window of
offsets keep their content. -/
theorem fastRound_step {α M : Type} [AddCommMonoid M] {φ : List α → M} (b : Block α)
    (k E : Nat) (hm : CombineModel b.combine k φ) (j : Nat) (hj : j ≤ 5)
    (h32 : 2 ^ j ∣ b.numThreads) (elems r : Nat) (ro pred : IVal)
    (hro : ∀ t, t < b.numThreads → ro.eval b t = t + r * b.numThreads)
    (hE : (r + 1) * b.numThreads ≤ E)
    (hpred : ∀ t, t < b.numThreads → (pred.eval b t ≠ 0 ↔ (t < elems ∧ t % 32 % 2 ^ j = 0)))
    (st : State α) :
    ∃ st', run b E
        (((List.range k).map fun i => Instr.load (.interWarp r) i [ro]) ++
          (shuffleRounds k (halvings (2 ^ j / 2))
            ((List.range k).map fun i => DVal.loaded (.interWarp r) i)).1 ++
          ((List.range k).map fun i => Instr.storeShared i [ro]
            (didx (shuffleRounds k (halvings (2 ^ j / 2))
              ((List.range k).map fun i => DVal.loaded (.interWarp r) i)).2 i) pred)) st =
          some st' ∧
      (∀ t, t < b.numThreads → t < elems → t % 32 % 2 ^ j = 0 →
        φ (st'.tuple k (t + r * b.numThreads)) =
          ∑ i in Finset.range (2 ^ j), φ (st.tuple k (t + r * b.numThreads + i))) ∧
      (∀ o a, (a < r * b.numThreads ∨ (r + 1) * b.numThreads ≤ a) → st'.mem o a = st.mem o a) := by
  generalize hacc : ((List.range k).map fun i => DVal.loaded (.interWarp r) i) = acc
  have hacclen : acc.length = k := by rw [← hacc]; simp
  have hoff : ∀ t, t < b.numThreads → ptrOffset b t [ro] = t + r * b.numThreads := by
    intro t ht; rw [ptrOffset_one, hro t ht]
  have hin : ∀ t, t < b.numThreads → ptrOffset b t [ro] < E := by
    intro t ht
    rw [hoff t ht]
    have : (r + 1) * b.numThreads = r * b.numThreads + b.numThreads := by ring
    omega
  have hrun1 := run_loads b E (.interWarp r) [ro] k st hin
  generalize hst2 : ({ mem := st.mem
                       env := fun t s o =>
                         if t < b.numThreads ∧ s = LoadSite.interWarp r ∧ o < k then
                           st.mem o (ptrOffset b t [ro])
                         else st.env t s o } : State α) = st2 at hrun1
  obtain ⟨hrlen, _, hrsum⟩ := shuffleRounds_spec b k hm st2.env (fun _ => True) j hj acc hacclen
    (by rw [← hacc]; exact sitesInList_loaded _ _ _ trivial)
  generalize hrs : (shuffleRounds k (halvings (2 ^ j / 2)) acc).2 = rs at hrlen hrsum
  have hrun2 := run_storesShared b E [ro] rs pred k st2 (fun t ht _ => hin t ht)
  generalize hst3 : ({ env := st2.env
                       mem := fun o a =>
                         if o < k then
                           storeAll b st2.env o [ro] (didx rs o)
                             (fun t => decide (pred.eval b t ≠ 0)) st2.mem o a
                         else st2.mem o a } : State α) = st3 at hrun2
  have hmem2 : st2.mem = st.mem := by rw [← hst2]
  have henv2 : ∀ t s o, st2.env t s o =
      if t < b.numThreads ∧ s = LoadSite.interWarp r ∧ o < k then st.mem o (ptrOffset b t [ro])
      else st.env t s o := by intro t s o; rw [← hst2]
  have hmem3 : ∀ o a, st3.mem o a =
      if o < k then
        storeAll b st2.env o [ro] (didx rs o) (fun t => decide (pred.eval b t ≠ 0)) st.mem o a
      else st.mem o a := by intro o a; rw [← hst3, hmem2]
  refine ⟨st3, ?_, ?_, ?_⟩
  · exact run_of_steps b E (run_of_steps b E hrun1 (shuffleRounds_run b E k _ acc st2)) hrun2
  · intro t ht hte htz
    have hpos : 0 < 2 ^ j := Nat.pow_pos (by decide)
    have hdvd : 2 ^ j ∣ 32 := by
      have : (32 : Nat) = 2 ^ 5 := by norm_num
      rw [this]
      exact Nat.pow_dvd_pow 2 hj
    have htU : t % 2 ^ j = 0 := by rw [← Nat.mod_mod_of_dvd t hdvd]; exact htz
    have hblock : 2 ^ j * (t / 2 ^ j) = t := Nat.mul_div_cancel' (Nat.dvd_of_mod_eq_zero htU)
    have hfit : ∀ i, i < 2 ^ j → t + i < b.numThreads := by
      intro i hi
      obtain ⟨q, hq⟩ := Nat.dvd_of_mod_eq_zero htU
      obtain ⟨m, hm'⟩ := h32
      have hqm : q < m := by
        by_contra hcon
        have : 2 ^ j * m ≤ 2 ^ j * q := Nat.mul_le_mul_left _ (Nat.le_of_not_lt hcon)
        omega
      have : 2 ^ j * (q + 1) ≤ 2 ^ j * m := Nat.mul_le_mul_left _ hqm
      rw [Nat.mul_add, Nat.mul_one] at this
      omega
    have hstored : st3.tuple k (t + r * b.numThreads) = DVal.evalList b st2.env rs t := by
      rw [evalList_eq_range b st2.env rs t, hrlen]
      apply List.map_congr_left
      intro o ho
      rw [hmem3, if_pos (List.mem_range.mp ho)]
      apply storeAll_hit
      · exact ⟨t, ht, decide_eq_true ((hpred t ht).mpr ⟨hte, htz⟩), hoff t ht⟩
      · intro t' ht' _ hp
        rw [hoff t' ht'] at hp
        have : t' = t := by omega
        rw [this]
    rw [hstored, hrsum t, hblock]
    apply Finset.sum_congr rfl
    intro i hi
    rw [Finset.mem_range] at hi
    congr 1
    rw [← hacc, evalList_loaded]
    apply List.map_congr_left
    intro o ho
    rw [henv2, if_pos ⟨hfit i hi, rfl, List.mem_range.mp ho⟩, hoff _ (hfit i hi)]
    congr 1
    omega
  · intro o a ha
    rw [hmem3]
    split
    · apply storeAll_miss
      intro t ht _ hp
      rw [hoff t ht] at hp
      have : (r + 1) * b.numThreads = r * b.numThreads + b.numThreads := by ring
      omega
    · rfl

theorem eval_fastPred {α : Type} (b : Block α) (elems j t : Nat) (hj : j ≤ 5)
    (helems : elems < 2 ^ 31) (ht : t < 2 ^ 31) :
    (IVal.and_ (IVal.icmp_slt IVal.threadId (.const elems))
        (IVal.icmp_eq (IVal.urem (IVal.urem IVal.threadId (IVal.const 32)) (.const (2 ^ j)))
          (IVal.const 0))).eval b t ≠ 0 ↔ (t < elems ∧ t % 32 % 2 ^ j = 0) := by
  have hU : 2 ^ j ≤ 2 ^ 5 := Nat.pow_le_pow_right (by decide) hj
  have e1 : u32 elems = elems := u32_of_lt (by omega)
  have e2 : u32 (2 ^ j) = 2 ^ j := u32_of_lt (by omega)
  have e3 : u32 32 = 32 := rfl
  have e4 : u32 0 = 0 := rfl
  simp only [IVal.eval, e1, e2, e3, e4, toSigned_of_lt t ht, toSigned_of_lt elems helems]
  by_cases h1 : t < elems
  · have : (t : Int) < (elems : Int) := by exact_mod_cast h1
    rw [if_pos this]
    by_cases h2 : t % 32 % 2 ^ j = 0
    · rw [if_pos h2]; simp [h1, h2]
    · rw [if_neg h2]; simp [h2]
  · have : ¬ (t : Int) < (elems : Int) := by exact_mod_cast h1
    rw [if_neg this]
    simp [h1]

/-- The inter-warp phase: every needed thread whose lane is a multiple of
`2 ^ j` ends with the combination of the `2 ^ j` scratch entries starting at each
of its offsets; nothing else below the first round or above the last changes. -/
theorem fastAcross_run {α M : Type} [AddCommMonoid M] {φ : List α → M} (op : ReduceOp)
    (b : Block α) (E : Nat) (hm : CombineModel b.combine op.numOperands φ) (j : Nat) (hj : j ≤ 5)
    (h32 : 2 ^ j ∣ b.numThreads) (elems R : Nat) (helems : elems < 2 ^ 31)
    (hE : R * b.numThreads ≤ E) (hfit : R * b.numThreads < 2 ^ 31) (hT : b.numThreads < 2 ^ 31) :
    ∀ (fuel round : Nat) (ro : IVal) (st : State α), fuel + round = R →
      (0 < fuel → ∀ t, t < b.numThreads → ro.eval b t = t + round * b.numThreads) →
      ∃ st', run b E
          (fastAcrossWarps op elems b.numThreads R (2 ^ j) IVal.threadId
            (IVal.urem IVal.threadId (IVal.const 32)) (IVal.const 0) fuel round ro) st = some st' ∧
        (∀ r, round ≤ r → r < R → ∀ t, t < b.numThreads → t < elems → t % 32 % 2 ^ j = 0 →
          φ (st'.tuple op.numOperands (t + r * b.numThreads)) =
            ∑ i in Finset.range (2 ^ j), φ (st.tuple op.numOperands (t + r * b.numThreads + i))) ∧
        (∀ o a, (a < round * b.numThreads ∨ R * b.numThreads ≤ a) → st'.mem o a = st.mem o a) := by
  intro fuel
  induction fuel with
  | zero =>
    intro round ro st hR _
    refine ⟨st, rfl, ?_, fun _ _ _ => rfl⟩
    intro r h1 h2
    omega
  | succ fuel ih =>
    intro round ro st hR hro
    have hro' := hro (Nat.succ_pos _)
    have hle : (round + 1) * b.numThreads ≤ R * b.numThreads :=
      Nat.mul_le_mul_right _ (by omega)
    obtain ⟨st1, hrun1, hsum1, hframe1⟩ := fastRound_step b op.numOperands E hm j hj h32 elems
      round ro _ hro' (Nat.le_trans hle hE)
      (fun t ht => eval_fastPred b elems j t hj helems (by omega)) st
    obtain ⟨st2, hrun2, hsum2, hframe2⟩ := ih (round + 1)
      (if round ≠ R - 1 then IVal.add ro (.const b.numThreads) else ro) st1 (by omega) (by
        intro hf t ht
        have hne : round ≠ R - 1 := by omega
        rw [if_pos hne]
        simp only [IVal.eval]
        rw [hro' t ht, u32_of_lt (by omega : b.numThreads < 2 ^ 32)]
        have h2 : (round + 2) * b.numThreads ≤ R * b.numThreads :=
          Nat.mul_le_mul_right _ (by omega)
        have e1 : (round + 2) * b.numThreads = round * b.numThreads + 2 * b.numThreads := by ring
        have e2 : (round + 1) * b.numThreads = round * b.numThreads + b.numThreads := by ring
        rw [u32_of_lt (by omega), e2]
        omega)
    have e2 : (round + 1) * b.numThreads = round * b.numThreads + b.numThreads := by ring
    refine ⟨st2, ?_, ?_, ?_⟩
    · simp only [fastAcrossWarps]
      exact run_of_steps b E hrun1 hrun2
    · intro r hr1 hr2 t ht hte htz
      by_cases hr : r = round
      · subst hr
        rw [tuple_congr st1 st2 _ _ (fun o => hframe2 o _ (Or.inl (by omega)))]
        exact hsum1 t ht hte htz
      · rw [hsum2 r (by omega) hr2 t ht hte htz]
        apply Finset.sum_congr rfl
        intro i _
        congr 1
        apply tuple_congr
        intro o
        apply hframe1
        right
        have : (round + 1) * b.numThreads ≤ r * b.numThreads :=
          Nat.mul_le_mul_right _ (by omega)
        omega
    · intro o a ha
      rw [hframe2 o a (by omega), hframe1 o a (by omega)]

/-! ## Scratch geometry of the Fast lowering -/

theorem fastShape_eq (op : ReduceOp) :
    op.helper.getScratchConfigsFast.getD 0 [] =
      (convertType op.helper.srcShape).set op.helper.axis op.helper.getInterWarpSize := by
  rw [getScratchConfigsFast_eq]; rfl

theorem fastShape_length (op : ReduceOp) :
    (op.helper.getScratchConfigsFast.getD 0 []).length = op.helper.srcShape.length := by
  rw [fastShape_eq]; simp [convertType]

theorem fastExtent_of_ne {α : Type} {op : ReduceOp} {b : Block α} {tensor : List Nat → List α}
    (hc : FastContract op b tensor) (d : Nat) (hd : d < op.helper.srcShape.length)
    (hne : d ≠ op.helper.axis) : fastExtent op d = idx op.helper.srcShape d := by
  unfold fastExtent idx
  rw [fastShape_eq, getD_set]
  have : ¬ (d = op.helper.axis ∧ op.helper.axis < (convertType op.helper.srcShape).length) :=
    fun h => hne h.1
  rw [if_neg this]
  unfold convertType
  rw [List.getD_eq_getElem?_getD, List.getD_eq_getElem?_getD, List.getElem?_map,
    List.getElem?_eq_getElem hd]
  simp only [Option.map_some', Option.getD_some]
  have := hc.shape_fit d hd
  unfold idx at this
  rw [List.getD_eq_getElem?_getD, List.getElem?_eq_getElem hd] at this
  exact u32_of_lt (by simpa using this)

theorem fastOrder_mem_iff {α : Type} {op : ReduceOp} {b : Block α} {tensor : List Nat → List α}
    (hc : FastContract op b tensor) (d : Nat) :
    d ∈ op.helper.alg.getOrder op.helper.srcLayout ↔ d < op.helper.srcShape.length := by
  rw [hc.order_perm.mem_iff, List.mem_range]

theorem fastProd_order_eq {α : Type} {op : ReduceOp} {b : Block α} {tensor : List Nat → List α}
    (hc : FastContract op b tensor) :
    ((op.helper.alg.getOrder op.helper.srcLayout).map (fastExtent op)).prod =
      (op.helper.getScratchConfigsFast.getD 0 []).prod := by
  rw [(hc.order_perm.map (fastExtent op)).prod_eq]
  congr 1
  apply list_ext_getD _ _ 0
  · rw [fastShape_length]; simp
  · intro d hd
    simp only [List.length_map, List.length_range] at hd
    rw [getD_map_range, if_pos hd]
    rfl

theorem fastProduct_eq {α : Type} {op : ReduceOp} {b : Block α} {tensor : List Nat → List α}
    (hc : FastContract op b tensor) :
    product (op.helper.getScratchConfigsFast.getD 0 []) =
      (op.helper.getScratchConfigsFast.getD 0 []).prod :=
  product_eq_prod _ (lt_trans hc.smem_fit (by decide))

/-- A coordinate inside the scratch shape has a flat offset below `elems`. -/
theorem fastFlat_lt {α : Type} {op : ReduceOp} {b : Block α} {tensor : List Nat → List α}
    (hc : FastContract op b tensor) (g : Nat → Nat)
    (hg : ∀ d, d < op.helper.srcShape.length → g d < fastExtent op d) :
    flatAlong g (fastExtent op) (op.helper.alg.getOrder op.helper.srcLayout) <
      product (op.helper.getScratchConfigsFast.getD 0 []) := by
  rw [fastProduct_eq hc, ← fastProd_order_eq hc]
  exact flatAlong_lt g _ _ (fun d hd => hg d ((fastOrder_mem_iff hc d).mp hd))

theorem fastCoord_lt {α : Type} {op : ReduceOp} {b : Block α} {tensor : List Nat → List α}
    (hc : FastContract op b tensor) (t e s : Nat) (ht : t < b.numThreads)
    (he : e < op.srcElems) (hs : s < fastExtent op op.helper.axis) :
    ∀ d, d < op.helper.srcShape.length →
      (if d = op.helper.axis then s else b.srcIndex t e d) < fastExtent op d := by
  intro d hd
  by_cases h : d = op.helper.axis
  · rw [if_pos h, h]; exact hs
  · rw [if_neg h, fastExtent_of_ne hc d hd h]
    exact hc.index_lt t ht e he d hd

/-- In a fast reduction the axis is the fastest dimension of the source order. -/
theorem fastOrder_head {α : Type} {op : ReduceOp} {b : Block α} {tensor : List Nat → List α}
    (hc : FastContract op b tensor) (hfast : op.helper.isFastReduction = true) :
    ∃ rest, op.helper.alg.getOrder op.helper.srcLayout = op.helper.axis :: rest ∧
      op.helper.axis ∉ rest := by
  have hhead : (op.helper.alg.getOrder op.helper.srcLayout)[0]? = some op.helper.axis := by
    apply hc.order_head
    have h := hfast
    unfold ReduceOpHelper.isFastReduction at h
    split at h
    · cases h
    · exact of_decide_eq_true h
  have hnd : (op.helper.alg.getOrder op.helper.srcLayout).Nodup :=
    hc.order_perm.nodup_iff.mpr (List.nodup_range _)
  have hmem := (fastOrder_mem_iff hc op.helper.axis).mpr hc.axis_lt
  cases hord : op.helper.alg.getOrder op.helper.srcLayout with
  | nil => rw [hord] at hmem; exact absurd hmem (List.not_mem_nil _)
  | cons o rest =>
    have ho : o = op.helper.axis := by
      rw [hord] at hhead
      simpa using hhead
    rw [hord] at hnd
    rw [ho] at hnd ⊢
    exact ⟨rest, rfl, (List.nodup_cons.mp hnd).1⟩

/-- The scratch offset of slot `s` of a row is the row base plus `s`. -/
theorem fastRowBase_add {α : Type} {op : ReduceOp} {b : Block α} {tensor : List Nat → List α}
    (hc : FastContract op b tensor) (hfast : op.helper.isFastReduction = true) (t e s : Nat) :
    flatAlong (fun d => if d = op.helper.axis then s else b.srcIndex t e d) (fastExtent op)
        (op.helper.alg.getOrder op.helper.srcLayout) = fastRowBase op b t e + s := by
  obtain ⟨rest, hord, hnot⟩ := fastOrder_head hc hfast
  unfold fastRowBase
  rw [hord]
  simp only [flatAlong, if_true]
  rw [flatAlong_congr _ (fun d => if d = op.helper.axis then 0 else b.srcIndex t e d) _ rest
    (fun d hd => by
      have : d ≠ op.helper.axis := fun h => hnot (h ▸ hd)
      simp [this])]
  omega

/-- Row bases are multiples of the scratch axis extent. -/
theorem fastRowBase_dvd {α : Type} {op : ReduceOp} {b : Block α} {tensor : List Nat → List α}
    (hc : FastContract op b tensor) (hfast : op.helper.isFastReduction = true) (t e : Nat) :
    fastExtent op op.helper.axis ∣ fastRowBase op b t e := by
  obtain ⟨rest, hord, _⟩ := fastOrder_head hc hfast
  unfold fastRowBase
  rw [hord]
  simp only [flatAlong, if_true, Nat.zero_add]
  exact Dvd.intro _ rfl

theorem fastRowBase_congr {α : Type} (op : ReduceOp) (b : Block α) (t e t' e' : Nat)
    {tensor : List Nat → List α} (hc : FastContract op b tensor)
    (h : sameRow op b t e t' e') : fastRowBase op b t e = fastRowBase op b t' e' := by
  unfold fastRowBase
  apply flatAlong_congr
  intro d hd
  by_cases hd' : d = op.helper.axis
  · simp [hd']
  · simp only [hd', if_false]
    exact h d ((fastOrder_mem_iff hc d).mp hd) hd'

/-- Scratch offsets determine the row and the slot. -/
theorem fastAddr_inj {α : Type} {op : ReduceOp} {b : Block α} {tensor : List Nat → List α}
    (hc : FastContract op b tensor) (hfast : op.helper.isFastReduction = true)
    (t e t' e' s s' : Nat) (ht : t < b.numThreads)
    (he : e < op.srcElems) (ht' : t' < b.numThreads) (he' : e' < op.srcElems)
    (hs : s < fastExtent op op.helper.axis) (hs' : s' < fastExtent op op.helper.axis)
    (h : fastRowBase op b t e + s = fastRowBase op b t' e' + s') :
    sameRow op b t e t' e' ∧ s = s' := by
  rw [← fastRowBase_add hc hfast, ← fastRowBase_add hc hfast] at h
  have hin := flatAlong_inj _ _ _ _
    (fun d hd => fastCoord_lt hc t e s ht he hs d ((fastOrder_mem_iff hc d).mp hd))
    (fun d hd => fastCoord_lt hc t' e' s' ht' he' hs' d ((fastOrder_mem_iff hc d).mp hd)) h
  constructor
  · intro d hd hne
    have := hin d ((fastOrder_mem_iff hc d).mpr hd)
    simpa [hne] using this
  · have := hin op.helper.axis ((fastOrder_mem_iff hc _).mpr hc.axis_lt)
    simpa using this

theorem fastAddr_lt {α : Type} {op : ReduceOp} {b : Block α} {tensor : List Nat → List α}
    (hc : FastContract op b tensor) (hfast : op.helper.isFastReduction = true)
    (t e s : Nat) (ht : t < b.numThreads) (he : e < op.srcElems)
    (hs : s < fastExtent op op.helper.axis) :
    fastRowBase op b t e + s < product (op.helper.getScratchConfigsFast.getD 0 []) := by
  rw [← fastRowBase_add hc hfast]
  exact fastFlat_lt hc _ (fastCoord_lt hc t e s ht he hs)
/-! ## Lane and warp coordinates of the Fast lowering -/

theorem foldl_set_iidx (i : Nat) : ∀ (ps : List (Nat × IVal)) (l : List IVal),
    (∀ p ∈ ps, p.1 ≠ i) →
    iidx (ps.foldl (fun multiDim p => multiDim.set p.1 p.2) l) i = iidx l i
  | [], _, _ => rfl
  | p :: ps, l, h => by
    rw [List.foldl_cons, foldl_set_iidx i ps _ (fun q hq => h q (List.mem_cons_of_mem _ hq))]
    unfold iidx
    rw [getD_set, if_neg (fun hh => h p (List.mem_cons_self _ _) hh.1.symm)]

/-- The coordinate `delinearize` assigns to the fastest dimension. -/
theorem delinearize_head (linear : IVal) (shape : List Nat) (ax : Nat) (rest : List Nat)
    (hnot : ax ∉ rest) (hax : ax < shape.length) :
    iidx (delinearize linear shape (ax :: rest)) ax =
      if rest = [] then linear else IVal.urem linear (.const (idx shape ax)) := by
  unfold delinearize reorderN
  cases rest with
  | nil =>
    simp only [List.map_cons, List.map_nil, delinearizeOrdered, List.zip_cons_cons, List.zip_nil_right,
      List.foldl_cons, List.foldl_nil, if_true]
    unfold iidx
    rw [getD_set, if_pos ⟨rfl, by simpa using hax⟩]
  | cons d ds =>
    simp only [List.map_cons, delinearizeOrdered, List.zip_cons_cons, List.foldl_cons]
    rw [foldl_set_iidx]
    · unfold iidx
      rw [getD_set, if_pos ⟨rfl, by simpa using hax⟩, if_neg (by simp)]
    · intro p hp hpa
      have h1 := List.of_mem_zip hp
      apply hnot
      rw [← hpa]
      have : p.1 ∈ d :: ds := by
        have := h1.1
        simpa using this
      exact this

theorem fastOrder_rest_nil {α : Type} {op : ReduceOp} {b : Block α} {tensor : List Nat → List α}
    (hc : FastContract op b tensor) (rest : List Nat)
    (hord : op.helper.alg.getOrder op.helper.srcLayout = op.helper.axis :: rest) :
    rest = [] ↔ op.helper.srcShape.length = 1 := by
  have hlen := hc.order_perm.length_eq
  rw [hord, List.length_range, List.length_cons] at hlen
  constructor
  · intro h; rw [h] at hlen; simpa using hlen.symm
  · intro h
    rw [h] at hlen
    exact List.length_eq_zero.mp (by omega)

/-- The value of `laneIdAxis`. -/
theorem eval_laneIdAxis {α : Type} {op : ReduceOp} {b : Block α} {tensor : List Nat → List α}
    (hc : FastContract op b tensor) (hfast : op.helper.isFastReduction = true) (t : Nat) :
    (iidx (delinearize (IVal.urem IVal.threadId (IVal.const 32))
        (op.helper.alg.getThreadsPerWarpWithUniqueData op.helper.srcLayout op.helper.srcShape)
        (op.helper.alg.getOrder op.helper.srcLayout)) op.helper.axis).eval b t =
      fastLaneAxis op t := by
  obtain ⟨rest, hord, hnot⟩ := fastOrder_head hc hfast
  rw [hord, delinearize_head _ _ _ _ hnot (by rw [hc.unique_len.1]; exact hc.axis_lt)]
  unfold fastLaneAxis
  by_cases h : rest = []
  · rw [if_pos h, if_pos ((fastOrder_rest_nil hc rest hord).mp h)]
    rfl
  · rw [if_neg h, if_neg (fun h' => h ((fastOrder_rest_nil hc rest hord).mpr h'))]
    simp only [IVal.eval]
    rw [u32_of_lt hc.unique_fit.1.2]
    rfl

/-- The value of `warpIdAxis`. -/
theorem eval_warpIdAxis {α : Type} {op : ReduceOp} {b : Block α} {tensor : List Nat → List α}
    (hc : FastContract op b tensor) (hfast : op.helper.isFastReduction = true) (t : Nat) :
    (iidx (delinearize (IVal.udiv IVal.threadId (IVal.const 32))
        (op.helper.alg.getWarpsPerCTAWithUniqueData op.helper.srcLayout op.helper.srcShape)
        (op.helper.alg.getOrder op.helper.srcLayout)) op.helper.axis).eval b t =
      fastWarpAxis op t := by
  obtain ⟨rest, hord, hnot⟩ := fastOrder_head hc hfast
  rw [hord, delinearize_head _ _ _ _ hnot (by rw [hc.unique_len.2]; exact hc.axis_lt)]
  unfold fastWarpAxis
  by_cases h : rest = []
  · rw [if_pos h, if_pos ((fastOrder_rest_nil hc rest hord).mp h)]
    rfl
  · rw [if_neg h, if_neg (fun h' => h ((fastOrder_rest_nil hc rest hord).mpr h'))]
    simp only [IVal.eval]
    rw [u32_of_lt hc.unique_fit.2.2]
    rfl

/-- The predicate `laneZero` selects the lanes with axis lane id zero. -/
theorem eval_laneZero {α : Type} {op : ReduceOp} {b : Block α} {tensor : List Nat → List α}
    (hc : FastContract op b tensor) (hfast : op.helper.isFastReduction = true) (t : Nat) :
    (IVal.icmp_eq (iidx (delinearize (IVal.urem IVal.threadId (IVal.const 32))
        (op.helper.alg.getThreadsPerWarpWithUniqueData op.helper.srcLayout op.helper.srcShape)
        (op.helper.alg.getOrder op.helper.srcLayout)) op.helper.axis) (IVal.const 0)).eval b t ≠ 0 ↔
      fastLaneAxis op t = 0 := by
  have h := eval_laneIdAxis hc hfast t
  simp only [IVal.eval] at h ⊢
  rw [h]
  have h0 : u32 0 = 0 := rfl
  by_cases hz : fastLaneAxis op t = 0
  · simp [hz, h0]
  · have : ¬ fastLaneAxis op t = u32 0 := by rw [h0]; exact hz
    simp [hz, this]

/-- The slot inside the scratch axis extent. -/
theorem fastSlot_lt_extent {α : Type} {op : ReduceOp} {b : Block α} {tensor : List Nat → List α}
    (hc : FastContract op b tensor) (t : Nat) (ht : t < b.numThreads) :
    fastSlot op t < fastExtent op op.helper.axis := by
  obtain ⟨j, _, hU, _, hdvd, hpos⟩ := hc.inter_pow2
  have h1 := hc.slot_lt t ht
  rw [hU] at h1
  exact lt_of_lt_of_le h1 (Nat.le_of_dvd hpos hdvd)

theorem eval_fastWriteIdx {α : Type} {op : ReduceOp} {b : Block α} {tensor : List Nat → List α}
    (hc : FastContract op b tensor) (hfast : op.helper.isFastReduction = true)
    (e t d : Nat) (hd : d < op.helper.srcShape.length) :
    (iidx ((op.srcIndices e).set op.helper.axis
        (if op.helper.getInterWarpSizeWithUniqueData = 1 then IVal.const 0
          else iidx (delinearize (IVal.udiv IVal.threadId (IVal.const 32))
            (op.helper.alg.getWarpsPerCTAWithUniqueData op.helper.srcLayout op.helper.srcShape)
            (op.helper.alg.getOrder op.helper.srcLayout)) op.helper.axis)) d).eval b t =
      if d = op.helper.axis then fastSlot op t else b.srcIndex t e d := by
  have hlen : (op.srcIndices e).length = op.helper.srcShape.length := by
    simp [ReduceOp.srcIndices]
  unfold iidx
  rw [getD_set, hlen]
  by_cases h : d = op.helper.axis
  · rw [if_pos ⟨h, hc.axis_lt⟩, if_pos h]
    unfold fastSlot
    by_cases hU : op.helper.getInterWarpSizeWithUniqueData = 1
    · rw [if_pos hU, if_pos hU]; rfl
    · rw [if_neg hU, if_neg hU]
      exact eval_warpIdAxis hc hfast t
  · rw [if_neg (fun h' => h h'.1), if_neg h]
    simp only [ReduceOp.srcIndices]
    rw [getD_map_range, if_pos hd]
    rfl

/-- The write offset of a key is the base of the row plus the slot. -/
theorem eval_fastWriteOffset {α : Type} {op : ReduceOp} {b : Block α}
    {tensor : List Nat → List α} (hc : FastContract op b tensor)
    (hfast : op.helper.isFastReduction = true) (e t : Nat) (ht : t < b.numThreads)
    (he : e < op.srcElems) :
    (linearize ((op.srcIndices e).set op.helper.axis
        (if op.helper.getInterWarpSizeWithUniqueData = 1 then IVal.const 0
          else iidx (delinearize (IVal.udiv IVal.threadId (IVal.const 32))
            (op.helper.alg.getWarpsPerCTAWithUniqueData op.helper.srcLayout op.helper.srcShape)
            (op.helper.alg.getOrder op.helper.srcLayout)) op.helper.axis))
        (op.helper.getScratchConfigsFast.getD 0 [])
        (op.helper.alg.getOrder op.helper.srcLayout)).eval b t =
      fastRowBase op b t e + fastSlot op t := by
  have hs := fastSlot_lt_extent hc t ht
  have hev := fun d hd => eval_fastWriteIdx hc hfast e t d hd
  rw [eval_linearize]
  · rw [← fastRowBase_add hc hfast]
    apply flatAlong_congr
    intro d hd
    rw [hev d ((fastOrder_mem_iff hc d).mp hd)]
  · intro d hd
    have hd' := (fastOrder_mem_iff hc d).mp hd
    rw [hev d hd']
    exact fastCoord_lt hc t e _ ht he hs d hd'
  · show ((op.helper.alg.getOrder op.helper.srcLayout).map (fastExtent op)).prod < 2 ^ 32
    rw [fastProd_order_eq hc]
    exact lt_trans hc.smem_fit (by decide)
/-! ## Partial values of the Fast lowering -/

theorem block_thread (W n t i : Nat) (hW : 0 < W) (hn : W ∣ n) (ht : t < n) (hi : i < W) :
    W * (t / W) + i < n ∧ (W * (t / W) + i) / W = t / W := by
  constructor
  · obtain ⟨m, hm⟩ := hn
    have hq : t / W < m := by
      rw [Nat.div_lt_iff_lt_mul hW, Nat.mul_comm, ← hm]; exact ht
    have : W * (t / W + 1) ≤ W * m := Nat.mul_le_mul_left _ hq
    rw [Nat.mul_add, Nat.mul_one] at this
    omega
  · rw [Nat.mul_add_div hW, Nat.div_eq_of_lt hi, Nat.add_zero]

theorem block_index (W t t' : Nat) (hW : 0 < W) (h : t' / W = t / W) :
    t' = W * (t / W) + t' % W ∧ t' % W < W := by
  refine ⟨?_, Nat.mod_lt _ hW⟩
  rw [← h]
  exact (Nat.div_add_mod t' W).symm

theorem fastHolds_congr {α : Type} {op : ReduceOp} {b : Block α} {t e t' e' : Nat}
    (h : sameRow op b t e t' e') (a s : Nat) :
    fastHolds op b t e a s ↔ fastHolds op b t' e' a s := by
  constructor
  · rintro ⟨t₁, ht₁, e₁, he₁, hrow, ha, hs⟩
    exact ⟨t₁, ht₁, e₁, he₁, sameRow_trans hrow h, ha, hs⟩
  · rintro ⟨t₁, ht₁, e₁, he₁, hrow, ha, hs⟩
    exact ⟨t₁, ht₁, e₁, he₁, sameRow_trans hrow (sameRow_symm h), ha, hs⟩

theorem fastPartial_congr {α M : Type} [AddCommMonoid M] (φ : List α → M) {op : ReduceOp}
    {b : Block α} (tensor : List Nat → List α) {t e t' e' : Nat}
    (h : sameRow op b t e t' e') (s : Nat) :
    fastPartial φ op b tensor t e s = fastPartial φ op b tensor t' e' s := by
  unfold fastPartial
  apply Finset.sum_congr
  · ext a
    simp only [Finset.mem_filter, Finset.mem_range, fastHolds_congr h a s]
  · intro a _
    unfold rowElem
    rw [srcCoord_set_congr op b t e t' e' a h]

/-- The partial values of the slots of a row add up to the whole row. -/
theorem sum_fastPartial {α M : Type} [AddCommMonoid M] (φ : List α → M) {op : ReduceOp}
    {b : Block α} {tensor : List Nat → List α} (hc : FastContract op b tensor) (t e : Nat)
    (ht : t < b.numThreads) (he : e < op.srcElems) :
    ∑ s in Finset.range op.helper.getInterWarpSizeWithUniqueData,
        fastPartial φ op b tensor t e s =
      ∑ a in Finset.range (idx op.helper.srcShape op.helper.axis),
        rowElem φ op b tensor t e a := by
  unfold fastPartial
  simp only [Finset.sum_filter]
  rw [Finset.sum_comm]
  apply Finset.sum_congr rfl
  intro a ha
  rw [Finset.mem_range] at ha
  obtain ⟨t₁, ht₁, e₁, he₁, hrow₁, ha₁⟩ := hc.cover_axis t ht e he a ha
  have hs₁ := hc.slot_lt t₁ ht₁
  rw [Finset.sum_eq_single_of_mem (fastSlot op t₁) (Finset.mem_range.mpr hs₁)]
  · rw [if_pos ⟨t₁, ht₁, e₁, he₁, hrow₁, ha₁, rfl⟩]
  · intro s _ hne
    rw [if_neg]
    rintro ⟨t₂, ht₂, e₂, he₂, hrow₂, ha₂, hs₂⟩
    apply hne
    rw [← hs₂]
    exact hc.slot_coord t₂ ht₂ t₁ ht₁ e₂ he₂ e₁ he₁
      (sameRow_trans hrow₂ (sameRow_symm hrow₁)) (ha₂.trans ha₁.symm)

/-- Threads exchanging in the intra-warp phase are in the same warp, so they
have the same slot. -/
theorem fastSlot_block {α : Type} {op : ReduceOp} {b : Block α} {tensor : List Nat → List α}
    (hc : FastContract op b tensor) (t t' : Nat)
    (h : t / op.helper.getIntraWarpSizeWithUniqueData =
      t' / op.helper.getIntraWarpSizeWithUniqueData) : fastSlot op t = fastSlot op t' := by
  obtain ⟨j, hj, hW, _⟩ := hc.intra_pow2
  rw [hW] at h
  have hdvd : 2 ^ j ∣ 32 := by
    have : (32 : Nat) = 2 ^ 5 := by norm_num
    rw [this]
    exact Nat.pow_dvd_pow 2 hj
  obtain ⟨m, hm⟩ := hdvd
  have hw : t / 32 = t' / 32 := by
    rw [hm, ← Nat.div_div_eq_div_mul, ← Nat.div_div_eq_div_mul, h]
  unfold fastSlot fastWarpAxis
  rw [hw]

/-- The accumulator of a thread for a key, as a sum of row elements. -/
theorem fastGroup_sum {α M : Type} [AddCommMonoid M] {φ : List α → M} {op : ReduceOp}
    {b : Block α} {tensor : List Nat → List α} (hm : CombineModel b.combine op.numOperands φ)
    (hc : FastContract op b tensor) (t u e : Nat) (ht : t < b.numThreads) (hu : u < b.numThreads)
    (he : e < op.srcElems)
    (hblock : u / op.helper.getIntraWarpSizeWithUniqueData =
      t / op.helper.getIntraWarpSizeWithUniqueData) :
    φ (combineAll b.combine
        ((op.group (op.key e) op.srcElems).map (b.srcTuple op.numOperands u))) =
      ∑ e' in (op.group (op.key e) op.srcElems).toFinset,
        rowElem φ op b tensor t e (b.srcIndex u e' op.helper.axis) := by
  have hne : (op.group (op.key e) op.srcElems).map (b.srcTuple op.numOperands u) ≠ [] := by
    simpa using group_key_ne_nil op e he
  have hvalid : ∀ y ∈ (op.group (op.key e) op.srcElems).map (b.srcTuple op.numOperands u),
      y.length = op.numOperands := by
    intro y hy
    obtain ⟨e', _, rfl⟩ := List.mem_map.mp hy
    exact srcTuple_length _ _ _ _
  rw [(map_combineAll hm _ hne hvalid).1, List.map_map]
  have hterm : ∀ e' ∈ op.group (op.key e) op.srcElems,
      (φ ∘ b.srcTuple op.numOperands u) e' =
        rowElem φ op b tensor t e (b.srcIndex u e' op.helper.axis) := by
    intro e' he'
    obtain ⟨he'E, hk⟩ := (mem_group op _ e').mp he'
    simp only [Function.comp, rowElem]
    rw [hc.value u hu e' he'E,
      ← srcCoord_set_congr op b u e' t e _
        (sameRow_trans (hc.block_row u hu t ht hblock e' he'E) (hc.key_row t ht e' he'E e he hk)),
      srcCoord_set_self]
  rw [List.map_congr_left hterm,
    ← List.sum_toFinset (fun e' => rowElem φ op b tensor t e (b.srcIndex u e' op.helper.axis))
      (group_nodup op _ _)]

/-- The combination over a group of exchanging lanes of their accumulators for
a key is the partial value of the lanes' slot. -/
theorem fast_block_sum {α M : Type} [AddCommMonoid M] {φ : List α → M} {op : ReduceOp}
    {b : Block α} {tensor : List Nat → List α} (hm : CombineModel b.combine op.numOperands φ)
    (hc : FastContract op b tensor) (t e : Nat) (ht : t < b.numThreads) (he : e < op.srcElems) :
    ∑ i in Finset.range op.helper.getIntraWarpSizeWithUniqueData,
        φ (combineAll b.combine ((op.group (op.key e) op.srcElems).map
          (b.srcTuple op.numOperands
            (op.helper.getIntraWarpSizeWithUniqueData *
              (t / op.helper.getIntraWarpSizeWithUniqueData) + i)))) =
      fastPartial φ op b tensor t e (fastSlot op t) := by
  have hblock_row := hc.block_row
  have hblock_once := hc.block_once
  have hreplica := hc.replica
  have hslotb := fastSlot_block hc
  have hgs := fun u hu => fastGroup_sum hm hc t u e ht hu he
  obtain ⟨j, _, hW, hdvd⟩ := hc.intra_pow2
  have hpos : 0 < op.helper.getIntraWarpSizeWithUniqueData := by
    rw [hW]; exact Nat.pow_pos (by decide)
  rw [← hW] at hdvd
  clear hW
  generalize op.helper.getIntraWarpSizeWithUniqueData = W at *
  have hbt := fun i hi => block_thread W b.numThreads t i hpos hdvd ht hi
  -- every lane's accumulator as a sum of row elements
  have hstep : ∀ i ∈ Finset.range W,
      φ (combineAll b.combine ((op.group (op.key e) op.srcElems).map
          (b.srcTuple op.numOperands (W * (t / W) + i)))) =
        ∑ e' in (op.group (op.key e) op.srcElems).toFinset,
          rowElem φ op b tensor t e (b.srcIndex (W * (t / W) + i) e' op.helper.axis) := by
    intro i hi
    rw [Finset.mem_range] at hi
    exact hgs _ (hbt i hi).1 (hbt i hi).2
  rw [Finset.sum_congr rfl hstep, ← Finset.sum_product'
    (Finset.range W) (op.group (op.key e) op.srcElems).toFinset
    (fun i e' => rowElem φ op b tensor t e (b.srcIndex (W * (t / W) + i) e' op.helper.axis))]
  unfold fastPartial
  have himg : (Finset.range (idx op.helper.srcShape op.helper.axis)).filter
      (fun a => fastHolds op b t e a (fastSlot op t)) =
      (Finset.range W ×ˢ (op.group (op.key e) op.srcElems).toFinset).image
        (fun p => b.srcIndex (W * (t / W) + p.1) p.2 op.helper.axis) := by
    ext a
    simp only [Finset.mem_filter, Finset.mem_range, Finset.mem_image, Finset.mem_product,
      List.mem_toFinset, Prod.exists]
    constructor
    · rintro ⟨_, t₁, ht₁, e₁, he₁, hrow, ha, hs⟩
      obtain ⟨t₂, ht₂, hb₂, e₂, he₂, hk₂, ha₂⟩ := hreplica t₁ ht₁ t ht e₁ he₁ e he hrow hs
      obtain ⟨hidx, hlt⟩ := block_index W t t₂ hpos hb₂
      refine ⟨t₂ % W, e₂, ⟨hlt, (mem_group op _ e₂).mpr ⟨he₂, hk₂⟩⟩, ?_⟩
      rw [← hidx, ha₂, ha]
    · rintro ⟨i, e', ⟨hi, he'⟩, rfl⟩
      obtain ⟨he'E, hk⟩ := (mem_group op _ e').mp he'
      obtain ⟨hu, hub⟩ := hbt i hi
      refine ⟨hc.index_lt _ hu e' he'E _ hc.axis_lt, _, hu, e', he'E,
        sameRow_trans (hblock_row _ hu t ht hub e' he'E) (hc.key_row t ht e' he'E e he hk), rfl,
        hslotb _ _ hub⟩
  rw [himg, Finset.sum_image]
  rintro ⟨i, x⟩ hx ⟨i', y⟩ hy hxy
  rw [Finset.mem_product, Finset.mem_range, List.mem_toFinset] at hx hy
  obtain ⟨hxE, hkx⟩ := (mem_group op _ x).mp hx.2
  obtain ⟨hyE, hky⟩ := (mem_group op _ y).mp hy.2
  obtain ⟨hu, hub⟩ := hbt i hx.1
  obtain ⟨hu', hub'⟩ := hbt i' hy.1
  obtain ⟨h1, h2⟩ := hblock_once _ hu _ hu' (hub.trans hub'.symm) x hxE y hyE
    (hkx.trans hky.symm) hxy
  have : i = i' := by omega
  rw [this, h2]
/-! ## The intra-warp phase -/

theorem fastElems_le (op : ReduceOp) :
    product (op.helper.getScratchConfigsFast.getD 0 []) ≤ fastRegionElems op :=
  Nat.le_max_left _ _

/-- The code of the intra-warp phase for one key: afterwards the slot of every
storing lane holds the partial value of that slot of the lane's row. -/
theorem fastKey_run {α M : Type} [AddCommMonoid M] {φ : List α → M} {op : ReduceOp}
    {b : Block α} {tensor : List Nat → List α} (hm : CombineModel b.combine op.numOperands φ)
    (hc : FastContract op b tensor) (hfast : op.helper.isFastReduction = true)
    (slotT laneZero : IVal)
    (hwo : ∀ e, e < op.srcElems → ∀ t, t < b.numThreads →
      (linearize ((op.srcIndices e).set op.helper.axis slotT)
        (op.helper.getScratchConfigsFast.getD 0 [])
        (op.helper.alg.getOrder op.helper.srcLayout)).eval b t =
        fastRowBase op b t e + fastSlot op t)
    (hlz : ∀ t, laneZero.eval b t ≠ 0 ↔ fastLaneAxis op t = 0)
    (κ : List Nat) (acc : List DVal)
    (hκ : mapFind (reduceWithinThreads op).accs κ = some acc) (st : State α) :
    ∃ st', run b (fastRegionElems op)
        ((shuffleRounds op.numOperands
            (halvings (op.helper.getIntraWarpSizeWithUniqueData / 2)) acc).1 ++
          (List.range op.numOperands).map fun i =>
            Instr.storeShared i
              [linearize (((mapFind (reduceWithinThreads op).indices κ).getD []).set
                op.helper.axis slotT) (op.helper.getScratchConfigsFast.getD 0 [])
                (op.helper.alg.getOrder op.helper.srcLayout)]
              (didx (shuffleRounds op.numOperands
                (halvings (op.helper.getIntraWarpSizeWithUniqueData / 2)) acc).2 i)
              laneZero) st = some st' ∧
      (∀ t, t < b.numThreads → fastLaneAxis op t = 0 →
        φ (st'.tuple op.numOperands (fastRowBase op b t (op.first κ) + fastSlot op t)) =
          fastPartial φ op b tensor t (op.first κ) (fastSlot op t)) ∧
      (∀ o a, (∀ t, t < b.numThreads → fastLaneAxis op t = 0 →
          a ≠ fastRowBase op b t (op.first κ) + fastSlot op t) → st'.mem o a = st.mem o a) ∧
      st'.env = st.env := by
  have inv := foldInv_reduceWithinThreads op b hm.closed
  have hgrp : op.group κ op.srcElems ≠ [] := by
    intro h
    have := (inv.none_iff κ).mpr h
    rw [hκ] at this
    exact absurd this (by simp)
  obtain ⟨he, hkey⟩ := first_spec op κ hgrp
  obtain ⟨hlen, hsites, hval⟩ := inv.acc κ acc hκ
  have hidx : (mapFind (reduceWithinThreads op).indices κ).getD [] =
      op.srcIndices (op.first κ) := by
    rw [inv.indices κ]
    unfold ReduceOp.first
    cases hg : op.group κ op.srcElems with
    | nil => exact absurd hg hgrp
    | cons x xs => simp
  rw [hidx]
  generalize hwoT : linearize ((op.srcIndices (op.first κ)).set op.helper.axis slotT)
    (op.helper.getScratchConfigsFast.getD 0 [])
    (op.helper.alg.getOrder op.helper.srcLayout) = wo
  have hoff : ∀ t, t < b.numThreads →
      ptrOffset b t [wo] = fastRowBase op b t (op.first κ) + fastSlot op t := by
    intro t ht
    rw [ptrOffset_one, ← hwoT]
    exact hwo _ he t ht
  -- the shuffle rounds
  have hblock := fun t ht => fast_block_sum hm hc t (op.first κ) ht he
  obtain ⟨j, hj, hW, _⟩ := hc.intra_pow2
  rw [hW] at hblock ⊢
  obtain ⟨hrlen, _, hrsum⟩ := shuffleRounds_spec b op.numOperands hm st.env (fun _ => False) j hj
    acc hlen hsites
  generalize hrs : (shuffleRounds op.numOperands (halvings (2 ^ j / 2)) acc).2 = rs
    at hrlen hrsum
  have hV : ∀ t, t < b.numThreads →
      φ (DVal.evalList b st.env rs t) =
        fastPartial φ op b tensor t (op.first κ) (fastSlot op t) := by
    intro t ht
    rw [hrsum t, ← hblock t ht]
    apply Finset.sum_congr rfl
    intro i _
    rw [hval st.env _, hkey]
  have hin : ∀ t, t < b.numThreads → laneZero.eval b t ≠ 0 →
      ptrOffset b t [wo] < fastRegionElems op := by
    intro t ht _
    rw [hoff t ht]
    exact lt_of_lt_of_le
      (fastAddr_lt hc hfast t _ _ ht he (fastSlot_lt_extent hc t ht)) (fastElems_le op)
  have hrun2 := run_storesShared b (fastRegionElems op) [wo] rs laneZero op.numOperands st hin
  generalize hst3 : ({ env := st.env
                       mem := fun o a =>
                         if o < op.numOperands then
                           storeAll b st.env o [wo] (didx rs o)
                             (fun t => decide (laneZero.eval b t ≠ 0)) st.mem o a
                         else st.mem o a } : State α) = st3 at hrun2
  have hmem3 : ∀ o a, st3.mem o a =
      if o < op.numOperands then
        storeAll b st.env o [wo] (didx rs o) (fun t => decide (laneZero.eval b t ≠ 0)) st.mem o a
      else st.mem o a := by intro o a; rw [← hst3]
  refine ⟨st3, ?_, ?_, ?_, ?_⟩
  · exact run_of_steps b _ (shuffleRounds_run b _ _ _ acc st) hrun2
  · intro t ht hz
    rw [← hV t ht]
    congr 1
    rw [evalList_eq_range b st.env rs t, hrlen]
    apply List.map_congr_left
    intro o ho
    rw [hmem3, if_pos (List.mem_range.mp ho)]
    apply storeAll_hit
    · exact ⟨t, ht, decide_eq_true ((hlz t).mpr hz), hoff t ht⟩
    · intro t' ht' _ hp
      rw [hoff t' ht'] at hp
      obtain ⟨hrow, hs⟩ := fastAddr_inj hc hfast t' _ t _ _ _ ht' he ht he
        (fastSlot_lt_extent hc t' ht') (fastSlot_lt_extent hc t ht) hp
      have hφ : φ (DVal.evalList b st.env rs t') = φ (DVal.evalList b st.env rs t) := by
        rw [hV t' ht', hV t ht, hs]
        exact fastPartial_congr φ tensor hrow _
      have hl : ∀ u, (DVal.evalList b st.env rs u).length = op.numOperands := fun u => by
        rw [DVal.evalList_length, hrlen]
      have heq := hm.inj _ _ (hl t') (hl t) hφ
      have ho' : o < rs.length := by rw [hrlen]; exact List.mem_range.mp ho
      rw [eval_didx b st.env rs o t' ho', eval_didx b st.env rs o t ho', heq]
  · intro o a ha
    rw [hmem3]
    split
    · apply storeAll_miss
      intro t ht hact hp
      rw [hoff t ht] at hp
      exact ha t ht ((hlz t).mp (of_decide_eq_true hact)) hp.symm
    · rfl
  · rw [← hst3]

/-- The loop over `accs` of the Fast lowering, run on the block: afterwards the
slot of every storing lane holds, for every key, the partial value of that slot
of the lane's row. -/
theorem fastWithin_run {α M : Type} [AddCommMonoid M] {φ : List α → M} {op : ReduceOp}
    {b : Block α} {tensor : List Nat → List α} (hm : CombineModel b.combine op.numOperands φ)
    (hc : FastContract op b tensor) (hfast : op.helper.isFastReduction = true)
    (zero warpIdAxis laneZero : IVal)
    (hwo : ∀ e, e < op.srcElems → ∀ t, t < b.numThreads →
      (linearize ((op.srcIndices e).set op.helper.axis
          (if op.helper.getInterWarpSizeWithUniqueData = 1 then zero else warpIdAxis))
        (op.helper.getScratchConfigsFast.getD 0 [])
        (op.helper.alg.getOrder op.helper.srcLayout)).eval b t =
        fastRowBase op b t e + fastSlot op t)
    (hlz : ∀ t, laneZero.eval b t ≠ 0 ↔ fastLaneAxis op t = 0) :
    ∀ (es : List (List Nat × List DVal)),
      es.Pairwise (fun p q => keyLt p.1 q.1 = true) →
      (∀ p ∈ es, mapFind (reduceWithinThreads op).accs p.1 = some p.2) →
      ∀ (st : State α),
      ∃ st', run b (fastRegionElems op)
          (fastWithinWarps op (op.helper.getScratchConfigsFast.getD 0 [])
            (op.helper.alg.getOrder op.helper.srcLayout)
            op.helper.getIntraWarpSizeWithUniqueData op.helper.getInterWarpSizeWithUniqueData
            zero warpIdAxis laneZero (reduceWithinThreads op).indices es) st = some st' ∧
        (∀ p ∈ es, ∀ t, t < b.numThreads → fastLaneAxis op t = 0 →
          φ (st'.tuple op.numOperands (fastRowBase op b t (op.first p.1) + fastSlot op t)) =
            fastPartial φ op b tensor t (op.first p.1) (fastSlot op t)) ∧
        (∀ o a, (∀ p ∈ es, ∀ t, t < b.numThreads → fastLaneAxis op t = 0 →
            a ≠ fastRowBase op b t (op.first p.1) + fastSlot op t) →
          st'.mem o a = st.mem o a) ∧
        st'.env = st.env := by
  intro es
  induction es with
  | nil =>
    intro _ _ st
    exact ⟨st, rfl, fun p hp => absurd hp (List.not_mem_nil _), fun _ _ _ => rfl, rfl⟩
  | cons p es ih =>
    intro hsorted hfind st
    rw [List.pairwise_cons] at hsorted
    obtain ⟨st1, hrun1, hsum1, hmem1, henv1⟩ :=
      fastKey_run hm hc hfast _ laneZero hwo hlz p.1 p.2 (hfind p (List.mem_cons_self _ _)) st
    obtain ⟨st2, hrun2, hsum2, hmem2, henv2⟩ :=
      ih hsorted.2 (fun q hq => hfind q (List.mem_cons_of_mem _ hq)) st1
    have inv := foldInv_reduceWithinThreads op b hm.closed
    have hfirst : ∀ q ∈ p :: es, op.first q.1 < op.srcElems ∧ op.key (op.first q.1) = q.1 := by
      intro q hq
      apply first_spec
      intro h
      have := (inv.none_iff q.1).mpr h
      rw [hfind q hq] at this
      exact absurd this (by simp)
    refine ⟨st2, ?_, ?_, ?_, henv2.trans henv1⟩
    · obtain ⟨key, acc⟩ := p
      simp only [fastWithinWarps]
      exact run_of_steps b _ hrun1 hrun2
    · intro q hq t ht hz
      rcases List.mem_cons.mp hq with hq' | hq'
      · subst hq'
        rw [← hsum1 t ht hz]
        congr 1
        apply tuple_congr
        intro o
        apply hmem2
        intro q' hq' t' ht' _ heq
        obtain ⟨he, hk⟩ := hfirst q (List.mem_cons_self _ _)
        obtain ⟨he', hk'⟩ := hfirst q' (List.mem_cons_of_mem _ hq')
        have hrow := (fastAddr_inj hc hfast t _ t' _ _ _ ht he ht' he'
          (fastSlot_lt_extent hc t ht) (fastSlot_lt_extent hc t' ht') heq).1
        have hkk := hc.row_key t ht t' ht' _ he _ he' hrow
        rw [hk, hk'] at hkk
        have hlt := hsorted.1 q' hq'
        rw [hkk, keyLt_irrefl] at hlt
        exact absurd hlt (by simp)
      · exact hsum2 q hq' t ht hz
    · intro o a ha
      rw [hmem2 o a (fun q hq => ha q (List.mem_cons_of_mem _ hq)),
        hmem1 o a (ha p (List.mem_cons_self _ _))]

/-! ## The inter-warp phase and the read-back of the Fast lowering -/

/-- After both phases the first slot of the row of any source element holds the
combine of the whole row. -/
theorem fast_row_total {α M : Type} [AddCommMonoid M] {φ : List α → M} {op : ReduceOp}
    {b : Block α} {tensor : List Nat → List α} (hm : CombineModel b.combine op.numOperands φ)
    (hc : FastContract op b tensor) (hfast : op.helper.isFastReduction = true)
    (st1 st2 : State α) (j : Nat) (hU : op.helper.getInterWarpSizeWithUniqueData = 2 ^ j)
    (hj : j ≤ 5)
    (hsum1 : ∀ p ∈ (reduceWithinThreads op).accs, ∀ t, t < b.numThreads →
      fastLaneAxis op t = 0 →
      φ (st1.tuple op.numOperands (fastRowBase op b t (op.first p.1) + fastSlot op t)) =
        fastPartial φ op b tensor t (op.first p.1) (fastSlot op t))
    (hsum2 : ∀ r, r < max (product (op.helper.getScratchConfigsFast.getD 0 []) / b.numThreads) 1 →
      ∀ t, t < b.numThreads → t < product (op.helper.getScratchConfigsFast.getD 0 []) →
      t % 32 % 2 ^ j = 0 →
      φ (st2.tuple op.numOperands (t + r * b.numThreads)) =
        ∑ i in Finset.range (2 ^ j), φ (st1.tuple op.numOperands (t + r * b.numThreads + i)))
    (hframe : ∀ o a,
      max (product (op.helper.getScratchConfigsFast.getD 0 []) / b.numThreads) 1 *
        b.numThreads ≤ a → st2.mem o a = st1.mem o a)
    (t e : Nat) (ht : t < b.numThreads) (he : e < op.srcElems) :
    φ (st2.tuple op.numOperands (fastRowBase op b t e)) =
      ∑ a in Finset.range (idx op.helper.srcShape op.helper.axis),
        rowElem φ op b tensor t e a := by
  have inv := foldInv_reduceWithinThreads op b hm.closed
  have hgrp := group_key_ne_nil op e he
  obtain ⟨hfe, hfk⟩ := first_spec op (op.key e) hgrp
  obtain ⟨j', hj', hU', hdvdT, hdvdW, hWpos⟩ := hc.inter_pow2
  have hjj : 2 ^ j' = 2 ^ j := by rw [← hU', hU]
  rw [hjj] at hdvdT hdvdW
  cases hfind : mapFind (reduceWithinThreads op).accs (op.key e) with
  | none => exact absurd ((inv.none_iff _).mp hfind) hgrp
  | some acc =>
    have hmem := mem_of_mapFind _ _ _ hfind
    have hrow : sameRow op b t (op.first (op.key e)) t e := hc.key_row t ht _ hfe e he hfk
    rw [← sum_fastPartial φ hc t e ht he, hU]
    -- the row base as an offset of the inter-warp phase
    have hTpos : 0 < b.numThreads := by omega
    have hlt := fastAddr_lt hc hfast t e 0 ht he hWpos
    rw [Nat.add_zero] at hlt
    have hdvd0 : 2 ^ j ∣ fastRowBase op b t e :=
      Nat.dvd_trans hdvdW (fastRowBase_dvd hc hfast t e)
    have ht0 : fastRowBase op b t e % b.numThreads < b.numThreads := Nat.mod_lt _ hTpos
    have ht0e : fastRowBase op b t e % b.numThreads <
        product (op.helper.getScratchConfigsFast.getD 0 []) :=
      lt_of_le_of_lt (Nat.mod_le _ _) hlt
    have hz : fastRowBase op b t e % b.numThreads % 32 % 2 ^ j = 0 := by
      have hdvd32 : 2 ^ j ∣ 32 := by
        have : (32 : Nat) = 2 ^ 5 := by norm_num
        rw [this]
        exact Nat.pow_dvd_pow 2 hj
      rw [Nat.mod_mod_of_dvd _ hdvd32]
      exact Nat.mod_eq_zero_of_dvd ((Nat.dvd_mod_iff hdvdT).mpr hdvd0)
    have hsplit : fastRowBase op b t e % b.numThreads +
        fastRowBase op b t e / b.numThreads * b.numThreads = fastRowBase op b t e := by
      rw [Nat.mul_comm]; exact Nat.mod_add_div _ _
    have h2 : φ (st2.tuple op.numOperands (fastRowBase op b t e)) =
        ∑ i in Finset.range (2 ^ j),
          φ (st1.tuple op.numOperands (fastRowBase op b t e + i)) := by
      by_cases hcov : fastRowBase op b t e <
          max (product (op.helper.getScratchConfigsFast.getD 0 []) / b.numThreads) 1 *
            b.numThreads
      · have hr : fastRowBase op b t e / b.numThreads <
            max (product (op.helper.getScratchConfigsFast.getD 0 []) / b.numThreads) 1 := by
          rw [Nat.div_lt_iff_lt_mul hTpos]
          exact hcov
        have h2 := hsum2 _ hr _ ht0 ht0e hz
        rw [hsplit] at h2
        exact h2
      · have hone : 2 ^ j = 1 := by
          rcases hc.rounds_cover with h | h
          · exact absurd (lt_of_lt_of_le hlt h) hcov
          · rw [← hU, h]
        rw [hone, Finset.sum_range_one, Nat.add_zero]
        congr 1
        exact tuple_congr st1 st2 _ _ (fun o => hframe o _ (Nat.le_of_not_lt hcov))
    rw [h2]
    apply Finset.sum_congr rfl
    intro s hs
    rw [Finset.mem_range, ← hU] at hs
    obtain ⟨w, hw, hwz, e₁, he₁, hrow₁, hslot⟩ := hc.cover_slot t ht e he s hs
    have hk₁ : op.key e₁ = op.key e := hc.row_key w hw t ht e₁ he₁ e he hrow₁
    have hrw : sameRow op b w (op.first (op.key e)) t e :=
      sameRow_trans (hc.key_row w hw _ hfe e₁ he₁ (hfk.trans hk₁.symm)) hrow₁
    have h1 := hsum1 _ hmem w hw hwz
    simp only at h1
    rw [hslot, fastRowBase_congr op b w _ t e hc hrw] at h1
    rw [h1]
    exact fastPartial_congr φ tensor hrw s

theorem eval_fastResultOffset {α : Type} {op : ReduceOp} {b : Block α}
    {tensor : List Nat → List α} (hc : FastContract op b tensor) (t j t' e' : Nat)
    (ht' : t' < b.numThreads) (he' : e' < op.srcElems)
    (hrel : ∀ d, d < op.helper.srcShape.length → d ≠ op.helper.axis →
      b.srcIndex t' e' d = b.resultIndex t j (if d < op.helper.axis then d else d - 1)) :
    (linearize ((op.resultIndices j).insertIdx op.helper.axis (IVal.const 0))
        (op.helper.getScratchConfigsFast.getD 0 [])
        (op.helper.alg.getOrder op.helper.srcLayout)).eval b t =
      fastRowBase op b t' e' := by
  have hlen : (op.resultIndices j).length = op.helper.srcShape.length - 1 := by
    simp [ReduceOp.resultIndices]
  have hle : op.helper.axis ≤ (op.resultIndices j).length := by
    rw [hlen]; have := hc.axis_lt; omega
  have hev : ∀ d, d < op.helper.srcShape.length →
      (iidx ((op.resultIndices j).insertIdx op.helper.axis (IVal.const 0)) d).eval b t =
        if d = op.helper.axis then 0 else b.srcIndex t' e' d := by
    intro d hd
    unfold iidx
    rw [getD_insertIdx _ _ _ _ _ hle]
    simp only [ReduceOp.resultIndices]
    by_cases h1 : d < op.helper.axis
    · have hne : d ≠ op.helper.axis := by omega
      have := hc.axis_lt
      rw [if_pos h1, if_neg hne, getD_map_range, if_pos (by omega), hrel d hd hne, if_pos h1]
      rfl
    · by_cases h2 : d = op.helper.axis
      · rw [if_neg h1, if_pos h2, if_pos h2]; rfl
      · rw [if_neg h1, if_neg h2, if_neg h2, getD_map_range, if_pos (by omega), hrel d hd h2,
          if_neg h1]
        rfl
  obtain ⟨_, _, _, _, _, hWpos⟩ := hc.inter_pow2
  rw [eval_linearize]
  · unfold fastRowBase
    apply flatAlong_congr
    intro d hd
    exact hev d ((fastOrder_mem_iff hc d).mp hd)
  · intro d hd
    have hd' := (fastOrder_mem_iff hc d).mp hd
    rw [hev d hd']
    exact fastCoord_lt hc t' e' 0 ht' he' hWpos d hd'
  · show ((op.helper.alg.getOrder op.helper.srcLayout).map (fastExtent op)).prod < 2 ^ 32
    rw [fastProd_order_eq hc]
    exact lt_trans hc.smem_fit (by decide)

/-- For a rank-1 source the single row starts at offset 0. -/
theorem fastRowBase_rank_one {α : Type} {op : ReduceOp} {b : Block α}
    {tensor : List Nat → List α} (hc : FastContract op b tensor)
    (hr : op.helper.srcShape.length = 1) (t e : Nat) : fastRowBase op b t e = 0 := by
  have hperm := hc.order_perm
  rw [hr] at hperm
  have hord : op.helper.alg.getOrder op.helper.srcLayout = [0] := by
    simpa using List.perm_singleton.mp hperm
  have hax : op.helper.axis = 0 := by have := hc.axis_lt; omega
  unfold fastRowBase
  rw [hord]
  simp [flatAlong, hax]

/-- A scratch entry whose image is the sum of a row is the reference reduction
of the row of the result element. -/
theorem fast_read_value {α M : Type} [AddCommMonoid M] {φ : List α → M} {op : ReduceOp}
    {b : Block α} {tensor : List Nat → List α} (hm : CombineModel b.combine op.numOperands φ)
    (hc : FastContract op b tensor) (st' : State α) (t j t' e' : Nat)
    (ht' : t' < b.numThreads) (he' : e' < op.srcElems)
    (htot : φ (st'.tuple op.numOperands (fastRowBase op b t' e')) =
      ∑ a in Finset.range (idx op.helper.srcShape op.helper.axis),
        rowElem φ op b tensor t' e' a)
    (hrel : ∀ d, d < op.helper.srcShape.length → d ≠ op.helper.axis →
      b.srcIndex t' e' d = b.resultIndex t j (if d < op.helper.axis then d else d - 1))
    (i : Nat) (hi : i < op.numOperands) :
    st'.mem i (fastRowBase op b t' e') =
      (reduceAlongAxis b.combine tensor op.helper.axis (idx op.helper.srcShape op.helper.axis)
        (b.resultCoord op.helper.srcShape.length t j)).getD i b.undef := by
  have hn : 0 < idx op.helper.srcShape op.helper.axis :=
    Nat.lt_of_le_of_lt (Nat.zero_le _) (hc.index_lt t' ht' e' he' _ hc.axis_lt)
  have href := map_reduceAlongAxis hm tensor hc.tensor_len op.helper.axis _ hn
    (b.resultCoord op.helper.srcShape.length t j)
  have heq : st'.tuple op.numOperands (fastRowBase op b t' e') =
      reduceAlongAxis b.combine tensor op.helper.axis (idx op.helper.srcShape op.helper.axis)
        (b.resultCoord op.helper.srcShape.length t j) := by
    apply hm.inj _ _ (by simp [State.tuple]) href.2
    rw [htot, href.1]
    apply Finset.sum_congr rfl
    intro a _
    unfold rowElem
    rw [resultCoord_insert op b t j t' e' a hc.axis_lt hrel]
  rw [← heq, tuple_getD _ _ _ _ hi]

/-- The code `matchAndRewriteFast` emits for a source layout that passes the
support check. -/
theorem matchAndRewriteFast_supported (op : ReduceOp)
    (hl : op.helper.isSupportedLayout = true) :
    matchAndRewriteFast op =
      .ok ([Instr.getSharedMemoryBase] ++ (reduceWithinThreads op).code ++
          fastWithinWarps op (op.helper.getScratchConfigsFast.getD 0 [])
            (op.helper.alg.getOrder op.helper.srcLayout)
            op.helper.getIntraWarpSizeWithUniqueData op.helper.getInterWarpSizeWithUniqueData
            (IVal.const 0)
            (iidx (delinearize (IVal.udiv IVal.threadId (IVal.const 32))
              (op.helper.alg.getWarpsPerCTAWithUniqueData op.helper.srcLayout op.helper.srcShape)
              (op.helper.alg.getOrder op.helper.srcLayout)) op.helper.axis)
            (IVal.icmp_eq (iidx (delinearize (IVal.urem IVal.threadId (IVal.const 32))
              (op.helper.alg.getThreadsPerWarpWithUniqueData op.helper.srcLayout
                op.helper.srcShape)
              (op.helper.alg.getOrder op.helper.srcLayout)) op.helper.axis) (IVal.const 0))
            (reduceWithinThreads op).indices (reduceWithinThreads op).accs ++
          [Instr.barrier] ++
          fastAcrossWarps op (product (op.helper.getScratchConfigsFast.getD 0 []))
            (fastNumThreads op)
            (max (product (op.helper.getScratchConfigsFast.getD 0 []) / fastNumThreads op) 1)
            op.helper.getInterWarpSizeWithUniqueData IVal.threadId
            (IVal.urem IVal.threadId (IVal.const 32)) (IVal.const 0)
            (max (product (op.helper.getScratchConfigsFast.getD 0 []) / fastNumThreads op) 1)
            0 IVal.threadId ++
          [Instr.barrier] ++
          (((List.range op.numOperands).map fun i =>
            setOutputValues op (op.helper.getScratchConfigsFast.getD 0 [])
              (op.helper.alg.getOrder op.helper.srcLayout) (IVal.const 0) i).map
                fun o => o.1).flatten,
        ((List.range op.numOperands).map fun i =>
            setOutputValues op (op.helper.getScratchConfigsFast.getD 0 [])
              (op.helper.alg.getOrder op.helper.srcLayout) (IVal.const 0) i).map fun o => o.2) := by
  unfold matchAndRewriteFast
  simp only [hl, Bool.not_true, Bool.false_and, Bool.false_eq_true, if_false]
  rfl

/-- The Fast lowering of a source meeting the layout contract, run on the block,
leaves in every result value the reference reduction of the row of its result
element. -/
theorem fast_lowering_run {α M : Type} [AddCommMonoid M] {φ : List α → M} {op : ReduceOp}
    {b : Block α} {tensor : List Nat → List α} (hm : CombineModel b.combine op.numOperands φ)
    (hc : FastContract op b tensor) (hfast : op.helper.isFastReduction = true) (st : State α) :
    ∃ code results st', matchAndRewriteFast op = .ok (code, results) ∧
      run b (fastRegionElems op) code st = some st' ∧
      ∀ t, t < b.numThreads → ∀ j, j < op.resultElems.getD 1 → ∀ i, i < op.numOperands →
        (didx (results.getD i []) j).eval b st'.env t =
          (reduceAlongAxis b.combine tensor op.helper.axis
            (idx op.helper.srcShape op.helper.axis)
            (b.resultCoord op.helper.srcShape.length t j)).getD i b.undef := by
  have inv := foldInv_reduceWithinThreads op b hm.closed
  -- the intra-warp phase
  obtain ⟨st1, hrun1, hsum1, _, _⟩ := fastWithin_run hm hc hfast (IVal.const 0) _ _
    (fun e he t ht => eval_fastWriteOffset hc hfast e t ht he)
    (fun t => eval_laneZero hc hfast t) (reduceWithinThreads op).accs
    inv.sorted (fun p hp => mapFind_of_mem _ inv.sorted p.1 p.2 hp) st
  -- the inter-warp phase
  obtain ⟨jU, hjU, hU, hdvdT, _, hWpos⟩ := hc.inter_pow2
  have hRT : max (product (op.helper.getScratchConfigsFast.getD 0 []) / b.numThreads) 1 *
      b.numThreads ≤ fastRegionElems op := by
    have h1 : product (op.helper.getScratchConfigsFast.getD 0 []) / b.numThreads *
        b.numThreads ≤ product (op.helper.getScratchConfigsFast.getD 0 []) :=
      Nat.div_mul_le_self _ _
    have h2 := fastElems_le op
    have h3 : b.numThreads ≤ fastRegionElems op :=
      Nat.le_trans hc.threads_le (Nat.le_max_right _ _)
    rcases Nat.le_total (product (op.helper.getScratchConfigsFast.getD 0 []) / b.numThreads) 1
      with h | h
    · rw [Nat.max_eq_right h, Nat.one_mul]; exact h3
    · rw [Nat.max_eq_left h]; omega
  have helems : product (op.helper.getScratchConfigsFast.getD 0 []) < 2 ^ 31 := by
    rw [fastProduct_eq hc]; exact hc.smem_fit
  have hRfit : max (product (op.helper.getScratchConfigsFast.getD 0 []) / b.numThreads) 1 *
      b.numThreads < 2 ^ 31 := by
    have h1 : product (op.helper.getScratchConfigsFast.getD 0 []) / b.numThreads *
        b.numThreads ≤ product (op.helper.getScratchConfigsFast.getD 0 []) :=
      Nat.div_mul_le_self _ _
    have h3 := hc.threads.2
    rcases Nat.le_total (product (op.helper.getScratchConfigsFast.getD 0 []) / b.numThreads) 1
      with h | h
    · rw [Nat.max_eq_right h, Nat.one_mul]; exact h3
    · rw [Nat.max_eq_left h]; omega
  obtain ⟨st2, hrun2, hsum2, hframe2⟩ := fastAcross_run op b (fastRegionElems op) hm jU hjU hdvdT
    (product (op.helper.getScratchConfigsFast.getD 0 []))
    (max (product (op.helper.getScratchConfigsFast.getD 0 []) / b.numThreads) 1)
    helems hRT hRfit hc.threads.2
    (max (product (op.helper.getScratchConfigsFast.getD 0 []) / b.numThreads) 1) 0
    IVal.threadId st1 rfl (fun _ t _ => by simp [IVal.eval])
  have htotal := fun t e ht he => fast_row_total hm hc hfast st1 st2 jU hU hjU hsum1
    (fun r hr t ht hte hz => hsum2 r (Nat.zero_le _) hr t ht hte hz)
    (fun o a ha => hframe2 o a (Or.inr ha)) t e ht he
  -- the read-back offsets
  have hrow := hc.result_row
  have haddr : ∀ t, t < b.numThreads → ∀ j, j < op.resultElems.getD 1 →
      ∃ t' e', t' < b.numThreads ∧ e' < op.srcElems ∧
        (∀ d, d < op.helper.srcShape.length → d ≠ op.helper.axis →
          b.srcIndex t' e' d = b.resultIndex t j (if d < op.helper.axis then d else d - 1)) := by
    intro t ht j hj
    obtain ⟨t', ht', e', he', h⟩ := hrow t ht j hj
    exact ⟨t', e', ht', he', h⟩
  classical
  let addr : Nat → Nat → Nat := fun t j =>
    if h : t < b.numThreads ∧ j < op.resultElems.getD 1 then
      fastRowBase op b (haddr t h.1 j h.2).choose (haddr t h.1 j h.2).choose_spec.choose
    else 0
  have haddr_spec : ∀ t, t < b.numThreads → ∀ j, j < op.resultElems.getD 1 →
      ∃ t' e', t' < b.numThreads ∧ e' < op.srcElems ∧
        (∀ d, d < op.helper.srcShape.length → d ≠ op.helper.axis →
          b.srcIndex t' e' d = b.resultIndex t j (if d < op.helper.axis then d else d - 1)) ∧
        addr t j = fastRowBase op b t' e' := by
    intro t ht j hj
    have hs := (haddr t ht j hj).choose_spec.choose_spec
    refine ⟨_, _, hs.1, hs.2.1, hs.2.2, ?_⟩
    simp only [addr, dif_pos (And.intro ht hj)]
  obtain ⟨st3, hrun3, hval3⟩ := setOutputValues_run op b
    (fastRegionElems op) (op.helper.getScratchConfigsFast.getD 0 [])
    (op.helper.alg.getOrder op.helper.srcLayout) st2 addr
    (by
      intro t ht j hj
      obtain ⟨t', e', ht', he', hrel, ha⟩ := haddr_spec t ht j hj
      constructor
      · intro hnone
        rw [ha]
        exact fastRowBase_rank_one hc (hc.scalar_rank hnone) t' e'
      · intro _
        rw [ha]
        exact eval_fastResultOffset hc t j t' e' ht' he' hrel)
    (by
      intro t ht j hj
      obtain ⟨t', e', ht', he', hrel, ha⟩ := haddr_spec t ht j hj
      rw [ha]
      have := fastAddr_lt hc hfast t' e' 0 ht' he' hWpos
      rw [Nat.add_zero] at this
      exact lt_of_lt_of_le this (fastElems_le op))
  refine ⟨_, _, st3, matchAndRewriteFast_supported op hc.supported, ?_, ?_⟩
  · have hb : ∀ s : State α, run b (fastRegionElems op) [Instr.barrier] s = some s :=
      fun s => rfl
    have hg : run b (fastRegionElems op) [Instr.getSharedMemoryBase] st = some st := rfl
    have h1 := run_of_steps b _ hg (run_inlineOnly b _ _ inv.code st)
    have h2 := run_of_steps b _ h1 hrun1
    have h3 := run_of_steps b _ h2 (hb st1)
    rw [← hc.threads.1]
    rw [← hU] at hrun2
    have h4 := run_of_steps b _ h3 hrun2
    have h5 := run_of_steps b _ h4 (hb st2)
    exact run_of_steps b _ h5 hrun3
  · intro t ht j hj i hi
    obtain ⟨t', e', ht', he', hrel, ha⟩ := haddr_spec t ht j hj
    rw [hval3 t ht j hj i hi, ha]
    exact fast_read_value hm hc st2 t j t' e' ht' he' (htotal t' e' ht' he') hrel i hi

/-! ## The `[4,4]` fast reduction -/

set_option maxRecDepth 1000000 in
set_option maxHeartbeats 4000000 in
theorem fastContract44 : FastContract (op44 true) block44 tensor44 where
  supported := rfl
  order_head := fun _ => rfl
  axis_lt := by decide
  order_perm := by decide
  shape_fit := by decide
  smem_fit := by decide
  threads := by decide
  threads_le := by decide
  rounds_cover := Or.inl (by decide)
  unique_len := by decide
  unique_fit := by decide
  intra_pow2 := ⟨1, by decide, by decide, by decide⟩
  inter_pow2 := ⟨1, by decide, by decide, by decide, by decide, by decide⟩
  tensor_len := fun _ => rfl
  index_lt := by decide
  value := by decide
  key_row := by decide
  row_key := by
    intro t _ t' _ e he e' he' _
    have h0 : e = 0 := Nat.lt_one_iff.mp he
    have h0' : e' = 0 := Nat.lt_one_iff.mp he'
    rw [h0, h0']
  block_row := by decide
  block_once := by
    intro t ht t' ht' hb e he e' he' _ hax
    have h0 : e = 0 := Nat.lt_one_iff.mp he
    have h0' : e' = 0 := Nat.lt_one_iff.mp he'
    subst h0 h0'
    have key : ∀ t, t < 64 → ∀ t', t' < 64 → t / 2 = t' / 2 →
        block44.srcIndex t 0 1 = block44.srcIndex t' 0 1 → t = t' := by decide
    exact ⟨key t ht t' ht' hb hax, rfl⟩
  slot_lt := by decide
  slot_coord := by
    intro t ht t' ht' e he e' he' _ hax
    have h0 : e = 0 := Nat.lt_one_iff.mp he
    have h0' : e' = 0 := Nat.lt_one_iff.mp he'
    subst h0 h0'
    have key : ∀ t, t < 64 → ∀ t', t' < 64 →
        block44.srcIndex t 0 1 = block44.srcIndex t' 0 1 →
        fastSlot (op44 true) t = fastSlot (op44 true) t' := by decide
    exact key t ht t' ht' hax
  replica := by
    intro t ht t' ht' e he e' he' hrow hs
    have h0 : e = 0 := Nat.lt_one_iff.mp he
    have h0' : e' = 0 := Nat.lt_one_iff.mp he'
    subst h0 h0'
    have key : ∀ t, t < 64 → ∀ t', t' < 64 →
        fastSlot (op44 true) t = fastSlot (op44 true) t' →
        t' / 2 * 2 + t % 2 < 64 ∧ (t' / 2 * 2 + t % 2) / 2 = t' / 2 ∧
          block44.srcIndex (t' / 2 * 2 + t % 2) 0 1 = block44.srcIndex t 0 1 := by decide
    obtain ⟨h1, h2, h3⟩ := key t ht t' ht' hs
    exact ⟨_, h1, h2, 0, by decide, rfl, h3⟩
  cover_axis := by decide
  cover_slot := by decide
  result_row := by decide
  scalar_rank := by decide

set_option maxRecDepth 1000000 in
theorem contract44_forced : BasicContract (op44 true) block44 tensor44 where
  blocked := ⟨_, _, _, _, rfl⟩
  axis_lt := by decide
  order_perm := by decide
  shape_fit := by decide
  smem_fit := by decide
  spt_pos := by decide
  pow2 := ⟨2, by decide⟩
  tensor_len := fun _ => rfl
  index_lt := by decide
  value := by decide
  key_row := by decide
  row_key := by
    intro t _ t' _ e he e' he' _
    have h0 : e = 0 := Nat.lt_one_iff.mp he
    have h0' : e' = 0 := Nat.lt_one_iff.mp he'
    rw [h0, h0']
  once := by decide
  slot_lt := by decide
  slot_coord := by
    intro t _ t' _ e he e' he' _ hax
    have h0 : e = 0 := Nat.lt_one_iff.mp he
    have h0' : e' = 0 := Nat.lt_one_iff.mp he'
    subst h0 h0'
    have hfirst : (op44 true).first ((op44 true).key 0) = 0 := by decide
    unfold basicSlot
    rw [hfirst, hax]
  replica := by decide
  cover_axis := by decide
  cover_slot := by decide
  result_row := by decide
  scalar_rank := by decide

theorem resultAt_some {α : Type} (b : Block α) (E : Nat) (low : Lowered) (st : State α)
    (t j i : Nat) (v : α) (h : resultAt b E low st t j i = some v) :
    ∃ code results st', low = .ok (code, results) ∧ run b E code st = some st' ∧
      (didx (results.getD i []) j).eval b st'.env t = v := by
  unfold resultAt at h
  match low, h with
  | .ok (code, results), h =>
    have h' : (run b E code st).map
        (fun st' => (didx (results.getD i []) j).eval b st'.env t) = some v := h
    cases hr : run b E code st with
    | none => rw [hr] at h'; simp at h'
    | some st' =>
      rw [hr] at h'
      simp only [Option.map_some', Option.some.injEq] at h'
      exact ⟨code, results, st', rfl, hr, h'⟩

theorem laws48 : CombineLaws block48.combine 1 := by
  have hform : ∀ x y : List Int, x.length = 1 → y.length = 1 →
      block48.combine x y = [x.getD 0 0 + y.getD 0 0] := by
    intro x y hx hy
    match x, y, hx, hy with
    | [a], [c], _, _ => rfl
  refine ⟨?_, ?_, ?_⟩
  · intro x y hx hy
    rw [hform x y hx hy]; rfl
  · intro x y z hx hy hz
    have hxy : (block48.combine x y).length = 1 := by rw [hform x y hx hy]; rfl
    have hyz : (block48.combine y z).length = 1 := by rw [hform y z hy hz]; rfl
    rw [hform _ z hxy hz, hform x _ hx hyz, hform x y hx hy, hform y z hy hz]
    simp [add_assoc]
  · intro x y hx hy
    rw [hform x y hx hy, hform y x hy hx, add_comm]

set_option maxRecDepth 1000000 in
set_option maxHeartbeats 4000000 in
/-- C2, as stated, fails: the `[48,4]` sum reduction along axis 1 (2 warps x 2
threads-per-warp on the axis, three repetitions of the block tile along
dimension 0) is a fast reduction with intra- and inter-warp sizes 2, the combine
is associative and commutative, yet `elemsPerThread = max(96 / 64, 1) = 1` lets
the inter-warp phase visit only offsets below 64: thread 16 gets 3 for row 40,
whose elements sum to 10, while the Basic lowering gives 10. -/
theorem fast_strategy_wrong_beyond_thread_count :
    op48.helper.isFastReduction = true ∧
      op48.helper.getIntraWarpSizeWithUniqueData = 2 ^ 1 ∧
      op48.helper.getInterWarpSizeWithUniqueData = 2 ^ 1 ∧
      CombineLaws block48.combine op48.numOperands ∧
      (∃ code results st', matchAndRewriteFast op48 = .ok (code, results) ∧
        run block48 (fastRegionElems op48) code ⟨fun _ _ => 0, fun _ _ _ => 0⟩ = some st' ∧
        (didx (results.getD 0 []) 2).eval block48 st'.env 16 = 3) ∧
      (reduceAlongAxis block48.combine tensor48 op48.helper.axis
        (idx op48.helper.srcShape op48.helper.axis)
        (block48.resultCoord op48.helper.srcShape.length 16 2)).getD 0 block48.undef = 10 ∧
      (∃ code results st', matchAndRewriteBasic op48 = .ok (code, results) ∧
        run block48 (product op48.helper.getScratchConfigBasic) code
          ⟨fun _ _ => 0, fun _ _ _ => 0⟩ = some st' ∧
        (didx (results.getD 0 []) 2).eval block48 st'.env 16 = 10) :=
  ⟨by decide, by decide, by decide, laws48,
    resultAt_some _ _ _ _ 16 2 0 3 (by decide), by decide,
    resultAt_some _ _ _ _ 16 2 0 10 (by decide)⟩

/-- C2 (amended): for a fast reduction of a source of any supported layout that
meets `FastContract` (power-of-two intra- and inter-warp sizes of at most a
warp, and inter-warp rounds that reach every scratch element unless the
inter-warp size is 1) and a combine operation that is associative and
commutative on operand tuples, the code `matchAndRewrite` selects, that of
`matchAndRewriteFast`, runs on the block from any initial scratch content
without leaving the scratch region and gives every result element the combine of
all source elements along the axis at its coordinate; when the layout also meets
the contract of the Basic lowering, `matchAndRewriteBasic` forced on the same
reduction gives the same result values. -/
theorem fast_strategy_correct {α : Type} (op : ReduceOp) (b : Block α)
    (tensor : List Nat → List α) (hlaws : CombineLaws b.combine op.numOperands)
    (hfast : op.helper.isFastReduction = true) (hc : FastContract op b tensor) (st : State α) :
    ∃ code results st', matchAndRewrite op = .ok (code, results) ∧
      matchAndRewriteFast op = .ok (code, results) ∧
      run b (fastRegionElems op) code st = some st' ∧
      (∀ t, t < b.numThreads → ∀ j, j < op.resultElems.getD 1 → ∀ i, i < op.numOperands →
        (didx (results.getD i []) j).eval b st'.env t =
          (reduceAlongAxis b.combine tensor op.helper.axis
            (idx op.helper.srcShape op.helper.axis)
            (b.resultCoord op.helper.srcShape.length t j)).getD i b.undef) ∧
      (BasicLayoutContract op b tensor → ∀ stB : State α,
        ∃ codeB resultsB stB', matchAndRewriteBasic op = .ok (codeB, resultsB) ∧
          run b (product op.helper.getScratchConfigBasic) codeB stB = some stB' ∧
          ∀ t, t < b.numThreads → ∀ j, j < op.resultElems.getD 1 → ∀ i, i < op.numOperands →
            (didx (results.getD i []) j).eval b st'.env t =
              (didx (resultsB.getD i []) j).eval b stB'.env t) := by
  letI := hlaws.addCommMonoid
  obtain ⟨code, results, st', hlow, hrun, hval⟩ := fast_lowering_run hlaws.model hc hfast st
  refine ⟨code, results, st', ?_, hlow, hrun, hval, ?_⟩
  · unfold matchAndRewrite
    rw [if_pos hfast]
    exact hlow
  · intro hb stB
    obtain ⟨codeB, resultsB, stB', hlowB, hrunB, hvalB⟩ := basic_lowering_run hlaws.model hb stB
    refine ⟨codeB, resultsB, stB', hlowB, hrunB, ?_⟩
    intro t ht j hj i hi
    rw [hval t ht j hj i hi, hvalB t ht j hj i hi]

/-- Witness for C2: the `[4,4]` sum reduction along axis 1 with 2 warps x 2
threads-per-warp on that axis: the Fast lowering gives every thread the sum of
its row (`10`, `50`, `90`, `130` for rows `0..3`), and so does the Basic lowering
forced on the same reduction. -/
theorem fast_strategy_correct_witness :
    CombineLaws block44.combine (op44 true).numOperands ∧
      (op44 true).helper.isFastReduction = true ∧
      FastContract (op44 true) block44 tensor44 ∧
      BasicLayoutContract (op44 true) block44 tensor44 ∧
      (∀ r, r < 4 → reduceAlongAxis block44.combine tensor44 1 4 [r] = [40 * (r : Int) + 10]) ∧
      ∃ code results st', matchAndRewrite (op44 true) = .ok (code, results) ∧
        matchAndRewriteFast (op44 true) = .ok (code, results) ∧
        run block44 (fastRegionElems (op44 true)) code ⟨fun _ _ => 0, fun _ _ _ => 0⟩ =
          some st' ∧
        (∀ t, t < block44.numThreads → ∀ j, j < (op44 true).resultElems.getD 1 →
          ∀ i, i < (op44 true).numOperands →
          (didx (results.getD i []) j).eval block44 st'.env t =
            (reduceAlongAxis block44.combine tensor44 (op44 true).helper.axis
              (idx (op44 true).helper.srcShape (op44 true).helper.axis)
              (block44.resultCoord (op44 true).helper.srcShape.length t j)).getD i
              block44.undef) ∧
        (BasicLayoutContract (op44 true) block44 tensor44 → ∀ stB : State Int,
          ∃ codeB resultsB stB', matchAndRewriteBasic (op44 true) = .ok (codeB, resultsB) ∧
            run block44 (product (op44 true).helper.getScratchConfigBasic) codeB stB =
              some stB' ∧
            ∀ t, t < block44.numThreads → ∀ j, j < (op44 true).resultElems.getD 1 →
              ∀ i, i < (op44 true).numOperands →
              (didx (results.getD i []) j).eval block44 st'.env t =
                (didx (resultsB.getD i []) j).eval block44 stB'.env t) :=
  ⟨laws44, by decide, fastContract44, contract44_forced.toLayout, by decide,
    fast_strategy_correct (op44 true) block44 tensor44 laws44 (by decide) fastContract44 _⟩

/-! ## A fast reduction of an Ampere MMA source -/

theorem lawsMma : CombineLaws blockMma.combine 1 := by
  have hform : ∀ x y : List Int, x.length = 1 → y.length = 1 →
      blockMma.combine x y = [x.getD 0 0 + y.getD 0 0] := by
    intro x y hx hy
    match x, y, hx, hy with
    | [a], [c], _, _ => rfl
  refine ⟨?_, ?_, ?_⟩
  · intro x y hx hy
    rw [hform x y hx hy]; rfl
  · intro x y z hx hy hz
    have hxy : (blockMma.combine x y).length = 1 := by rw [hform x y hx hy]; rfl
    have hyz : (blockMma.combine y z).length = 1 := by rw [hform y z hy hz]; rfl
    rw [hform _ z hxy hz, hform x _ hx hyz, hform x y hx hy, hform y z hy hz]
    simp [add_assoc]
  · intro x y hx hy
    rw [hform x y hx hy, hform y x hy hx, add_comm]

theorem keyMma : ∀ e, e < 4 → ∀ e', e' < 4 →
    ((opMma true).key e = (opMma true).key e' ↔ e / 2 = e' / 2) := by decide

set_option maxRecDepth 1000000 in
set_option maxHeartbeats 4000000 in
theorem fastContractMma : FastContract (opMma true) blockMma tensorMma where
  supported := rfl
  order_head := fun _ => rfl
  axis_lt := by decide
  order_perm := by decide
  shape_fit := by decide
  smem_fit := by decide
  threads := by decide
  threads_le := by decide
  rounds_cover := Or.inl (by decide)
  unique_len := by decide
  unique_fit := by decide
  intra_pow2 := ⟨2, by decide, by decide, by decide⟩
  inter_pow2 := ⟨0, by decide, by decide, by decide, by decide, by decide⟩
  tensor_len := fun _ => rfl
  index_lt := by decide
  value := by decide
  key_row := by decide
  row_key := by
    intro t ht t' ht' e he e' he' hrow
    have h : t / 4 + 8 * (e / 2) = t' / 4 + 8 * (e' / 2) := hrow 0 (by decide) (by decide)
    have ht32 : t < 32 := ht
    have ht32' : t' < 32 := ht'
    exact (keyMma e he e' he').mpr (by omega)
  block_row := by
    intro t _ t' _ hb e _ d hd hne
    have hW : (opMma true).helper.getIntraWarpSizeWithUniqueData = 4 := by decide
    rw [hW] at hb
    have hd2 : d < 2 := hd
    have hd1 : d ≠ 1 := hne
    have hd0 : d = 0 := by omega
    subst hd0
    show t / 4 + 8 * (e / 2) = t' / 4 + 8 * (e / 2)
    omega
  block_once := by
    intro t ht t' ht' hb e he e' he' hk hax
    have hW : (opMma true).helper.getIntraWarpSizeWithUniqueData = 4 := by decide
    rw [hW] at hb
    have hcol : 2 * (t % 4) + e % 2 = 2 * (t' % 4) + e' % 2 := hax
    have hk2 := (keyMma e he e' he').mp hk
    constructor <;> omega
  slot_lt := by decide
  slot_coord := fun _ _ _ _ _ _ _ _ _ _ => rfl
  replica := by
    intro t ht t' ht' e he e' he' _ _
    have hW : (opMma true).helper.getIntraWarpSizeWithUniqueData = 4 := by decide
    have ht32 : t < 32 := ht
    have ht32' : t' < 32 := ht'
    have he4 : e < 4 := he
    have he4' : e' < 4 := he'
    refine ⟨t' / 4 * 4 + t % 4, ?_, ?_, e' / 2 * 2 + e % 2, ?_, ?_, ?_⟩
    · show t' / 4 * 4 + t % 4 < 32
      omega
    · rw [hW]; omega
    · show e' / 2 * 2 + e % 2 < 4
      omega
    · exact (keyMma _ (by omega) e' he').mpr (by omega)
    · show 2 * ((t' / 4 * 4 + t % 4) % 4) + (e' / 2 * 2 + e % 2) % 2 = 2 * (t % 4) + e % 2
      omega
  cover_axis := by
    intro t ht e he a ha
    have ht32 : t < 32 := ht
    have he4 : e < 4 := he
    have ha8 : a < 8 := ha
    refine ⟨t / 4 * 4 + a / 2, ?_, e / 2 * 2 + a % 2, ?_, ?_, ?_⟩
    · show t / 4 * 4 + a / 2 < 32
      omega
    · show e / 2 * 2 + a % 2 < 4
      omega
    · intro d hd hne
      have hd2 : d < 2 := hd
      have hd1 : d ≠ 1 := hne
      have hd0 : d = 0 := by omega
      subst hd0
      show (t / 4 * 4 + a / 2) / 4 + 8 * ((e / 2 * 2 + a % 2) / 2) = t / 4 + 8 * (e / 2)
      omega
    · show 2 * ((t / 4 * 4 + a / 2) % 4) + (e / 2 * 2 + a % 2) % 2 = a
      omega
  cover_slot := by
    intro t ht e he s hs
    have ht32 : t < 32 := ht
    have hU : (opMma true).helper.getInterWarpSizeWithUniqueData = 1 := by decide
    rw [hU] at hs
    refine ⟨t / 4 * 4, ?_, ?_, e, he, ?_, ?_⟩
    · show t / 4 * 4 < 32
      omega
    · show t / 4 * 4 % 32 % 4 = 0
      omega
    · intro d hd hne
      have hd2 : d < 2 := hd
      have hd1 : d ≠ 1 := hne
      have hd0 : d = 0 := by omega
      subst hd0
      show t / 4 * 4 / 4 + 8 * (e / 2) = t / 4 + 8 * (e / 2)
      omega
    · show 0 = s
      omega
  result_row := by
    intro t ht j hj
    have ht32 : t < 32 := ht
    have hj2 : j < 2 := hj
    refine ⟨t, ht, 2 * j, ?_, ?_⟩
    · show 2 * j < 4
      omega
    · intro d hd hne
      have hd2 : d < 2 := hd
      have hd1 : d ≠ 1 := hne
      have hd0 : d = 0 := by omega
      subst hd0
      show t / 4 + 8 * (2 * j / 2) = t / 4 + 8 * j
      omega
  scalar_rank := by decide

theorem writeSlotMma : ∀ t, t < 32 → ∀ e, e < 4 →
    writeSlot (opMma true) blockMma t e = t % 4 := by decide

set_option maxRecDepth 1000000 in
set_option maxHeartbeats 4000000 in
theorem basicContractMma : BasicLayoutContract (opMma true) blockMma tensorMma where
  parent_supported := rfl
  axis_lt := by decide
  order_perm := by decide
  shape_fit := by decide
  smem_fit := by decide
  pow2 := ⟨2, by decide⟩
  tensor_len := fun _ => rfl
  index_lt := by decide
  value := by decide
  key_row := by decide
  row_key := by
    intro t ht t' ht' e he e' he' hrow
    have h : t / 4 + 8 * (e / 2) = t' / 4 + 8 * (e' / 2) := hrow 0 (by decide) (by decide)
    have ht32 : t < 32 := ht
    have ht32' : t' < 32 := ht'
    exact (keyMma e he e' he').mpr (by omega)
  once := by
    intro t _ e he e' he' hk hax
    have hcol : 2 * (t % 4) + e % 2 = 2 * (t % 4) + e' % 2 := hax
    have hk2 := (keyMma e he e' he').mp hk
    omega
  slot_lt := by
    intro t ht e he
    rw [writeSlotMma t ht e he]
    show t % 4 < 4
    omega
  slot_coord := by
    intro t ht t' ht' e he e' he' _ hax
    rw [writeSlotMma t ht e he, writeSlotMma t' ht' e' he']
    have hcol : 2 * (t % 4) + e % 2 = 2 * (t' % 4) + e' % 2 := hax
    omega
  replica := by
    intro t ht t' ht' e he _ hs
    rw [writeSlotMma t ht e he, writeSlotMma t' ht' e he] at hs
    show 2 * (t % 4) + e % 2 = 2 * (t' % 4) + e % 2
    omega
  cover_axis := by
    intro t ht e he a ha
    have ht32 : t < 32 := ht
    have he4 : e < 4 := he
    have ha8 : a < 8 := ha
    refine ⟨t / 4 * 4 + a / 2, ?_, e / 2 * 2 + a % 2, ?_, ?_, ?_⟩
    · show t / 4 * 4 + a / 2 < 32
      omega
    · show e / 2 * 2 + a % 2 < 4
      omega
    · intro d hd hne
      have hd2 : d < 2 := hd
      have hd1 : d ≠ 1 := hne
      have hd0 : d = 0 := by omega
      subst hd0
      show (t / 4 * 4 + a / 2) / 4 + 8 * ((e / 2 * 2 + a % 2) / 2) = t / 4 + 8 * (e / 2)
      omega
    · show 2 * ((t / 4 * 4 + a / 2) % 4) + (e / 2 * 2 + a % 2) % 2 = a
      omega
  cover_slot := by
    intro t ht e he s hs
    have ht32 : t < 32 := ht
    have hs4 : s < 4 := hs
    have ht' : t / 4 * 4 + s < 32 := by omega
    refine ⟨t / 4 * 4 + s, ht', e, he, ?_, ?_⟩
    · intro d hd hne
      have hd2 : d < 2 := hd
      have hd1 : d ≠ 1 := hne
      have hd0 : d = 0 := by omega
      subst hd0
      show (t / 4 * 4 + s) / 4 + 8 * (e / 2) = t / 4 + 8 * (e / 2)
      omega
    · rw [writeSlotMma _ ht' e he]
      omega
  result_row := by
    intro t ht j hj
    have ht32 : t < 32 := ht
    have hj2 : j < 2 := hj
    refine ⟨t, ht, 2 * j, ?_, ?_⟩
    · show 2 * j < 4
      omega
    · intro d hd hne
      have hd2 : d < 2 := hd
      have hd1 : d ≠ 1 := hne
      have hd0 : d = 0 := by omega
      subst hd0
      show t / 4 + 8 * (2 * j / 2) = t / 4 + 8 * j
      omega
  scalar_rank := by decide

/-- The two lowerings on the `[16,8]` tensor in the Ampere MMA layout, a source
that is not Blocked: the reduction is fast, the source meets the layout
contracts of both lowerings, and both give every lane the sums of the two rows
it holds. -/
theorem lowerings_mma :
    (opMma true).helper.isFastReduction = true ∧
      FastContract (opMma true) blockMma tensorMma ∧
      BasicLayoutContract (opMma true) blockMma tensorMma ∧
      (∃ code results st', matchAndRewriteFast (opMma true) = .ok (code, results) ∧
        run blockMma (fastRegionElems (opMma true)) code ⟨fun _ _ => 0, fun _ _ _ => 0⟩ =
          some st' ∧
        ∀ t, t < blockMma.numThreads → ∀ j, j < (opMma true).resultElems.getD 1 →
          ∀ i, i < (opMma true).numOperands →
          (didx (results.getD i []) j).eval blockMma st'.env t =
            (reduceAlongAxis blockMma.combine tensorMma (opMma true).helper.axis
              (idx (opMma true).helper.srcShape (opMma true).helper.axis)
              (blockMma.resultCoord (opMma true).helper.srcShape.length t j)).getD i
              blockMma.undef) ∧
      (∃ code results st', matchAndRewriteBasic (opMma true) = .ok (code, results) ∧
        run blockMma (product (opMma true).helper.getScratchConfigBasic) code
          ⟨fun _ _ => 0, fun _ _ _ => 0⟩ = some st' ∧
        ∀ t, t < blockMma.numThreads → ∀ j, j < (opMma true).resultElems.getD 1 →
          ∀ i, i < (opMma true).numOperands →
          (didx (results.getD i []) j).eval blockMma st'.env t =
            (reduceAlongAxis blockMma.combine tensorMma (opMma true).helper.axis
              (idx (opMma true).helper.srcShape (opMma true).helper.axis)
              (blockMma.resultCoord (opMma true).helper.srcShape.length t j)).getD i
              blockMma.undef) := by
  letI := lawsMma.addCommMonoid
  exact ⟨by decide, fastContractMma, basicContractMma,
    fast_lowering_run lawsMma.model fastContractMma (by decide) _,
    basic_lowering_run lawsMma.model basicContractMma _⟩

/-! ## The arg-max reduction of a 1-D tensor held by one warp -/

theorem argMax_form (a b c d : Int) :
    argMaxRegion ([a, b] ++ [c, d]) = if a > c ∨ (a = c ∧ b < d) then [a, b] else [c, d] := rfl

theorem lawsArgMax (j i : Nat) (vals : Nat → Int) :
    CombineLaws (blockArgMax j i vals).combine 2 := by
  have hform : ∀ a b c d : Int, (blockArgMax j i vals).combine [a, b] [c, d] =
      if a > c ∨ (a = c ∧ b < d) then [a, b] else [c, d] := fun a b c d => argMax_form a b c d
  have hpair : ∀ x : List Int, x.length = 2 → ∃ a b, x = [a, b] := by
    intro x hx
    match x, hx with
    | [a, b], _ => exact ⟨a, b, rfl⟩
  refine ⟨?_, ?_, ?_⟩
  · intro x y hx hy
    obtain ⟨a, b, rfl⟩ := hpair x hx
    obtain ⟨c, d, rfl⟩ := hpair y hy
    rw [hform]
    split <;> rfl
  · intro x y z hx hy hz
    obtain ⟨a, b, rfl⟩ := hpair x hx
    obtain ⟨c, d, rfl⟩ := hpair y hy
    obtain ⟨e, f, rfl⟩ := hpair z hz
    rw [hform a b c d, hform c d e f]
    by_cases h1 : a > c ∨ (a = c ∧ b < d) <;> by_cases h2 : c > e ∨ (c = e ∧ d < f)
    · rw [if_pos h1, if_pos h2, hform, hform, if_pos h1]
      have : a > e ∨ (a = e ∧ b < f) := by omega
      rw [if_pos this]
    · rw [if_pos h1, if_neg h2, hform]
    · rw [if_neg h1, if_pos h2, hform, hform, if_pos h2, if_neg h1]
    · rw [if_neg h1, if_neg h2, hform, hform, if_neg h2]
      have : ¬ (a > e ∨ (a = e ∧ b < f)) := by omega
      rw [if_neg this]
  · intro x y hx hy
    obtain ⟨a, b, rfl⟩ := hpair x hx
    obtain ⟨c, d, rfl⟩ := hpair y hy
    rw [hform, hform]
    by_cases h1 : a > c ∨ (a = c ∧ b < d) <;> by_cases h2 : c > a ∨ (c = a ∧ d < b)
    · omega
    · rw [if_pos h1, if_neg h2]
    · rw [if_neg h1, if_pos h2]
    · rw [if_neg h1, if_neg h2]
      have h3 : a = c := by omega
      have h4 : b = d := by omega
      rw [h3, h4]

/-- The left-to-right arg-max combine of the first `m + 1` (value, index) pairs
is the reference sequential arg-max. -/
theorem combineAll_argMax (j i : Nat) (vals : Nat → Int) (m : Nat) :
    combineAll (blockArgMax j i vals).combine
        ((List.range (m + 1)).map fun a => tensorArgMax vals [a]) =
      [(seqArgMax vals m).1, (seqArgMax vals m).2] ∧ (seqArgMax vals m).2 ≤ (m : Int) ∧
      0 ≤ (seqArgMax vals m).2 := by
  induction m with
  | zero => exact ⟨rfl, by simp [seqArgMax], by simp [seqArgMax]⟩
  | succ m ih =>
    obtain ⟨ih1, ih2, ih3⟩ := ih
    have hstep : combineAll (blockArgMax j i vals).combine
        ((List.range (m + 1 + 1)).map fun a => tensorArgMax vals [a]) =
        (blockArgMax j i vals).combine
          (combineAll (blockArgMax j i vals).combine
            ((List.range (m + 1)).map fun a => tensorArgMax vals [a]))
          (tensorArgMax vals [m + 1]) := by
      rw [@List.range_succ (m + 1), List.map_append]
      exact combineAll_append_singleton _ _ _ (by simp [List.range_succ])
    rw [hstep, ih1]
    have htl : tensorArgMax vals [m + 1] = [vals (m + 1), ((m + 1 : Nat) : Int)] := rfl
    rw [htl]
    have hf := argMax_form (seqArgMax vals m).1 (seqArgMax vals m).2 (vals (m + 1))
      ((m + 1 : Nat) : Int)
    have hf' : (blockArgMax j i vals).combine [(seqArgMax vals m).1, (seqArgMax vals m).2]
        [vals (m + 1), ((m + 1 : Nat) : Int)] = _ := hf
    rw [hf']
    simp only [seqArgMax]
    by_cases h : vals (m + 1) > (seqArgMax vals m).1
    · rw [if_pos h]
      have : ¬ ((seqArgMax vals m).1 > vals (m + 1) ∨
          ((seqArgMax vals m).1 = vals (m + 1) ∧ (seqArgMax vals m).2 < ((m + 1 : Nat) : Int))) := by
        omega
      rw [if_neg this]
      refine ⟨rfl, le_refl _, ?_⟩
      exact Int.natCast_nonneg _
    · rw [if_neg h]
      have : (seqArgMax vals m).1 > vals (m + 1) ∨
          ((seqArgMax vals m).1 = vals (m + 1) ∧ (seqArgMax vals m).2 < ((m + 1 : Nat) : Int)) := by
        push_cast
        omega
      rw [if_pos this]
      refine ⟨rfl, ?_, ih3⟩
      push_cast
      omega

set_option maxRecDepth 100000 in
theorem sizesArgMax : ∀ i, i ≤ 5 → ∀ j, j ≤ i →
    (opArgMax j i).helper.getIntraWarpSizeWithUniqueData = 2 ^ j ∧
    (opArgMax j i).helper.getInterWarpSizeWithUniqueData = 1 ∧
    (opArgMax j i).helper.getScratchConfigsFast = [[1], [2 ^ i], []] ∧
    fastNumThreads (opArgMax j i) = 2 ^ i ∧
    (opArgMax j i).helper.alg.getThreadsPerWarpWithUniqueData (opArgMax j i).helper.srcLayout
      (opArgMax j i).helper.srcShape = [2 ^ j] ∧
    (opArgMax j i).helper.alg.getWarpsPerCTAWithUniqueData (opArgMax j i).helper.srcLayout
      (opArgMax j i).helper.srcShape = [1] ∧
    (opArgMax j i).helper.isFastReduction = true := by
  decide

theorem sameRowArgMax (j i : Nat) (vals : Nat → Int) (t e t' e' : Nat) :
    sameRow (opArgMax j i) (blockArgMax j i vals) t e t' e' := by
  intro d hd hne
  have h1 : d < 1 := hd
  have h2 : d ≠ 0 := hne
  omega

theorem contractArgMax (j i : Nat) (hji : j ≤ i) (hi : i ≤ 5) (vals : Nat → Int) :
    FastContract (opArgMax j i) (blockArgMax j i vals) (tensorArgMax vals) := by
  obtain ⟨hW, hU, hS, hT, htpw, hwpc, hfast⟩ := sizesArgMax i hi j hji
  have hS0 : (opArgMax j i).helper.getScratchConfigsFast.getD 0 [] = [1] := by rw [hS]; rfl
  have hS1 : (opArgMax j i).helper.getScratchConfigsFast.getD 1 [] = [2 ^ i] := by rw [hS]; rfl
  have hn : 0 < 2 ^ j := Nat.pow_pos (by decide)
  have hnT : 2 ^ j ≤ 2 ^ i := Nat.pow_le_pow_right (by decide) hji
  have hT5 : 2 ^ i ≤ 2 ^ 5 := Nat.pow_le_pow_right (by decide) hi
  have hdvd : 2 ^ j ∣ 2 ^ i := Nat.pow_dvd_pow 2 hji
  have hNT : (blockArgMax j i vals).numThreads = 2 ^ i := rfl
  have hE : (opArgMax j i).srcElems = 1 := rfl
  have hidx : ∀ t e d, (blockArgMax j i vals).srcIndex t e d = t % 2 ^ j := fun _ _ _ => rfl
  have hax : (opArgMax j i).helper.axis = 0 := rfl
  have hext : fastExtent (opArgMax j i) (opArgMax j i).helper.axis = 1 := by
    unfold fastExtent; rw [hS0]; rfl
  have hslot : ∀ t, fastSlot (opArgMax j i) t = 0 := by
    intro t; unfold fastSlot; rw [if_pos hU]
  refine
    { supported := rfl
      order_head := fun _ => rfl
      axis_lt := Nat.one_pos
      order_perm := List.Perm.refl _
      shape_fit := ?_
      smem_fit := by rw [hS0]; decide
      threads := ⟨by rw [hT, hNT], by rw [hNT]; omega⟩
      threads_le := ?_
      rounds_cover := ?_
      unique_len := by rw [htpw, hwpc]; exact ⟨rfl, rfl⟩
      unique_fit := ?_
      intra_pow2 := ⟨j, by omega, hW, hdvd⟩
      inter_pow2 := ⟨0, by omega, hU, one_dvd _, one_dvd _, by rw [hext]; exact Nat.one_pos⟩
      tensor_len := fun _ => rfl
      index_lt := ?_
      value := ?_
      key_row := fun t _ e _ e' _ _ => sameRowArgMax j i vals t e t e'
      row_key := ?_
      block_row := fun t _ t' _ _ e _ => sameRowArgMax j i vals t e t' e
      block_once := ?_
      slot_lt := by intro t _; rw [hslot, hU]; exact Nat.one_pos
      slot_coord := by intro t _ t' _ _ _ _ _ _ _; rw [hslot, hslot]
      replica := ?_
      cover_axis := ?_
      cover_slot := ?_
      result_row := ?_
      scalar_rank := fun _ => rfl }
  · intro d hd
    have hd1 : d < 1 := hd
    have hd0 : d = 0 := by omega
    subst hd0
    show 2 ^ j < 2 ^ 32
    omega
  · rw [hS1, hNT, product_eq_prod _ (by simp; omega)]
    simp
  · left
    rw [hS0, hNT]
    have h1 : product [1] = 1 := rfl
    rw [h1]
    have : 1 ≤ max (1 / 2 ^ i) 1 := Nat.le_max_right _ _
    calc 1 ≤ 2 ^ i := Nat.pow_pos (by decide)
      _ = 1 * 2 ^ i := (Nat.one_mul _).symm
      _ ≤ max (1 / 2 ^ i) 1 * 2 ^ i := Nat.mul_le_mul_right _ this
  · rw [htpw, hwpc, hax]
    refine ⟨⟨hn, ?_⟩, by decide, by decide⟩
    show 2 ^ j < 2 ^ 32
    omega
  · intro t _ e _ d hd
    have hd1 : d < 1 := hd
    have hd0 : d = 0 := by omega
    subst hd0
    rw [hidx]
    exact Nat.mod_lt _ hn
  · intro t _ e _
    rfl
  · intro t _ t' _ e he e' he' _
    rw [hE] at he he'
    have h0 : e = 0 := by omega
    have h0' : e' = 0 := by omega
    rw [h0, h0']
  · intro t _ t' _ hb e he e' he' _ hx
    rw [hW] at hb
    rw [hidx, hidx] at hx
    rw [hE] at he he'
    refine ⟨?_, by omega⟩
    rw [← Nat.div_add_mod t (2 ^ j), ← Nat.div_add_mod t' (2 ^ j), hb, hx]
  · intro t _ t' ht' e he e' he' _ _
    rw [hNT] at ht'
    obtain ⟨h1, h2⟩ := block_thread (2 ^ j) (2 ^ i) t' (t % 2 ^ j) hn hdvd ht' (Nat.mod_lt _ hn)
    refine ⟨2 ^ j * (t' / 2 ^ j) + t % 2 ^ j, h1, by rw [hW]; exact h2, 0, by rw [hE]; decide, ?_, ?_⟩
    · rw [hE] at he'
      have h0' : e' = 0 := by omega
      rw [h0']
    · rw [hidx, hidx, Nat.mul_add_mod, Nat.mod_mod]
  · intro t _ e _ a ha
    have ha' : a < 2 ^ j := ha
    refine ⟨a, by rw [hNT]; omega, 0, by rw [hE]; decide, sameRowArgMax j i vals _ _ _ _, ?_⟩
    rw [hidx]
    exact Nat.mod_eq_of_lt ha'
  · intro t _ e _ s hs
    rw [hU] at hs
    have hs0 : s = 0 := by omega
    refine ⟨0, by rw [hNT]; exact Nat.pow_pos (by decide), rfl, 0, by rw [hE]; decide,
      sameRowArgMax j i vals _ _ _ _, ?_⟩
    rw [hslot, hs0]
  · intro t _ jj _
    refine ⟨0, by rw [hNT]; exact Nat.pow_pos (by decide), 0, by rw [hE]; decide, ?_⟩
    intro d hd hne
    have h1 : d < 1 := hd
    have h2 : d ≠ 0 := hne
    omega

/-- C3: for the reduction of two co-indexed operands (values, indices) of a 1-D
Blocked tensor of `2 ^ j` elements held by one warp of `2 ^ i` lanes
(`j ≤ i ≤ 5`), with the arg-max region applied to the whole tuple at every
combine step, the code `matchAndRewrite` emits runs on the warp from any initial
scratch content and gives every lane, as the two scalar results, the maximum
value and the index of its first occurrence, as returned by the reference
sequential arg-max over the `2 ^ j` elements. -/
theorem multi_operand_argmax (j i : Nat) (hji : j ≤ i) (hi : i ≤ 5) (vals : Nat → Int)
    (st : State Int) :
    ∃ code results st', matchAndRewrite (opArgMax j i) = .ok (code, results) ∧
      run (blockArgMax j i vals) (fastRegionElems (opArgMax j i)) code st = some st' ∧
      ∀ t, t < 2 ^ i →
        (didx (results.getD 0 []) 0).eval (blockArgMax j i vals) st'.env t =
            (seqArgMax vals (2 ^ j - 1)).1 ∧
          (didx (results.getD 1 []) 0).eval (blockArgMax j i vals) st'.env t =
            (seqArgMax vals (2 ^ j - 1)).2 := by
  have hlaws := lawsArgMax j i vals
  have hc := contractArgMax j i hji hi vals
  have hfast := (sizesArgMax i hi j hji).2.2.2.2.2.2
  letI := CombineLaws.addCommMonoid hlaws
  obtain ⟨code, results, st', hlow, hrun, hval⟩ :=
    @fast_lowering_run Int _ _ _ (opArgMax j i) _ _ hlaws.model hc hfast st
  refine ⟨code, results, st', ?_, hrun, ?_⟩
  · unfold matchAndRewrite
    rw [if_pos hfast]
    exact hlow
  · intro t ht
    have hn : 0 < 2 ^ j := Nat.pow_pos (by decide)
    have href : reduceAlongAxis (blockArgMax j i vals).combine (tensorArgMax vals)
        (opArgMax j i).helper.axis (idx (opArgMax j i).helper.srcShape (opArgMax j i).helper.axis)
        ((blockArgMax j i vals).resultCoord (opArgMax j i).helper.srcShape.length t 0) =
        [(seqArgMax vals (2 ^ j - 1)).1, (seqArgMax vals (2 ^ j - 1)).2] := by
      have h := (combineAll_argMax j i vals (2 ^ j - 1)).1
      rw [Nat.sub_add_cancel hn] at h
      exact h
    have h0 := hval t ht 0 Nat.one_pos 0 (show 0 < 2 by decide)
    have h1 := hval t ht 0 Nat.one_pos 1 (show 1 < 2 by decide)
    rw [href] at h0 h1
    exact ⟨h0, h1⟩

/-- Witness for C3: shape `[8]`, 8 threads per warp, 1 warp, axis 0, values
`3, 1, 4, 1, 5, 9, 2, 9`: every lane obtains the pair `(9, 5)`. -/
theorem multi_operand_argmax_witness :
    3 ≤ 3 ∧ 3 ≤ 5 ∧ seqArgMax vals8 (2 ^ 3 - 1) = (9, 5) ∧
      ∃ code results st', matchAndRewrite (opArgMax 3 3) = .ok (code, results) ∧
        run (blockArgMax 3 3 vals8) (fastRegionElems (opArgMax 3 3)) code
          ⟨fun _ _ => 0, fun _ _ _ => 0⟩ = some st' ∧
        ∀ t, t < 2 ^ 3 →
          (didx (results.getD 0 []) 0).eval (blockArgMax 3 3 vals8) st'.env t =
              (seqArgMax vals8 (2 ^ 3 - 1)).1 ∧
            (didx (results.getD 1 []) 0).eval (blockArgMax 3 3 vals8) st'.env t =
              (seqArgMax vals8 (2 ^ 3 - 1)).2 :=
  ⟨le_refl _, by decide, by decide, multi_operand_argmax 3 3 (le_refl _) (by decide) vals8 _⟩

/-! ## Intra-warp and inter-warp extents -/

theorem mul_min_div (a n w : Nat) (ha : a ∣ n) (hpos : 0 < a) :
    a * min (n / a) w = min n (a * w) := by
  obtain ⟨q, rfl⟩ := ha
  rw [Nat.mul_div_cancel_left q hpos]
  rcases Nat.le_total q w with h | h
  · rw [Nat.min_eq_left h, Nat.min_eq_left (Nat.mul_le_mul_left a h)]
  · rw [Nat.min_eq_right h, Nat.min_eq_right (Nat.mul_le_mul_left a h)]

theorem mul_min_div_le (a n w : Nat) : a * min (n / a) w ≤ n :=
  Nat.le_trans (Nat.mul_le_mul_left a (Nat.min_le_left _ _)) (Nat.mul_div_le n a)

/-- C11, as stated, fails: for a `[3]` tensor with 2 threads per warp and 2 warps
on the axis the extents are 2 and 1, with product 2, while
`min(axisSize, threadsPerWarp * warpsPerCTA)` is 3; the same holds for the
unique-data variants. -/
theorem extent_product_not_effective_size :
    helper3.getIntraWarpSize * helper3.getInterWarpSize = 2 ∧
      min (idx helper3.srcShape helper3.axis)
        (idx (helper3.alg.getThreadsPerWarp helper3.srcLayout) helper3.axis *
          idx (helper3.alg.getWarpsPerCTA helper3.srcLayout) helper3.axis) = 3 ∧
      helper3.getIntraWarpSizeWithUniqueData * helper3.getInterWarpSizeWithUniqueData = 2 ∧
      min (idx helper3.srcShape helper3.axis)
        (idx (helper3.alg.getThreadsPerWarpWithUniqueData helper3.srcLayout helper3.srcShape)
            helper3.axis *
          idx (helper3.alg.getWarpsPerCTAWithUniqueData helper3.srcLayout helper3.srcShape)
            helper3.axis) = 3 := by
  decide

/-- C11 (amended): when the axis size fits in `unsigned` and the intra-warp
extent divides it, the product of the intra-warp and inter-warp extents is
`min(axisSize, threadsPerWarp[axis] * warpsPerCTA[axis])`; for the unique-data
variants the same holds with the de-duplicated counts when, in addition, the
unique threads per warp on the axis do not exceed the axis size divided by the
unique contiguous elements per thread. -/
theorem extent_product_eq_effective_size (h : ReduceOpHelper)
    (hfit : idx h.srcShape h.axis < 2 ^ 32) :
    (1 ≤ idx h.srcShape h.axis → 1 ≤ idx (h.alg.getThreadsPerWarp h.srcLayout) h.axis →
      1 ≤ idx (h.alg.getWarpsPerCTA h.srcLayout) h.axis →
      h.getIntraWarpSize ∣ idx h.srcShape h.axis →
      h.getIntraWarpSize * h.getInterWarpSize =
        min (idx h.srcShape h.axis)
          (idx (h.alg.getThreadsPerWarp h.srcLayout) h.axis *
            idx (h.alg.getWarpsPerCTA h.srcLayout) h.axis)) ∧
    (1 ≤ idx (h.alg.getThreadsPerWarpWithUniqueData h.srcLayout h.srcShape) h.axis →
      idx (h.alg.getThreadsPerWarpWithUniqueData h.srcLayout h.srcShape) h.axis ≤
        idx h.srcShape h.axis /
          idx (h.alg.getUniqueContigPerThread h.srcLayout h.srcShape) h.axis →
      h.getIntraWarpSizeWithUniqueData ∣ idx h.srcShape h.axis →
      h.getIntraWarpSizeWithUniqueData * h.getInterWarpSizeWithUniqueData =
        min (idx h.srcShape h.axis)
          (idx (h.alg.getThreadsPerWarpWithUniqueData h.srcLayout h.srcShape) h.axis *
            idx (h.alg.getWarpsPerCTAWithUniqueData h.srcLayout h.srcShape) h.axis)) := by
  have hn : u32 (idx h.srcShape h.axis) = idx h.srcShape h.axis := u32_of_lt hfit
  constructor
  · intro h1 hT hW hdvd
    have hpos : 0 < h.getIntraWarpSize := by
      unfold ReduceOpHelper.getIntraWarpSize
      simp only [hn]
      exact Nat.lt_min.mpr ⟨h1, hT⟩
    have hI : h.getInterWarpSize =
        min (idx h.srcShape h.axis / h.getIntraWarpSize)
          (idx (h.alg.getWarpsPerCTA h.srcLayout) h.axis) := by
      unfold ReduceOpHelper.getInterWarpSize
      simp only [hn]
    rw [hI, mul_min_div _ _ _ hdvd hpos]
    unfold ReduceOpHelper.getIntraWarpSize
    simp only [hn]
    rcases Nat.le_total (idx h.srcShape h.axis)
      (idx (h.alg.getThreadsPerWarp h.srcLayout) h.axis) with hle | hle
    · rw [Nat.min_eq_left hle]
      have h2 : idx h.srcShape h.axis ≤ idx h.srcShape h.axis *
          idx (h.alg.getWarpsPerCTA h.srcLayout) h.axis := Nat.le_mul_of_pos_right _ hW
      have h3 : idx h.srcShape h.axis ≤ idx (h.alg.getThreadsPerWarp h.srcLayout) h.axis *
          idx (h.alg.getWarpsPerCTA h.srcLayout) h.axis :=
        Nat.le_trans h2 (Nat.mul_le_mul_right _ hle)
      rw [Nat.min_eq_left h2, Nat.min_eq_left h3]
    · rw [Nat.min_eq_right hle]
  · intro hT hle hdvd
    have hA : h.getIntraWarpSizeWithUniqueData =
        idx (h.alg.getThreadsPerWarpWithUniqueData h.srcLayout h.srcShape) h.axis := by
      unfold ReduceOpHelper.getIntraWarpSizeWithUniqueData
      simp only [hn]
      exact Nat.min_eq_right hle
    have hI : h.getInterWarpSizeWithUniqueData =
        min (idx h.srcShape h.axis / h.getIntraWarpSizeWithUniqueData)
          (idx (h.alg.getWarpsPerCTAWithUniqueData h.srcLayout h.srcShape) h.axis) := by
      unfold ReduceOpHelper.getInterWarpSizeWithUniqueData
      simp only [hn]
    rw [hI, mul_min_div _ _ _ hdvd (by rw [hA]; exact hT), hA]

/-- Witness for C11 (amended): the `[4,4]` reduction along axis 1, extents 2 and 2. -/
theorem extent_product_eq_effective_size_witness :
    (helper44 true).getIntraWarpSize * (helper44 true).getInterWarpSize = 4 ∧
      (helper44 true).getIntraWarpSizeWithUniqueData *
        (helper44 true).getInterWarpSizeWithUniqueData = 4 :=
  ⟨((extent_product_eq_effective_size (helper44 true) (by decide)).1 (by decide) (by decide)
      (by decide) (by decide)).trans (by decide),
    ((extent_product_eq_effective_size (helper44 true) (by decide)).2 (by decide) (by decide)
      (by decide)).trans (by decide)⟩

/-- C12: for an axis size of at least 1 that fits in `unsigned`, with at least
one thread per warp on the axis (and, for the unique-data variant, between 1 and
the axis size unique contiguous elements per thread), the intra-warp extent is at
least 1, so the division by it is defined, and the product of the intra-warp and
inter-warp extents is at most the axis size, for both variants. -/
theorem extent_product_le_axis_size (h : ReduceOpHelper)
    (hfit : idx h.srcShape h.axis < 2 ^ 32) (h1 : 1 ≤ idx h.srcShape h.axis) :
    (1 ≤ idx (h.alg.getThreadsPerWarp h.srcLayout) h.axis →
      1 ≤ h.getIntraWarpSize ∧
        h.getIntraWarpSize * h.getInterWarpSize ≤ idx h.srcShape h.axis) ∧
    (1 ≤ idx (h.alg.getThreadsPerWarpWithUniqueData h.srcLayout h.srcShape) h.axis →
      1 ≤ idx (h.alg.getUniqueContigPerThread h.srcLayout h.srcShape) h.axis →
      idx (h.alg.getUniqueContigPerThread h.srcLayout h.srcShape) h.axis ≤
        idx h.srcShape h.axis →
      1 ≤ h.getIntraWarpSizeWithUniqueData ∧
        h.getIntraWarpSizeWithUniqueData * h.getInterWarpSizeWithUniqueData ≤
          idx h.srcShape h.axis) := by
  have hn : u32 (idx h.srcShape h.axis) = idx h.srcShape h.axis := u32_of_lt hfit
  constructor
  · intro hT
    constructor
    · unfold ReduceOpHelper.getIntraWarpSize
      simp only [hn]
      exact Nat.le_min.mpr ⟨h1, hT⟩
    · have hI : h.getInterWarpSize =
          min (idx h.srcShape h.axis / h.getIntraWarpSize)
            (idx (h.alg.getWarpsPerCTA h.srcLayout) h.axis) := by
        unfold ReduceOpHelper.getInterWarpSize
        simp only [hn]
      rw [hI]
      exact mul_min_div_le _ _ _
  · intro hT hc1 hc2
    constructor
    · unfold ReduceOpHelper.getIntraWarpSizeWithUniqueData
      simp only [hn]
      exact Nat.le_min.mpr ⟨(Nat.le_div_iff_mul_le hc1).mpr (by omega), hT⟩
    · have hI : h.getInterWarpSizeWithUniqueData =
          min (idx h.srcShape h.axis / h.getIntraWarpSizeWithUniqueData)
            (idx (h.alg.getWarpsPerCTAWithUniqueData h.srcLayout h.srcShape) h.axis) := by
        unfold ReduceOpHelper.getInterWarpSizeWithUniqueData
        simp only [hn]
      rw [hI]
      exact mul_min_div_le _ _ _

/-- Witness for C12: the `[3]` reduction with 2 threads per warp, where the
product of the extents, 2, is below the axis size 3. -/
theorem extent_product_le_axis_size_witness :
    (1 ≤ helper3.getIntraWarpSize ∧
        helper3.getIntraWarpSize * helper3.getInterWarpSize ≤ 3) ∧
      (1 ≤ helper3.getIntraWarpSizeWithUniqueData ∧
        helper3.getIntraWarpSizeWithUniqueData * helper3.getInterWarpSizeWithUniqueData ≤ 3) :=
  ⟨(extent_product_le_axis_size helper3 (by decide) (by decide)).1 (by decide),
    (extent_product_le_axis_size helper3 (by decide) (by decide)).2 (by decide) (by decide)
      (by decide)⟩
/-! ## Monotonicity of the scratch size -/

theorem byteWidthSum_mono : ∀ (ws ws' : List Nat), List.Forall₂ (fun w w' => w ≤ w') ws ws' →
    (ws.map fun w => w / 8).sum ≤ (ws'.map fun w => w / 8).sum
  | _, _, .nil => Nat.le_refl _
  | _, _, .cons hw hrest => by
    simp only [List.map_cons, List.sum_cons]
    exact Nat.add_le_add (Nat.div_le_div_right hw) (byteWidthSum_mono _ _ hrest)

theorem prod_set_le : ∀ (l : List Nat) (d y : Nat), l.getD d 0 ≤ y → d < l.length →
    l.prod ≤ (l.set d y).prod
  | [], _, _, _, h => absurd h (Nat.not_lt_zero _)
  | x :: xs, 0, y, hy, _ => by
    simp only [List.set_cons_zero, List.prod_cons]
    exact Nat.mul_le_mul_right _ (by simpa using hy)
  | x :: xs, d + 1, y, hy, h => by
    simp only [List.set_cons_succ, List.prod_cons]
    exact Nat.mul_le_mul_left _
      (prod_set_le xs d y (by simpa using hy) (by simpa using h))

theorem prod_set_le_of_getD (l : List Nat) (d y : Nat) (hy : l.getD d 0 ≤ y) :
    l.prod ≤ (l.set d y).prod := by
  by_cases h : d < l.length
  · exact prod_set_le l d y hy h
  · rw [List.set_eq_of_length_le (Nat.le_of_not_lt h)]

theorem specMaxElementCount_eq (h : ReduceOpHelper) :
    specMaxElementCount h =
      if h.isFastReduction then
        max ((convertType h.srcShape).set h.axis h.getInterWarpSize).prod
          (max (u32 (h.numWarps * h.threadsPerWarp)) 1)
      else h.getScratchConfigBasic.prod := by
  unfold specMaxElementCount specRelevantShapes
  by_cases hf : h.isFastReduction = true
  · simp [hf, getScratchConfigsFast_eq, specElementCount]
  · simp [hf, specElementCount]

theorem convertType_set (shape : List Nat) (d v : Nat) :
    convertType (shape.set d v) = (convertType shape).set d (u32 v) := by
  unfold convertType
  exact List.map_set

theorem idx_set_ne (l : List Nat) (d a v : Nat) (h : d ≠ a) : idx (l.set d v) a = idx l a := by
  unfold idx
  rw [getD_set, if_neg (fun hh => h hh.1.symm)]

theorem idx_convertType_le (shape : List Nat) (d : Nat) :
    (convertType shape).getD d 0 ≤ idx shape d := by
  unfold convertType idx
  by_cases h : d < shape.length
  · rw [List.getD_eq_getElem?_getD, List.getD_eq_getElem?_getD, List.getElem?_map,
      List.getElem?_eq_getElem h]
    simp only [Option.map_some', Option.getD_some]
    exact Nat.mod_le _ _
  · rw [List.getD_eq_getElem?_getD, List.getElem?_eq_none (by simpa using h)]
    simp

/-- Enlarging a non-axis dimension does not shrink the element count of the
relevant scratch shapes. -/
theorem specMaxElementCount_mono_shape (h : ReduceOpHelper) (d v : Nat) (hd : d ≠ h.axis)
    (hv : idx h.srcShape d ≤ v) (hv32 : v < 2 ^ 32)
    (hthr : ({ h with srcShape := h.srcShape.set d v } : ReduceOpHelper).getThreadsReductionAxis =
      h.getThreadsReductionAxis) :
    specMaxElementCount h ≤
      specMaxElementCount ({ h with srcShape := h.srcShape.set d v } : ReduceOpHelper) := by
  rw [specMaxElementCount_eq, specMaxElementCount_eq]
  have hfast : ({ h with srcShape := h.srcShape.set d v } : ReduceOpHelper).isFastReduction =
      h.isFastReduction := rfl
  have hax : idx (h.srcShape.set d v) h.axis = idx h.srcShape h.axis := idx_set_ne _ _ _ _ hd
  have hinter : ({ h with srcShape := h.srcShape.set d v } : ReduceOpHelper).getInterWarpSize =
      h.getInterWarpSize := by
    unfold ReduceOpHelper.getInterWarpSize ReduceOpHelper.getIntraWarpSize
    simp only [hax]
  have hle : (convertType h.srcShape).getD d 0 ≤ u32 v := by
    rw [u32_of_lt hv32]
    exact Nat.le_trans (idx_convertType_le _ _) hv
  rw [hfast]
  by_cases hf : h.isFastReduction = true
  · simp only [hf, if_true]
    rw [hinter]
    apply max_le_max _ (le_refl _)
    show _ ≤ ((convertType (h.srcShape.set d v)).set h.axis h.getInterWarpSize).prod
    rw [convertType_set, List.set_comm _ _ _ hd]
    apply prod_set_le_of_getD
    rw [getD_set, if_neg (fun hh => hd hh.1)]
    exact hle
  · simp only [hf]
    unfold ReduceOpHelper.getScratchConfigBasic
    simp only []
    rw [hthr]
    show _ ≤ ((convertType (h.srcShape.set d v)).set h.axis
      (min (idx (convertType (h.srcShape.set d v)) h.axis) h.getThreadsReductionAxis)).prod
    rw [convertType_set, idx_set_ne _ _ _ _ hd, List.set_comm _ _ _ hd]
    apply prod_set_le_of_getD
    rw [getD_set, if_neg (fun hh => hd hh.1)]
    exact hle

/-- C13: when the counts of the enlarged reduction fit in 32 bits,
`getScratchSizeInBytes` does not decrease when operand element widths are
increased, nor when a non-axis dimension of the source shape is increased (to a
size that fits in `unsigned`, the layout algebra reporting the same number of
threads on the reduction axis for both shapes). -/
theorem getScratchSizeInBytes_mono (h : ReduceOpHelper) :
    (∀ ws', List.Forall₂ (fun w w' => w ≤ w') h.srcElementBitWidths ws' →
      (∀ s ∈ specRelevantShapes h, specElementCount s < 2 ^ 32) →
      specMaxElementCount h *
        specByteWidthSum ({ h with srcElementBitWidths := ws' } : ReduceOpHelper) < 2 ^ 32 →
      h.getScratchSizeInBytes ≤
        ({ h with srcElementBitWidths := ws' } : ReduceOpHelper).getScratchSizeInBytes) ∧
    (∀ d v, d ≠ h.axis → idx h.srcShape d ≤ v → v < 2 ^ 32 →
      ({ h with srcShape := h.srcShape.set d v } : ReduceOpHelper).getThreadsReductionAxis =
        h.getThreadsReductionAxis →
      (∀ s ∈ specRelevantShapes h, specElementCount s < 2 ^ 32) →
      (∀ s ∈ specRelevantShapes ({ h with srcShape := h.srcShape.set d v } : ReduceOpHelper),
        specElementCount s < 2 ^ 32) →
      specMaxElementCount ({ h with srcShape := h.srcShape.set d v } : ReduceOpHelper) *
        specByteWidthSum h < 2 ^ 32 →
      h.getScratchSizeInBytes ≤
        ({ h with srcShape := h.srcShape.set d v } : ReduceOpHelper).getScratchSizeInBytes) := by
  constructor
  · intro ws' hws hshape hfit
    have hsum : specByteWidthSum h ≤
        specByteWidthSum ({ h with srcElementBitWidths := ws' } : ReduceOpHelper) :=
      byteWidthSum_mono _ _ hws
    have hcount : specMaxElementCount ({ h with srcElementBitWidths := ws' } : ReduceOpHelper) =
        specMaxElementCount h := rfl
    rw [getScratchSizeInBytes_exact h hshape
        (lt_of_le_of_lt (Nat.mul_le_mul_left _ hsum) hfit),
      getScratchSizeInBytes_exact ({ h with srcElementBitWidths := ws' } : ReduceOpHelper)
        hshape (by rw [hcount]; exact hfit), hcount]
    exact Nat.mul_le_mul_left _ hsum
  · intro d v hd hv hv32 hthr hshape hshape' hfit
    have hcount := specMaxElementCount_mono_shape h d v hd hv hv32 hthr
    have hsum : specByteWidthSum ({ h with srcShape := h.srcShape.set d v } : ReduceOpHelper) =
        specByteWidthSum h := rfl
    rw [getScratchSizeInBytes_exact h hshape
        (lt_of_le_of_lt (Nat.mul_le_mul_right _ hcount) hfit),
      getScratchSizeInBytes_exact _ hshape' (by rw [hsum]; exact hfit), hsum]
    exact Nat.mul_le_mul_right _ hcount

/-- Witness for C13 on the `[4,4]` reduction, Basic path: 64 bytes grow to 128
bytes with 64-bit elements and to 128 bytes with shape `[8,4]`. -/
theorem getScratchSizeInBytes_mono_witness :
    (helper44 false).getScratchSizeInBytes ≤
        ({ helper44 false with srcElementBitWidths := [64] } : ReduceOpHelper).getScratchSizeInBytes ∧
      (helper44 false).getScratchSizeInBytes ≤
        ({ helper44 false with srcShape := (helper44 false).srcShape.set 0 8 } :
          ReduceOpHelper).getScratchSizeInBytes ∧
      ({ helper44 false with srcElementBitWidths := [64] } :
        ReduceOpHelper).getScratchSizeInBytes = 128 ∧
      ({ helper44 false with srcShape := (helper44 false).srcShape.set 0 8 } :
        ReduceOpHelper).getScratchSizeInBytes = 128 :=
  ⟨(getScratchSizeInBytes_mono (helper44 false)).1 [64]
      (List.Forall₂.cons (by decide) List.Forall₂.nil) (by decide) (by decide),
    (getScratchSizeInBytes_mono (helper44 false)).2 0 8 (by decide) (by decide) (by decide)
      (by decide) (by decide) (by decide) (by decide),
    by decide, by decide⟩

/-! ## The combine inliner -/

/-- C16: with `isFirst` the accumulator becomes a copy of the incoming tuple and
nothing is emitted; otherwise, for tuples of the same length `k`, exactly one
copy of the combine region is inlined, with arguments
`(acc_0, ..., acc_{k-1}, cur_0, ..., cur_{k-1})`, the accumulator becomes the `k`
values the region returns, in order, and in every thread these are the values of
the region on the values of the arguments. -/
theorem accumulate_semantics {α : Type} (b : Block α) (env : LoadEnv α) (acc cur : List DVal) :
    accumulate acc cur true = ([], cur) ∧
    (cur.length = acc.length →
      (accumulate acc cur false).1 = [Instr.inlineRegion (acc ++ cur)] ∧
      (accumulate acc cur false).2 =
        (List.range acc.length).map (fun i => DVal.regionResult (acc ++ cur) i) ∧
      (accumulate acc cur false).2.length = acc.length ∧
      ∀ t, DVal.evalList b env (accumulate acc cur false).2 t =
        (List.range acc.length).map fun i =>
          (b.region (DVal.evalList b env acc t ++ DVal.evalList b env cur t)).getD i b.undef) := by
  refine ⟨accumulate_first acc cur, fun h => ?_⟩
  rw [accumulate_next_of_length acc cur h]
  refine ⟨rfl, rfl, by simp, fun t => ?_⟩
  simp only [DVal.evalList_eq_map, List.map_map]
  apply List.map_congr_left
  intro i _
  simp only [Function.comp, DVal.eval, DVal.evalList_eq_map, List.map_append]

/-- Witness for C16: two operands, accumulator element 0 and incoming element 1. -/
theorem accumulate_semantics_witness :
    accumulate [DVal.src 0 0, DVal.src 0 1] [DVal.src 1 0, DVal.src 1 1] false =
      ([Instr.inlineRegion [DVal.src 0 0, DVal.src 0 1, DVal.src 1 0, DVal.src 1 1]],
        [DVal.regionResult [DVal.src 0 0, DVal.src 0 1, DVal.src 1 0, DVal.src 1 1] 0,
          DVal.regionResult [DVal.src 0 0, DVal.src 0 1, DVal.src 1 0, DVal.src 1 1] 1]) :=
  Prod.ext
    ((accumulate_semantics block44 (fun _ _ _ => 0) [DVal.src 0 0, DVal.src 0 1]
      [DVal.src 1 0, DVal.src 1 1]).2 rfl).1
    ((accumulate_semantics block44 (fun _ _ _ => 0) [DVal.src 0 0, DVal.src 0 1]
      [DVal.src 1 0, DVal.src 1 1]).2 rfl).2.1
/-! ## Offsets of the inter-warp phase -/

theorem round_offset_lt (E T t r : Nat) (ht : t < T) (hr : r < max (E / T) 1) :
    t + r * T < max E T := by
  have h1 : (r + 1) * T ≤ max (E / T) 1 * T := Nat.mul_le_mul_right _ hr
  have h2 : max (E / T) 1 * T ≤ max E T := by
    rcases Nat.le_total (E / T) 1 with h | h
    · rw [Nat.max_eq_right h, Nat.one_mul]; exact Nat.le_max_right _ _
    · rw [Nat.max_eq_left h]
      exact Nat.le_trans (Nat.div_mul_le_self _ _) (Nat.le_max_left _ _)
  have h3 : (r + 1) * T = r * T + T := by ring
  omega

theorem fastRegionElems_eq (op : ReduceOp)
    (hfit : op.helper.numWarps * op.helper.threadsPerWarp < 2 ^ 32) :
    fastRegionElems op =
      max (product (op.helper.getScratchConfigsFast.getD 0 []))
        (op.helper.numWarps * op.helper.threadsPerWarp) := by
  unfold fastRegionElems
  rw [getScratchConfigsFast_eq]
  simp only [List.getD_cons_zero, List.getD_cons_succ]
  have : product [u32 (op.helper.numWarps * op.helper.threadsPerWarp)] =
      op.helper.numWarps * op.helper.threadsPerWarp := by
    rw [u32_of_lt hfit, product_eq_prod _ (by simpa using hfit)]
    simp
  rw [this]

/-- C17: with `E` the element count of the first fast scratch shape, `T` the
thread count `numThreads` of `matchAndRewriteFast` (at least 1, at most
`numWarps * threadsPerWarp`, which fits in `unsigned`) and
`elemsPerThread = max(E / T, 1)`, every offset `t + r * T` of a thread `t < T` in
a round `r < elemsPerThread` is below `maxElems = max(E, numWarps * threadsPerWarp)`,
the element count of every operand's scratch region. -/
theorem fast_interwarp_offsets_in_region (op : ReduceOp)
    (hT : fastNumThreads op ≤ op.helper.numWarps * op.helper.threadsPerWarp)
    (hfit : op.helper.numWarps * op.helper.threadsPerWarp < 2 ^ 32) (t r : Nat)
    (ht : t < fastNumThreads op)
    (hr : r < max (product (op.helper.getScratchConfigsFast.getD 0 []) / fastNumThreads op) 1) :
    t + r * fastNumThreads op < fastRegionElems op ∧
      fastRegionElems op = max (product (op.helper.getScratchConfigsFast.getD 0 []))
        (op.helper.numWarps * op.helper.threadsPerWarp) := by
  refine ⟨?_, fastRegionElems_eq op hfit⟩
  rw [fastRegionElems_eq op hfit]
  have h := round_offset_lt _ _ t r ht hr
  exact lt_of_lt_of_le h (max_le_max (le_refl _) hT)

/-- Witness for C17: the last thread of the `[4,4]` fast reduction, `E = 8`,
`T = 64`, one round. -/
theorem fast_interwarp_offsets_in_region_witness :
    63 + 0 * fastNumThreads (op44 true) < fastRegionElems (op44 true) ∧
      fastRegionElems (op44 true) = 64 :=
  ⟨(fast_interwarp_offsets_in_region (op44 true) (by decide) (by decide) 63 0 (by decide)
      (by decide)).1,
    (fast_interwarp_offsets_in_region (op44 true) (by decide) (by decide) 63 0 (by decide)
      (by decide)).2.trans (by decide)⟩

/-- C15 (failing input): for the slice along dimension 0 of an Ampere MMA layout
the reduction axis 0 of the sliced tensor is axis `p = 1` of the MMA layout, for
which the rule is `coord / sizePerThread[1] = coord / 2`; `getWriteIndexBasic`
tests `originalAxis == 0` instead of `p == 0` and emits
`(coord / 16) * 8 + coord % 8`: for `coord = 9` it gives 1, not 4. -/
theorem getWriteIndexBasic_sliced_mma_tests_original_axis :
    specTranslateAxis (.slice 0 (.mma 2 [1, 1])) 0 = 1 ∧
      idx (dialectAlgebra.getSizePerThread (.mma 2 [1, 1])) 1 = 2 ∧
      dialectAlgebra.isAmpere 2 = true ∧
      getWriteIndexBasic dialectAlgebra (.slice 0 (.mma 2 [1, 1])) [IVal.const 9] intsExample 0 0 =
        .ok [IVal.add (IVal.mul (IVal.udiv (IVal.const 9) (IVal.const 16)) (IVal.const 8))
          (IVal.urem (IVal.const 9) (IVal.const 8))] ∧
      (IVal.add (IVal.mul (IVal.udiv (IVal.const 9) (IVal.const 16)) (IVal.const 8))
          (IVal.urem (IVal.const 9) (IVal.const 8))).eval block44 0 = 1 ∧
      (IVal.udiv (IVal.const 9) (IVal.const 2)).eval block44 0 = 4 :=
  ⟨rfl, rfl, rfl, rfl, by decide, by decide⟩

/-- C18, as stated, fails: the slice of a pre-Ampere MMA layout passes
`isSupportedLayout`, yet `getWriteIndexBasic` recurses into the parent and
reaches `report_fatal_error("Unsupported layout")`; the same holds for the slice
of a DotOperand layout. -/
theorem isSupportedLayout_insufficient_for_slices :
    helperSliceVolta.isSupportedLayout = true ∧
      getWriteIndexBasic helperSliceVolta.alg helperSliceVolta.srcLayout [IVal.srcIndex 0 0]
        intsExample helperSliceVolta.axis helperSliceVolta.axis =
        .error "Unsupported layout" ∧
      ({ helperSliceVolta with
          srcLayout := .slice 0 (.dotOperand 0 (.mma 2 [1, 1])) } : ReduceOpHelper).isSupportedLayout =
        true ∧
      getWriteIndexBasic dialectAlgebra (.slice 0 (.dotOperand 0 (.mma 2 [1, 1])))
        [IVal.srcIndex 0 0] intsExample 0 0 = .error "Unsupported layout" :=
  ⟨rfl, rfl, rfl, rfl⟩

/-- C18 (amended): for every layout and every axis, `getWriteIndexBasic` returns
a write coordinate exactly when `isSupportedLayout` holds for the innermost
non-Sliced parent of the layout (Blocked or Ampere MMA), hence for every
supported layout that is not Sliced and for every Sliced layout over such a
parent; on every other layout it ends in the fatal `Unsupported layout` branch,
as the write-index step is specified to. `isSupportedLayout` itself holds for
every Sliced layout, whatever its parent. -/
theorem getWriteIndexBasic_ok_iff_innermost_supported (h : ReduceOpHelper) (index : List IVal)
    (ints : List (Nat × IVal)) (originalAxis axis : Nat) :
    ((∃ w, getWriteIndexBasic h.alg h.srcLayout index ints originalAxis axis = .ok w) ↔
      ({ h with srcLayout := specInnermostParent h.srcLayout } :
        ReduceOpHelper).isSupportedLayout = true) ∧
    (getWriteIndexBasic h.alg h.srcLayout index ints originalAxis axis =
        .error "Unsupported layout" ↔
      ({ h with srcLayout := specInnermostParent h.srcLayout } :
        ReduceOpHelper).isSupportedLayout = false) ∧
    (∀ dim parent,
      ({ h with srcLayout := Layout.slice dim parent } : ReduceOpHelper).isSupportedLayout =
        true) :=
  ⟨(getWriteIndexBasic_innermost h.alg h h.srcLayout index ints originalAxis axis).1,
    (getWriteIndexBasic_innermost h.alg h h.srcLayout index ints originalAxis axis).2,
    fun _ _ => rfl⟩

/-! ## The accumulator map of the fold within threads -/

theorem mapSet_length {V : Type} (key : List Nat) (v : V) (m : List (List Nat × V))
    (hm : m.Pairwise fun p q => keyLt p.1 q.1 = true) :
    (mapSet key v m).length = if (mapFind m key).isSome then m.length else m.length + 1 := by
  induction m with
  | nil => simp [mapSet, mapFind]
  | cons p rest ih =>
    obtain ⟨k, w⟩ := p
    rw [List.pairwise_cons] at hm
    simp only [mapSet, mapFind]
    by_cases h1 : key = k
    · simp [h1]
    · simp only [h1, if_false]
      by_cases h2 : keyLt key k = true
      · simp only [h2, if_true, List.length_cons]
        have hnone : mapFind rest key = none := by
          cases hf : mapFind rest key with
          | none => rfl
          | some x =>
            have hmem := mem_of_mapFind _ _ _ hf
            have h3 := hm.1 _ hmem
            have h4 := keyLt_trans _ _ _ h2 h3
            rw [keyLt_irrefl] at h4
            exact absurd h4 (by simp)
        simp [hnone]
      · have ih' := ih hm.2
        simp only [h2, List.length_cons]
        by_cases h3 : (mapFind rest key).isSome = true
        · rw [if_pos h3] at ih'
          simp [h3, ih']
        · rw [if_neg h3] at ih'
          simp [h3, ih']

theorem accumulate_code_length (acc cur : List DVal) :
    (accumulate acc cur false).1.length = 1 := by
  simp [accumulate]

/-- Every iteration of the fold either opens a new entry or inlines one copy of
the combine region. -/
theorem fold_count (op : ReduceOp) (m : Nat) :
    (((List.range m).foldl (reduceWithinThreadsStep op) ⟨[], [], []⟩).accs.Pairwise
        fun p q => keyLt p.1 q.1 = true) ∧
      ((List.range m).foldl (reduceWithinThreadsStep op) ⟨[], [], []⟩).code.length +
        ((List.range m).foldl (reduceWithinThreadsStep op) ⟨[], [], []⟩).accs.length = m := by
  induction m with
  | zero => exact ⟨List.Pairwise.nil, rfl⟩
  | succ m ih =>
    rw [List.range_succ, List.foldl_append]
    simp only [List.foldl_cons, List.foldl_nil]
    generalize (List.range m).foldl (reduceWithinThreadsStep op) ⟨[], [], []⟩ = st at ih
    obtain ⟨hs, hcnt⟩ := ih
    refine ⟨mapSet_sorted _ _ _ hs, ?_⟩
    simp only [reduceWithinThreadsStep, List.length_append]
    rw [mapSet_length _ _ _ hs]
    cases hf : mapFind st.accs ((op.offset.getD m []).set op.helper.axis 0) with
    | none =>
      simp only [Option.isNone_none, accumulate_first, Option.isSome_none, List.length_nil]
      simp
      omega
    | some a =>
      simp only [Option.isNone_some, Option.isSome_some, if_true, accumulate_code_length]
      omega

theorem key_eq_iff (op : ReduceOp) (e e' : Nat)
    (hlen : (op.offset.getD e []).length = (op.offset.getD e' []).length) :
    op.key e = op.key e' ↔
      ∀ d, d ≠ op.helper.axis → (op.offset.getD e []).getD d 0 = (op.offset.getD e' []).getD d 0 := by
  unfold ReduceOp.key
  constructor
  · intro h d hd
    have := congrArg (fun l => l.getD d 0) h
    simp only [getD_set] at this
    rw [if_neg (fun hh => hd hh.1), if_neg (fun hh => hd hh.1)] at this
    exact this
  · intro h
    apply list_ext_getD _ _ 0
    · rw [List.length_set, List.length_set]; exact hlen
    · intro d _
      rw [getD_set, getD_set, hlen]
      by_cases hd : d = op.helper.axis
      · by_cases hl : op.helper.axis < (op.offset.getD e' []).length
        · rw [if_pos ⟨hd, hl⟩, if_pos ⟨hd, hl⟩]
        · rw [if_neg (fun hh => hl hh.2), if_neg (fun hh => hl hh.2)]
          have h1 : (op.offset.getD e []).length ≤ d := by rw [hlen, hd]; omega
          have h2 : (op.offset.getD e' []).length ≤ d := by rw [hd]; omega
          rw [List.getD_eq_default _ _ h1, List.getD_eq_default _ _ h2]
      · rw [if_neg (fun hh => hd hh.1), if_neg (fun hh => hd hh.1)]
        exact h d hd

/-- C19: after the fold over the `srcElems` elements of a thread, whose offsets
all have the same rank, the map `accs` is strictly ordered by key, so it holds
one entry per key; it has an entry exactly for the keys of the elements, an
element's key being its offset with the axis component set to 0; two elements
have the same key, hence share an entry, exactly when their offsets agree outside
the axis; the value of an entry is the left-to-right combine, in enumeration
order, of the elements with its key; and the emitted code consists of
`srcElems - (number of entries)` inlined copies of the combine region. -/
theorem fold_accumulator_map {α : Type} (op : ReduceOp) (b : Block α)
    (hc : ∀ x y, x.length = op.numOperands → y.length = op.numOperands →
      (b.combine x y).length = op.numOperands)
    (hrank : ∀ e, e < op.srcElems → ∀ e', e' < op.srcElems →
      (op.offset.getD e []).length = (op.offset.getD e' []).length) :
    ((reduceWithinThreads op).accs.Pairwise fun p q => keyLt p.1 q.1 = true) ∧
    (∀ κ, (mapFind (reduceWithinThreads op).accs κ).isSome = true ↔
      ∃ e, e < op.srcElems ∧ (op.offset.getD e []).set op.helper.axis 0 = κ) ∧
    (∀ e, e < op.srcElems → ∀ e', e' < op.srcElems →
      ((op.offset.getD e []).set op.helper.axis 0 = (op.offset.getD e' []).set op.helper.axis 0 ↔
        ∀ d, d ≠ op.helper.axis →
          (op.offset.getD e []).getD d 0 = (op.offset.getD e' []).getD d 0)) ∧
    (∀ κ acc, mapFind (reduceWithinThreads op).accs κ = some acc →
      acc.length = op.numOperands ∧
      ∀ env t, DVal.evalList b env acc t =
        combineAll b.combine
          (((List.range op.srcElems).filter fun e =>
            decide ((op.offset.getD e []).set op.helper.axis 0 = κ)).map
              (b.srcTuple op.numOperands t))) ∧
    (reduceWithinThreads op).code.length =
      op.srcElems - (reduceWithinThreads op).accs.length ∧
    (reduceWithinThreads op).accs.length ≤ op.srcElems ∧
    (∀ ins ∈ (reduceWithinThreads op).code, ∃ args, ins = Instr.inlineRegion args) := by
  have inv := foldInv_reduceWithinThreads op b hc
  have hcount := (fold_count op op.srcElems).2
  refine ⟨inv.sorted, ?_, ?_, ?_, ?_, ?_, inv.code⟩
  · intro κ
    have hn := inv.none_iff κ
    constructor
    · intro h
      have hne : op.group κ op.srcElems ≠ [] := by
        intro hg
        rw [hn.mpr hg] at h
        simp at h
      obtain ⟨he, hk⟩ := first_spec op κ hne
      exact ⟨_, he, hk⟩
    · rintro ⟨e, he, hk⟩
      cases hf : mapFind (reduceWithinThreads op).accs κ with
      | some a => rfl
      | none =>
        have hg := hn.mp hf
        have hmem := (mem_group op κ e).mpr ⟨he, hk⟩
        rw [hg] at hmem
        exact absurd hmem (List.not_mem_nil _)
  · intro e he e' he'
    exact key_eq_iff op e e' (hrank e he e' he')
  · intro κ acc hf
    obtain ⟨h1, _, h3⟩ := inv.acc κ acc hf
    exact ⟨h1, h3⟩
  · show (reduceWithinThreads op).code.length = _
    unfold reduceWithinThreads
    omega
  · unfold reduceWithinThreads
    omega

/-- Witness for C19: a thread with the offsets `(0,0), (0,1), (1,0), (1,1)`
reduced along axis 1: two entries, with keys `(0,0)` and `(1,0)`, and two
inlined copies of the combine region. -/
theorem fold_accumulator_map_witness :
    (reduceWithinThreads opFold4).accs.map (fun p => p.1) = [[0, 0], [1, 0]] ∧
      (reduceWithinThreads opFold4).code.length =
        opFold4.srcElems - (reduceWithinThreads opFold4).accs.length ∧
      (reduceWithinThreads opFold4).code.length = 2 :=
  ⟨by decide,
    (fold_accumulator_map opFold4 block44 laws44.closed (by decide)).2.2.2.2.1,
    by decide⟩

/-! ## Reductions along an axis of size 1 -/

set_option maxRecDepth 100000 in
/-- C14, as stated, fails: for the `[32,1]` reduction along its axis of size 1
neither lowering invokes the combine region or shuffles, but both still emit
barriers: one in `matchAndRewriteBasic`, two in `matchAndRewriteFast`, and both
pass every value through scratch memory (a store and a load per result). -/
theorem axis_size_one_still_emits_barriers :
    idx (opAxis1 true).helper.srcShape (opAxis1 true).helper.axis = 1 ∧
      (loweredCode (matchAndRewriteBasic (opAxis1 false))).countP Instr.isBarrier = 1 ∧
      (loweredCode (matchAndRewriteFast (opAxis1 true))).countP Instr.isBarrier = 2 ∧
      matchAndRewrite (opAxis1 false) = matchAndRewriteBasic (opAxis1 false) ∧
      matchAndRewrite (opAxis1 true) = matchAndRewriteFast (opAxis1 true) ∧
      (loweredCode (matchAndRewriteBasic (opAxis1 false))).countP Instr.isCombine = 0 ∧
      (loweredCode (matchAndRewriteFast (opAxis1 true))).countP Instr.isCombine = 0 ∧
      (loweredCode (matchAndRewriteFast (opAxis1 true))).countP Instr.isShuffle = 0 := by
  refine ⟨by decide, by decide, by decide, rfl, rfl, by decide, by decide, by decide⟩

/-- When no two elements of a thread have the same key the fold emits nothing. -/
theorem fold_code_nil {α : Type} (op : ReduceOp) (b : Block α)
    (hc : ∀ x y, x.length = op.numOperands → y.length = op.numOperands →
      (b.combine x y).length = op.numOperands)
    (hinj : ∀ e, e < op.srcElems → ∀ e', e' < op.srcElems → op.key e = op.key e' → e = e') :
    (reduceWithinThreads op).code = [] := by
  have key : ∀ m, m ≤ op.srcElems →
      ((List.range m).foldl (reduceWithinThreadsStep op) ⟨[], [], []⟩).code = [] := by
    intro m
    induction m with
    | zero => intro _; rfl
    | succ m ih =>
      intro hm
      have inv := foldInv_range op b hc m
      rw [List.range_succ, List.foldl_append]
      simp only [List.foldl_cons, List.foldl_nil]
      have hnone : mapFind ((List.range m).foldl (reduceWithinThreadsStep op) ⟨[], [], []⟩).accs
          (op.key m) = none := by
        rw [inv.none_iff]
        unfold ReduceOp.group
        rw [List.filter_eq_nil_iff]
        intro e he
        rw [List.mem_range] at he
        simp only [decide_eq_true_eq]
        intro hk
        have := hinj e (by omega) m (by omega) hk
        omega
      have hkey : (op.offset.getD m []).set op.helper.axis 0 = op.key m := rfl
      simp only [reduceWithinThreadsStep, hkey, hnone, Option.isNone_none, accumulate_first,
        List.append_nil]
      exact ih (by omega)
  exact key op.srcElems (Nat.le_refl _)

/-- When no two elements of a thread have the same key every accumulator is the
tuple of source values of its element. -/
theorem fold_accs_regionFree {α : Type} (op : ReduceOp) (b : Block α)
    (hc : ∀ x y, x.length = op.numOperands → y.length = op.numOperands →
      (b.combine x y).length = op.numOperands)
    (hinj : ∀ e, e < op.srcElems → ∀ e', e' < op.srcElems → op.key e = op.key e' → e = e') :
    ∀ p ∈ (reduceWithinThreads op).accs, ∀ v ∈ p.2, v.regionFree := by
  have key : ∀ m, m ≤ op.srcElems →
      ∀ p ∈ ((List.range m).foldl (reduceWithinThreadsStep op) ⟨[], [], []⟩).accs,
        ∀ v ∈ p.2, v.regionFree := by
    intro m
    induction m with
    | zero =>
      intro _ p hp
      exact absurd hp (List.not_mem_nil _)
    | succ m ih =>
      intro hm p hp v hv
      have inv := foldInv_range op b hc m
      rw [List.range_succ, List.foldl_append] at hp
      simp only [List.foldl_cons, List.foldl_nil] at hp
      have hnone : mapFind ((List.range m).foldl (reduceWithinThreadsStep op) ⟨[], [], []⟩).accs
          (op.key m) = none := by
        rw [inv.none_iff]
        unfold ReduceOp.group
        rw [List.filter_eq_nil_iff]
        intro e he
        rw [List.mem_range] at he
        simp only [decide_eq_true_eq]
        intro hk
        have := hinj e (by omega) m (by omega) hk
        omega
      have hkey : (op.offset.getD m []).set op.helper.axis 0 = op.key m := rfl
      simp only [reduceWithinThreadsStep, hkey, hnone, Option.isNone_none, accumulate_first]
        at hp
      rcases mapSet_mem _ _ _ p hp with rfl | hp'
      · simp only [ReduceOp.srcValues, List.mem_map] at hv
        obtain ⟨o, _, rfl⟩ := hv
        simp [DVal.regionFree]
      · exact ih (by omega) p hp' v hv
  exact key op.srcElems (Nat.le_refl _)

theorem halvings_of_le_one (n : Nat) (h : n ≤ 1) : halvings (n / 2) = [] := by
  have : n / 2 = 0 := by omega
  rw [this]
  exact halvings_zero

theorem didx_regionFree (l : List DVal) (h : ∀ v ∈ l, v.regionFree) (i : Nat) :
    (didx l i).regionFree := by
  unfold didx
  rw [List.getD_eq_getElem?_getD]
  cases hi : l[i]? with
  | none => simp [DVal.regionFree]
  | some v =>
    simp only [Option.getD_some]
    exact h v (List.getElem?_mem hi)

/-- The read-back loads are neither combines, shuffles, round loads nor
barriers. -/
theorem mem_setOutputValues (op : ReduceOp) (smemShape order : List Nat) (zero : IVal)
    (ins : Instr)
    (h : ins ∈ (((List.range op.numOperands).map fun i =>
      setOutputValues op smemShape order zero i).map fun o => o.1).flatten) :
    ins.isCombine = false ∧ ins.isShuffle = false ∧ ins.isRoundLoad = false ∧
      ins.isBarrier = false ∧ ins.regionFree := by
  rw [List.mem_flatten] at h
  obtain ⟨l, hl, hins⟩ := h
  rw [List.mem_map] at hl
  obtain ⟨o, ho, rfl⟩ := hl
  rw [List.mem_map] at ho
  obtain ⟨i, _, rfl⟩ := ho
  unfold setOutputValues at hins
  cases hre : op.resultElems with
  | none =>
    rw [hre] at hins
    simp only [List.mem_singleton] at hins
    subst hins
    exact ⟨rfl, rfl, rfl, rfl, trivial⟩
  | some n =>
    rw [hre] at hins
    simp only [List.mem_map, List.mem_range] at hins
    obtain ⟨j, _, rfl⟩ := hins
    exact ⟨rfl, rfl, rfl, rfl, trivial⟩

/-- The result values are load results. -/
theorem setOutputValues_regionFree (op : ReduceOp) (smemShape order : List Nat) (zero : IVal)
    (i j : Nat) :
    (didx ((((List.range op.numOperands).map fun i =>
      setOutputValues op smemShape order zero i).map fun o => o.2).getD i []) j).regionFree := by
  apply didx_regionFree
  intro v hv
  rw [List.getD_eq_getElem?_getD] at hv
  cases hl : (((List.range op.numOperands).map fun i =>
      setOutputValues op smemShape order zero i).map fun o => o.2)[i]? with
  | none =>
    rw [hl] at hv
    exact absurd hv (List.not_mem_nil _)
  | some l =>
    rw [hl] at hv
    simp only [Option.getD_some] at hv
    have hmem := List.getElem?_mem hl
    simp only [List.mem_map, List.mem_range] at hmem
    obtain ⟨o, ⟨k, _, rfl⟩, rfl⟩ := hmem
    unfold setOutputValues at hv
    cases hre : op.resultElems with
    | none =>
      rw [hre] at hv
      simp only [List.mem_singleton] at hv
      subst hv
      simp [DVal.regionFree]
    | some n =>
      rw [hre] at hv
      simp only [List.mem_map, List.mem_range] at hv
      obtain ⟨j', _, rfl⟩ := hv
      simp [DVal.regionFree]

theorem basicExtent_axis_le_one (op : ReduceOp)
    (haxis : idx op.helper.srcShape op.helper.axis = 1) :
    idx op.helper.getScratchConfigBasic op.helper.axis ≤ 1 := by
  have h1 : idx (convertType op.helper.srcShape) op.helper.axis ≤ 1 := by
    have := idx_convertType_le op.helper.srcShape op.helper.axis
    rw [haxis] at this
    exact this
  unfold ReduceOpHelper.getScratchConfigBasic idx
  simp only []
  rw [getD_set]
  split
  · exact Nat.le_trans (Nat.min_le_left _ _) h1
  · exact h1

/-- With a scratch axis extent of at most 1 the code of a key is its stores. -/
theorem mem_basicKeyCode (op : ReduceOp) (smemShape srcOrd : List Nat)
    (ints : List (Nat × IVal)) (index : List IVal) (key : List Nat) (acc : List DVal)
    (hext : idx smemShape op.helper.axis ≤ 1) (hacc : ∀ v ∈ acc, v.regionFree) (ins : Instr)
    (h : ins ∈ basicKeyCode op smemShape srcOrd ints index key acc) :
    ins.isCombine = false ∧ ins.isShuffle = false ∧ ins.isRoundLoad = false ∧
      ins.isBarrier = false ∧ ins.regionFree := by
  unfold basicKeyCode at h
  simp only [halvings_of_le_one _ hext, basicRounds, List.append_nil, List.mem_map,
    List.mem_range] at h
  obtain ⟨i, _, rfl⟩ := h
  exact ⟨rfl, rfl, rfl, rfl, didx_regionFree acc hacc i⟩

theorem mem_fastWithinWarps (op : ReduceOp) (smemShape0 order : List Nat) (W U : Nat)
    (zero warpIdAxis laneZero : IVal) (indices : List (List Nat × List IVal))
    (hW : halvings (W / 2) = []) :
    ∀ (es : List (List Nat × List DVal)), (∀ p ∈ es, ∀ v ∈ p.2, v.regionFree) →
      ∀ (ins : Instr),
      ins ∈ fastWithinWarps op smemShape0 order W U zero warpIdAxis laneZero indices es →
      ins.isCombine = false ∧ ins.isShuffle = false ∧ ins.isRoundLoad = false ∧
        ins.isBarrier = false ∧ ins.regionFree
  | [], _, _, h => absurd h (List.not_mem_nil _)
  | (key, acc) :: rest, hes, ins, h => by
    simp only [fastWithinWarps, hW, shuffleRounds, List.nil_append, List.mem_append, List.mem_map,
      List.mem_range] at h
    rcases h with ⟨i, _, rfl⟩ | h
    · exact ⟨rfl, rfl, rfl, rfl,
        didx_regionFree acc (hes (key, acc) (List.mem_cons_self _ _)) i⟩
    · exact mem_fastWithinWarps op smemShape0 order W U zero warpIdAxis laneZero indices hW rest
        (fun p hp => hes p (List.mem_cons_of_mem _ hp)) ins h

theorem mem_fastAcrossWarps (op : ReduceOp) (elems numThreads elemsPerThread U : Nat)
    (threadId laneId zero : IVal) (hU : halvings (U / 2) = []) :
    ∀ (fuel round : Nat) (ro : IVal) (ins : Instr),
      ins ∈ fastAcrossWarps op elems numThreads elemsPerThread U threadId laneId zero fuel round
        ro →
      ins.isCombine = false ∧ ins.isShuffle = false ∧ ins.isRoundLoad = false ∧
        ins.isBarrier = false ∧ ins.regionFree
  | 0, _, _, _, h => absurd h (List.not_mem_nil _)
  | fuel + 1, round, ro, ins, h => by
    simp only [fastAcrossWarps, hU, shuffleRounds, List.append_nil, List.mem_append, List.mem_map,
      List.mem_range] at h
    rcases h with (⟨i, _, rfl⟩ | ⟨i, _, rfl⟩) | h
    · exact ⟨rfl, rfl, rfl, rfl, trivial⟩
    · refine ⟨rfl, rfl, rfl, rfl, ?_⟩
      apply didx_regionFree
      intro v hv
      simp only [List.mem_map, List.mem_range] at hv
      obtain ⟨o, _, rfl⟩ := hv
      simp [DVal.regionFree]
    · exact mem_fastAcrossWarps op elems numThreads elemsPerThread U threadId laneId zero hU fuel
        _ _ ins h

theorem fastSizes_le_one (h : ReduceOpHelper) (haxis : idx h.srcShape h.axis = 1) :
    h.getIntraWarpSizeWithUniqueData ≤ 1 ∧ h.getInterWarpSizeWithUniqueData ≤ 1 := by
  have hn : u32 (idx h.srcShape h.axis) = 1 := by rw [haxis]; rfl
  constructor
  · unfold ReduceOpHelper.getIntraWarpSizeWithUniqueData
    simp only [hn]
    exact Nat.le_trans (Nat.min_le_left _ _) (Nat.div_le_self _ _)
  · unfold ReduceOpHelper.getInterWarpSizeWithUniqueData
    simp only [hn]
    exact Nat.le_trans (Nat.min_le_left _ _) (Nat.div_le_self _ _)

theorem reduceAlongAxis_one {α : Type} (f : List α → List α → List α)
    (tensor : List Nat → List α) (axis : Nat) (c : List Nat) :
    reduceAlongAxis f tensor axis 1 c = tensor (c.insertIdx axis 0) := rfl

/-! ### Independence of the combine region -/

theorem ival_eval_withRegion {α : Type} (b : Block α) (r : List α → List α) (t : Nat) (v : IVal) :
    v.eval (b.withRegion r) t = v.eval b t := by
  induction v with
  | null => rfl
  | const n => rfl
  | threadId => rfl
  | srcIndex e d => rfl
  | resultIndex e d => rfl
  | udiv x y ihx ihy => simp only [IVal.eval, ihx, ihy]
  | urem x y ihx ihy => simp only [IVal.eval, ihx, ihy]
  | add x y ihx ihy => simp only [IVal.eval, ihx, ihy]
  | mul x y ihx ihy => simp only [IVal.eval, ihx, ihy]
  | icmp_slt x y ihx ihy => simp only [IVal.eval, ihx, ihy]
  | icmp_eq x y ihx ihy => simp only [IVal.eval, ihx, ihy]
  | and_ x y ihx ihy => simp only [IVal.eval, ihx, ihy]
  | select c x y ihc ihx ihy => simp only [IVal.eval, ihc, ihx, ihy]

theorem dval_eval_withRegion {α : Type} (b : Block α) (r : List α → List α) (env : LoadEnv α) :
    ∀ (v : DVal), v.regionFree → ∀ t, DVal.eval (b.withRegion r) env v t = DVal.eval b env v t
  | .null, _, _ => rfl
  | .src _ _, _, _ => rfl
  | .regionResult _ _, h, _ => by simp [DVal.regionFree] at h
  | .shfl v N, h, t => by
    simp only [DVal.eval]
    exact dval_eval_withRegion b r env v (by simpa [DVal.regionFree] using h) _
  | .loaded s o, _, _ => rfl

theorem ptrOffset_withRegion {α : Type} (b : Block α) (r : List α → List α) (t : Nat)
    (ptr : List IVal) : ptrOffset (b.withRegion r) t ptr = ptrOffset b t ptr := by
  unfold ptrOffset
  congr 1
  apply List.map_congr_left
  intro v _
  exact ival_eval_withRegion b r t v

theorem storeAll_withRegion {α : Type} (b : Block α) (r : List α → List α) (env : LoadEnv α)
    (operand : Nat) (ptr : List IVal) (val : DVal) (hv : val.regionFree) (active : Nat → Bool)
    (mem : Nat → Nat → α) :
    storeAll (b.withRegion r) env operand ptr val active mem =
      storeAll b env operand ptr val active mem := by
  unfold storeAll
  show (List.range b.numThreads).foldl _ mem = _
  congr 1
  funext m t
  simp only [ptrOffset_withRegion, dval_eval_withRegion b r env val hv]

theorem exec_withRegion {α : Type} (b : Block α) (r : List α → List α) (E : Nat) (st : State α)
    (ins : Instr) (h : ins.regionFree) :
    ins.exec (b.withRegion r) E st = ins.exec b E st := by
  cases ins with
  | getSharedMemoryBase => rfl
  | inlineRegion _ => rfl
  | shflSync _ _ => rfl
  | barrier => rfl
  | load site operand ptr =>
    simp only [Instr.exec, ptrOffset_withRegion]
    rfl
  | store operand ptr val =>
    simp only [Instr.exec, ptrOffset_withRegion, storeAll_withRegion b r _ _ _ _ h]
    rfl
  | storeShared operand ptr val pred =>
    simp only [Instr.exec, ptrOffset_withRegion, storeAll_withRegion b r _ _ _ _ h,
      ival_eval_withRegion]
    rfl

theorem run_withRegion {α : Type} (b : Block α) (r : List α → List α) (E : Nat) :
    ∀ (code : List Instr) (st : State α), (∀ ins ∈ code, ins.regionFree) →
      run (b.withRegion r) E code st = run b E code st
  | [], _, _ => rfl
  | ins :: rest, st, h => by
    simp only [run]
    rw [exec_withRegion b r E st ins (h ins (List.mem_cons_self _ _))]
    cases ins.exec b E st with
    | none => rfl
    | some st' => exact run_withRegion b r E rest st' (fun i hi => h i (List.mem_cons_of_mem _ hi))

theorem writeSlot_withRegion {α : Type} (op : ReduceOp) (b : Block α) (r : List α → List α)
    (t e : Nat) : writeSlot op (b.withRegion r) t e = writeSlot op b t e :=
  ival_eval_withRegion b r t _

/-- The layout contract of the Basic lowering does not involve the combine
region. -/
theorem basicLayoutContract_withRegion {α : Type} {op : ReduceOp} {b : Block α}
    {tensor : List Nat → List α} (hc : BasicLayoutContract op b tensor) (r : List α → List α) :
    BasicLayoutContract op (b.withRegion r) tensor where
  parent_supported := hc.parent_supported
  axis_lt := hc.axis_lt
  order_perm := hc.order_perm
  shape_fit := hc.shape_fit
  smem_fit := hc.smem_fit
  pow2 := hc.pow2
  tensor_len := hc.tensor_len
  index_lt := hc.index_lt
  value := hc.value
  key_row := hc.key_row
  row_key := hc.row_key
  once := hc.once
  slot_lt := fun t ht e he => by rw [writeSlot_withRegion]; exact hc.slot_lt t ht e he
  slot_coord := fun t ht t' ht' e he e' he' hrow ha => by
    rw [writeSlot_withRegion, writeSlot_withRegion]
    exact hc.slot_coord t ht t' ht' e he e' he' hrow ha
  replica := fun t ht t' ht' e he hrow hs => by
    rw [writeSlot_withRegion, writeSlot_withRegion] at hs
    exact hc.replica t ht t' ht' e he hrow hs
  cover_axis := hc.cover_axis
  cover_slot := fun t ht e he s hs => by
    obtain ⟨t', ht', e', he', hrow, hslot⟩ := hc.cover_slot t ht e he s hs
    exact ⟨t', ht', e', he', hrow, by rw [writeSlot_withRegion]; exact hslot⟩
  result_row := hc.result_row
  scalar_rank := hc.scalar_rank

/-- The layout contract of the Fast lowering does not involve the combine
region. -/
theorem fastContract_withRegion {α : Type} {op : ReduceOp} {b : Block α}
    {tensor : List Nat → List α} (hc : FastContract op b tensor) (r : List α → List α) :
    FastContract op (b.withRegion r) tensor where
  supported := hc.supported
  order_head := hc.order_head
  axis_lt := hc.axis_lt
  order_perm := hc.order_perm
  shape_fit := hc.shape_fit
  smem_fit := hc.smem_fit
  threads := hc.threads
  threads_le := hc.threads_le
  rounds_cover := hc.rounds_cover
  unique_len := hc.unique_len
  unique_fit := hc.unique_fit
  intra_pow2 := hc.intra_pow2
  inter_pow2 := hc.inter_pow2
  tensor_len := hc.tensor_len
  index_lt := hc.index_lt
  value := hc.value
  key_row := hc.key_row
  row_key := hc.row_key
  block_row := hc.block_row
  block_once := hc.block_once
  slot_lt := hc.slot_lt
  slot_coord := hc.slot_coord
  replica := hc.replica
  cover_axis := hc.cover_axis
  cover_slot := hc.cover_slot
  result_row := hc.result_row
  scalar_rank := hc.scalar_rank

/-- A constant combine region is closed, associative and commutative. -/
theorem constRegion_laws {α : Type} (b : Block α) (k : Nat) :
    CombineLaws (b.withRegion fun _ => List.replicate k b.undef).combine k :=
  ⟨fun _ _ _ _ => List.length_replicate _ _, fun _ _ _ _ _ _ => rfl, fun _ _ _ _ => rfl⟩

theorem countP_isBarrier_of_false (l : List Instr)
    (h : ∀ ins ∈ l, ins.isBarrier = false) : l.countP Instr.isBarrier = 0 :=
  List.countP_eq_zero.mpr (fun ins hins => by simp [h ins hins])

theorem countP_isBarrier_zero (l : List Instr)
    (h : ∀ ins ∈ l, ins.isCombine = false ∧ ins.isShuffle = false ∧ ins.isRoundLoad = false ∧
      ins.isBarrier = false ∧ ins.regionFree) : l.countP Instr.isBarrier = 0 :=
  List.countP_eq_zero.mpr (fun ins hins => by simp [(h ins hins).2.2.2.1])

/-! ### Code shape, whatever the layout -/

/-- With a scratch axis extent of at most 1 the loop over `accs` of
`matchAndRewriteBasic` emits stores only, whatever the layout. -/
theorem mem_basicAcrossThreads (op : ReduceOp) (smemShape srcOrd : List Nat)
    (ints : List (Nat × IVal)) (indices : List (List Nat × List IVal))
    (hext : idx smemShape op.helper.axis ≤ 1) :
    ∀ (entries : List (List Nat × List DVal)) (code : List Instr),
      basicAcrossThreads op smemShape srcOrd ints indices entries = .ok code →
      ∀ ins ∈ code, ins.isCombine = false ∧ ins.isShuffle = false ∧ ins.isRoundLoad = false ∧
        ins.isBarrier = false
  | [], code, h, ins, hins => by
    simp only [basicAcrossThreads, Except.ok.injEq] at h
    rw [← h] at hins
    exact absurd hins (List.not_mem_nil _)
  | (key, acc) :: rest, code, h, ins, hins => by
    simp only [basicAcrossThreads] at h
    split at h
    · cases h
    · split at h
      · cases h
      · rename_i writeIdx _ code' hrest
        simp only [Except.ok.injEq] at h
        rw [← h] at hins
        simp only [halvings_of_le_one _ hext, basicRounds, List.append_nil, List.mem_append,
          List.mem_map, List.mem_range] at hins
        rcases hins with ⟨i, _, rfl⟩ | hins
        · exact ⟨rfl, rfl, rfl, rfl⟩
        · exact mem_basicAcrossThreads op smemShape srcOrd ints indices hext rest code' hrest
            ins hins

/-- The fold within threads emits inlined copies of the combine region only. -/
theorem mem_fold_code (op : ReduceOp) (ins : Instr) (h : ins ∈ (reduceWithinThreads op).code) :
    ins.isShuffle = false ∧ ins.isRoundLoad = false ∧ ins.isBarrier = false := by
  have inv := foldInv_reduceWithinThreads op
    (⟨0, fun _ => List.replicate op.numOperands (), (), fun _ _ _ => (), fun _ _ _ => 0,
      fun _ _ _ => 0⟩ : Block Unit)
    (fun _ _ _ _ => List.length_replicate _ _)
  obtain ⟨args, rfl⟩ := inv.code ins h
  exact ⟨rfl, rfl, rfl⟩

/-- The code of a reduction along an axis of size 1 that `matchAndRewriteBasic`
returns, whatever the layout: no shuffle, no round of the tree reduction, one
barrier. -/
theorem basic_axis_one_shape (op : ReduceOp)
    (haxis : idx op.helper.srcShape op.helper.axis = 1) (code : List Instr)
    (results : List (List DVal)) (h : matchAndRewriteBasic op = .ok (code, results)) :
    (∀ ins ∈ code, ins.isShuffle = false ∧ ins.isRoundLoad = false) ∧
      code.countP Instr.isBarrier = 1 := by
  unfold matchAndRewriteBasic at h
  simp only [] at h
  split at h
  · cases h
  · split at h
    · cases h
    · rename_i across hacross
      simp only [Except.ok.injEq, Prod.mk.injEq] at h
      obtain ⟨hcode, _⟩ := h
      have hA := mem_basicAcrossThreads op _ _ _ _ (basicExtent_axis_le_one op haxis) _ _ hacross
      have hO := mem_setOutputValues op op.helper.getScratchConfigBasic
        (op.helper.alg.getOrder op.helper.srcLayout)
        (intsGet (basicInts op.helper.getScratchConfigBasic
          (op.helper.alg.getSizePerThread op.helper.srcLayout) op.helper.axis) 0)
      have hF := mem_fold_code op
      rw [← hcode]
      constructor
      · intro ins hins
        simp only [List.mem_append, List.mem_singleton] at hins
        rcases hins with (((rfl | hins) | hins) | rfl) | hins
        · exact ⟨rfl, rfl⟩
        · exact ⟨(hF ins hins).1, (hF ins hins).2.1⟩
        · exact ⟨(hA ins hins).2.1, (hA ins hins).2.2.1⟩
        · exact ⟨rfl, rfl⟩
        · exact ⟨(hO ins hins).2.1, (hO ins hins).2.2.1⟩
      · simp only [List.countP_append]
        rw [countP_isBarrier_of_false _ (fun ins hins => (hF ins hins).2.2),
          countP_isBarrier_of_false _ (fun ins hins => (hA ins hins).2.2.2),
          countP_isBarrier_zero _ hO]
        rfl

/-- The shuffle loops of the Fast lowering are empty and its stores are not
barriers, whatever the accumulators. -/
theorem mem_fastWithinWarps_shape (op : ReduceOp) (smemShape0 order : List Nat) (W U : Nat)
    (zero warpIdAxis laneZero : IVal) (indices : List (List Nat × List IVal))
    (hW : halvings (W / 2) = []) :
    ∀ (es : List (List Nat × List DVal)) (ins : Instr),
      ins ∈ fastWithinWarps op smemShape0 order W U zero warpIdAxis laneZero indices es →
      ins.isCombine = false ∧ ins.isShuffle = false ∧ ins.isRoundLoad = false ∧
        ins.isBarrier = false
  | [], _, h => absurd h (List.not_mem_nil _)
  | (key, acc) :: rest, ins, h => by
    simp only [fastWithinWarps, hW, shuffleRounds, List.nil_append, List.mem_append, List.mem_map,
      List.mem_range] at h
    rcases h with ⟨i, _, rfl⟩ | h
    · exact ⟨rfl, rfl, rfl, rfl⟩
    · exact mem_fastWithinWarps_shape op smemShape0 order W U zero warpIdAxis laneZero indices hW
        rest ins h

/-- The code of a reduction along an axis of size 1 that `matchAndRewriteFast`
returns, whatever the layout: no shuffle in either phase and two barriers. -/
theorem fast_axis_one_shape (op : ReduceOp)
    (haxis : idx op.helper.srcShape op.helper.axis = 1) (code : List Instr)
    (results : List (List DVal)) (h : matchAndRewriteFast op = .ok (code, results)) :
    (∀ ins ∈ code, ins.isShuffle = false ∧ ins.isRoundLoad = false) ∧
      code.countP Instr.isBarrier = 2 := by
  obtain ⟨hW, hU⟩ := fastSizes_le_one op.helper haxis
  unfold matchAndRewriteFast at h
  simp only [] at h
  split at h
  · cases h
  · simp only [Except.ok.injEq, Prod.mk.injEq] at h
    obtain ⟨hcode, _⟩ := h
    have hF := mem_fold_code op
    have hwithin := fun ins => mem_fastWithinWarps_shape op
      (op.helper.getScratchConfigsFast.getD 0 [])
      (op.helper.alg.getOrder op.helper.srcLayout)
      op.helper.getIntraWarpSizeWithUniqueData op.helper.getInterWarpSizeWithUniqueData
      (IVal.const 0)
      (iidx (delinearize (IVal.udiv IVal.threadId (IVal.const 32))
        (op.helper.alg.getWarpsPerCTAWithUniqueData op.helper.srcLayout op.helper.srcShape)
        (op.helper.alg.getOrder op.helper.srcLayout)) op.helper.axis)
      (IVal.icmp_eq (iidx (delinearize (IVal.urem IVal.threadId (IVal.const 32))
        (op.helper.alg.getThreadsPerWarpWithUniqueData op.helper.srcLayout
          op.helper.srcShape)
        (op.helper.alg.getOrder op.helper.srcLayout)) op.helper.axis) (IVal.const 0))
      (reduceWithinThreads op).indices (halvings_of_le_one _ hW) (reduceWithinThreads op).accs
      ins
    have hacross := fun ins => mem_fastAcrossWarps op
      (product (op.helper.getScratchConfigsFast.getD 0 []))
      (u32 (product (op.helper.alg.getWarpsPerCTA op.helper.srcLayout) *
        op.helper.threadsPerWarp))
      (max (product (op.helper.getScratchConfigsFast.getD 0 []) /
        u32 (product (op.helper.alg.getWarpsPerCTA op.helper.srcLayout) *
          op.helper.threadsPerWarp)) 1)
      op.helper.getInterWarpSizeWithUniqueData IVal.threadId
      (IVal.urem IVal.threadId (IVal.const 32)) (IVal.const 0) (halvings_of_le_one _ hU)
      (max (product (op.helper.getScratchConfigsFast.getD 0 []) /
        u32 (product (op.helper.alg.getWarpsPerCTA op.helper.srcLayout) *
          op.helper.threadsPerWarp)) 1)
      0 IVal.threadId ins
    have hO := mem_setOutputValues op (op.helper.getScratchConfigsFast.getD 0 [])
      (op.helper.alg.getOrder op.helper.srcLayout) (IVal.const 0)
    rw [← hcode]
    constructor
    · intro ins hins
      simp only [List.mem_append, List.mem_singleton] at hins
      rcases hins with (((((rfl | hins) | hins) | rfl) | hins) | rfl) | hins
      · exact ⟨rfl, rfl⟩
      · exact ⟨(hF ins hins).1, (hF ins hins).2.1⟩
      · exact ⟨(hwithin ins hins).2.1, (hwithin ins hins).2.2.1⟩
      · exact ⟨rfl, rfl⟩
      · exact ⟨(hacross ins hins).2.1, (hacross ins hins).2.2.1⟩
      · exact ⟨rfl, rfl⟩
      · exact ⟨(hO ins hins).2.1, (hO ins hins).2.2.1⟩
    · simp only [List.countP_append]
      rw [countP_isBarrier_of_false _ (fun ins hins => (hF ins hins).2.2),
        countP_isBarrier_of_false _ (fun ins hins => (hwithin ins hins).2.2.2),
        countP_isBarrier_zero _ hacross, countP_isBarrier_zero _ hO]
      rfl

/-! ### The two lowerings -/

/-- The Basic lowering of a reduction along an axis of size 1, whatever the
combine region: no combine, no shuffle, no round of the tree reduction, one
barrier, and every result is the source element at its coordinate. -/
theorem basic_axis_one {α : Type} {op : ReduceOp} {b : Block α} {tensor : List Nat → List α}
    (hc : BasicLayoutContract op b tensor) (haxis : idx op.helper.srcShape op.helper.axis = 1)
    (hT : 0 < b.numThreads) (st : State α) :
    ∃ code results st', matchAndRewriteBasic op = .ok (code, results) ∧
      (∀ ins ∈ code, ins.isCombine = false ∧ ins.isShuffle = false ∧ ins.isRoundLoad = false) ∧
      code.countP Instr.isBarrier = 1 ∧
      run b (product op.helper.getScratchConfigBasic) code st = some st' ∧
      ∀ t, t < b.numThreads → ∀ j, j < op.resultElems.getD 1 → ∀ i, i < op.numOperands →
        (didx (results.getD i []) j).eval b st'.env t =
          (tensor ((b.resultCoord op.helper.srcShape.length t j).insertIdx op.helper.axis
            0)).getD i b.undef := by
  have hlaws := constRegion_laws b op.numOperands
  have hc' := basicLayoutContract_withRegion hc
    (fun _ => List.replicate op.numOperands b.undef)
  letI := hlaws.addCommMonoid
  obtain ⟨code, results, st', hlow, hrun, hval⟩ := basic_lowering_run hlaws.model hc' st
  have hform := matchAndRewriteBasic_ok hc
  rw [hlow] at hform
  injection hform with hform
  injection hform with hcode hres
  have hinj : ∀ e, e < op.srcElems → ∀ e', e' < op.srcElems → op.key e = op.key e' →
      e = e' := by
    intro e he e' he' hk
    apply hc.once 0 hT e he e' he' hk
    have h1 := hc.index_lt 0 hT e he _ hc.axis_lt
    have h2 := hc.index_lt 0 hT e' he' _ hc.axis_lt
    rw [haxis] at h1 h2
    omega
  have hfold := fold_code_nil op _ hlaws.closed hinj
  have hfree := fold_accs_regionFree op _ hlaws.closed hinj
  have hkeys : ∀ ins ∈ ((reduceWithinThreads op).accs.flatMap fun p =>
      basicKeyCode op op.helper.getScratchConfigBasic
        (op.helper.alg.getOrder op.helper.srcLayout)
        (basicInts op.helper.getScratchConfigBasic
          (op.helper.alg.getSizePerThread op.helper.srcLayout) op.helper.axis)
        ((mapFind (reduceWithinThreads op).indices p.1).getD []) p.1 p.2),
      ins.isCombine = false ∧ ins.isShuffle = false ∧ ins.isRoundLoad = false ∧
        ins.isBarrier = false ∧ ins.regionFree := by
    intro ins hins
    rw [List.mem_flatMap] at hins
    obtain ⟨p, hp, hins⟩ := hins
    exact mem_basicKeyCode op _ _ _ _ _ _ (basicExtent_axis_le_one op haxis) (hfree p hp) ins hins
  have houts := mem_setOutputValues op op.helper.getScratchConfigBasic
    (op.helper.alg.getOrder op.helper.srcLayout) (IVal.const 0)
  have hall : ∀ ins ∈ code, ins.isCombine = false ∧ ins.isShuffle = false ∧
      ins.isRoundLoad = false ∧ ins.regionFree := by
    intro ins hins
    rw [hcode, hfold] at hins
    simp only [List.append_nil, List.mem_append, List.mem_singleton] at hins
    rcases hins with ((rfl | hins) | rfl) | hins
    · exact ⟨rfl, rfl, rfl, trivial⟩
    · have := hkeys ins hins
      exact ⟨this.1, this.2.1, this.2.2.1, this.2.2.2.2⟩
    · exact ⟨rfl, rfl, rfl, trivial⟩
    · have := houts ins hins
      exact ⟨this.1, this.2.1, this.2.2.1, this.2.2.2.2⟩
  refine ⟨code, results, st', hlow, fun ins hins => ?_, ?_, ?_, ?_⟩
  · have := hall ins hins
    exact ⟨this.1, this.2.1, this.2.2.1⟩
  · rw [hcode, hfold]
    simp only [List.append_nil, List.countP_append]
    rw [countP_isBarrier_zero _ hkeys, countP_isBarrier_zero _ houts]
    rfl
  · rw [← run_withRegion b _ _ code st (fun ins hins => (hall ins hins).2.2.2)]
    exact hrun
  · intro t ht j hj i hi
    have hrf : (didx (results.getD i []) j).regionFree := by
      rw [hres]
      exact setOutputValues_regionFree op _ _ _ i j
    have h := hval t ht j hj i hi
    rw [dval_eval_withRegion b _ st'.env _ hrf t, haxis, reduceAlongAxis_one] at h
    exact h

/-- The Fast lowering of a reduction along an axis of size 1, whatever the
combine region: no combine, no shuffle in either phase, two barriers, and every
result is the source element at its coordinate. -/
theorem fast_axis_one {α : Type} {op : ReduceOp} {b : Block α} {tensor : List Nat → List α}
    (hc : FastContract op b tensor) (hfast : op.helper.isFastReduction = true)
    (haxis : idx op.helper.srcShape op.helper.axis = 1)
    (hT : 0 < b.numThreads) (st : State α) :
    ∃ code results st', matchAndRewriteFast op = .ok (code, results) ∧
      (∀ ins ∈ code, ins.isCombine = false ∧ ins.isShuffle = false ∧ ins.isRoundLoad = false) ∧
      code.countP Instr.isBarrier = 2 ∧
      run b (fastRegionElems op) code st = some st' ∧
      ∀ t, t < b.numThreads → ∀ j, j < op.resultElems.getD 1 → ∀ i, i < op.numOperands →
        (didx (results.getD i []) j).eval b st'.env t =
          (tensor ((b.resultCoord op.helper.srcShape.length t j).insertIdx op.helper.axis
            0)).getD i b.undef := by
  have hlaws := constRegion_laws b op.numOperands
  have hc' := fastContract_withRegion hc (fun _ => List.replicate op.numOperands b.undef)
  letI := hlaws.addCommMonoid
  obtain ⟨code, results, st', hlow, hrun, hval⟩ := fast_lowering_run hlaws.model hc' hfast st
  have hform := matchAndRewriteFast_supported op hc.supported
  rw [hlow] at hform
  injection hform with hform
  injection hform with hcode hres
  have hinj : ∀ e, e < op.srcElems → ∀ e', e' < op.srcElems → op.key e = op.key e' →
      e = e' := by
    intro e he e' he' hk
    apply (hc.block_once 0 hT 0 hT rfl e he e' he' hk _).2
    have h1 := hc.index_lt 0 hT e he _ hc.axis_lt
    have h2 := hc.index_lt 0 hT e' he' _ hc.axis_lt
    rw [haxis] at h1 h2
    omega
  have hfold := fold_code_nil op _ hlaws.closed hinj
  have hfree := fold_accs_regionFree op _ hlaws.closed hinj
  obtain ⟨hW, hU⟩ := fastSizes_le_one op.helper haxis
  have hwithin := fun ins => mem_fastWithinWarps op (op.helper.getScratchConfigsFast.getD 0 [])
    (op.helper.alg.getOrder op.helper.srcLayout)
    op.helper.getIntraWarpSizeWithUniqueData op.helper.getInterWarpSizeWithUniqueData
    (IVal.const 0)
    (iidx (delinearize (IVal.udiv IVal.threadId (IVal.const 32))
      (op.helper.alg.getWarpsPerCTAWithUniqueData op.helper.srcLayout op.helper.srcShape)
      (op.helper.alg.getOrder op.helper.srcLayout)) op.helper.axis)
    (IVal.icmp_eq (iidx (delinearize (IVal.urem IVal.threadId (IVal.const 32))
      (op.helper.alg.getThreadsPerWarpWithUniqueData op.helper.srcLayout
        op.helper.srcShape)
      (op.helper.alg.getOrder op.helper.srcLayout)) op.helper.axis) (IVal.const 0))
    (reduceWithinThreads op).indices (halvings_of_le_one _ hW) (reduceWithinThreads op).accs
    hfree ins
  have hacross := fun ins => mem_fastAcrossWarps op
    (product (op.helper.getScratchConfigsFast.getD 0 [])) (fastNumThreads op)
    (max (product (op.helper.getScratchConfigsFast.getD 0 []) / fastNumThreads op) 1)
    op.helper.getInterWarpSizeWithUniqueData IVal.threadId
    (IVal.urem IVal.threadId (IVal.const 32)) (IVal.const 0) (halvings_of_le_one _ hU)
    (max (product (op.helper.getScratchConfigsFast.getD 0 []) / fastNumThreads op) 1)
    0 IVal.threadId ins
  have houts := mem_setOutputValues op (op.helper.getScratchConfigsFast.getD 0 [])
    (op.helper.alg.getOrder op.helper.srcLayout) (IVal.const 0)
  have hall : ∀ ins ∈ code, ins.isCombine = false ∧ ins.isShuffle = false ∧
      ins.isRoundLoad = false ∧ ins.regionFree := by
    intro ins hins
    rw [hcode, hfold] at hins
    simp only [List.append_nil, List.mem_append, List.mem_singleton] at hins
    rcases hins with ((((rfl | hins) | rfl) | hins) | rfl) | hins
    · exact ⟨rfl, rfl, rfl, trivial⟩
    · have := hwithin ins hins
      exact ⟨this.1, this.2.1, this.2.2.1, this.2.2.2.2⟩
    · exact ⟨rfl, rfl, rfl, trivial⟩
    · have := hacross ins hins
      exact ⟨this.1, this.2.1, this.2.2.1, this.2.2.2.2⟩
    · exact ⟨rfl, rfl, rfl, trivial⟩
    · have := houts ins hins
      exact ⟨this.1, this.2.1, this.2.2.1, this.2.2.2.2⟩
  refine ⟨code, results, st', hlow, fun ins hins => ?_, ?_, ?_, ?_⟩
  · have := hall ins hins
    exact ⟨this.1, this.2.1, this.2.2.1⟩
  · rw [hcode, hfold]
    simp only [List.append_nil, List.countP_append]
    rw [countP_isBarrier_zero _ hwithin, countP_isBarrier_zero _ hacross,
      countP_isBarrier_zero _ houts]
    rfl
  · rw [← run_withRegion b _ _ code st (fun ins hins => (hall ins hins).2.2.2)]
    exact hrun
  · intro t ht j hj i hi
    have hrf : (didx (results.getD i []) j).regionFree := by
      rw [hres]
      exact setOutputValues_regionFree op _ _ _ i j
    have h := hval t ht j hj i hi
    rw [dval_eval_withRegion b _ st'.env _ hrf t, haxis, reduceAlongAxis_one] at h
    exact h

set_option maxRecDepth 1000000 in
set_option maxHeartbeats 4000000 in
theorem contractAxis1 : BasicContract (opAxis1 true) blockAxis1 tensorAxis1 where
  blocked := ⟨_, _, _, _, rfl⟩
  axis_lt := by decide
  order_perm := by decide
  shape_fit := by decide
  smem_fit := by decide
  spt_pos := by decide
  pow2 := ⟨0, by decide⟩
  tensor_len := fun _ => rfl
  index_lt := by decide
  value := by decide
  key_row := by decide
  row_key := by
    intro t _ t' _ e he e' he' _
    have h0 : e = 0 := Nat.lt_one_iff.mp he
    have h0' : e' = 0 := Nat.lt_one_iff.mp he'
    rw [h0, h0']
  once := by decide
  slot_lt := by decide
  slot_coord := by
    intro t _ t' _ e he e' he' _ hax
    have h0 : e = 0 := Nat.lt_one_iff.mp he
    have h0' : e' = 0 := Nat.lt_one_iff.mp he'
    subst h0 h0'
    have hfirst : (opAxis1 true).first ((opAxis1 true).key 0) = 0 := by decide
    unfold basicSlot
    rw [hfirst, hax]
  replica := by decide
  cover_axis := by decide
  cover_slot := by decide
  result_row := by decide
  scalar_rank := by decide

set_option maxRecDepth 1000000 in
set_option maxHeartbeats 4000000 in
theorem fastContractAxis1 : FastContract (opAxis1 true) blockAxis1 tensorAxis1 where
  supported := rfl
  order_head := fun _ => rfl
  axis_lt := by decide
  order_perm := by decide
  shape_fit := by decide
  smem_fit := by decide
  threads := by decide
  threads_le := by decide
  rounds_cover := Or.inl (by decide)
  unique_len := by decide
  unique_fit := by decide
  intra_pow2 := ⟨0, by decide, by decide, by decide⟩
  inter_pow2 := ⟨0, by decide, by decide, by decide, by decide, by decide⟩
  tensor_len := fun _ => rfl
  index_lt := by decide
  value := by decide
  key_row := by decide
  row_key := by
    intro t _ t' _ e he e' he' _
    have h0 : e = 0 := Nat.lt_one_iff.mp he
    have h0' : e' = 0 := Nat.lt_one_iff.mp he'
    rw [h0, h0']
  block_row := by
    intro t _ t' _ hb e _
    have hW : (opAxis1 true).helper.getIntraWarpSizeWithUniqueData = 1 := by decide
    rw [hW, Nat.div_one, Nat.div_one] at hb
    have : t = t' := hb
    rw [this]
    exact sameRow_refl _ _ _ _
  block_once := by
    intro t _ t' _ hb e he e' he' _ _
    have h0 : e = 0 := Nat.lt_one_iff.mp he
    have h0' : e' = 0 := Nat.lt_one_iff.mp he'
    have hW : (opAxis1 true).helper.getIntraWarpSizeWithUniqueData = 1 := by decide
    rw [hW, Nat.div_one, Nat.div_one] at hb
    have : t = t' := hb
    exact ⟨this, by rw [h0, h0']⟩
  slot_lt := by decide
  slot_coord := fun _ _ _ _ _ _ _ _ _ _ => rfl
  replica := by
    intro t _ t' ht' e he e' he' hrow _
    have h0 : e = 0 := Nat.lt_one_iff.mp he
    have h0' : e' = 0 := Nat.lt_one_iff.mp he'
    subst h0 h0'
    exact ⟨t', ht', rfl, 0, by decide, rfl, rfl⟩
  cover_axis := by decide
  cover_slot := by decide
  result_row := by decide
  scalar_rank := by decide

/-- C14 (amended): for every reduction along an axis of size 1 the code a
lowering returns has no round of the tree reduction (Basic) and no shuffle in
either phase (Fast), whatever the layout, but the lowering does not
short-circuit: that code still holds the unconditional barriers, exactly one in
`matchAndRewriteBasic` and exactly two in `matchAndRewriteFast`. Where the
source layout and index emitter meet the layout contract of the strategy (in
particular a thread holds every element of a row once), for whatever combine
region and at least one thread, the lowering returns code, that code contains no
inlined copy of the combine region, it runs inside the scratch region, and every
result value is the source element at the result's coordinate. -/
theorem axis_size_one_copies (op : ReduceOp)
    (haxis : idx op.helper.srcShape op.helper.axis = 1) :
    (∀ code results, matchAndRewriteBasic op = .ok (code, results) →
      (∀ ins ∈ code, ins.isShuffle = false ∧ ins.isRoundLoad = false) ∧
        code.countP Instr.isBarrier = 1) ∧
    (∀ code results, matchAndRewriteFast op = .ok (code, results) →
      (∀ ins ∈ code, ins.isShuffle = false ∧ ins.isRoundLoad = false) ∧
        code.countP Instr.isBarrier = 2) ∧
    (∀ (α : Type) (b : Block α) (tensor : List Nat → List α), 0 < b.numThreads →
      BasicLayoutContract op b tensor → ∀ st : State α,
      ∃ code results st', matchAndRewriteBasic op = .ok (code, results) ∧
        (∀ ins ∈ code,
          ins.isCombine = false ∧ ins.isShuffle = false ∧ ins.isRoundLoad = false) ∧
        code.countP Instr.isBarrier = 1 ∧
        run b (product op.helper.getScratchConfigBasic) code st = some st' ∧
        ∀ t, t < b.numThreads → ∀ j, j < op.resultElems.getD 1 → ∀ i, i < op.numOperands →
          (didx (results.getD i []) j).eval b st'.env t =
            (tensor ((b.resultCoord op.helper.srcShape.length t j).insertIdx op.helper.axis
              0)).getD i b.undef) ∧
    (∀ (α : Type) (b : Block α) (tensor : List Nat → List α), 0 < b.numThreads →
      op.helper.isFastReduction = true → FastContract op b tensor → ∀ st : State α,
      ∃ code results st', matchAndRewriteFast op = .ok (code, results) ∧
        (∀ ins ∈ code,
          ins.isCombine = false ∧ ins.isShuffle = false ∧ ins.isRoundLoad = false) ∧
        code.countP Instr.isBarrier = 2 ∧
        run b (fastRegionElems op) code st = some st' ∧
        ∀ t, t < b.numThreads → ∀ j, j < op.resultElems.getD 1 → ∀ i, i < op.numOperands →
          (didx (results.getD i []) j).eval b st'.env t =
            (tensor ((b.resultCoord op.helper.srcShape.length t j).insertIdx op.helper.axis
              0)).getD i b.undef) :=
  ⟨fun code results h => basic_axis_one_shape op haxis code results h,
    fun code results h => fast_axis_one_shape op haxis code results h,
    fun _ _ _ hT hc st => basic_axis_one hc haxis hT st,
    fun _ _ _ hT hf hc st => fast_axis_one hc hf haxis hT st⟩

/-- Witness for C14 (amended): the `[32,1]` reduction along axis 1 held by one
warp: thread `t` gets back the element `(t, 0)` from both lowerings, which emit
one and two barriers. -/
theorem axis_size_one_copies_witness :
    idx (opAxis1 true).helper.srcShape (opAxis1 true).helper.axis = 1 ∧
      BasicLayoutContract (opAxis1 true) blockAxis1 tensorAxis1 ∧
      FastContract (opAxis1 true) blockAxis1 tensorAxis1 ∧
      (∃ code results st', matchAndRewriteBasic (opAxis1 true) = .ok (code, results) ∧
        (∀ ins ∈ code,
          ins.isCombine = false ∧ ins.isShuffle = false ∧ ins.isRoundLoad = false) ∧
        code.countP Instr.isBarrier = 1 ∧
        run blockAxis1 (product (opAxis1 true).helper.getScratchConfigBasic) code
          ⟨fun _ _ => 0, fun _ _ _ => 0⟩ = some st' ∧
        ∀ t, t < blockAxis1.numThreads → ∀ j, j < (opAxis1 true).resultElems.getD 1 →
          ∀ i, i < (opAxis1 true).numOperands →
          (didx (results.getD i []) j).eval blockAxis1 st'.env t =
            (tensorAxis1 ((blockAxis1.resultCoord (opAxis1 true).helper.srcShape.length t
              j).insertIdx (opAxis1 true).helper.axis 0)).getD i blockAxis1.undef) ∧
      (∃ code results st', matchAndRewriteFast (opAxis1 true) = .ok (code, results) ∧
        (∀ ins ∈ code,
          ins.isCombine = false ∧ ins.isShuffle = false ∧ ins.isRoundLoad = false) ∧
        code.countP Instr.isBarrier = 2 ∧
        run blockAxis1 (fastRegionElems (opAxis1 true)) code
          ⟨fun _ _ => 0, fun _ _ _ => 0⟩ = some st' ∧
        ∀ t, t < blockAxis1.numThreads → ∀ j, j < (opAxis1 true).resultElems.getD 1 →
          ∀ i, i < (opAxis1 true).numOperands →
          (didx (results.getD i []) j).eval blockAxis1 st'.env t =
            (tensorAxis1 ((blockAxis1.resultCoord (opAxis1 true).helper.srcShape.length t
              j).insertIdx (opAxis1 true).helper.axis 0)).getD i blockAxis1.undef) :=
  ⟨by decide, contractAxis1.toLayout, fastContractAxis1,
    (axis_size_one_copies (opAxis1 true) (by decide)).2.2.1 Int blockAxis1 tensorAxis1
      (by decide) contractAxis1.toLayout _,
    (axis_size_one_copies (opAxis1 true) (by decide)).2.2.2 Int blockAxis1 tensorAxis1
      (by decide) (by decide) fastContractAxis1 _⟩

/-! ## The scan block stride -/

/-- The loop of `getAxisBlockStride` multiplies the stride by the floored
quotient of every dimension that precedes the axis. -/
theorem axisBlockStrideLoop_eq (h : ScanLoweringHelper) (order : List Nat) :
    ∀ stride, h.axis ∈ order → stride < 2 ^ 32 →
      h.axisBlockStrideLoop order stride =
        some (u32 (stride *
          ((order.takeWhile fun d => d != h.axis).map
            fun d => idx h.shape d / h.tileSize d).prod)) := by
  induction order with
  | nil => intro _ hmem; simp at hmem
  | cons dim rest ih =>
    intro stride hmem hlt
    by_cases hd : dim = h.axis
    · have hu : u32 stride = stride := Nat.mod_eq_of_lt hlt
      simp [ScanLoweringHelper.axisBlockStrideLoop, hd, List.takeWhile, hu]
    · have hrest : h.axis ∈ rest := by
        rcases List.mem_cons.1 hmem with e | e
        · exact absurd e.symm hd
        · exact e
      have hne : (dim != h.axis) = true := by simpa using hd
      have hu : u32 (stride * (idx h.shape dim / h.tileSize dim)) < 2 ^ 32 :=
        Nat.mod_lt _ (by norm_num)
      rw [ScanLoweringHelper.axisBlockStrideLoop, if_neg hd, ih _ hrest hu,
        List.takeWhile_cons, hne]
      simp only [if_true, List.map_cons, List.prod_cons, u32]
      rw [Nat.mod_mul_mod, Nat.mul_assoc]

/-- Whenever the axis occurs in the order, `getAxisBlockStride` returns the
product of the floored quotients `shape[d] / tile[d]` over the dimensions that
precede the axis, reduced to `unsigned`. -/
theorem getAxisBlockStride_eq_floor_product (h : ScanLoweringHelper)
    (hax : h.axis ∈ h.alg.getOrder h.srcEncoding) :
    h.getAxisBlockStride =
      some (u32 ((h.specPrecedingDims.map fun d => idx h.shape d / h.tileSize d).prod)) := by
  rw [ScanLoweringHelper.getAxisBlockStride, axisBlockStrideLoop_eq h _ 1 hax (by norm_num),
    Nat.one_mul]
  rfl

/-- On a dimension whose tile is non-empty, fits in `unsigned` and divides the
dimension, the floored quotient of `getAxisBlockStride` is the rounded-up block
count. -/
theorem floor_eq_specBlockCount (h : ScanLoweringHelper) (d : Nat)
    (hpos : 0 < idx (h.alg.getSizePerThread h.srcEncoding) d *
      idx (h.alg.getThreadsPerWarp h.srcEncoding) d *
      idx (h.alg.getWarpsPerCTA h.srcEncoding) d)
    (hfit : idx (h.alg.getSizePerThread h.srcEncoding) d *
      idx (h.alg.getThreadsPerWarp h.srcEncoding) d *
      idx (h.alg.getWarpsPerCTA h.srcEncoding) d < 2 ^ 32)
    (hdvd : idx (h.alg.getSizePerThread h.srcEncoding) d *
      idx (h.alg.getThreadsPerWarp h.srcEncoding) d *
      idx (h.alg.getWarpsPerCTA h.srcEncoding) d ∣ idx h.shape d) :
    idx h.shape d / h.tileSize d = h.specBlockCount d := by
  unfold ScanLoweringHelper.tileSize ScanLoweringHelper.specBlockCount
  generalize idx (h.alg.getSizePerThread h.srcEncoding) d = s at *
  generalize idx (h.alg.getThreadsPerWarp h.srcEncoding) d = t at *
  generalize idx (h.alg.getWarpsPerCTA h.srcEncoding) d = w at *
  generalize idx h.shape d = n at *
  have hw : 0 < w := Nat.pos_of_ne_zero fun e => by simp [e] at hpos
  have hst : s * t < 2 ^ 32 := lt_of_le_of_lt (Nat.le_mul_of_pos_right _ hw) hfit
  have htile : u32 (u32 (s * t) * w) = s * t * w := by
    simp only [u32]
    rw [Nat.mod_eq_of_lt hst, Nat.mod_eq_of_lt hfit]
  rw [htile]
  obtain ⟨k, rfl⟩ := hdvd
  rw [Nat.mul_div_cancel_left _ hpos, Nat.add_sub_assoc hpos, Nat.mul_add_div hpos,
    Nat.div_eq_of_lt (Nat.sub_lt hpos Nat.one_pos), Nat.add_zero]

/-- Where every dimension that precedes the axis is a whole number of tiles
(and the values fit in `unsigned`), `getAxisBlockStride` is the product of the
rounded-up block counts. -/
theorem getAxisBlockStride_eq_spec_of_dvd (h : ScanLoweringHelper)
    (hax : h.axis ∈ h.alg.getOrder h.srcEncoding)
    (htile : ∀ d ∈ h.specPrecedingDims,
      0 < idx (h.alg.getSizePerThread h.srcEncoding) d *
        idx (h.alg.getThreadsPerWarp h.srcEncoding) d *
        idx (h.alg.getWarpsPerCTA h.srcEncoding) d ∧
      idx (h.alg.getSizePerThread h.srcEncoding) d *
        idx (h.alg.getThreadsPerWarp h.srcEncoding) d *
        idx (h.alg.getWarpsPerCTA h.srcEncoding) d < 2 ^ 32 ∧
      idx (h.alg.getSizePerThread h.srcEncoding) d *
        idx (h.alg.getThreadsPerWarp h.srcEncoding) d *
        idx (h.alg.getWarpsPerCTA h.srcEncoding) d ∣ idx h.shape d)
    (hfit : h.specAxisBlockStride < 2 ^ 32) :
    h.getAxisBlockStride = some h.specAxisBlockStride := by
  rw [getAxisBlockStride_eq_floor_product h hax]
  have hmap : (h.specPrecedingDims.map fun d => idx h.shape d / h.tileSize d) =
      h.specPrecedingDims.map h.specBlockCount :=
    List.map_congr_left fun d hd =>
      floor_eq_specBlockCount h d (htile d hd).1 (htile d hd).2.1 (htile d hd).2.2
  rw [hmap]
  exact congrArg some (Nat.mod_eq_of_lt hfit)

/-- C21 (code defect): `getAxisBlockStride` multiplies the floored quotients
`shape[d] / tile[d]`, whereas `getAxisNumBlocks` and `getNonAxisNumBlocks` count
blocks with the rounded-up quotient. For the scan along axis 0 of a `[64,16]`
tensor whose layout spans 32 threads along dimension 1 (order `[1,0]`, so the
axis is last in the order), `getAxisBlockStride` returns `0`, while the product
of the block counts over the preceding dimension is `1`, which is also
`getNonAxisNumBlocks`; the scan axis itself has 16 blocks. -/
theorem getAxisBlockStride_floors_block_count :
    scan64x16.alg.getOrder scan64x16.srcEncoding = [1, 0] ∧
    scan64x16.axis = 0 ∧
    scan64x16.getAxisBlockStride = some 0 ∧
    scan64x16.specAxisBlockStride = 1 ∧
    scan64x16.getNonAxisNumBlocks = 1 ∧
    scan64x16.getAxisNumBlocks = 16 ∧
    ¬ (∃ s, scan64x16.getAxisBlockStride = some s ∧ 1 ≤ s) := by
  refine ⟨rfl, rfl, by decide, by decide, by decide, by decide, ?_⟩
  rintro ⟨s, hs, h1⟩
  have h0 : scan64x16.getAxisBlockStride = some 0 := by decide
  rw [h0] at hs
  cases hs
  exact absurd h1 (by decide)

/-- On the `[64,64]` tensor of the same layout every dimension is a whole number
of tiles and the stride is the block count of dimension 1. -/
theorem getAxisBlockStride_scan64x64 :
    scan64x64.getAxisBlockStride = some scan64x64.specAxisBlockStride ∧
    scan64x64.specAxisBlockStride = scan64x64.getNonAxisNumBlocks ∧
    scan64x64.specAxisBlockStride = 2 := by
  refine ⟨getAxisBlockStride_eq_spec_of_dvd scan64x64 (by decide) ?_ (by decide), by decide,
    by decide⟩
  intro d hd
  have hd1 : d = 1 := by
    have : scan64x64.specPrecedingDims = [1] := by decide
    rw [this] at hd
    simpa using hd
  subst hd1
  decide

end Triton
